import Mathlib

/-!
# limbo: the limited-belief solver (`src/limbo/solver.h`), the knowledge base
(`src/limbo/kb.h`), the Bloom filter (`src/lela/internal/bloom.h`), the parser of the problem
description language (`src/lela/format/pdl/parser.h`), the ECLiPSe-CLP interface
(`eclipse-clp/ec_interface.cc`) and the C containers (`src/vector.c`, `src/set.c`)

A shallow embedding of `Solver`, `KnowledgeBase`, `BloomFilter`, the formula rules of
`Parser`, the builders of the ECLiPSe-CLP interface and the ordered set and the vector
copies of the C library, and of the pieces of the data model they touch.  The parser, the
interface and the C containers have their conventions at the head of their sections.

Conventions of the embedding.

* `Maybe<T>` is `Option T`; `operator bool` of a `Maybe` is `Option.isSome`.
* A `TermSet` is the list of its elements in iteration order, a `SortedTermSet` maps a sort
  to the list of names of that sort (`names[sort]`), a `LiteralAssignmentSet` is a list of
  literal lists.
* `Setup` (`setup.h`) and `Grounder` (`grounder.h`) are not part of the sources at hand.
  The solver is therefore written against the records `SetupOps` and `GrounderOps`, which
  hold exactly the member functions the solver calls.  A small reference setup
  (`RefSetup`, unit propagation over ground clauses) instantiates `SetupOps` for concrete runs.
* A run that reaches an `assert(false)` branch (or the `throw` after a `switch`) has no
  result; such functions return `Option`, with `none` for "no result".  Assertions that state
  preconditions on the data (`assert(phi.objective())`, `assert(!ns.empty())`, ...) are not
  executed by the model; theorems name them as hypotheses where they matter.
* Recursion on the split level `k` is written with an explicit depth budget: the recursive
  call is a parameter of the function body (`SplitBody`, `AssignBody`), and `SplitD d` lets
  the body recurse `d` levels deep, returning `none` when a deeper call is attempted.
  `Split` runs `SplitD` with budget `max k 0`.  `KnowledgeBase::Res` is written the same way
  (`ResBody`, `ResD`), with the number of free variables of the formula as budget.
* In `KnowledgeBase` a `Solver` (a sphere) is the state `G` of its grounder, `spheres_` is
  the list of these states, and a function that queries a sphere returns the state the
  query leaves behind.  The member functions of `Grounder` and of `formula.h` that the
  knowledge base calls beyond those of `GrounderOps` are the records `GrounderKBOps` and
  `NormalFormOps`.
* The `do ... while` loop of `BuildSpheres` runs on fuel (one pass per conditional and one
  more) and returns the list of its passes.
* In `BloomFilter` a `uint64_t` is a natural number, with `% 2 ^ 64` where a result may
  exceed 64 bits.
-/

/-! ## lela: the Bloom filter (`src/lela/internal/bloom.h`) -/

namespace lela.internal

/-- The class `BloomFilter`: its only member is the 64-bit mask. -/
structure BloomFilter where
  mask_ : Nat := 0
  deriving DecidableEq

namespace BloomFilter

/-- The constant `ONE`. -/
def ONE : Nat := 1

/-- The constant `BITS`. -/
def BITS : Nat := 64

/-- The function `hash<I>(x)`: the `I`-th 16-bit group of `x`. -/
def hash (I : Nat) (x : Nat) : Nat := (x >>> (I * 16)) &&& 0xFFFF

/-- The function `Clear`. -/
def Clear (_ : BloomFilter) : BloomFilter := ⟨0⟩

/-- The function `Add`; the arithmetic is that of `uint64_t`. -/
def Add (b : BloomFilter) (x : Nat) : BloomFilter :=
  ⟨(b.mask_ ||| ((ONE <<< (hash 0 x % BITS)) % 2 ^ 64
      ||| (ONE <<< (hash 1 x % BITS)) % 2 ^ 64
      ||| (ONE <<< (hash 2 x % BITS)) % 2 ^ 64
      ||| (ONE <<< (hash 3 x % BITS)) % 2 ^ 64)) % 2 ^ 64⟩

/-- The function `Contains`. -/
def Contains (b : BloomFilter) (x : Nat) : Bool :=
  (((b.mask_ >>> (hash 0 x % BITS)) &&& ONE)
    &&& ((b.mask_ >>> (hash 1 x % BITS)) &&& ONE)
    &&& ((b.mask_ >>> (hash 2 x % BITS)) &&& ONE)
    &&& ((b.mask_ >>> (hash 3 x % BITS)) &&& ONE)) != 0

/-- The function `Subset`; `~` is the complement on 64 bits. -/
def Subset (a b : BloomFilter) : Bool :=
  (2 ^ 64 - 1) ^^^ ((((2 ^ 64 - 1) ^^^ a.mask_) ||| b.mask_) % 2 ^ 64) == 0

/-- The function `Disjoint`. -/
def Disjoint (a b : BloomFilter) : Bool :=
  (a.mask_ &&& b.mask_) == 0

/-- The function `SubsetOf`. -/
def SubsetOf (a b : BloomFilter) : Bool := Subset a b

/-- The function `DisjointWith`. -/
def DisjointWith (a b : BloomFilter) : Bool := Disjoint a b

end BloomFilter

end lela.internal

namespace limbo

/-! ## Terms, literals, clauses (as exercised by `tests/term.cc`) -/

/-- A term: the null term `Term()`, a standard name, a variable, or a function symbol
applied to arguments.  Symbols carry an id and a sort. -/
inductive Term where
  | null : Term
  | name (id sort : Nat) : Term
  | var (id sort : Nat) : Term
  | fn (id sort : Nat) (args : List Term) : Term

mutual
/-- Equality of terms is decidable (terms are interned, `==` is structural). -/
def Term.decEq : (a b : Term) → Decidable (a = b)
  | .null, .null => isTrue rfl
  | .null, .name _ _ => isFalse (fun e => Term.noConfusion e)
  | .null, .var _ _ => isFalse (fun e => Term.noConfusion e)
  | .null, .fn _ _ _ => isFalse (fun e => Term.noConfusion e)
  | .name _ _, .null => isFalse (fun e => Term.noConfusion e)
  | .name i s, .name j t =>
    if h : i = j ∧ s = t then isTrue (by rw [h.1, h.2])
    else isFalse (fun e => h (by cases e; exact ⟨rfl, rfl⟩))
  | .name _ _, .var _ _ => isFalse (fun e => Term.noConfusion e)
  | .name _ _, .fn _ _ _ => isFalse (fun e => Term.noConfusion e)
  | .var _ _, .null => isFalse (fun e => Term.noConfusion e)
  | .var _ _, .name _ _ => isFalse (fun e => Term.noConfusion e)
  | .var i s, .var j t =>
    if h : i = j ∧ s = t then isTrue (by rw [h.1, h.2])
    else isFalse (fun e => h (by cases e; exact ⟨rfl, rfl⟩))
  | .var _ _, .fn _ _ _ => isFalse (fun e => Term.noConfusion e)
  | .fn _ _ _, .null => isFalse (fun e => Term.noConfusion e)
  | .fn _ _ _, .name _ _ => isFalse (fun e => Term.noConfusion e)
  | .fn _ _ _, .var _ _ => isFalse (fun e => Term.noConfusion e)
  | .fn i s as, .fn j t bs =>
    if h : i = j ∧ s = t then
      match Term.decEqList as bs with
      | isTrue e => isTrue (by rw [h.1, h.2, e])
      | isFalse ne => isFalse (fun e => ne (by cases e; rfl))
    else isFalse (fun e => h (by cases e; exact ⟨rfl, rfl⟩))
/-- Equality of argument lists is decidable. -/
def Term.decEqList : (as bs : List Term) → Decidable (as = bs)
  | [], [] => isTrue rfl
  | [], _ :: _ => isFalse (fun e => List.noConfusion e)
  | _ :: _, [] => isFalse (fun e => List.noConfusion e)
  | a :: as, b :: bs =>
    match Term.decEq a b, Term.decEqList as bs with
    | isTrue e1, isTrue e2 => isTrue (by rw [e1, e2])
    | isFalse ne, _ => isFalse (fun e => ne (by cases e; rfl))
    | _, isFalse ne => isFalse (fun e => ne (by cases e; rfl))
end

instance : DecidableEq Term := Term.decEq

instance : Inhabited Term := ⟨Term.null⟩

/-- The test `t.null()`. -/
def Term.isNull : Term → Bool
  | .null => true
  | _ => false

/-- The sort `t.sort()` of the term's symbol (0 for the null term). -/
def Term.sort : Term → Nat
  | .null => 0
  | .name _ s => s
  | .var _ s => s
  | .fn _ s _ => s

/-- The test `t.name()`. -/
def Term.isName : Term → Bool
  | .name _ _ => true
  | _ => false

/-- The test `t.variable()`. -/
def Term.isVariable : Term → Bool
  | .var _ _ => true
  | _ => false

/-- The test `t.function()`. -/
def Term.isFunction : Term → Bool
  | .fn _ _ _ => true
  | _ => false

/-- The test `t.primitive()`: a function symbol applied to names only. -/
def Term.primitive : Term → Bool
  | .fn _ _ args => args.all Term.isName
  | _ => false

mutual
/-- The substitution `t.Substitute(Term::Substitution(x, n), tf)`:
every occurrence of `x` in `t` becomes `n`. -/
def Term.Substitute (x n : Term) : Term → Term
  | .fn i s args => if Term.fn i s args = x then n else .fn i s (Term.SubstituteList x n args)
  | t => if t = x then n else t
/-- The substitution applied to an argument list. -/
def Term.SubstituteList (x n : Term) : List Term → List Term
  | [] => []
  | a :: as => Term.Substitute x n a :: Term.SubstituteList x n as
end

/-- A literal: an equation (`pos = true`) or disequation between two terms. -/
structure Literal where
  pos : Bool
  lhs : Term
  rhs : Term
  deriving DecidableEq

/-- The factory `Literal::Eq(lhs, rhs)`. -/
def Literal.Eq (lhs rhs : Term) : Literal := ⟨true, lhs, rhs⟩

/-- The factory `Literal::Neq(lhs, rhs)`. -/
def Literal.Neq (lhs rhs : Term) : Literal := ⟨false, lhs, rhs⟩

/-- The literal `a.flip()` of opposite polarity. -/
def Literal.flip (a : Literal) : Literal := ⟨!a.pos, a.lhs, a.rhs⟩

/-- The literal with `x` replaced by `n`. -/
def Literal.Substitute (x n : Term) (a : Literal) : Literal :=
  ⟨a.pos, Term.Substitute x n a.lhs, Term.Substitute x n a.rhs⟩

/-- A clause is the list of its literals; `Clause{}` is `[]` and `Clause{a}` is `[a]`. -/
abbrev Clause := List Literal

abbrev TermSet := List Term

abbrev SortedTermSet := Nat → TermSet

abbrev LiteralSet := List Literal

abbrev LiteralAssignmentSet := List LiteralSet

/-! ## Formulas -/

/-- A formula, one constructor per `Formula::Type` tag; the constructors carry the names of
the `Formula::Factory` functions. -/
inductive Formula where
  | Atomic (arg : Clause) : Formula
  | Not (arg : Formula) : Formula
  | Or (lhs rhs : Formula) : Formula
  | Exists (x : Term) (arg : Formula) : Formula
  | Know (k : Nat) (arg : Formula) : Formula
  | Cons (k : Nat) (arg : Formula) : Formula
  | Bel (k l : Nat) (antecedent consequent not_antecedent_or_consequent : Formula) : Formula
  | Guarantee (arg : Formula) : Formula
  deriving DecidableEq

/-- The test `phi.objective()`: no `Know`, `Cons`, `Bel` or `Guarantee` node occurs. -/
def Formula.objective : Formula → Bool
  | .Atomic _ => true
  | .Not a => a.objective
  | .Or l r => l.objective && r.objective
  | .Exists _ a => a.objective
  | .Know _ _ => false
  | .Cons _ _ => false
  | .Bel _ _ _ _ _ => false
  | .Guarantee _ => false

/-- Number of nodes of the formula; the measure on which the reductions recurse. -/
def Formula.size : Formula → Nat
  | .Atomic _ => 1
  | .Not a => a.size + 1
  | .Or l r => l.size + r.size + 1
  | .Exists _ a => a.size + 1
  | .Know _ a => a.size + 1
  | .Cons _ a => a.size + 1
  | .Bel _ _ a c n => a.size + c.size + n.size + 1
  | .Guarantee a => a.size + 1

/-- Modelled from the spec: `Formula::SubstituteFree` lives in `formula.h`, which is not part
of the sources at hand.  `phi.SubstituteFree(Term::Substitution(x, n), tf)` replaces the free
occurrences of `x` by `n`; a quantifier binding `x` shields its scope. -/
def Formula.SubstituteFree (x n : Term) : Formula → Formula
  | .Atomic c => .Atomic (c.map (Literal.Substitute x n))
  | .Not a => .Not (a.SubstituteFree x n)
  | .Or l r => .Or (l.SubstituteFree x n) (r.SubstituteFree x n)
  | .Exists y a => if y = x then .Exists y a else .Exists y (a.SubstituteFree x n)
  | .Know k a => .Know k (a.SubstituteFree x n)
  | .Cons k a => .Cons k (a.SubstituteFree x n)
  | .Bel k l a c nac =>
      .Bel k l (a.SubstituteFree x n) (c.SubstituteFree x n) (nac.SubstituteFree x n)
  | .Guarantee a => .Guarantee (a.SubstituteFree x n)

/-- The two syntactic tests of `formula.h` the solver consults. -/
structure FormulaOps where
  trivially_valid : Formula → Bool
  trivially_invalid : Formula → Bool

/-! ## The interfaces of `Setup` and `Grounder` -/

/-- The values of `Setup::Result`. -/
inductive Result where
  | kOk
  | kSubsumed
  | kInconsistent
  deriving DecidableEq

/-- The member functions of `Setup` called by the solver.  `AddUnit s a` is
`s.shallow_copy()` followed by `AddUnit(a)` on the copy: it returns the result code together
with the setup the copy then denotes; `s` itself is left as it is. -/
structure SetupOps (Setup : Type) where
  contains_empty_clause : Setup → Bool
  Subsumes : Setup → Clause → Bool
  Determines : Setup → Term → Option Term
  Consistent : Setup → Bool
  LocallyConsistent : Setup → TermSet → Bool
  AddUnit : Setup → Literal → Result × Setup

/-- The member functions of `Grounder` called by the solver, over a grounder state `G`.
`PrepareForQuery` is overloaded in the source (formula or term argument). -/
structure GrounderOps (G Setup : Type) where
  PrepareForQuery : Int → Formula → G → G
  PrepareForQueryTerm : Int → Term → G → G
  Ground : G → Setup × G
  SplitTerms : G → TermSet
  RelevantSplitTerms : G → Formula → TermSet
  RelevantSplitTermsTerm : G → Term → TermSet
  LiteralAssignments : G → LiteralAssignmentSet
  RelevantLiteralAssignments : G → Formula → LiteralAssignmentSet
  Names : G → SortedTermSet

/-! ## `Solver::Split` -/

/-- How the loop over the names of one split term is left: by running to its end, after
which `Split` returns `merged_result`, or by `goto next_split`, which keeps the flag
`recursed` as it stands at the jump. -/
inductive NamesExit (T : Type) where
  | ret (merged_result : T) : NamesExit T
  | next_split (recursed : Bool) : NamesExit T
  deriving DecidableEq

section Split

variable {Setup T : Type}

/-- The loop `for (const Term n : ns)` of `Split` for the split term `t`, started with the
remaining names and the current `merged_result` and `recursed`.  `rec s'` is the recursive
call `Split<split_order_matters>(*split_setup, ..., k - 1, ...)`. -/
def SplitNamesLoop (O : SetupOps Setup) (asBool : T → Bool) (merge : T → T → T)
    (inconsistent_result : T) (rec : Setup → Option T) (s : Setup) (t : Term) :
    List Term → T → Bool → Option (NamesExit T)
  | [], merged_result, _ => some (.ret merged_result)
  | n :: ns, merged_result, recursed =>
    let split_setup := O.AddUnit s (Literal.Eq t n)
    if split_setup.1 = Result.kInconsistent then
      let merged_result :=
        if !asBool merged_result then inconsistent_result
        else merge merged_result inconsistent_result
      if !asBool merged_result then some (.next_split recursed)
      else SplitNamesLoop O asBool merge inconsistent_result rec s t ns merged_result true
    else
      match rec split_setup.2 with
      | none => none
      | some split_result =>
        if !asBool split_result then some (.next_split recursed)
        else
          let merged_result :=
            if !asBool merged_result then split_result else merge merged_result split_result
          if !asBool merged_result then some (.next_split recursed)
          else SplitNamesLoop O asBool merge inconsistent_result rec s t ns merged_result true

/-- The loop `for (auto it = split_terms_begin; it != split_terms_end; )` of `Split`, started
at iterator position `it` (the list of the terms from `it` to the end) with the current
`n_split_terms_left` and `recursed`.  `split_terms` is the whole range
`[split_terms_begin, split_terms_end)`; `rec s' ts n` is the recursive call of `Split` on the
range `ts` with `n` as its `n_split_terms` and with split level `k - 1`. -/
def SplitTermsLoop (O : SetupOps Setup) (asBool : T → Bool) (split_order_matters : Bool)
    (names : SortedTermSet) (k : Int) (goal : Setup → Option T) (merge : T → T → T)
    (inconsistent_result unsuccessful_result : T)
    (rec : Setup → List Term → Nat → Option T)
    (s : Setup) (split_terms : List Term) (n_split_terms : Nat) :
    List Term → Nat → Bool → Option T
  | [], _, recursed => if recursed then some unsuccessful_result else goal s
  | t :: it, n_split_terms_left, recursed =>
    if (n_split_terms : Int) ≥ k ∧ (n_split_terms_left : Int) < k - 1 then
      if recursed then some unsuccessful_result else goal s
    else
      let n_split_terms_left := n_split_terms_left - 1
      if (O.Determines s t).isSome then
        SplitTermsLoop O asBool split_order_matters names k goal merge inconsistent_result
          unsuccessful_result rec s split_terms n_split_terms it n_split_terms_left recursed
      else
        match SplitNamesLoop O asBool merge inconsistent_result
            (fun split_setup =>
              rec split_setup (if split_order_matters then split_terms else it)
                (if split_order_matters then n_split_terms else n_split_terms_left))
            s t (names t.sort) unsuccessful_result recursed with
        | none => none
        | some (.ret merged_result) => some merged_result
        | some (.next_split recursed) =>
          SplitTermsLoop O asBool split_order_matters names k goal merge inconsistent_result
            unsuccessful_result rec s split_terms n_split_terms it n_split_terms_left recursed

/-- The body of the iterator version of `Split`, with the recursive call as parameter `rec`. -/
def SplitBody (O : SetupOps Setup) (asBool : T → Bool) (split_order_matters : Bool)
    (names : SortedTermSet) (goal : Setup → Option T) (merge : T → T → T)
    (inconsistent_result unsuccessful_result : T)
    (rec : Setup → List Term → Nat → Option T)
    (s : Setup) (split_terms : List Term) (n_split_terms : Nat) (k : Int) : Option T :=
  if O.contains_empty_clause s then some unsuccessful_result
  else if k > 0 ∧ n_split_terms > 0 then
    SplitTermsLoop O asBool split_order_matters names k goal merge inconsistent_result
      unsuccessful_result rec s split_terms n_split_terms split_terms n_split_terms false
  else goal s

/-- The iterator version of `Split` with a budget `d` on the nesting depth of its recursive
calls: a recursive call attempted with no budget left has no result. -/
def SplitD (O : SetupOps Setup) (asBool : T → Bool) (split_order_matters : Bool)
    (names : SortedTermSet) (goal : Setup → Option T) (merge : T → T → T)
    (inconsistent_result unsuccessful_result : T) :
    Nat → Setup → List Term → Nat → Int → Option T
  | 0, s, split_terms, n_split_terms, k =>
    SplitBody O asBool split_order_matters names goal merge inconsistent_result
      unsuccessful_result (fun _ _ _ => none) s split_terms n_split_terms k
  | d + 1, s, split_terms, n_split_terms, k =>
    SplitBody O asBool split_order_matters names goal merge inconsistent_result
      unsuccessful_result
      (fun s' ts n =>
        SplitD O asBool split_order_matters names goal merge inconsistent_result
          unsuccessful_result d s' ts n (k - 1))
      s split_terms n_split_terms k

/-- The function `Solver::Split<split_order_matters>` over a set of split terms: the iterator
version on the whole set, `n_split_terms` being its size.  The depth budget is `max k 0`. -/
def Split (O : SetupOps Setup) (asBool : T → Bool) (split_order_matters : Bool)
    (s : Setup) (split_terms : TermSet) (names : SortedTermSet) (k : Int)
    (goal : Setup → Option T) (merge : T → T → T)
    (inconsistent_result unsuccessful_result : T) : Option T :=
  SplitD O asBool split_order_matters names goal merge inconsistent_result unsuccessful_result
    k.toNat s split_terms split_terms.length k

end Split

/-! ## `Solver::Reduce`, `Solver::ReduceConjunctions`, `Solver::Assign`,
`Solver::ReduceDisjunctions` -/

/-- The algorithm `std::all_of` for a predicate that may have no result: it stops at the
first element on which the predicate is false. -/
def all_of {α : Type} (pred : α → Option Bool) : List α → Option Bool
  | [] => some true
  | a :: as =>
    match pred a with
    | none => none
    | some false => some false
    | some true => all_of pred as

/-- The algorithm `std::any_of` for a predicate that may have no result: it stops at the
first element on which the predicate is true. -/
def any_of {α : Type} (pred : α → Option Bool) : List α → Option Bool
  | [] => some false
  | a :: as =>
    match pred a with
    | none => none
    | some true => some true
    | some false => any_of pred as

section Reduce

variable {Setup : Type}

/-- The function `Solver::Reduce`, recursing at most `fuel` formula nodes deep.  A modal
operator leads to `assert(false)`: no result. -/
def ReduceFuel (O : SetupOps Setup) (names : SortedTermSet) (s : Setup) :
    Nat → Formula → Option Bool
  | 0, _ => none
  | fuel + 1, phi =>
    match phi with
    | .Atomic c => some (O.Subsumes s c)
    | .Not (.Atomic c) =>
      all_of (fun a => ReduceFuel O names s fuel (.Atomic [a.flip])) c
    | .Not (.Not psi) => ReduceFuel O names s fuel psi
    | .Not (.Or left right) =>
      match ReduceFuel O names s fuel (.Not left) with
      | none => none
      | some false => some false
      | some true => ReduceFuel O names s fuel (.Not right)
    | .Not (.Exists x psi) =>
      all_of (fun n => ReduceFuel O names s fuel ((Formula.Not psi).SubstituteFree x n))
        (names x.sort)
    | .Not (.Know _ _) => none
    | .Not (.Cons _ _) => none
    | .Not (.Bel _ _ _ _ _) => none
    | .Not (.Guarantee _) => none
    | .Or left right =>
      match ReduceFuel O names s fuel left with
      | none => none
      | some true => some true
      | some false => ReduceFuel O names s fuel right
    | .Exists x psi =>
      any_of (fun n => ReduceFuel O names s fuel (psi.SubstituteFree x n)) (names x.sort)
    | .Know _ _ => none
    | .Cons _ _ => none
    | .Bel _ _ _ _ _ => none
    | .Guarantee _ => none

/-- The function `Solver::Reduce`. -/
def Reduce (O : SetupOps Setup) (s : Setup) (names : SortedTermSet) (phi : Formula) :
    Option Bool :=
  ReduceFuel O names s phi.size phi

/-- The `default:` branch of `ReduceConjunctions`: the call of `Split<false>` with `Reduce`
as goal and conjunction as merge. -/
def ReduceConjunctionsSplit (F : FormulaOps) (O : SetupOps Setup) (s : Setup)
    (split_terms : TermSet) (names : SortedTermSet) (k : Int) (phi : Formula) : Option Bool :=
  if F.trivially_valid phi then some true
  else
    Split O id false s split_terms names k (fun s => Reduce O s names phi)
      (fun r1 r2 => r1 && r2) true false

/-- The function `Solver::ReduceConjunctions`, recursing at most `fuel` formula nodes deep. -/
def ReduceConjunctionsFuel (F : FormulaOps) (O : SetupOps Setup) (s : Setup)
    (split_terms : TermSet) (names : SortedTermSet) (k : Int) : Nat → Formula → Option Bool
  | 0, _ => none
  | fuel + 1, phi =>
    match phi with
    | .Not (.Atomic c) =>
      all_of (fun a => ReduceConjunctionsFuel F O s split_terms names k fuel
        (.Atomic [a.flip])) c
    | .Not (.Not psi) => ReduceConjunctionsFuel F O s split_terms names k fuel psi
    | .Not (.Or left right) =>
      match ReduceConjunctionsFuel F O s split_terms names k fuel (.Not left) with
      | none => none
      | some false => some false
      | some true => ReduceConjunctionsFuel F O s split_terms names k fuel (.Not right)
    | .Not (.Exists x psi) =>
      all_of (fun n => ReduceConjunctionsFuel F O s split_terms names k fuel
        ((Formula.Not psi).SubstituteFree x n)) (names x.sort)
    | phi => ReduceConjunctionsSplit F O s split_terms names k phi

/-- The function `Solver::ReduceConjunctions`. -/
def ReduceConjunctions (F : FormulaOps) (O : SetupOps Setup) (s : Setup)
    (split_terms : TermSet) (names : SortedTermSet) (k : Int) (phi : Formula) : Option Bool :=
  ReduceConjunctionsFuel F O s split_terms names k phi.size phi

/-- The body of `Solver::Assign`, with the recursive call (at level `k - 1`) as parameter
`rec`.  The setup handed to it is the shallow copy after the loop over `lits`. -/
def AssignBody (F : FormulaOps) (O : SetupOps Setup) (names : SortedTermSet)
    (rec : Setup → Option Bool) (s : Setup) (assign_lits : LiteralAssignmentSet) (k : Int)
    (phi : Formula) (assume_consistent : Bool) (relevant_terms : TermSet) : Option Bool :=
  if (!assume_consistent && O.Subsumes s []) || F.trivially_invalid phi then some false
  else if k > 0 ∧ !assign_lits.isEmpty then
    if assign_lits.isEmpty then some (F.trivially_valid phi)
    else
      any_of (fun lits =>
        rec (lits.foldl (fun split_setup a =>
          if !O.Subsumes s [a.flip] then (O.AddUnit split_setup a).2 else split_setup) s))
        assign_lits
  else
    if !assume_consistent && !O.Consistent s then some false
    else if assume_consistent && !O.LocallyConsistent s relevant_terms then some false
    else Reduce O s names phi

/-- The function `Solver::Assign` with a budget `d` on the nesting depth of its recursive
calls. -/
def AssignD (F : FormulaOps) (O : SetupOps Setup) (names : SortedTermSet)
    (assign_lits : LiteralAssignmentSet) (phi : Formula) (assume_consistent : Bool)
    (relevant_terms : TermSet) : Nat → Setup → Int → Option Bool
  | 0, s, k =>
    AssignBody F O names (fun _ => none) s assign_lits k phi assume_consistent relevant_terms
  | d + 1, s, k =>
    AssignBody F O names
      (fun s' => AssignD F O names assign_lits phi assume_consistent relevant_terms d s' (k - 1))
      s assign_lits k phi assume_consistent relevant_terms

/-- The function `Solver::Assign`; the depth budget is `max k 0`. -/
def Assign (F : FormulaOps) (O : SetupOps Setup) (s : Setup)
    (assign_lits : LiteralAssignmentSet) (names : SortedTermSet) (k : Int) (phi : Formula)
    (assume_consistent : Bool) (relevant_terms : TermSet) : Option Bool :=
  AssignD F O names assign_lits phi assume_consistent relevant_terms k.toNat s k

/-- The function `Solver::ReduceDisjunctions`, recursing at most `fuel` formula nodes deep. -/
def ReduceDisjunctionsFuel (F : FormulaOps) (O : SetupOps Setup) (s : Setup)
    (assign_lits : LiteralAssignmentSet) (names : SortedTermSet) (k : Int)
    (assume_consistent : Bool) (relevant_terms : TermSet) : Nat → Formula → Option Bool
  | 0, _ => none
  | fuel + 1, phi =>
    match phi with
    | .Atomic c =>
      Assign F O s assign_lits names k (.Atomic c) assume_consistent relevant_terms
    | .Or left right =>
      match ReduceDisjunctionsFuel F O s assign_lits names k assume_consistent relevant_terms
          fuel left with
      | none => none
      | some true => some true
      | some false =>
        ReduceDisjunctionsFuel F O s assign_lits names k assume_consistent relevant_terms
          fuel right
    | .Exists x psi =>
      any_of (fun n =>
        ReduceDisjunctionsFuel F O s assign_lits names k assume_consistent relevant_terms fuel
          (psi.SubstituteFree x n)) (names x.sort)
    | .Not (.Not psi) =>
      ReduceDisjunctionsFuel F O s assign_lits names k assume_consistent relevant_terms fuel psi
    | .Not psi =>
      if F.trivially_invalid (.Not psi) then some false
      else Assign F O s assign_lits names k (.Not psi) assume_consistent relevant_terms
    | .Know _ _ => none
    | .Cons _ _ => none
    | .Bel _ _ _ _ _ => none
    | .Guarantee _ => none

/-- The function `Solver::ReduceDisjunctions`. -/
def ReduceDisjunctions (F : FormulaOps) (O : SetupOps Setup) (s : Setup)
    (assign_lits : LiteralAssignmentSet) (names : SortedTermSet) (k : Int) (phi : Formula)
    (assume_consistent : Bool) (relevant_terms : TermSet) : Option Bool :=
  ReduceDisjunctionsFuel F O s assign_lits names k assume_consistent relevant_terms
    phi.size phi

end Reduce

/-! ## The public functions of `Solver` -/

section Solver

variable {G Setup : Type}

/-- The function `Solver::Entails`, on the solver whose grounder is in state `g`; the second
component is the grounder state the call leaves behind. -/
def Solver.Entails (F : FormulaOps) (O : SetupOps Setup) (GO : GrounderOps G Setup)
    (g : G) (k : Int) (phi : Formula) (assume_consistent : Bool) : Option Bool × G :=
  let g := GO.PrepareForQuery k phi g
  let sg := GO.Ground g
  let s := sg.1
  let g := sg.2
  let split_terms : TermSet :=
    if k = 0 then [] else if assume_consistent then GO.RelevantSplitTerms g phi
    else GO.SplitTerms g
  let names := GO.Names g
  (if O.Subsumes s [] then some true else ReduceConjunctions F O s split_terms names k phi, g)

/-- The merge function that `Solver::Determines` hands to `Split`. -/
def Solver.DeterminesMerge (r1 r2 : Option Term) : Option Term :=
  match r1, r2 with
  | some v1, some v2 =>
    if v1 = v2 then r1 else if v1.isNull then r2 else if v2.isNull then r1 else none
  | _, _ => none

/-- The function `Solver::Determines`. -/
def Solver.Determines (O : SetupOps Setup) (GO : GrounderOps G Setup)
    (g : G) (k : Int) (lhs : Term) (assume_consistent : Bool) : Option (Option Term) × G :=
  let g := GO.PrepareForQueryTerm k lhs g
  let sg := GO.Ground g
  let s := sg.1
  let g := sg.2
  let split_terms : TermSet :=
    if k = 0 then [] else if assume_consistent then GO.RelevantSplitTermsTerm g lhs
    else GO.SplitTerms g
  let names := GO.Names g
  let inconsistent_result : Option Term := some Term.null
  let unsuccessful_result : Option Term := none
  (Split O Option.isSome true s split_terms names k (fun s => some (O.Determines s lhs))
    Solver.DeterminesMerge inconsistent_result unsuccessful_result, g)

/-- The function `Solver::Consistent`. -/
def Solver.Consistent (F : FormulaOps) (O : SetupOps Setup) (GO : GrounderOps G Setup)
    (g : G) (k : Int) (phi : Formula) (assume_consistent : Bool) : Option Bool × G :=
  let g := GO.PrepareForQuery k phi g
  let sg := GO.Ground g
  let s := sg.1
  let g := sg.2
  let assign_lits : LiteralAssignmentSet :=
    if k = 0 then [] else if assume_consistent then GO.RelevantLiteralAssignments g phi
    else GO.LiteralAssignments g
  let relevant_terms : TermSet :=
    if assume_consistent then GO.RelevantSplitTerms g phi else []
  let names := GO.Names g
  (ReduceDisjunctions F O s assign_lits names k phi assume_consistent relevant_terms, g)

/-- The function `Solver::EntailsComplete`. -/
def Solver.EntailsComplete (F : FormulaOps) (O : SetupOps Setup) (GO : GrounderOps G Setup)
    (g : G) (k : Int) (phi : Formula) (assume_consistent : Bool) : Option Bool × G :=
  let psi := Formula.Not phi
  let r := Solver.Consistent F O GO g k psi assume_consistent
  (r.1.map (fun b => !b), r.2)

end Solver

/-! ## A reference setup -/

/-- Two ground literals that cannot both hold: `t = n` against `t ≠ n`, or `t = n` against
`t = n'` for distinct `n`, `n'`. -/
def Literal.Complementary (a b : Literal) : Bool :=
  a.lhs == b.lhs &&
    ((a.pos != b.pos && a.rhs == b.rhs) || (a.pos && b.pos && a.rhs != b.rhs))

/-- The literal `a` implies the literal `b`: they are equal, or `a` is `t = n` and `b` is
`t ≠ n'` for distinct `n`, `n'`. -/
def Literal.Subsumes (a b : Literal) : Bool :=
  a == b || (a.lhs == b.lhs && a.pos && !b.pos && a.rhs != b.rhs)

/-- Modelled from the spec: `Setup` lives in `setup.h`, which is not part of the sources at
hand.  A setup is a store of ground clauses kept closed under unit propagation. -/
structure RefSetup where
  clauses : List Clause
  deriving DecidableEq

/-- The unit clauses of a clause list. -/
def RefSetup.units (cs : List Clause) : List Literal :=
  cs.filterMap (fun c => match c with | [a] => some a | _ => none)

/-- One round of unit propagation: every literal that is complementary to a unit clause is
removed from the clause it occurs in. -/
def RefSetup.propagateOnce (cs : List Clause) : List Clause :=
  cs.map (fun c => c.filter (fun a => !(RefSetup.units cs).any (fun u => u.Complementary a)))

/-- Unit propagation, run for `fuel` rounds. -/
def RefSetup.propagate : Nat → List Clause → List Clause
  | 0, cs => cs
  | fuel + 1, cs => RefSetup.propagate fuel (RefSetup.propagateOnce cs)

/-- The setup holding the given ground clauses.  Every round of propagation that changes the
store removes a literal, so one round per literal reaches the fixed point. -/
def RefSetup.ofClauses (cs : List Clause) : RefSetup :=
  ⟨RefSetup.propagate (cs.map List.length).sum cs⟩

/-- The test `contains_empty_clause()`. -/
def RefSetup.contains_empty_clause (s : RefSetup) : Bool :=
  s.clauses.any (fun c => c.isEmpty)

/-- The test `Subsumes(c)`: some stored clause implies `c`, each of its literals implying a
literal of `c`.  The empty clause subsumes every clause. -/
def RefSetup.Subsumes (s : RefSetup) (c : Clause) : Bool :=
  s.clauses.any (fun d => d.all (fun a => c.any (fun b => a.Subsumes b)))

/-- The function `Determines(t)`: `Just(n)` for a stored unit clause `[t = n]`, `Just(null)`
when the store is inconsistent, else `Nothing`. -/
def RefSetup.Determines (s : RefSetup) (t : Term) : Option Term :=
  if s.contains_empty_clause then some Term.null
  else ((RefSetup.units s.clauses).find? (fun a => a.pos && a.lhs == t)).map (fun a => a.rhs)

/-- The test `Consistent()`: no empty clause has been derived. -/
def RefSetup.Consistent (s : RefSetup) : Bool :=
  !s.contains_empty_clause

/-- The function `AddUnit(a)` on a shallow copy: the unit clause is added unless it is
subsumed, and the result is `kInconsistent` when the empty clause is derived. -/
def RefSetup.AddUnit (s : RefSetup) (a : Literal) : Result × RefSetup :=
  if s.Subsumes [a] then (Result.kSubsumed, s)
  else
    let s' := RefSetup.ofClauses (s.clauses ++ [[a]])
    (if s'.contains_empty_clause then Result.kInconsistent else Result.kOk, s')

/-- The reference setup as an instance of the interface the solver uses. -/
def RefSetup.ops : SetupOps RefSetup where
  contains_empty_clause := RefSetup.contains_empty_clause
  Subsumes := RefSetup.Subsumes
  Determines := RefSetup.Determines
  Consistent := RefSetup.Consistent
  LocallyConsistent := fun s _ => RefSetup.Consistent s
  AddUnit := RefSetup.AddUnit

/-! ## Instances for concrete runs -/

/-- A ground literal that holds in every model: `t = t`, or `n ≠ n'` for distinct names. -/
def Literal.valid (a : Literal) : Bool :=
  (a.pos && a.lhs == a.rhs) || (!a.pos && a.lhs.isName && a.rhs.isName && a.lhs != a.rhs)

/-- A ground literal that holds in no model: `t ≠ t`, or `n = n'` for distinct names. -/
def Literal.invalid (a : Literal) : Bool :=
  (!a.pos && a.lhs == a.rhs) || (a.pos && a.lhs.isName && a.rhs.isName && a.lhs != a.rhs)

mutual
/-- Modelled from the spec: `Formula::trivially_valid` lives in `formula.h`, which is not
part of the sources at hand.  A syntactic test that is sufficient for validity. -/
def Formula.trivially_valid : Formula → Bool
  | .Atomic c => c.any Literal.valid
  | .Not a => a.trivially_invalid
  | .Or l r => l.trivially_valid || r.trivially_valid
  | .Exists _ a => a.trivially_valid
  | .Know _ _ => false
  | .Cons _ _ => false
  | .Bel _ _ _ _ _ => false
  | .Guarantee a => a.trivially_valid
/-- Modelled from the spec: `Formula::trivially_invalid` lives in `formula.h`, which is not
part of the sources at hand.  A syntactic test that is sufficient for unsatisfiability. -/
def Formula.trivially_invalid : Formula → Bool
  | .Atomic c => c.all Literal.invalid
  | .Not a => a.trivially_valid
  | .Or l r => l.trivially_invalid && r.trivially_invalid
  | .Exists _ a => a.trivially_invalid
  | .Know _ _ => false
  | .Cons _ _ => false
  | .Bel _ _ _ _ _ => false
  | .Guarantee a => a.trivially_invalid
end

/-- The syntactic tests as an instance of the interface the solver uses. -/
def RefFormulaOps : FormulaOps where
  trivially_valid := Formula.trivially_valid
  trivially_invalid := Formula.trivially_invalid

/-- A grounder whose work is done: the names and split terms of the queries at hand are
tracked already and the clauses are grounded, so that `PrepareForQuery` and `Ground` leave
the state as it is. -/
structure FixedGrounder where
  setup : RefSetup
  split_terms : TermSet
  names : SortedTermSet
  assign_lits : LiteralAssignmentSet

/-- The fixed grounder as an instance of the interface the solver uses. -/
def FixedGrounder.ops : GrounderOps FixedGrounder RefSetup where
  PrepareForQuery := fun _ _ g => g
  PrepareForQueryTerm := fun _ _ g => g
  Ground := fun g => (g.setup, g)
  SplitTerms := fun g => g.split_terms
  RelevantSplitTerms := fun g _ => g.split_terms
  RelevantSplitTermsTerm := fun g _ => g.split_terms
  LiteralAssignments := fun g => g.assign_lits
  RelevantLiteralAssignments := fun g _ => g.assign_lits
  Names := fun g => g.names

/-- A grounder that does not tell `Not(Not(phi))` from `phi`: both formulas mention the same
terms and literals. -/
def GrounderOps.DoubleNegationBlind {G Setup : Type} (GO : GrounderOps G Setup) : Prop :=
  ∀ (phi : Formula),
    (∀ k g, GO.PrepareForQuery k (Formula.Not (Formula.Not phi)) g = GO.PrepareForQuery k phi g) ∧
    (∀ g, GO.RelevantSplitTerms g (Formula.Not (Formula.Not phi)) = GO.RelevantSplitTerms g phi) ∧
    (∀ g, GO.RelevantLiteralAssignments g (Formula.Not (Formula.Not phi))
      = GO.RelevantLiteralAssignments g phi)

/-- The success condition of the loop over the split terms in the `Entails` instantiation of
`Split`: some split term `t`, not cut off by the budget break of the loop (`pre` are the terms
enumerated before it, `post` the ones after it) and not determined by the setup, is such that
for every name `n` of its sort adding the unit `[t = n]` to a shallow copy is inconsistent or
the recursive `Split` on the remaining terms with `k - 1` returns true. -/
def SplitTermSucceeds {Setup : Type} (O : SetupOps Setup) (s : Setup) (split_terms : TermSet)
    (names : SortedTermSet) (k : Int) (goal : Setup → Option Bool) : Prop :=
  ∃ pre t post, split_terms = pre ++ t :: post ∧
    ¬ ((split_terms.length : Int) ≥ k ∧ ((post.length + 1 : Nat) : Int) < k - 1) ∧
    O.Determines s t = none ∧
    ∀ n ∈ names t.sort, (O.AddUnit s (Literal.Eq t n)).1 = Result.kInconsistent ∨
      Split O id false (O.AddUnit s (Literal.Eq t n)).2 post names (k - 1) goal
        (fun r1 r2 => r1 && r2) true false = some true

namespace Scenario

/-! Three nullary functions `t1`, `t2`, `t3` of sort 1 with the names `a`, `b`, and a nullary
function `t` of sort 2 with the names `n`, `m`.  The clauses are the ground instances over
these names of `[t2 ≠ a ∨ t1 ≠ x ∨ t = n]` and `[t2 = a ∨ t3 ≠ x ∨ t = n]`: whatever the value
of `t2`, splitting one further term (`t1` if `t2 = a`, else `t3`) yields `t = n`. -/

def a : Term := Term.name 1 1

def b : Term := Term.name 2 1

def n : Term := Term.name 3 2

def m : Term := Term.name 4 2

def t1 : Term := Term.fn 1 1 []

def t2 : Term := Term.fn 2 1 []

def t3 : Term := Term.fn 3 1 []

def t : Term := Term.fn 4 2 []

def names : SortedTermSet := fun sort =>
  if sort = 1 then [a, b] else if sort = 2 then [n, m] else []

def clauses : List Clause :=
  [[Literal.Neq t2 a, Literal.Neq t1 a, Literal.Eq t n],
   [Literal.Neq t2 a, Literal.Neq t1 b, Literal.Eq t n],
   [Literal.Eq t2 a, Literal.Neq t3 a, Literal.Eq t n],
   [Literal.Eq t2 a, Literal.Neq t3 b, Literal.Eq t n]]

def setup : RefSetup := RefSetup.ofClauses clauses

/-- The setup of a knowledge base that holds the empty clause. -/
def inconsistent_setup : RefSetup := RefSetup.ofClauses [[]]

/-- The query `t = n`. -/
def query : Formula := Formula.Atomic [Literal.Eq t n]

/-- The goal of `Entails` for the query `t = n`. -/
def goal (s : RefSetup) : Option Bool := Reduce RefSetup.ops s names query

def grounder (split_terms : TermSet) : FixedGrounder :=
  ⟨setup, split_terms, names, []⟩

def inconsistent_grounder : FixedGrounder :=
  ⟨inconsistent_setup, [t1, t2, t3, t], names, []⟩

end Scenario

/-! ## `KnowledgeBase` (`src/limbo/kb.h`): the data it keeps -/

mutual
/-- The terms visited by `t.Traverse(f)`: the term itself and the terms below it. -/
def Term.Traverse : Term → List Term
  | .fn i s args => .fn i s args :: Term.TraverseList args
  | t => [t]
/-- The terms visited in an argument list. -/
def Term.TraverseList : List Term → List Term
  | [] => []
  | a :: as => Term.Traverse a ++ Term.TraverseList as
end

/-- The terms visited by `a.Traverse(f)`. -/
def Literal.Traverse (a : Literal) : List Term := a.lhs.Traverse ++ a.rhs.Traverse

/-- The terms visited by `c.Traverse(f)`. -/
def Clause.Traverse (c : Clause) : List Term := c.flatMap Literal.Traverse

/-- The terms visited by `phi.Traverse(f)`. -/
def Formula.Traverse : Formula → List Term
  | .Atomic c => Clause.Traverse c
  | .Not a => a.Traverse
  | .Or l r => l.Traverse ++ r.Traverse
  | .Exists x a => x :: a.Traverse
  | .Know _ a => a.Traverse
  | .Cons _ a => a.Traverse
  | .Bel _ _ a _ nac => a.Traverse ++ nac.Traverse
  | .Guarantee a => a.Traverse

mutual
/-- The variables that occur in a term, in order of occurrence. -/
def Term.vars : Term → List Term
  | .var i s => [.var i s]
  | .fn _ _ args => Term.varsList args
  | _ => []
/-- The variables that occur in an argument list. -/
def Term.varsList : List Term → List Term
  | [] => []
  | a :: as => Term.vars a ++ Term.varsList as
end

/-- The variables that occur in a literal. -/
def Literal.vars (a : Literal) : List Term := a.lhs.vars ++ a.rhs.vars

/-- The free occurrences of variables in a formula, in order of occurrence. -/
def Formula.free_occurrences : Formula → List Term
  | .Atomic c => c.flatMap Literal.vars
  | .Not a => a.free_occurrences
  | .Or l r => l.free_occurrences ++ r.free_occurrences
  | .Exists x a => a.free_occurrences.filter (fun y => y ≠ x)
  | .Know _ a => a.free_occurrences
  | .Cons _ a => a.free_occurrences
  | .Bel _ _ a c nac => a.free_occurrences ++ c.free_occurrences ++ nac.free_occurrences
  | .Guarantee a => a.free_occurrences

/-- Modelled from the spec: `Formula::free_vars` lives in `formula.h`, which is not part of
the sources at hand.  The set of the free variables of the formula, as the list of its
elements in iteration order (here: order of first occurrence). -/
def Formula.free_vars (phi : Formula) : List Term := phi.free_occurrences.dedup

/-- The truth value of a formula under a propositional interpretation `v`, which assigns a
truth value to every formula that is neither a negation nor a disjunction. -/
def Formula.holds (v : Formula → Bool) : Formula → Bool
  | .Not a => !a.holds v
  | .Or l r => l.holds v || r.holds v
  | phi => v phi

/-- The operation `names.insert(t)` on a `SortedTermSet`. -/
def SortedTermSet.insert (names : SortedTermSet) (t : Term) : SortedTermSet :=
  fun sort =>
    if sort = t.sort then (if t ∈ names sort then names sort else names sort ++ [t])
    else names sort

/-- The operation `names.erase(t)` on a `SortedTermSet`. -/
def SortedTermSet.erase (names : SortedTermSet) (t : Term) : SortedTermSet :=
  fun sort => if sort = t.sort then (names sort).filter (fun n => n ≠ t) else names sort

/-- The effect of `Traverse([&names](Term t) { if (t.name()) names.insert(t); return true; })`
on the name set, for the visited terms `ts`. -/
def SortedTermSet.insertNames (names : SortedTermSet) (ts : List Term) : SortedTermSet :=
  ts.foldl (fun names t => if t.isName then SortedTermSet.insert names t else names) names

/-- The invariant of a `SortedTermSet` of names: every element is a standard name. -/
def SortedTermSet.AllNames (names : SortedTermSet) : Prop :=
  ∀ sort, ∀ n ∈ names sort, n.isName = true

/-- The formula without an outer `Guarantee`. -/
def Formula.stripGuarantee : Formula → Formula
  | .Guarantee arg => arg
  | phi => phi

/-- The argument of the formula if it is a `Know`, else the formula. -/
def Formula.stripKnow : Formula → Formula
  | .Know _ arg => arg
  | phi => phi

/-- The two functions of `formula.h` that `KnowledgeBase::Add` calls. -/
structure NormalFormOps where
  NF : Formula → Formula
  AsUnivClause : Formula → Option Clause

/-- The member functions of `Grounder` that `Solver` and `KnowledgeBase` call: those of
`GrounderOps`, the constructor (`create`, the state of a new grounder), `AddClause`, and
`CreateName`/`ReturnName`, which hand out and take back a name of the given sort. -/
structure GrounderKBOps (G Setup : Type) extends GrounderOps G Setup where
  create : G
  AddClause : Clause → G → G
  CreateName : Nat → G → Term × G
  ReturnName : Term → G → G

/-- The struct `KnowledgeBase::Conditional`. -/
structure Conditional where
  k : Nat
  l : Nat
  ante : Formula
  not_ante_or_conse : Clause
  assume_consistent : Bool
  deriving DecidableEq

/-- The members of `KnowledgeBase`; a `Solver` is the state `G` of its grounder. -/
structure KnowledgeBase (G : Type) where
  knowledge_ : List Clause
  beliefs_ : List Conditional
  names_ : SortedTermSet
  spheres_ : List G
  objective_ : G
  spheres_changed_ : Bool

section KnowledgeBaseAdd

variable {G Setup : Type}

/-- The function `Solver::AddClause`. -/
def Solver.AddClause (GKO : GrounderKBOps G Setup) (g : G) (c : Clause) : G :=
  GKO.AddClause c g

/-- The constructor of `KnowledgeBase`. -/
def KnowledgeBase.create (GKO : GrounderKBOps G Setup) : KnowledgeBase G :=
  { knowledge_ := [], beliefs_ := [], names_ := fun _ => [], spheres_ := [GKO.create],
    objective_ := GKO.create, spheres_changed_ := false }

/-- The function `n_spheres`. -/
def KnowledgeBase.n_spheres (kb : KnowledgeBase G) : Nat := kb.spheres_.length

/-- The function `KnowledgeBase::Add(const Clause&)`. -/
def KnowledgeBase.AddClause (GKO : GrounderKBOps G Setup) (kb : KnowledgeBase G)
    (c : Clause) : KnowledgeBase G :=
  { kb with
    spheres_ := kb.spheres_.map (fun sphere => Solver.AddClause GKO sphere c)
    knowledge_ := kb.knowledge_ ++ [c]
    names_ := SortedTermSet.insertNames kb.names_ (Clause.Traverse c) }

/-- The private function `KnowledgeBase::Add(k, l, antecedent, not_antecedent_or_consequent,
assume_consistent)`. -/
def KnowledgeBase.AddConditional (kb : KnowledgeBase G) (k l : Nat) (antecedent : Formula)
    (not_antecedent_or_consequent : Clause) (assume_consistent : Bool) : KnowledgeBase G :=
  { kb with
    beliefs_ := kb.beliefs_ ++
      [⟨k, l, antecedent, not_antecedent_or_consequent, assume_consistent⟩]
    spheres_changed_ := true
    names_ := SortedTermSet.insertNames
      (SortedTermSet.insertNames kb.names_ antecedent.Traverse)
      (Clause.Traverse not_antecedent_or_consequent) }

/-- The function `KnowledgeBase::Add(const Formula&)`: the result and the knowledge base
after the call. -/
def KnowledgeBase.Add (N : NormalFormOps) (GKO : GrounderKBOps G Setup)
    (kb : KnowledgeBase G) (alpha : Formula) : Bool × KnowledgeBase G :=
  let beta := N.NF alpha
  let assume_consistent := match beta with | .Guarantee _ => true | _ => false
  let beta := beta.stripGuarantee
  match beta with
  | .Bel k l ante _ not_antecedent_or_consequent =>
    match N.AsUnivClause not_antecedent_or_consequent with
    | some not_ante_or_conse =>
      (true, KnowledgeBase.AddConditional kb k l ante not_ante_or_conse assume_consistent)
    | none => (false, kb)
  | beta =>
    match N.AsUnivClause beta.stripKnow with
    | some c => (true, KnowledgeBase.AddClause GKO kb c)
    | none => (false, kb)

end KnowledgeBaseAdd

/-! ## `KnowledgeBase::BuildSpheres` -/

/-- One pass of the `do ... while` loop of `BuildSpheres`: the vector `done` at its start and
at its end, the sphere built in it (as it stands at the end of the pass), and whether the
sphere was appended to `spheres_`. -/
structure BuildSpheresRound (G : Type) where
  done : List Bool
  sphere : G
  done_after : List Bool
  pushed : Bool

section BuildSpheres

variable {G Setup : Type}

/-- The clauses that a pass of `BuildSpheres` adds to its sphere, in the order in which they
are added: the unconditional knowledge, then the clause of every conditional whose `done`
flag is not set. -/
def BuildSpheresClauses (knowledge : List Clause) (beliefs : List Conditional)
    (done : List Bool) : List Clause :=
  knowledge ++
    ((beliefs.zip done).filter (fun cd => !cd.2)).map (fun cd => cd.1.not_ante_or_conse)

/-- The first two `for` loops of a pass of `BuildSpheres`: a new solver to which the
knowledge and the clauses of the conditionals not yet done are added. -/
def BuildSpheresTrial (GKO : GrounderKBOps G Setup) (knowledge : List Clause)
    (beliefs : List Conditional) (done : List Bool) : G :=
  let sphere := knowledge.foldl (fun sphere c => Solver.AddClause GKO sphere c) GKO.create
  (beliefs.zip done).foldl
    (fun sphere cd => if !cd.2 then Solver.AddClause GKO sphere cd.1.not_ante_or_conse
      else sphere)
    sphere

/-- The third `for` loop of a pass of `BuildSpheres`, over the conditionals paired with their
`done` flags, started with the current `sphere`, `n_done` and
`next_is_plausibility_consistent`.  It returns the sphere, the new `done` flags, `n_done` and
`next_is_plausibility_consistent`. -/
def BuildSpheresPlace (F : FormulaOps) (O : SetupOps Setup) (GKO : GrounderKBOps G Setup) :
    List (Conditional × Bool) → G → Nat → Bool → Option (G × List Bool × Nat × Bool)
  | [], sphere, n_done, next_is_plausibility_consistent =>
    some (sphere, [], n_done, next_is_plausibility_consistent)
  | (c, done_i) :: rest, sphere, n_done, next_is_plausibility_consistent =>
    if !done_i then
      let r := Solver.Entails F O GKO.toGrounderOps sphere c.k (Formula.Not c.ante)
        c.assume_consistent
      match r.1 with
      | none => none
      | some entailed =>
        let possibly_consistent := !entailed
        if possibly_consistent then
          let r' := Solver.Consistent F O GKO.toGrounderOps r.2 c.l c.ante c.assume_consistent
          match r'.1 with
          | none => none
          | some necessarilyConsistent =>
            match BuildSpheresPlace F O GKO rest r'.2 (n_done + 1)
                (if !necessarilyConsistent then false
                  else next_is_plausibility_consistent) with
            | none => none
            | some (sphere', done', n_done', next') => some (sphere', true :: done', n_done', next')
        else
          match BuildSpheresPlace F O GKO rest r.2 n_done next_is_plausibility_consistent with
          | none => none
          | some (sphere', done', n_done', next') => some (sphere', false :: done', n_done', next')
    else
      match BuildSpheresPlace F O GKO rest sphere n_done next_is_plausibility_consistent with
      | none => none
      | some (sphere', done', n_done', next') => some (sphere', true :: done', n_done', next')

/-- The `do ... while` loop of `BuildSpheres`, running at most `fuel` passes: the passes it
makes, in order.  A query without result, or a pass attempted with no fuel left, gives no
result. -/
def BuildSpheresLoop (F : FormulaOps) (O : SetupOps Setup) (GKO : GrounderKBOps G Setup)
    (knowledge : List Clause) (beliefs : List Conditional) :
    Nat → List Bool → Bool → Nat → Option (List (BuildSpheresRound G))
  | 0, _, _, _ => none
  | fuel + 1, done, is_plausibility_consistent, n_done =>
    let last_n_done := n_done
    let sphere := BuildSpheresTrial GKO knowledge beliefs done
    match BuildSpheresPlace F O GKO (beliefs.zip done) sphere n_done true with
    | none => none
    | some (sphere, done', n_done, next_is_plausibility_consistent) =>
      let pushed := is_plausibility_consistent || n_done == last_n_done
      let round : BuildSpheresRound G := ⟨done, sphere, done', pushed⟩
      if n_done > last_n_done then
        match BuildSpheresLoop F O GKO knowledge beliefs fuel done'
            next_is_plausibility_consistent n_done with
        | none => none
        | some rounds => some (round :: rounds)
      else some [round]

/-- The passes of `BuildSpheres` on the given knowledge and conditionals.  The fuel is one
pass per conditional and one more. -/
def BuildSpheresRounds (F : FormulaOps) (O : SetupOps Setup) (GKO : GrounderKBOps G Setup)
    (knowledge : List Clause) (beliefs : List Conditional) :
    Option (List (BuildSpheresRound G)) :=
  BuildSpheresLoop F O GKO knowledge beliefs (beliefs.length + 1)
    (List.replicate beliefs.length false) true 0

/-- The function `KnowledgeBase::BuildSpheres`: `spheres_` is cleared and receives the
spheres of the passes that push theirs. -/
def KnowledgeBase.BuildSpheres (F : FormulaOps) (O : SetupOps Setup)
    (GKO : GrounderKBOps G Setup) (kb : KnowledgeBase G) : Option (KnowledgeBase G) :=
  match BuildSpheresRounds F O GKO kb.knowledge_ kb.beliefs_ with
  | none => none
  | some rounds =>
    some { kb with spheres_ := (rounds.filter (fun r => r.pushed)).map (fun r => r.sphere) }

end BuildSpheres

/-! ## `KnowledgeBase::Res`, `ResEntails`, `ResConsistent`, `ReduceModalities`, `Entails` -/

/-- The function `KnowledgeBase::bool_to_formula`. -/
def KnowledgeBase.bool_to_formula (b : Bool) : Formula :=
  let falsum := Formula.Atomic []
  if b then Formula.Not falsum else falsum

section Res

variable {G Setup : Type}

/-- The function `KnowledgeBase::ResName`, on the sphere `g` and the name set `names`; `rec`
is the recursive call of `Res`.  It returns the formula together with the name set and the
sphere as the call leaves them. -/
def KnowledgeBase.ResName (rec : Formula → SortedTermSet → G → Option (Formula × SortedTermSet × G))
    (phi : Formula) (x n : Term) (names : SortedTermSet) (g : G) :
    Option (Formula × SortedTermSet × G) :=
  match rec (phi.SubstituteFree x n) names g with
  | none => none
  | some (phi, names, g) =>
    let if_not := Literal.Neq x n
    some (Formula.Or (Formula.Atomic [if_not]) phi, names, g)

/-- The function `KnowledgeBase::ResOtherName`. -/
def KnowledgeBase.ResOtherName (GKO : GrounderKBOps G Setup)
    (rec : Formula → SortedTermSet → G → Option (Formula × SortedTermSet × G))
    (phi : Formula) (x : Term) (names : SortedTermSet) (g : G) :
    Option (Formula × SortedTermSet × G) :=
  let created := GKO.CreateName x.sort g
  let n0 := created.1
  match rec (phi.SubstituteFree x n0) (SortedTermSet.insert names n0) created.2 with
  | none => none
  | some (phi, names, g) =>
    let names := SortedTermSet.erase names n0
    let phi := phi.SubstituteFree n0 x
    let g := GKO.ReturnName n0 g
    let ns := names x.sort
    let c : Clause := ns.map (fun n => Literal.Eq x n)
    some (Formula.Or (Formula.Atomic c) phi, names, g)

/-- The loop `for (Term n : (*names)[x.sort()])` of `Res`, started with the remaining names
and the current `psi`. -/
def KnowledgeBase.ResNamesLoop
    (rec : Formula → SortedTermSet → G → Option (Formula × SortedTermSet × G))
    (phi : Formula) (x : Term) :
    List Term → Formula → SortedTermSet → G → Option (Formula × SortedTermSet × G)
  | [], psi, names, g => some (psi, names, g)
  | n :: ns, psi, names, g =>
    match KnowledgeBase.ResName rec phi x n names g with
    | none => none
    | some (xi, names, g) =>
      KnowledgeBase.ResNamesLoop rec phi x ns
        (Formula.Not (Formula.Or (Formula.Not xi) (Formula.Not psi))) names g

/-- The body of the recursive overload of `KnowledgeBase::Res`, with the recursive call as
parameter `rec`. -/
def KnowledgeBase.ResBody (GKO : GrounderKBOps G Setup)
    (if_no_free_vars : G → Formula → Option Bool × G)
    (rec : Formula → SortedTermSet → G → Option (Formula × SortedTermSet × G))
    (phi : Formula) (names : SortedTermSet) (g : G) : Option (Formula × SortedTermSet × G) :=
  match phi.free_vars with
  | [] =>
    let r := if_no_free_vars g phi
    match r.1 with
    | none => none
    | some r1 => some (KnowledgeBase.bool_to_formula r1, names, r.2)
  | x :: _ =>
    match KnowledgeBase.ResOtherName GKO rec phi x names g with
    | none => none
    | some (psi, names, g) => KnowledgeBase.ResNamesLoop rec phi x (names x.sort) psi names g

/-- The recursive overload of `Res` with a budget `d` on the nesting depth of its recursive
calls. -/
def KnowledgeBase.ResD (GKO : GrounderKBOps G Setup)
    (if_no_free_vars : G → Formula → Option Bool × G) :
    Nat → Formula → SortedTermSet → G → Option (Formula × SortedTermSet × G)
  | 0, phi, names, g =>
    KnowledgeBase.ResBody GKO if_no_free_vars (fun _ _ _ => none) phi names g
  | d + 1, phi, names, g =>
    KnowledgeBase.ResBody GKO if_no_free_vars (KnowledgeBase.ResD GKO if_no_free_vars d)
      phi names g

/-- The recursive overload `Res(p, phi, names, if_no_free_vars)`, on the sphere `g`; the
depth budget is the number of free variables of `phi`. -/
def KnowledgeBase.ResRec (GKO : GrounderKBOps G Setup)
    (if_no_free_vars : G → Formula → Option Bool × G)
    (phi : Formula) (names : SortedTermSet) (g : G) : Option (Formula × SortedTermSet × G) :=
  KnowledgeBase.ResD GKO if_no_free_vars phi.free_vars.length phi names g

/-- The overload `Res(p, phi, if_no_free_vars)`, on the sphere `g` of a knowledge base with
the names `names_`. -/
def KnowledgeBase.Res (GKO : GrounderKBOps G Setup) (names_ : SortedTermSet)
    (if_no_free_vars : G → Formula → Option Bool × G) (phi : Formula) (g : G) :
    Option (Formula × G) :=
  let names := SortedTermSet.insertNames names_ phi.Traverse
  match KnowledgeBase.ResRec GKO if_no_free_vars phi names g with
  | none => none
  | some (psi, _, g) => some (psi, g)

/-- The function `KnowledgeBase::ResEntails`, on the sphere `g`. -/
def KnowledgeBase.ResEntails (F : FormulaOps) (O : SetupOps Setup)
    (GKO : GrounderKBOps G Setup) (names_ : SortedTermSet) (g : G) (k : Nat) (phi : Formula)
    (assume_consistent : Bool) : Option (Formula × G) :=
  let if_no_free_vars := fun (sphere : G) (psi : Formula) =>
    Solver.Entails F O GKO.toGrounderOps sphere k psi assume_consistent
  match phi with
  | .Atomic [a] =>
    if a.lhs.primitive && a.pos then
      let r := Solver.Determines O GKO.toGrounderOps g k a.lhs assume_consistent
      match r.1 with
      | none => none
      | some r1 =>
        if a.rhs.isName then
          some (KnowledgeBase.bool_to_formula
            (match r1 with
              | some val => val.isNull || val == a.rhs
              | none => false), r.2)
        else if a.rhs.isVariable then
          match r1 with
          | some val =>
            if val.isNull then some (KnowledgeBase.bool_to_formula true, r.2)
            else some (Formula.Atomic [Literal.Eq a.rhs val], r.2)
          | none => some (KnowledgeBase.bool_to_formula false, r.2)
        else KnowledgeBase.Res GKO names_ if_no_free_vars phi r.2
    else KnowledgeBase.Res GKO names_ if_no_free_vars phi g
  | phi => KnowledgeBase.Res GKO names_ if_no_free_vars phi g

/-- The function `KnowledgeBase::ResConsistent`, on the sphere `g`. -/
def KnowledgeBase.ResConsistent (F : FormulaOps) (O : SetupOps Setup)
    (GKO : GrounderKBOps G Setup) (names_ : SortedTermSet) (g : G) (k : Nat) (phi : Formula)
    (assume_consistent : Bool) : Option (Formula × G) :=
  let if_no_free_vars := fun (sphere : G) (psi : Formula) =>
    Solver.Consistent F O GKO.toGrounderOps sphere k psi assume_consistent
  KnowledgeBase.Res GKO names_ if_no_free_vars phi g

/-- A call on the sphere `spheres_[p]`: the call has no result when `p` is not an index of
the vector; otherwise the sphere is replaced by what the call leaves behind. -/
def KnowledgeBase.atSphere (spheres : List G) (p : Nat) (call : G → Option (Formula × G)) :
    Option (Formula × List G) :=
  match spheres[p]? with
  | none => none
  | some g =>
    match call g with
    | none => none
    | some (phi, g) => some (phi, spheres.set p g)

/-- The first loop of the case `kBel` of `ReduceModalities`, over the spheres from index `p`
on (`rest`), with the spheres before `p` (`before`) and the vectors `consistent` and
`entails` filled so far.  It returns the two vectors and all spheres as the loop leaves them. -/
def KnowledgeBase.BelSpheresLoop (F : FormulaOps) (O : SetupOps Setup)
    (GKO : GrounderKBOps G Setup) (names_ : SortedTermSet) (k l : Nat)
    (ante not_ante_or_conse : Formula) (assume_consistent : Bool) :
    List G → List G → List Formula → List Formula →
      Option (List Formula × List Formula × List G)
  | [], before, consistent, entails => some (consistent, entails, before)
  | g :: rest, before, consistent, entails =>
    match KnowledgeBase.ResConsistent F O GKO names_ g l ante assume_consistent with
    | none => none
    | some (c, g) =>
      match KnowledgeBase.ResEntails F O GKO names_ g k not_ante_or_conse assume_consistent with
      | none => none
      | some (e, g) =>
        if F.trivially_valid c then
          some (consistent ++ [c], entails ++ [e], before ++ g :: rest)
        else
          KnowledgeBase.BelSpheresLoop F O GKO names_ k l ante not_ante_or_conse
            assume_consistent rest (before ++ [g]) (consistent ++ [c]) (entails ++ [e])

/-- Modelled from the claim that the `break` of the first loop of the case `kBel` does not
change the answer: the loop without the `break`, which fills `consistent` and `entails` with
the formulas of all spheres. -/
def KnowledgeBase.BelSpheresLoopAll (F : FormulaOps) (O : SetupOps Setup)
    (GKO : GrounderKBOps G Setup) (names_ : SortedTermSet) (k l : Nat)
    (ante not_ante_or_conse : Formula) (assume_consistent : Bool) :
    List G → List G → List Formula → List Formula →
      Option (List Formula × List Formula × List G)
  | [], before, consistent, entails => some (consistent, entails, before)
  | g :: rest, before, consistent, entails =>
    match KnowledgeBase.ResConsistent F O GKO names_ g l ante assume_consistent with
    | none => none
    | some (c, g) =>
      match KnowledgeBase.ResEntails F O GKO names_ g k not_ante_or_conse assume_consistent with
      | none => none
      | some (e, g) =>
        KnowledgeBase.BelSpheresLoopAll F O GKO names_ k l ante not_ante_or_conse
          assume_consistent rest (before ++ [g]) (consistent ++ [c]) (entails ++ [e])

/-- The inner loop `for (sphere_index q = 0; q < p; ++q)` of the case `kBel`: the disjunction
of `entails[p]` (here `e`) and `consistent[0]`, ..., `consistent[p - 1]`. -/
def KnowledgeBase.BelConj (consistent : List Formula) (e : Formula) (p : Nat) : Formula :=
  (consistent.take p).foldl (fun conj c => Formula.Or c conj) e

/-- The second loop of the case `kBel`, over the entries of `entails` from index `p` on, with
the current `phi` (`none` for the null reference). -/
def KnowledgeBase.BelFormulaLoop (consistent : List Formula) :
    List Formula → Nat → Option Formula → Option Formula
  | [], _, phi => phi
  | e :: entails, p, phi =>
    let conj := KnowledgeBase.BelConj consistent e p
    KnowledgeBase.BelFormulaLoop consistent entails (p + 1)
      (match phi with
        | none => some conj
        | some phi =>
          some (Formula.Not (Formula.Or (Formula.Not phi) (Formula.Not conj))))

/-- The formula that the case `kBel` returns for the vectors `consistent` and `entails`. -/
def KnowledgeBase.BelFormula (consistent entails : List Formula) : Option Formula :=
  KnowledgeBase.BelFormulaLoop consistent entails 0 none

/-- The function `KnowledgeBase::ReduceModalities`, on the spheres `spheres` of a knowledge
base with the names `names_`: the reduced formula and the spheres as the call leaves them.
There is no result when an `assert(false)` is reached, a sphere index is out of range, or
the formula would be the null reference.  The arguments of `Formula::Factory::Or` are
evaluated from left to right. -/
def KnowledgeBase.ReduceModalities (F : FormulaOps) (O : SetupOps Setup)
    (GKO : GrounderKBOps G Setup) (names_ : SortedTermSet) :
    Formula → Bool → List G → Option (Formula × List G)
  | alpha, assume_consistent, spheres =>
    if alpha.objective then some (alpha, spheres)
    else
      match alpha with
      | .Atomic _ => none
      | .Not arg =>
        match KnowledgeBase.ReduceModalities F O GKO names_ arg assume_consistent spheres with
        | none => none
        | some (phi, spheres) => some (Formula.Not phi, spheres)
      | .Or lhs rhs =>
        match KnowledgeBase.ReduceModalities F O GKO names_ lhs assume_consistent spheres with
        | none => none
        | some (phi, spheres) =>
          match KnowledgeBase.ReduceModalities F O GKO names_ rhs assume_consistent spheres with
          | none => none
          | some (psi, spheres) => some (Formula.Or phi psi, spheres)
      | .Exists x arg =>
        match KnowledgeBase.ReduceModalities F O GKO names_ arg assume_consistent spheres with
        | none => none
        | some (phi, spheres) => some (Formula.Exists x phi, spheres)
      | .Know k arg =>
        match KnowledgeBase.ReduceModalities F O GKO names_ arg assume_consistent spheres with
        | none => none
        | some (phi, spheres) =>
          let p := spheres.length - 1
          KnowledgeBase.atSphere spheres p (fun g =>
            KnowledgeBase.ResEntails F O GKO names_ g k phi assume_consistent)
      | .Cons k arg =>
        match KnowledgeBase.ReduceModalities F O GKO names_ arg assume_consistent spheres with
        | none => none
        | some (phi, spheres) =>
          let p := spheres.length - 1
          KnowledgeBase.atSphere spheres p (fun g =>
            KnowledgeBase.ResConsistent F O GKO names_ g k phi assume_consistent)
      | .Bel k l antecedent _ not_antecedent_or_consequent =>
        match KnowledgeBase.ReduceModalities F O GKO names_ antecedent assume_consistent
            spheres with
        | none => none
        | some (ante, spheres) =>
          match KnowledgeBase.ReduceModalities F O GKO names_ not_antecedent_or_consequent
              assume_consistent spheres with
          | none => none
          | some (not_ante_or_conse, spheres) =>
            match KnowledgeBase.BelSpheresLoop F O GKO names_ k l ante not_ante_or_conse
                assume_consistent spheres [] [] [] with
            | none => none
            | some (consistent, entails, spheres) =>
              match KnowledgeBase.BelFormula consistent entails with
              | none => none
              | some phi => some (phi, spheres)
      | .Guarantee arg =>
        KnowledgeBase.ReduceModalities F O GKO names_ arg true spheres

/-- The function `KnowledgeBase::Entails`: the answer and the knowledge base after the call. -/
def KnowledgeBase.Entails (F : FormulaOps) (O : SetupOps Setup) (N : NormalFormOps)
    (GKO : GrounderKBOps G Setup) (kb : KnowledgeBase G) (sigma : Formula) :
    Option (Bool × KnowledgeBase G) :=
  match (if kb.spheres_changed_ then
      (KnowledgeBase.BuildSpheres F O GKO kb).map
        (fun kb => { kb with spheres_changed_ := false })
    else some kb) with
  | none => none
  | some kb =>
    let sigma_nf := N.NF sigma
    match KnowledgeBase.ReduceModalities F O GKO kb.names_ sigma_nf false kb.spheres_ with
    | none => none
    | some (phi, spheres) =>
      let r := Solver.Entails F O GKO.toGrounderOps kb.objective_ 0 phi false
      match r.1 with
      | none => none
      | some b => some (b, { kb with spheres_ := spheres, objective_ := r.2 })

end Res

/-! ## Instances of the knowledge base for concrete runs -/

/-- The fixed grounder with the remaining member functions: a new grounder has no clauses
and tracks the names and split terms of the scenario, `AddClause` stores a ground clause in
the setup, `CreateName` hands out the name of the given sort whose id follows the ids of the
tracked names of this sort. -/
def FixedGrounder.kbops : GrounderKBOps FixedGrounder RefSetup where
  toGrounderOps := FixedGrounder.ops
  create := ⟨RefSetup.ofClauses [], [Scenario.t1, Scenario.t2, Scenario.t3, Scenario.t],
    Scenario.names, []⟩
  AddClause := fun c g => { g with setup := RefSetup.ofClauses (g.setup.clauses ++ [c]) }
  CreateName := fun sort g =>
    (Term.name (((g.names sort).map (fun n => match n with | .name id _ => id | _ => 0)).foldl
      max 0 + 1) sort, g)
  ReturnName := fun _ g => g

/-- The normal form of a formula that is in normal form already, and the conversion of an
atomic formula to its clause. -/
def RefNormalFormOps : NormalFormOps where
  NF := fun alpha => alpha
  AsUnivClause := fun alpha => match alpha with | .Atomic c => some c | _ => none

namespace Scenario

/-- The conditional belief "if `t2 = a` then `t = n`", at the levels `k = l = 1`. -/
def conditional : Conditional :=
  ⟨1, 1, Formula.Atomic [Literal.Eq t2 a], [Literal.Neq t2 a, Literal.Eq t n], false⟩

/-- The conditional belief "if `t2 ≠ a` then `t = m`", at the levels `k = l = 1`. -/
def conditional' : Conditional :=
  ⟨1, 1, Formula.Atomic [Literal.Neq t2 a], [Literal.Eq t2 a, Literal.Eq t m], false⟩

/-- A sphere over the clauses of the scenario, in which the names and split terms of the
scenario are tracked. -/
def sphere : FixedGrounder := grounder [t1, t2, t3, t]

/-- The sphere of the scenario with the literal assignment `t2 = a`, with which
`Solver::Consistent` finds the antecedent `t2 = a` consistent. -/
def sphere_with_assignment : FixedGrounder :=
  ⟨setup, [t1, t2, t3, t], names, [[Literal.Eq t2 a]]⟩

/-- A formula with the free variable `x` of sort 1. -/
def open_query : Formula := Formula.Atomic [Literal.Eq t1 (Term.var 1 1)]

/-- The conditional belief "if `t1 = a` then `t2 ≠ a`", at the levels `k = l = 1`. -/
def default_rule : Conditional :=
  ⟨1, 1, Formula.Atomic [Literal.Eq t1 a], [Literal.Neq t1 a, Literal.Neq t2 a], false⟩

/-- The conditional belief "if `t2 = a` then `t = m`", at the levels `k = l = 1`. -/
def exception_rule : Conditional :=
  ⟨1, 1, Formula.Atomic [Literal.Eq t2 a], [Literal.Neq t2 a, Literal.Eq t m], false⟩

/-- A knowledge base that knows `t1 = a` and holds the two conditional beliefs
`default_rule` and `exception_rule`: the antecedent of the second is refuted as long as the
first is in force. -/
def kb : KnowledgeBase FixedGrounder :=
  let kb := KnowledgeBase.create FixedGrounder.kbops
  let kb := KnowledgeBase.AddClause FixedGrounder.kbops kb [Literal.Eq t1 a]
  let kb := KnowledgeBase.AddConditional kb default_rule.k default_rule.l default_rule.ante
    default_rule.not_ante_or_conse default_rule.assume_consistent
  KnowledgeBase.AddConditional kb exception_rule.k exception_rule.l exception_rule.ante
    exception_rule.not_ante_or_conse exception_rule.assume_consistent

end Scenario

/-! ## `Solver::Split` without the budget break -/

section SplitNoBreak

variable {Setup T : Type}

/-- Modelled from the claim that the budget break of `Split` only cuts wasted work: the loop
over the split terms of `Split` without the test
`if (n_split_terms >= k && n_split_terms_left < k-1) break;`, otherwise as `SplitTermsLoop`. -/
def SplitTermsLoopNoBreak (O : SetupOps Setup) (asBool : T → Bool) (split_order_matters : Bool)
    (names : SortedTermSet) (goal : Setup → Option T) (merge : T → T → T)
    (inconsistent_result unsuccessful_result : T)
    (rec : Setup → List Term → Nat → Option T)
    (s : Setup) (split_terms : List Term) (n_split_terms : Nat) :
    List Term → Nat → Bool → Option T
  | [], _, recursed => if recursed then some unsuccessful_result else goal s
  | t :: it, n_split_terms_left, recursed =>
    let n_split_terms_left := n_split_terms_left - 1
    if (O.Determines s t).isSome then
      SplitTermsLoopNoBreak O asBool split_order_matters names goal merge inconsistent_result
        unsuccessful_result rec s split_terms n_split_terms it n_split_terms_left recursed
    else
      match SplitNamesLoop O asBool merge inconsistent_result
          (fun split_setup =>
            rec split_setup (if split_order_matters then split_terms else it)
              (if split_order_matters then n_split_terms else n_split_terms_left))
          s t (names t.sort) unsuccessful_result recursed with
      | none => none
      | some (.ret merged_result) => some merged_result
      | some (.next_split recursed) =>
        SplitTermsLoopNoBreak O asBool split_order_matters names goal merge inconsistent_result
          unsuccessful_result rec s split_terms n_split_terms it n_split_terms_left recursed

/-- The body of `Split` without the budget break. -/
def SplitBodyNoBreak (O : SetupOps Setup) (asBool : T → Bool) (split_order_matters : Bool)
    (names : SortedTermSet) (goal : Setup → Option T) (merge : T → T → T)
    (inconsistent_result unsuccessful_result : T)
    (rec : Setup → List Term → Nat → Option T)
    (s : Setup) (split_terms : List Term) (n_split_terms : Nat) (k : Int) : Option T :=
  if O.contains_empty_clause s then some unsuccessful_result
  else if k > 0 ∧ n_split_terms > 0 then
    SplitTermsLoopNoBreak O asBool split_order_matters names goal merge inconsistent_result
      unsuccessful_result rec s split_terms n_split_terms split_terms n_split_terms false
  else goal s

/-- The procedure `Split` without the budget break, with a budget `d` on the nesting depth of
its recursive calls. -/
def SplitDNoBreak (O : SetupOps Setup) (asBool : T → Bool) (split_order_matters : Bool)
    (names : SortedTermSet) (goal : Setup → Option T) (merge : T → T → T)
    (inconsistent_result unsuccessful_result : T) :
    Nat → Setup → List Term → Nat → Int → Option T
  | 0, s, split_terms, n_split_terms, k =>
    SplitBodyNoBreak O asBool split_order_matters names goal merge inconsistent_result
      unsuccessful_result (fun _ _ _ => none) s split_terms n_split_terms k
  | d + 1, s, split_terms, n_split_terms, k =>
    SplitBodyNoBreak O asBool split_order_matters names goal merge inconsistent_result
      unsuccessful_result
      (fun s' ts n =>
        SplitDNoBreak O asBool split_order_matters names goal merge inconsistent_result
          unsuccessful_result d s' ts n (k - 1))
      s split_terms n_split_terms k

/-- The procedure `Split` without the budget break, on a set of split terms. -/
def SplitNoBreak (O : SetupOps Setup) (asBool : T → Bool) (split_order_matters : Bool)
    (s : Setup) (split_terms : TermSet) (names : SortedTermSet) (k : Int)
    (goal : Setup → Option T) (merge : T → T → T)
    (inconsistent_result unsuccessful_result : T) : Option T :=
  SplitDNoBreak O asBool split_order_matters names goal merge inconsistent_result
    unsuccessful_result k.toNat s split_terms split_terms.length k

end SplitNoBreak

namespace Scenario

/-- A setup in which `t1` and `t2` are determined (`t1 = a`, `t2 = a`) and `t = n` follows
from either value of `t3`: the ground instances of `[t3 ≠ x ∨ t = n]`. -/
def budget_setup : RefSetup :=
  RefSetup.ofClauses
    [[Literal.Eq t1 a], [Literal.Eq t2 a],
     [Literal.Neq t3 a, Literal.Eq t n], [Literal.Neq t3 b, Literal.Eq t n]]

/-- A sphere over `budget_setup` with the split terms enumerated as `t1, t2, t3`. -/
def budget_grounder : FixedGrounder :=
  ⟨budget_setup, [t1, t2, t3], names, []⟩

end Scenario

/-! ## The reachable states of a knowledge base -/

section Reachable

variable {G Setup : Type}

/-- The first step of `KnowledgeBase::Entails`: the spheres are rebuilt when
`spheres_changed_` is set.  The result is the state in which `Entails` reduces the
modalities of the query. -/
def KnowledgeBase.EntailsPrepare (F : FormulaOps) (O : SetupOps Setup)
    (GKO : GrounderKBOps G Setup) (kb : KnowledgeBase G) : Option (KnowledgeBase G) :=
  if kb.spheres_changed_ then
    (KnowledgeBase.BuildSpheres F O GKO kb).map
      (fun kb => { kb with spheres_changed_ := false })
  else some kb

/-- The states of a `KnowledgeBase` that are reachable from its constructor through calls of
`Add(const Clause&)`, `Add(const Formula&)` and `Entails`.  A call of `Entails` that has no
result (it runs into an assertion) leaves no state behind. -/
inductive KnowledgeBase.Reachable (F : FormulaOps) (O : SetupOps Setup) (N : NormalFormOps)
    (GKO : GrounderKBOps G Setup) : KnowledgeBase G → Prop where
  | create : KnowledgeBase.Reachable F O N GKO (KnowledgeBase.create GKO)
  | AddClause (kb : KnowledgeBase G) (c : Clause) :
      KnowledgeBase.Reachable F O N GKO kb →
      KnowledgeBase.Reachable F O N GKO (KnowledgeBase.AddClause GKO kb c)
  | Add (kb : KnowledgeBase G) (alpha : Formula) :
      KnowledgeBase.Reachable F O N GKO kb →
      KnowledgeBase.Reachable F O N GKO (KnowledgeBase.Add N GKO kb alpha).2
  | Entails (kb : KnowledgeBase G) (sigma : Formula) (b : Bool) (kb' : KnowledgeBase G) :
      KnowledgeBase.Reachable F O N GKO kb →
      KnowledgeBase.Entails F O N GKO kb sigma = some (b, kb') →
      KnowledgeBase.Reachable F O N GKO kb'

end Reachable

/-! ## `Grounder::Assignments` (as exercised by `tests/grounder.cc`) -/

/-- An assignment `Grounder::Assignments::Assignment`: the pairs of a variable and the name
the variable is mapped to. -/
abbrev Grounder.Assignment := List (Term × Term)

/-- Modelled from the spec: the class `Grounder::Assignments` lives in `grounder.h`, which is
not part of the sources at hand; `tests/grounder.cc` constructs it from a set of variables
and a name set and counts its elements.  The assignments are the cross product over the
variables of the names of their sort: for every variable every name of the same sort from
the name set, one assignment per combination. -/
def Grounder.Assignments (names : SortedTermSet) : List Term → List Grounder.Assignment
  | [] => [[]]
  | x :: vars =>
    (names x.sort).flatMap
      (fun n => (Grounder.Assignments names vars).map (fun a => (x, n) :: a))

namespace Scenario

/-- The name set of the last block of `GrounderTest.Assignments`: the names `n1`, `n2` of
sort 1 and `n3` of sort 2, inserted into the empty set. -/
def test_names : SortedTermSet :=
  SortedTermSet.insert (SortedTermSet.insert (SortedTermSet.insert (fun _ => [])
    (Term.name 1 1)) (Term.name 2 1)) (Term.name 3 2)

/-- The variables `x1`, `x2` of sort 1 and `x3` of sort 2 of `GrounderTest.Assignments`. -/
def test_vars : List Term := [Term.var 1 1, Term.var 2 1, Term.var 3 2]

end Scenario

end limbo

/-! ## lela: the parser of the problem description language (`src/lela/format/pdl/parser.h`)

The rules of the grammar from `term` to `query` are embedded.  The lexer (`lexer.h`) is not
part of the sources at hand: the parser runs on the list of the tokens that are left, `Tok(n)`
is the `n`-th of them and `Advance(n)` drops `n`.  A `Result` keeps its kind, its value and
its message; the iterators that mark the remaining input for the error display, and the
suffix "(in rule f:line)" that `LELA_MSG` appends to a message, are left out.  An
`Action<T>` is a function from the context to a `Result<T>` and the context after the run.
`Context` and `formula.h` are not part of the sources either: the member functions the rules
call are the record `ContextOps`.  The recursion of `term` and of `primary_formula` and the
loops of the rules run on fuel; `none` says that the fuel did not suffice. -/

namespace lela.format.pdl

/-- The token kinds `Token::Id` that the parser tests for. -/
inductive Token.Id where
  | kSort | kVar | kName | kFun | kKB | kLet | kQuery | kAssert | kRefute
  | kColon | kComma | kSlash | kEquality | kInequality | kNot | kOr | kAnd
  | kForall | kExists | kKnow | kCons | kBel | kDoubleRArrow | kRArrow | kLRArrow
  | kAssign | kLess | kGreater | kLeftParen | kRightParen | kUint | kIdentifier
  | kIf | kElse | kWhile | kFor | kIn | kBegin | kEnd | kCall
  deriving DecidableEq

/-- A token: its kind `id()` and its text `str()`. -/
structure Token where
  id : Token.Id
  str : String
  deriving DecidableEq

/-- The type `Result<T>`: `val` and `msg_`, tagged with `type_`. -/
inductive Result (T : Type) where
  | kSuccess (val : T) : Result T
  | kUnapplicable (msg : String) : Result T
  | kError (msg : String) : Result T

/-- The function `Result::successful`, which is also `operator bool`. -/
def Result.successful {T : Type} : Result T → Bool
  | .kSuccess _ => true
  | _ => false

/-- The function `Result::applied`. -/
def Result.applied {T : Type} : Result T → Bool
  | .kUnapplicable _ => false
  | _ => true

/-- The function `Result::msg`. -/
def Result.msg {T : Type} : Result T → String
  | .kSuccess _ => ""
  | .kUnapplicable msg => msg
  | .kError msg => msg

/-- The value of a successful result. -/
def Result.val? {T : Type} : Result T → Option T
  | .kSuccess val => some val
  | _ => none

def kUnapplicableLabel : String := "Unappl.: "

def kErrorLabel : String := "Failure: "

def kCausesLabel : String := " causes: "

/-- The macro `LELA_MSG`, without the rule and the line it appends. -/
def LELA_MSG (msg : String) : String := msg

/-- The function `Success(result)`. -/
def Success {T : Type} (result : T) : Result T := Result.kSuccess result

/-- The function `Error(msg)`. -/
def Error {T : Type} (msg : String) : Result T := Result.kError (kErrorLabel ++ msg)

/-- The function `Error(msg, r)`, which prepends the message of the result `r`. -/
def ErrorFrom {T U : Type} (msg : String) (r : Result U) : Result T :=
  Result.kError (r.msg ++ "\n" ++ kCausesLabel ++ msg)

/-- The function `Unapplicable(msg)`. -/
def Unapplicable {T : Type} (msg : String) : Result T :=
  Result.kUnapplicable (kUnapplicableLabel ++ msg)

/-- The type `Action<T>` (never null in the rules embedded here): `Run(ctx)` is the
application to `ctx`. -/
abbrev Action (C T : Type) := C → Result T × C

/-- The result of a rule: none when the fuel did not suffice, else the `Result` and the
tokens that are left. -/
abbrev Parsed (C T : Type) := Option (Result (Action C T) × List Token)

/-- The function `Tok(n)`. -/
def Tok (ts : List Token) (n : Nat) : Option Token := ts[n]?

/-- The function `Is(symbol, id)`. -/
def Is (symbol : Option Token) (id : Token.Id) : Bool :=
  match symbol with
  | some t => decide (t.id = id)
  | none => false

/-- The function `Advance(n)`. -/
def Advance (ts : List Token) (n : Nat) : List Token := ts.drop n

/-- The text `Tok().val.str()` of the first token (empty when there is none). -/
def TokStr (ts : List Token) : String :=
  match Tok ts 0 with
  | some t => t.str
  | none => ""

/-- A `Symbol` as far as the parser looks at it: its `arity()`; the remaining fields
identify it for `CreateTerm`. -/
structure Symbol where
  id : Nat
  sort : Nat
  arity : Nat
  name : Bool
  deriving DecidableEq

/-- The member functions of `Context` that the rules from `term` to `query` call, over a
state `C` of the context, together with `Formula::subjective` of `formula.h` and the output
operator for formulas of `format/output.h`.  Only `Query` is taken to change the context. -/
structure ContextOps (C : Type) where
  IsRegisteredName : C → String → Bool
  IsRegisteredFunction : C → String → Bool
  IsRegisteredVariable : C → String → Bool
  IsRegisteredMetaVariable : C → String → Bool
  IsRegisteredFormula : C → String → Bool
  LookupName : C → String → Symbol
  LookupFunction : C → String → Symbol
  LookupVariable : C → String → limbo.Term
  LookupMetaVariable : C → String → limbo.Term
  LookupFormula : C → String → limbo.Formula
  CreateTerm : C → Symbol → List limbo.Term → limbo.Term
  Query : C → limbo.Formula → Bool × C
  subjective : limbo.Formula → Bool
  str : limbo.Formula → String

/-- Modelled from the spec: `Formula::Factory::Bel(k, l, antecedent, consequent)` lives in
`formula.h`, which is not part of the sources at hand.  The node keeps the antecedent, the
consequent and the material implication of the two, which `kb.h` reads as
`not_antecedent_or_consequent()`. -/
def Factory.Bel (k l : Nat) (antecedent consequent : limbo.Formula) : limbo.Formula :=
  limbo.Formula.Bel k l antecedent consequent
    (limbo.Formula.Or (limbo.Formula.Not antecedent) consequent)

section Rules

variable {C : Type}

/-- The action of `atomic_term`. -/
def atomic_term_action (O : ContextOps C) (id : String) : Action C limbo.Term :=
  fun ctx =>
    if O.IsRegisteredName ctx id || O.IsRegisteredFunction ctx id then
      let s := if O.IsRegisteredName ctx id then O.LookupName ctx id else O.LookupFunction ctx id
      if s.arity ≠ 0 then
        (Error (LELA_MSG ("Wrong number of arguments for " ++ id)), ctx)
      else (Success (O.CreateTerm ctx s []), ctx)
    else if O.IsRegisteredVariable ctx id then
      (Success (O.LookupVariable ctx id), ctx)
    else if O.IsRegisteredMetaVariable ctx id then
      (Success (O.LookupMetaVariable ctx id), ctx)
    else (Error (LELA_MSG "Error in atomic_term"), ctx)

/-- The rule `atomic_term`. -/
def atomic_term (O : ContextOps C) (ts : List Token) : Parsed C limbo.Term :=
  if Is (Tok ts 0) Token.Id.kIdentifier then
    let id := TokStr ts
    let ts := Advance ts 1
    some (Success (atomic_term_action O id), ts)
  else
    some (Error (LELA_MSG "Expected a declared variable/name/function identifier"), ts)

/-- The loop `for (const Action<Term>& a : args_a)` of the action of `term`: the arguments
that were computed, or the error of the first action that fails. -/
def term_action_args : List (Action C limbo.Term) → List limbo.Term → C →
    Result (List limbo.Term) × C
  | [], args, ctx => (Success args, ctx)
  | a :: args_a, args, ctx =>
    match a ctx with
    | (Result.kSuccess t, ctx) => term_action_args args_a (args ++ [t]) ctx
    | (t, ctx) => (ErrorFrom (LELA_MSG "Expected argument term") t, ctx)

/-- The action of `term`. -/
def term_action (O : ContextOps C) (id : String) (args_a : List (Action C limbo.Term)) :
    Action C limbo.Term :=
  fun ctx =>
    if O.IsRegisteredName ctx id || O.IsRegisteredFunction ctx id then
      let s := if O.IsRegisteredName ctx id then O.LookupName ctx id else O.LookupFunction ctx id
      if s.arity ≠ args_a.length then
        (Error (LELA_MSG ("Wrong number of arguments for " ++ id)), ctx)
      else
        match term_action_args args_a [] ctx with
        | (Result.kSuccess args, ctx) => (Success (O.CreateTerm ctx s args), ctx)
        | (Result.kUnapplicable msg, ctx) => (Result.kUnapplicable msg, ctx)
        | (Result.kError msg, ctx) => (Result.kError msg, ctx)
    else if O.IsRegisteredVariable ctx id then
      (Success (O.LookupVariable ctx id), ctx)
    else if O.IsRegisteredMetaVariable ctx id then
      (Success (O.LookupMetaVariable ctx id), ctx)
    else (Error (LELA_MSG "Error in term"), ctx)

/-- The loop `for (;;)` of `term` over the arguments, `term_rec` being the rule `term`
for an argument: the actions of the arguments, or the error that ends the rule. -/
def term_args (term_rec : List Token → Parsed C limbo.Term) :
    Nat → List (Action C limbo.Term) → List Token →
      Option ((Result (Action C limbo.Term) ⊕ List (Action C limbo.Term)) × List Token)
  | 0, _, _ => none
  | fuel + 1, args, ts =>
    match term_rec ts with
    | none => none
    | some (Result.kSuccess t, ts) =>
      let args := args ++ [t]
      if Is (Tok ts 0) Token.Id.kComma then
        let ts := Advance ts 1
        term_args term_rec fuel args ts
      else if Is (Tok ts 0) Token.Id.kRightParen then
        let ts := Advance ts 1
        some (Sum.inr args, ts)
      else
        some (Sum.inl (Error (LELA_MSG "Expected comma ',' or closing parenthesis ')'")), ts)
    | some (t, ts) => some (Sum.inl (ErrorFrom (LELA_MSG "Expected argument term") t), ts)

/-- The rule `term`, with `d` levels of nested argument lists. -/
def term (O : ContextOps C) : Nat → List Token → Parsed C limbo.Term
  | 0, _ => none
  | d + 1, ts =>
    if Is (Tok ts 0) Token.Id.kIdentifier then
      let id := TokStr ts
      let ts := Advance ts 1
      if Is (Tok ts 0) Token.Id.kLeftParen then
        let ts := Advance ts 1
        match term_args (term O d) (ts.length + 1) [] ts with
        | none => none
        | some (Sum.inl e, ts) => some (e, ts)
        | some (Sum.inr args, ts) => some (Success (term_action O id args), ts)
      else some (Success (term_action O id []), ts)
    else
      some (Error (LELA_MSG "Expected a declared variable/name/function identifier"), ts)

/-- The action of `literal`. -/
def literal_action (lhs_a : Action C limbo.Term) (pos : Bool) (rhs_a : Action C limbo.Term) :
    Action C limbo.Literal :=
  fun ctx =>
    match lhs_a ctx with
    | (Result.kSuccess lhs, ctx) =>
      match rhs_a ctx with
      | (Result.kSuccess rhs, ctx) =>
        let a := if pos then limbo.Literal.Eq lhs rhs else limbo.Literal.Neq lhs rhs
        (Success a, ctx)
      | (rhs, ctx) => (ErrorFrom (LELA_MSG "Expected a rhs term") rhs, ctx)
    | (lhs, ctx) => (ErrorFrom (LELA_MSG "Expected a lhs term") lhs, ctx)

/-- The rule `literal`. -/
def literal (O : ContextOps C) (d : Nat) (ts : List Token) : Parsed C limbo.Literal :=
  match term O d ts with
  | none => none
  | some (Result.kSuccess lhs, ts) =>
    if Is (Tok ts 0) Token.Id.kEquality || Is (Tok ts 0) Token.Id.kInequality then
      let pos := Is (Tok ts 0) Token.Id.kEquality
      let ts := Advance ts 1
      match term O d ts with
      | none => none
      | some (Result.kSuccess rhs, ts) => some (Success (literal_action lhs pos rhs), ts)
      | some (rhs, ts) => some (ErrorFrom (LELA_MSG "Expected rhs term") rhs, ts)
    else some (Error (LELA_MSG "Expected equality or inequality '=='/'!='"), ts)
  | some (lhs, ts) => some (ErrorFrom (LELA_MSG "Expected a lhs term") lhs, ts)

/-- The action that `conjunctive_formula` builds for `alpha && beta`. -/
def conjunctive_action (alpha_a beta_a : Action C limbo.Formula) : Action C limbo.Formula :=
  fun ctx =>
    match alpha_a ctx with
    | (Result.kSuccess alpha, ctx) =>
      match beta_a ctx with
      | (Result.kSuccess beta, ctx) =>
        (Success (limbo.Formula.Not (limbo.Formula.Or (limbo.Formula.Not alpha)
          (limbo.Formula.Not beta))), ctx)
      | (beta, ctx) => (ErrorFrom (LELA_MSG "Expected right conjunctive formula") beta, ctx)
    | (alpha, ctx) => (ErrorFrom (LELA_MSG "Expected left conjunctive formula") alpha, ctx)

/-- The loop `while (Is(Tok(), Token::kAnd))` of `conjunctive_formula`. -/
def conjunctive_loop (primary : List Token → Parsed C limbo.Formula) :
    Nat → Action C limbo.Formula → List Token → Parsed C limbo.Formula
  | 0, alpha, ts => if Is (Tok ts 0) Token.Id.kAnd then none else some (Success alpha, ts)
  | fuel + 1, alpha, ts =>
    if Is (Tok ts 0) Token.Id.kAnd then
      let ts := Advance ts 1
      match primary ts with
      | none => none
      | some (Result.kSuccess beta, ts) =>
        conjunctive_loop primary fuel (conjunctive_action alpha beta) ts
      | some (beta, ts) =>
        some (ErrorFrom (LELA_MSG "Expected left conjunctive formula") beta, ts)
    else some (Success alpha, ts)

/-- The rule `conjunctive_formula`, `primary` being the rule `primary_formula`. -/
def conjunctive_formula (primary : List Token → Parsed C limbo.Formula) (ts : List Token) :
    Parsed C limbo.Formula :=
  match primary ts with
  | none => none
  | some (Result.kSuccess alpha, ts) => conjunctive_loop primary ts.length alpha ts
  | some (alpha, ts) => some (ErrorFrom (LELA_MSG "Expected left conjunctive formula") alpha, ts)

/-- The action that `disjunctive_formula` builds for `alpha || beta`. -/
def disjunctive_action (alpha_a beta_a : Action C limbo.Formula) : Action C limbo.Formula :=
  fun ctx =>
    match alpha_a ctx with
    | (Result.kSuccess alpha, ctx) =>
      match beta_a ctx with
      | (Result.kSuccess beta, ctx) => (Success (limbo.Formula.Or alpha beta), ctx)
      | (beta, ctx) =>
        (ErrorFrom (LELA_MSG "Expected right argument conjunctive formula") beta, ctx)
    | (alpha, ctx) =>
      (ErrorFrom (LELA_MSG "Expected left argument conjunctive formula") alpha, ctx)

/-- The loop `while (Is(Tok(), Token::kOr))` of `disjunctive_formula`. -/
def disjunctive_loop (primary : List Token → Parsed C limbo.Formula) :
    Nat → Action C limbo.Formula → List Token → Parsed C limbo.Formula
  | 0, alpha, ts => if Is (Tok ts 0) Token.Id.kOr then none else some (Success alpha, ts)
  | fuel + 1, alpha, ts =>
    if Is (Tok ts 0) Token.Id.kOr then
      let ts := Advance ts 1
      match conjunctive_formula primary ts with
      | none => none
      | some (Result.kSuccess beta, ts) =>
        disjunctive_loop primary fuel (disjunctive_action alpha beta) ts
      | some (beta, ts) =>
        some (ErrorFrom (LELA_MSG "Expected right argument conjunctive formula") beta, ts)
    else some (Success alpha, ts)

/-- The rule `disjunctive_formula`. -/
def disjunctive_formula (primary : List Token → Parsed C limbo.Formula) (ts : List Token) :
    Parsed C limbo.Formula :=
  match conjunctive_formula primary ts with
  | none => none
  | some (Result.kSuccess alpha, ts) => disjunctive_loop primary ts.length alpha ts
  | some (alpha, ts) =>
    some (ErrorFrom (LELA_MSG "Expected left argument conjunctive formula") alpha, ts)

/-- The action that `implication_formula` builds for `alpha -> beta`. -/
def implication_action (alpha_a beta_a : Action C limbo.Formula) : Action C limbo.Formula :=
  fun ctx =>
    match alpha_a ctx with
    | (Result.kSuccess alpha, ctx) =>
      match beta_a ctx with
      | (Result.kSuccess beta, ctx) =>
        (Success (limbo.Formula.Or (limbo.Formula.Not alpha) beta), ctx)
      | (beta, ctx) =>
        (ErrorFrom (LELA_MSG "Expected right argument disjunctive formula") beta, ctx)
    | (alpha, ctx) =>
      (ErrorFrom (LELA_MSG "Expected left argument disjunctive formula") alpha, ctx)

/-- The rule `implication_formula`. -/
def implication_formula (primary : List Token → Parsed C limbo.Formula) (ts : List Token) :
    Parsed C limbo.Formula :=
  match disjunctive_formula primary ts with
  | none => none
  | some (Result.kSuccess alpha, ts) =>
    if Is (Tok ts 0) Token.Id.kRArrow then
      let ts := Advance ts 1
      match disjunctive_formula primary ts with
      | none => none
      | some (Result.kSuccess beta, ts) => some (Success (implication_action alpha beta), ts)
      | some (beta, ts) =>
        some (ErrorFrom (LELA_MSG "Expected right argument disjunctive formula") beta, ts)
    else some (Success alpha, ts)
  | some (alpha, ts) =>
    some (ErrorFrom (LELA_MSG "Expected left argument disjunctive formula") alpha, ts)

/-- The action that `equivalence_formula` builds for `alpha <-> beta`: `lr` is built from
clones of the two formulas and `rl` from the formulas themselves, in the same positions. -/
def equivalence_action (alpha_a beta_a : Action C limbo.Formula) : Action C limbo.Formula :=
  fun ctx =>
    match alpha_a ctx with
    | (Result.kSuccess alpha, ctx) =>
      match beta_a ctx with
      | (Result.kSuccess beta, ctx) =>
        let lr := limbo.Formula.Or (limbo.Formula.Not alpha) beta
        let rl := limbo.Formula.Or (limbo.Formula.Not alpha) beta
        (Success (limbo.Formula.Not (limbo.Formula.Or (limbo.Formula.Not lr)
          (limbo.Formula.Not rl))), ctx)
      | (beta, ctx) =>
        (ErrorFrom (LELA_MSG "Expected right argument implication formula") beta, ctx)
    | (alpha, ctx) =>
      (ErrorFrom (LELA_MSG "Expected left argument implication formula") alpha, ctx)

/-- The rule `equivalence_formula`. -/
def equivalence_formula (primary : List Token → Parsed C limbo.Formula) (ts : List Token) :
    Parsed C limbo.Formula :=
  match implication_formula primary ts with
  | none => none
  | some (Result.kSuccess alpha, ts) =>
    if Is (Tok ts 0) Token.Id.kLRArrow then
      let ts := Advance ts 1
      match implication_formula primary ts with
      | none => none
      | some (Result.kSuccess beta, ts) => some (Success (equivalence_action alpha beta), ts)
      | some (beta, ts) =>
        some (ErrorFrom (LELA_MSG "Expected right argument implication formula") beta, ts)
    else some (Success alpha, ts)
  | some (alpha, ts) =>
    some (ErrorFrom (LELA_MSG "Expected left argument implication formula") alpha, ts)

/-- The action of `primary_formula` for a negation. -/
def not_action (alpha_a : Action C limbo.Formula) : Action C limbo.Formula :=
  fun ctx =>
    match alpha_a ctx with
    | (Result.kSuccess alpha, ctx) => (Success (limbo.Formula.Not alpha), ctx)
    | (alpha, ctx) =>
      (ErrorFrom (LELA_MSG "Expected a primary formula within negation") alpha, ctx)

/-- The action of `primary_formula` for a quantifier.  The test `!x.val.variable()` reads the
value of `x` also when `x` is no success; the value is then the null term, which is no
variable. -/
def quantifier_action (ex : Bool) (x_a : Action C limbo.Term)
    (alpha_a : Action C limbo.Formula) : Action C limbo.Formula :=
  fun ctx =>
    match x_a ctx with
    | (x, ctx) =>
      let x_val := (x.val?).getD limbo.Term.null
      if !x_val.isVariable then
        (ErrorFrom (LELA_MSG "Expected variable in quantifier") x, ctx)
      else
        match alpha_a ctx with
        | (Result.kSuccess alpha, ctx) =>
          (Success (if ex then limbo.Formula.Exists x_val alpha
            else limbo.Formula.Not (limbo.Formula.Exists x_val (limbo.Formula.Not alpha))), ctx)
        | (alpha, ctx) =>
          (ErrorFrom (LELA_MSG "Expected primary formula within quantifier") alpha, ctx)

/-- The action of `primary_formula` for `Know` and `Cons`. -/
def modality_action (know : Bool) (k : Nat) (alpha_a : Action C limbo.Formula) :
    Action C limbo.Formula :=
  fun ctx =>
    match alpha_a ctx with
    | (Result.kSuccess alpha, ctx) =>
      if know then (Success (limbo.Formula.Know k alpha), ctx)
      else (Success (limbo.Formula.Cons k alpha), ctx)
    | (alpha, ctx) =>
      (ErrorFrom (LELA_MSG "Expected primary formula within modality") alpha, ctx)

/-- The action of `primary_formula` for `Bel`. -/
def bel_action (k l : Nat) (alpha_a beta_a : Action C limbo.Formula) :
    Action C limbo.Formula :=
  fun ctx =>
    match alpha_a ctx with
    | (Result.kSuccess alpha, ctx) =>
      match beta_a ctx with
      | (Result.kSuccess beta, ctx) => (Success (Factory.Bel k l alpha beta), ctx)
      | (beta, ctx) =>
        (ErrorFrom (LELA_MSG "Expected primary formula within modality") beta, ctx)
    | (alpha, ctx) =>
      (ErrorFrom (LELA_MSG "Expected primary formula within modality") alpha, ctx)

/-- The action of `primary_formula` for a formula in brackets. -/
def brackets_action (alpha_a : Action C limbo.Formula) : Action C limbo.Formula :=
  fun ctx =>
    match alpha_a ctx with
    | (Result.kSuccess alpha, ctx) => (Success alpha, ctx)
    | (alpha, ctx) => (ErrorFrom (LELA_MSG "Expected formula within brackets") alpha, ctx)

/-- The action of `primary_formula` for an abbreviation. -/
def abbreviation_action (O : ContextOps C) (id : String) : Action C limbo.Formula :=
  fun ctx =>
    if !O.IsRegisteredFormula ctx id then
      (Error (LELA_MSG ("Undefined formula abbreviation " ++ id)), ctx)
    else (Success (O.LookupFormula ctx id), ctx)

/-- The action of `primary_formula` for a literal. -/
def atomic_action (a_a : Action C limbo.Literal) : Action C limbo.Formula :=
  fun ctx =>
    match a_a ctx with
    | (Result.kSuccess a, ctx) => (Success (limbo.Formula.Atomic [a]), ctx)
    | (a, ctx) => (ErrorFrom (LELA_MSG "Expected literal") a, ctx)

/-- The split level `std::stoi(Tok().val.str())` of a `kUint` token, whose text is a
sequence of digits. -/
def split_level (ts : List Token) : Nat := ((TokStr ts).toNat?).getD 0

/-- The rule `primary_formula`, with `d` levels of nested primary formulas; the terms of a
literal get the same number of levels. -/
def primary_formula (O : ContextOps C) : Nat → List Token → Parsed C limbo.Formula
  | 0, _ => none
  | d + 1, ts =>
    if Is (Tok ts 0) Token.Id.kNot then
      let ts := Advance ts 1
      match primary_formula O d ts with
      | none => none
      | some (Result.kSuccess alpha, ts) => some (Success (not_action alpha), ts)
      | some (alpha, ts) =>
        some (ErrorFrom (LELA_MSG "Expected a primary formula within negation") alpha, ts)
    else if Is (Tok ts 0) Token.Id.kExists || Is (Tok ts 0) Token.Id.kForall then
      let ex := Is (Tok ts 0) Token.Id.kExists
      let ts := Advance ts 1
      match atomic_term O ts with
      | none => none
      | some (Result.kSuccess x, ts) =>
        match primary_formula O d ts with
        | none => none
        | some (Result.kSuccess alpha, ts) => some (Success (quantifier_action ex x alpha), ts)
        | some (alpha, ts) =>
          some (ErrorFrom (LELA_MSG "Expected primary formula within quantifier") alpha, ts)
      | some (x, ts) => some (ErrorFrom (LELA_MSG "Expected variable in quantifier") x, ts)
    else if Is (Tok ts 0) Token.Id.kKnow || Is (Tok ts 0) Token.Id.kCons then
      let know := Is (Tok ts 0) Token.Id.kKnow
      let ts := Advance ts 1
      if !Is (Tok ts 0) Token.Id.kLess then some (Error (LELA_MSG "Expected '<'"), ts)
      else
        let ts := Advance ts 1
        if !Is (Tok ts 0) Token.Id.kUint then
          some (Error (LELA_MSG "Expected split level integer"), ts)
        else
          let k := split_level ts
          let ts := Advance ts 1
          if !Is (Tok ts 0) Token.Id.kGreater then some (Error (LELA_MSG "Expected '>'"), ts)
          else
            let ts := Advance ts 1
            match primary_formula O d ts with
            | none => none
            | some (Result.kSuccess alpha, ts) =>
              some (Success (modality_action know k alpha), ts)
            | some (alpha, ts) =>
              some (ErrorFrom (LELA_MSG "Expected primary formula within modality") alpha, ts)
    else if Is (Tok ts 0) Token.Id.kBel then
      let ts := Advance ts 1
      if !Is (Tok ts 0) Token.Id.kLess then some (Error (LELA_MSG "Expected '<'"), ts)
      else
        let ts := Advance ts 1
        if !Is (Tok ts 0) Token.Id.kUint then
          some (Error (LELA_MSG "Expected first split level integer"), ts)
        else
          let k := split_level ts
          let ts := Advance ts 1
          if !Is (Tok ts 0) Token.Id.kComma then some (Error (LELA_MSG "Expected ','"), ts)
          else
            let ts := Advance ts 1
            if !Is (Tok ts 0) Token.Id.kUint then
              some (Error (LELA_MSG "Expected second split level integer"), ts)
            else
              let l := split_level ts
              let ts := Advance ts 1
              if !Is (Tok ts 0) Token.Id.kGreater then
                some (Error (LELA_MSG "Expected '>'"), ts)
              else
                let ts := Advance ts 1
                match primary_formula O d ts with
                | none => none
                | some (Result.kSuccess alpha, ts) =>
                  if !Is (Tok ts 0) Token.Id.kDoubleRArrow then
                    some (Error (LELA_MSG "Expected conditional belief arrow"), ts)
                  else
                    let ts := Advance ts 1
                    match primary_formula O d ts with
                    | none => none
                    | some (Result.kSuccess beta, ts) =>
                      some (Success (bel_action k l alpha beta), ts)
                    | some (beta, ts) =>
                      some (ErrorFrom (LELA_MSG "Expected primary formula within modality")
                        beta, ts)
                | some (alpha, ts) =>
                  some (ErrorFrom (LELA_MSG "Expected primary formula within modality")
                    alpha, ts)
    else if Is (Tok ts 0) Token.Id.kLeftParen then
      let ts := Advance ts 1
      match equivalence_formula (primary_formula O d) ts with
      | none => none
      | some (Result.kSuccess alpha, ts) =>
        if !Is (Tok ts 0) Token.Id.kRightParen then
          some (Error (LELA_MSG "Expected closing right parenthesis ')'"), ts)
        else
          let ts := Advance ts 1
          some (Success (brackets_action alpha), ts)
      | some (alpha, ts) =>
        some (ErrorFrom (LELA_MSG "Expected formula within brackets") alpha, ts)
    else if Is (Tok ts 0) Token.Id.kIdentifier &&
        !(Is (Tok ts 1) Token.Id.kLeftParen || Is (Tok ts 1) Token.Id.kEquality ||
          Is (Tok ts 1) Token.Id.kInequality) then
      let id := TokStr ts
      let ts := Advance ts 1
      some (Success (abbreviation_action O id), ts)
    else
      match literal O (d + 1) ts with
      | none => none
      | some (Result.kSuccess a, ts) => some (Success (atomic_action a), ts)
      | some (a, ts) => some (ErrorFrom (LELA_MSG "Expected literal") a, ts)

/-- The rule `formula`. -/
def formula (O : ContextOps C) (d : Nat) (ts : List Token) : Parsed C limbo.Formula :=
  equivalence_formula (primary_formula O d) ts

/-- The action of `subjective_formula`. -/
def subjective_action (O : ContextOps C) (alpha_a : Action C limbo.Formula) :
    Action C limbo.Formula :=
  fun ctx =>
    match alpha_a ctx with
    | (Result.kSuccess alpha, ctx) =>
      if !O.subjective alpha then
        (Error (LELA_MSG ("Expected subjective formula " ++
          "(i.e., no functions outside of modal operators; " ++
          "probably caused by missing brackets)")), ctx)
      else (Success alpha, ctx)
    | (alpha, ctx) => (ErrorFrom (LELA_MSG "Expected subjective formula") alpha, ctx)

/-- The rule `subjective_formula`. -/
def subjective_formula (O : ContextOps C) (d : Nat) (ts : List Token) :
    Parsed C limbo.Formula :=
  match formula O d ts with
  | none => none
  | some (Result.kSuccess alpha, ts) => some (Success (subjective_action O alpha), ts)
  | some (alpha, ts) => some (ErrorFrom (LELA_MSG "Expected subjective formula") alpha, ts)

/-- The action of `query`. -/
def query_action (O : ContextOps C) (alpha_a : Action C limbo.Formula)
    (is_query is_assert : Bool) : Action C Unit :=
  fun ctx =>
    match alpha_a ctx with
    | (Result.kSuccess alpha, ctx) =>
      let queried := O.Query ctx alpha
      let r := queried.1
      let ctx := queried.2
      if is_query then (Success (), ctx)
      else if r = is_assert then (Success (), ctx)
      else
        (Error (LELA_MSG ((if is_assert then "Assertion" else "Refutation") ++ " of " ++
          O.str alpha ++ " failed")), ctx)
    | (alpha, ctx) =>
      (ErrorFrom (LELA_MSG "Expected query/assertion/refutation subjective_formula") alpha, ctx)

/-- The rule `query`. -/
def query (O : ContextOps C) (d : Nat) (ts : List Token) : Parsed C Unit :=
  if !Is (Tok ts 0) Token.Id.kQuery && !Is (Tok ts 0) Token.Id.kAssert &&
      !Is (Tok ts 0) Token.Id.kRefute then
    some (Unapplicable (LELA_MSG "Expected 'Query', 'Assert', or 'Refute'"), ts)
  else
    let is_query := Is (Tok ts 0) Token.Id.kQuery
    let is_assert := Is (Tok ts 0) Token.Id.kAssert
    let ts := Advance ts 1
    if !Is (Tok ts 0) Token.Id.kColon then some (Error (LELA_MSG "Expected ':'"), ts)
    else
      let ts := Advance ts 1
      match subjective_formula O d ts with
      | none => none
      | some (Result.kSuccess alpha, ts) =>
        some (Success (query_action O alpha is_query is_assert), ts)
      | some (alpha, ts) =>
        some (ErrorFrom (LELA_MSG "Expected query/assertion/refutation subjective_formula")
          alpha, ts)

end Rules

/-- A context for concrete runs: the symbols, variables and formula abbreviations that are
registered, and the formulas that a query answers with true. -/
structure RefContext where
  names : List (String × Symbol)
  functions : List (String × Symbol)
  vars : List (String × limbo.Term)
  meta_vars : List (String × limbo.Term)
  formulas : List (String × limbo.Formula)
  entailed : List limbo.Formula
  n_queries : Nat

/-- The entry stored under `id`. -/
def RefContext.lookup {V : Type} (m : List (String × V)) (id : String) : Option V :=
  (m.find? (fun kv => decide (kv.1 = id))).map (fun kv => kv.2)

/-- The context operations of `RefContext`.  A name or function symbol with arguments makes
a function term; `Query` counts the queries. -/
def RefContext.ops : ContextOps RefContext where
  IsRegisteredName := fun ctx id => (RefContext.lookup ctx.names id).isSome
  IsRegisteredFunction := fun ctx id => (RefContext.lookup ctx.functions id).isSome
  IsRegisteredVariable := fun ctx id => (RefContext.lookup ctx.vars id).isSome
  IsRegisteredMetaVariable := fun ctx id => (RefContext.lookup ctx.meta_vars id).isSome
  IsRegisteredFormula := fun ctx id => (RefContext.lookup ctx.formulas id).isSome
  LookupName := fun ctx id => (RefContext.lookup ctx.names id).getD ⟨0, 0, 0, true⟩
  LookupFunction := fun ctx id => (RefContext.lookup ctx.functions id).getD ⟨0, 0, 0, false⟩
  LookupVariable := fun ctx id => (RefContext.lookup ctx.vars id).getD limbo.Term.null
  LookupMetaVariable := fun ctx id =>
    (RefContext.lookup ctx.meta_vars id).getD limbo.Term.null
  LookupFormula := fun ctx id =>
    (RefContext.lookup ctx.formulas id).getD (limbo.Formula.Atomic [])
  CreateTerm := fun _ s args =>
    if s.name && args.isEmpty then limbo.Term.name s.id s.sort
    else limbo.Term.fn s.id s.sort args
  Query := fun ctx phi =>
    (decide (phi ∈ ctx.entailed), { ctx with n_queries := ctx.n_queries + 1 })
  subjective := fun _ => true
  str := fun _ => "phi"

namespace Scenario

/-- The text `f == n <-> g == n`, as the lexer hands it to the parser. -/
def equivalence_tokens : List Token :=
  [⟨Token.Id.kIdentifier, "f"⟩, ⟨Token.Id.kEquality, "=="⟩, ⟨Token.Id.kIdentifier, "n"⟩,
   ⟨Token.Id.kLRArrow, "<->"⟩,
   ⟨Token.Id.kIdentifier, "g"⟩, ⟨Token.Id.kEquality, "=="⟩, ⟨Token.Id.kIdentifier, "n"⟩]

/-- The literal `f == n`. -/
def alpha : limbo.Formula :=
  limbo.Formula.Atomic [limbo.Literal.Eq (limbo.Term.fn 1 1 []) (limbo.Term.name 1 1)]

/-- The literal `g == n`. -/
def beta : limbo.Formula :=
  limbo.Formula.Atomic [limbo.Literal.Eq (limbo.Term.fn 2 1 []) (limbo.Term.name 1 1)]

/-- A context with the name `n` and the nullary functions `f` and `g`, all of sort 1, in
which queries for `beta` are answered with true. -/
def ctx : RefContext :=
  { names := [("n", ⟨1, 1, 0, true⟩)]
    functions := [("f", ⟨1, 1, 0, false⟩), ("g", ⟨2, 1, 0, false⟩)]
    vars := []
    meta_vars := []
    formulas := []
    entailed := [beta]
    n_queries := 0 }

/-- The interpretation in which `f == n` is false and `g == n` is true. -/
def v (phi : limbo.Formula) : Bool := decide (phi = beta)

/-- The statement `Assert: g == n`. -/
def assert_tokens : List Token :=
  [⟨Token.Id.kAssert, "Assert"⟩, ⟨Token.Id.kColon, ":"⟩,
   ⟨Token.Id.kIdentifier, "g"⟩, ⟨Token.Id.kEquality, "=="⟩, ⟨Token.Id.kIdentifier, "n"⟩]

/-- The statement `Refute: g == n`. -/
def refute_tokens : List Token :=
  [⟨Token.Id.kRefute, "Refute"⟩, ⟨Token.Id.kColon, ":"⟩,
   ⟨Token.Id.kIdentifier, "g"⟩, ⟨Token.Id.kEquality, "=="⟩, ⟨Token.Id.kIdentifier, "n"⟩]

end Scenario

end lela.format.pdl

/-! ## esbl: the ECLiPSe-CLP interface (`eclipse-clp/ec_interface.cc`)

The ECLiPSe classes `EC_word`, `EC_atom`, `EC_functor` and the classes of the older `esbl`
library (`Formula`, `Literal`, `Term`, `StdName`, `Variable`, `Bat`) are not part of the
sources at hand; they are modelled as far as `ec_interface.cc` uses them.  A
`std::pair<bool, T>` is an `Option T` (`failed<T>()` is `none`), a `std::map` is the list of
its entries, and two keys are equivalent under `EC_word_comparator` exactly when they are
the same word. -/

namespace esbl

/-- An ECLiPSe word: an atom, a compound term (its functor name and its arguments), an
integer, or a Prolog variable. -/
inductive EC_word where
  | atom (name : String) : EC_word
  | compound (name : String) (args : List EC_word) : EC_word
  | long (l : Int) : EC_word
  | var (id : Nat) : EC_word

mutual
/-- Equality of words is decidable. -/
def EC_word.decEq : (a b : EC_word) → Decidable (a = b)
  | .atom s, .atom t =>
    if h : s = t then isTrue (by rw [h]) else isFalse (fun e => h (by cases e; rfl))
  | .atom _, .compound _ _ => isFalse (fun e => EC_word.noConfusion e)
  | .atom _, .long _ => isFalse (fun e => EC_word.noConfusion e)
  | .atom _, .var _ => isFalse (fun e => EC_word.noConfusion e)
  | .compound _ _, .atom _ => isFalse (fun e => EC_word.noConfusion e)
  | .compound s as, .compound t bs =>
    if h : s = t then
      match EC_word.decEqList as bs with
      | isTrue e => isTrue (by rw [h, e])
      | isFalse ne => isFalse (fun e => ne (by cases e; rfl))
    else isFalse (fun e => h (by cases e; rfl))
  | .compound _ _, .long _ => isFalse (fun e => EC_word.noConfusion e)
  | .compound _ _, .var _ => isFalse (fun e => EC_word.noConfusion e)
  | .long _, .atom _ => isFalse (fun e => EC_word.noConfusion e)
  | .long _, .compound _ _ => isFalse (fun e => EC_word.noConfusion e)
  | .long l, .long m =>
    if h : l = m then isTrue (by rw [h]) else isFalse (fun e => h (by cases e; rfl))
  | .long _, .var _ => isFalse (fun e => EC_word.noConfusion e)
  | .var _, .atom _ => isFalse (fun e => EC_word.noConfusion e)
  | .var _, .compound _ _ => isFalse (fun e => EC_word.noConfusion e)
  | .var _, .long _ => isFalse (fun e => EC_word.noConfusion e)
  | .var i, .var j =>
    if h : i = j then isTrue (by rw [h]) else isFalse (fun e => h (by cases e; rfl))
/-- Equality of argument lists is decidable. -/
def EC_word.decEqList : (as bs : List EC_word) → Decidable (as = bs)
  | [], [] => isTrue rfl
  | [], _ :: _ => isFalse (fun e => List.noConfusion e)
  | _ :: _, [] => isFalse (fun e => List.noConfusion e)
  | a :: as, b :: bs =>
    match EC_word.decEq a b, EC_word.decEqList as bs with
    | isTrue e1, isTrue e2 => isTrue (by rw [e1, e2])
    | isFalse ne, _ => isFalse (fun e => ne (by cases e; rfl))
    | _, isFalse ne => isFalse (fun e => ne (by cases e; rfl))
end

instance : DecidableEq EC_word := EC_word.decEq

/-- An atom `EC_atom`, identified by its name. -/
abbrev EC_atom := String

/-- The test `w.is_atom(&a)`: the atom, if the word is one. -/
def EC_word.is_atom : EC_word → Option EC_atom
  | .atom a => some a
  | _ => none

/-- The test `w.functor(&f)`: the name and arity of the functor, if the word is compound. -/
def EC_word.functor : EC_word → Option (String × Nat)
  | .compound name args => some (name, args.length)
  | _ => none

/-- The test `w.is_long(&l)`. -/
def EC_word.is_long : EC_word → Option Int
  | .long l => some l
  | _ => none

/-- The function `w.arg(i, out)`: the `i`-th argument (counted from 1) of a compound term. -/
def EC_word.arg : EC_word → Nat → Option EC_word
  | .compound _ args, i => if i = 0 then none else args[i - 1]?
  | _, _ => none

/-- The type `Term::Sort`. -/
abbrev SortId := Int

/-- The type `Atom::PredId`. -/
abbrev PredId := Nat

/-- A standard name of `esbl`. -/
structure StdName where
  id : Nat
  sort : SortId
  deriving DecidableEq

/-- A variable of `esbl`. -/
structure Variable where
  id : Nat
  sort : SortId
  deriving DecidableEq

/-- A term of `esbl`: a standard name or a variable. -/
inductive Term where
  | name (n : StdName) : Term
  | var (x : Variable) : Term
  deriving DecidableEq

/-- The literal `Literal(actions, sign, pred, args)`. -/
structure Literal where
  actions : List Term
  sign : Bool
  pred : PredId
  args : List Term
  deriving DecidableEq

/-- A formula of `esbl`, one constructor per factory function that `FormulaBuilder::Build`
calls. -/
inductive Formula where
  | Lit (l : Literal) : Formula
  | Neg (phi : Formula) : Formula
  | Or (phi1 phi2 : Formula) : Formula
  | And (phi1 phi2 : Formula) : Formula
  | Exists (x : Variable) (phi : Formula) : Formula
  | Forall (x : Variable) (phi : Formula) : Formula
  | Act (t : Term) (phi : Formula) : Formula
  deriving DecidableEq

/-- The truth value of a formula under a propositional interpretation `v`, which assigns a
truth value to every formula that is not a negation, a disjunction or a conjunction. -/
def Formula.holds (v : Formula → Bool) : Formula → Bool
  | .Neg phi => !phi.holds v
  | .Or phi1 phi2 => phi1.holds v || phi2.holds v
  | .And phi1 phi2 => phi1.holds v && phi2.holds v
  | phi => v phi

def NEGATION : String := "~"

def CONJUNCTION : String := "^"

def DISJUNCTION : String := "v"

def IMPLICATION : String := "->"

def EQUIVALENCE : String := "<->"

def EXISTS : String := "exists"

def FORALL : String := "forall"

def ACTION : String := ":"

/-- The member functions of `Bat` that the builders call, over a state `B` of the action
theory: `StringToPred`, `StringToName` and `tf().CreateVariable(sort)`. -/
structure BatOps (B : Type) where
  StringToPred : B → String → Option PredId
  StringToName : B → String → Option StdName
  CreateVariable : SortId → B → Variable × B

/-- The function `find` of a `std::map`: the value stored under the key. -/
def Map.find {K V : Type} [DecidableEq K] (m : List (K × V)) (k : K) : Option V :=
  (m.find? (fun kv => decide (kv.1 = k))).map (fun kv => kv.2)

/-- The assignment `m[k] = v` of a `std::map`. -/
def Map.set {K V : Type} [DecidableEq K] (m : List (K × V)) (k : K) (v : V) : List (K × V) :=
  if (Map.find m k).isSome then m.map (fun kv => if kv.1 = k then (k, v) else kv)
  else m ++ [(k, v)]

/-- The members of `PredBuilder` but for the `Bat`. -/
structure PredBuilder where
  preds_ : List (EC_word × PredId)

/-- The members of `TermBuilder` but for the `Bat`. -/
structure TermBuilder where
  names_ : List (EC_atom × StdName)
  vars_ : List (EC_word × List Variable)

section Builders

variable {B : Type}

/-- The function `PredBuilder::Get`. -/
def PredBuilder.Get (BO : BatOps B) (bat_ : B) (pb : PredBuilder) (w : EC_word) :
    Option PredId :=
  match Map.find pb.preds_ w with
  | some p => some p
  | none =>
    match (match w.is_atom with
      | some a => BO.StringToPred bat_ a
      | none => none) with
    | some p => some p
    | none =>
      match (match w.functor with
        | some f => BO.StringToPred bat_ f.1
        | none => none) with
      | some p => some p
      | none => none

/-- The function `PredBuilder::Register`: the result and the builder after the call. -/
def PredBuilder.Register (pb : PredBuilder) (w : EC_word) (p : PredId) :
    Bool × PredBuilder :=
  if (Map.find pb.preds_ w).isSome then (false, pb)
  else (true, { pb with preds_ := Map.set pb.preds_ w p })

/-- The function `TermBuilder::GetName`. -/
def TermBuilder.GetName (BO : BatOps B) (bat_ : B) (tb : TermBuilder) (a : EC_atom) :
    Option StdName :=
  match Map.find tb.names_ a with
  | some n => some n
  | none =>
    match BO.StringToName bat_ a with
    | some n => some n
    | none => none

/-- The function `TermBuilder::GetVar`. -/
def TermBuilder.GetVar (tb : TermBuilder) (w : EC_word) : Option Variable :=
  match Map.find tb.vars_ w with
  | some (x :: _) => some x
  | _ => none

/-- The function `TermBuilder::PushVar`: the variable, the builder and the `Bat` after the
call. -/
def TermBuilder.PushVar (BO : BatOps B) (bat_ : B) (tb : TermBuilder) (w : EC_word)
    (sort : SortId) : Variable × TermBuilder × B :=
  let created := BO.CreateVariable sort bat_
  let x := created.1
  (x, { tb with vars_ := Map.set tb.vars_ w (x :: ((Map.find tb.vars_ w).getD [])) },
    created.2)

/-- The function `TermBuilder::PopVar`. -/
def TermBuilder.PopVar (tb : TermBuilder) (w : EC_word) : Option Variable × TermBuilder :=
  match Map.find tb.vars_ w with
  | some (x :: xs) => (some x, { tb with vars_ := Map.set tb.vars_ w xs })
  | _ => (none, tb)

/-- The function `TermBuilder::Get`. -/
def TermBuilder.Get (BO : BatOps B) (bat_ : B) (tb : TermBuilder) (t : EC_word) :
    Option Term :=
  match (match t.is_atom with
    | some a => TermBuilder.GetName BO bat_ tb a
    | none => none) with
  | some n => some (Term.name n)
  | none =>
    match TermBuilder.GetVar tb t with
    | some x => some (Term.var x)
    | none => none

/-- The function `TermBuilder::Register`: the result and the builder after the call. -/
def TermBuilder.Register (tb : TermBuilder) (w : EC_word) (n : StdName) :
    Bool × TermBuilder :=
  match w.is_atom with
  | none => (false, tb)
  | some a =>
    if (Map.find tb.names_ a).isSome then (false, tb)
    else (true, { tb with names_ := Map.set tb.names_ a n })

/-- The function `SortBuilder::Get`.  The conversion `static_cast<Term::Id>(l)` of the
ECLiPSe long is taken as the identity: the longs at hand are in the range of `Term::Id`. -/
def SortBuilder.Get (BO : BatOps B) (bat_ : B) (tb : TermBuilder) (w : EC_word) :
    Option SortId :=
  match w.is_long with
  | some l => some l
  | none =>
    match (match w.is_atom with
      | some a => TermBuilder.GetName BO bat_ tb a
      | none => none) with
    | some n => some n.sort
    | none => none

/-- The members of `FormulaBuilder`, together with the `Bat` the builders point to. -/
structure FormulaBuilder (B : Type) where
  bat_ : B
  pred_builder_ : PredBuilder
  term_builder_ : TermBuilder

/-- The loop `for (int i = 1; i <= f.arity(); ++i) { ARG_TERM(ec_alpha, term, i); ... }` of
`Build`, over the arguments from the `i`-th on. -/
def BuildArgs (BO : BatOps B) (fb : FormulaBuilder B) : List EC_word → Option (List Term)
  | [] => some []
  | ec_term :: rest =>
    match TermBuilder.Get BO fb.bat_ fb.term_builder_ ec_term with
    | none => none
    | some term =>
      match BuildArgs BO fb rest with
      | none => none
      | some args => some (term :: args)

/-- The function `FormulaBuilder::Build`: the result and the builder after the call. -/
def FormulaBuilder.Build (BO : BatOps B) :
    EC_word → FormulaBuilder B → Option Formula × FormulaBuilder B
  | .compound name args, fb =>
    if name = NEGATION ∧ args.length = 1 then
      match args with
      | [ec_beta] =>
        match FormulaBuilder.Build BO ec_beta fb with
        | (none, fb) => (none, fb)
        | (some beta, fb) => (some (Formula.Neg beta), fb)
      | _ => (none, fb)
    else if name = DISJUNCTION ∧ args.length = 2 then
      match args with
      | [ec_beta1, ec_beta2] =>
        match FormulaBuilder.Build BO ec_beta1 fb with
        | (none, fb) => (none, fb)
        | (some beta1, fb) =>
          match FormulaBuilder.Build BO ec_beta2 fb with
          | (none, fb) => (none, fb)
          | (some beta2, fb) => (some (Formula.Or beta1 beta2), fb)
      | _ => (none, fb)
    else if name = CONJUNCTION ∧ args.length = 2 then
      match args with
      | [ec_beta1, ec_beta2] =>
        match FormulaBuilder.Build BO ec_beta1 fb with
        | (none, fb) => (none, fb)
        | (some beta1, fb) =>
          match FormulaBuilder.Build BO ec_beta2 fb with
          | (none, fb) => (none, fb)
          | (some beta2, fb) => (some (Formula.And beta1 beta2), fb)
      | _ => (none, fb)
    else if name = IMPLICATION ∧ args.length = 2 then
      match args with
      | [ec_beta1, ec_beta2] =>
        match FormulaBuilder.Build BO ec_beta1 fb with
        | (none, fb) => (none, fb)
        | (some beta1, fb) =>
          match FormulaBuilder.Build BO ec_beta2 fb with
          | (none, fb) => (none, fb)
          | (some beta2, fb) => (some (Formula.Or (Formula.Neg beta1) beta2), fb)
      | _ => (none, fb)
    else if name = EQUIVALENCE ∧ args.length = 2 then
      match args with
      | [ec_beta1a, ec_beta2a] =>
        match FormulaBuilder.Build BO ec_beta1a fb with
        | (none, fb) => (none, fb)
        | (some beta1a, fb) =>
          match FormulaBuilder.Build BO ec_beta2a fb with
          | (none, fb) => (none, fb)
          | (some beta2a, fb) =>
            let beta1b := beta1a
            let beta2b := beta1a
            let beta :=
              Formula.And (Formula.Or (Formula.Neg beta1a) beta2a)
                (Formula.Or beta1b (Formula.Neg beta2b))
            (some beta, fb)
      | _ => (none, fb)
    else if name = EXISTS ∧ args.length = 3 then
      match args with
      | [ec_var, ec_sort, ec_beta] =>
        match SortBuilder.Get BO fb.bat_ fb.term_builder_ ec_sort with
        | none => (none, fb)
        | some sort =>
          let pushed := TermBuilder.PushVar BO fb.bat_ fb.term_builder_ ec_var sort
          let var := pushed.1
          let fb := { fb with term_builder_ := pushed.2.1, bat_ := pushed.2.2 }
          match FormulaBuilder.Build BO ec_beta fb with
          | (none, fb) => (none, fb)
          | (some beta, fb) =>
            let fb := { fb with term_builder_ := (TermBuilder.PopVar fb.term_builder_ ec_var).2 }
            (some (Formula.Exists var beta), fb)
      | _ => (none, fb)
    else if name = FORALL ∧ args.length = 3 then
      match args with
      | [ec_var, ec_sort, ec_beta] =>
        match SortBuilder.Get BO fb.bat_ fb.term_builder_ ec_sort with
        | none => (none, fb)
        | some sort =>
          let pushed := TermBuilder.PushVar BO fb.bat_ fb.term_builder_ ec_var sort
          let var := pushed.1
          let fb := { fb with term_builder_ := pushed.2.1, bat_ := pushed.2.2 }
          match FormulaBuilder.Build BO ec_beta fb with
          | (none, fb) => (none, fb)
          | (some beta, fb) =>
            let fb := { fb with term_builder_ := (TermBuilder.PopVar fb.term_builder_ ec_var).2 }
            (some (Formula.Forall var beta), fb)
      | _ => (none, fb)
    else if name = ACTION ∧ args.length = 2 then
      match args with
      | [ec_term, ec_beta] =>
        match TermBuilder.Get BO fb.bat_ fb.term_builder_ ec_term with
        | none => (none, fb)
        | some term =>
          match FormulaBuilder.Build BO ec_beta fb with
          | (none, fb) => (none, fb)
          | (some beta, fb) => (some (Formula.Act term beta), fb)
      | _ => (none, fb)
    else
      match PredBuilder.Get BO fb.bat_ fb.pred_builder_ (.compound name args) with
      | none => (none, fb)
      | some p =>
        let sign := true
        match BuildArgs BO fb args with
        | none => (none, fb)
        | some args => (some (Formula.Lit ⟨[], sign, p, args⟩), fb)
  | .atom a, fb =>
    match PredBuilder.Get BO fb.bat_ fb.pred_builder_ (.atom a) with
    | none => (none, fb)
    | some p =>
      let sign := true
      (some (Formula.Lit ⟨[], sign, p, []⟩), fb)
  | _, fb => (none, fb)

end Builders

/-- An action theory that knows no predicate and no name and numbers its variables. -/
def CounterBat : BatOps Nat where
  StringToPred := fun _ _ => none
  StringToName := fun _ _ => none
  CreateVariable := fun sort n => (⟨n, sort⟩, n + 1)

namespace Scenario

/-- The literal of the predicate `p`, without arguments. -/
def A1 : Formula := Formula.Lit ⟨[], true, 1, []⟩

/-- The literal of the predicate `q`, without arguments. -/
def A2 : Formula := Formula.Lit ⟨[], true, 2, []⟩

/-- A formula builder in which the atoms `p` and `q` have been registered as the predicates
1 and 2. -/
def builder : FormulaBuilder Nat :=
  { bat_ := 0
    pred_builder_ :=
      (PredBuilder.Register (PredBuilder.Register ⟨[]⟩ (.atom "p") 1).2 (.atom "q") 2).2
    term_builder_ := ⟨[], []⟩ }

/-- The interpretation in which `p` is false and `q` is true. -/
def v (phi : Formula) : Bool := decide (phi = A2)

end Scenario

end esbl


namespace limbo

/-! ## A knowledge base that receives a clause after its spheres were built -/

namespace Scenario

/-- The fixed grounder whose new grounders hold the literal assignment `t2 = a`, with which
`Solver::Consistent` finds the antecedent `t2 = a` consistent unless the setup refutes it. -/
def assigning_kbops : GrounderKBOps FixedGrounder RefSetup :=
  { FixedGrounder.kbops with
    create := { FixedGrounder.kbops.create with assign_lits := [[Literal.Eq t2 a]] } }

/-- The formula `Bel` for the conditional `c` with the consequent `conse`, in normal form. -/
def belief (c : Conditional) (conse : Formula) : Formula :=
  Formula.Bel c.k c.l c.ante conse (Formula.Atomic c.not_ante_or_conse)

/-- The belief "if `t1 = a` then `t2 ≠ a`" of `default_rule`. -/
def default_belief : Formula := belief default_rule (Formula.Atomic [Literal.Neq t2 a])

/-- The belief "if `t2 = a` then `t = m`" of `exception_rule`. -/
def exception_belief : Formula := belief exception_rule (Formula.Atomic [Literal.Eq t m])

/-- The two beliefs are added to a new knowledge base and a first query, `Know(t1 = a)`, is
asked, which builds the spheres: the answer and the knowledge base after the query. -/
def kb_queried : Option (Bool × KnowledgeBase FixedGrounder) :=
  let kb := KnowledgeBase.create assigning_kbops
  let kb := (KnowledgeBase.Add RefNormalFormOps assigning_kbops kb default_belief).2
  let kb := (KnowledgeBase.Add RefNormalFormOps assigning_kbops kb exception_belief).2
  KnowledgeBase.Entails RefFormulaOps RefSetup.ops RefNormalFormOps assigning_kbops kb
    (Formula.Know 1 (Formula.Atomic [Literal.Eq t1 a]))

/-- The knowledge base `kb_queried` after `Add(Clause)` of `[t1 = a]`. -/
def kb_stale : Option (KnowledgeBase FixedGrounder) :=
  kb_queried.map (fun r => KnowledgeBase.AddClause assigning_kbops r.2 [Literal.Eq t1 a])

/-- A new knowledge base to which the clause `[t1 = a]` and then the two beliefs are added:
it stores the same clauses and conditionals as `kb_stale`. -/
def kb_fresh : KnowledgeBase FixedGrounder :=
  let kb := KnowledgeBase.create assigning_kbops
  let kb := KnowledgeBase.AddClause assigning_kbops kb [Literal.Eq t1 a]
  let kb := (KnowledgeBase.Add RefNormalFormOps assigning_kbops kb default_belief).2
  (KnowledgeBase.Add RefNormalFormOps assigning_kbops kb exception_belief).2

end Scenario

end limbo

/-! ## The vector and the ordered set of the C library (`src/vector.c`, `src/set.c`)

An `int` is an integer; sizes stay within the range in which the sums and products of the
functions do not overflow.  An element (`const void *`) is a value of a type `α`, and
`compar` returns an integer.

`set.c` uses the vector of a set through `vector_size`, `vector_get`, `vector_insert` and
`vector_append` only, so that for the set functions a vector is the sequence of its elements
`array[0]`, ..., `array[size - 1]`, a list; capacity and reallocation are not modelled there.
A call that reaches an `assert` whose condition is false has the outcome
`assertion_failed`.  For `vector_get` the embedding also covers a build in which assertions
are compiled out (`NDEBUG`): the parameter `outside` then says what a read outside the bounds
yields.  The loops run on fuel, one round per element; `none` says that the fuel did not
suffice.

The two copy functions of `vector.c` are embedded at the level of the array pointer: an
address counts cells of the size of a pointer, the memory maps an address to the content of
its cell, `sizeof(void *)` is the parameter `sizeof_ptr` and `malloc` is a parameter that
returns the address of the new block. -/

namespace clib

/-- The outcome of a call: its value, or the failure of an `assert`. -/
inductive Outcome (α : Type) where
  | value (a : α) : Outcome α
  | assertion_failed : Outcome α
  deriving DecidableEq

section Vector

variable {α : Type}

/-- The function `vector_size`. -/
def vector_size (vec : List α) : Int := vec.length

/-- The function `vector_get`.  With `outside = none` the assertion
`assert(0 <= index && index < vec->size)` is in force; with `outside = some mem` it is
compiled out and a read outside the bounds yields `mem index`. -/
def vector_get (outside : Option (Int → α)) (vec : List α) (index : Int) : Outcome α :=
  if 0 ≤ index ∧ index < vector_size vec then
    match vec[index.toNat]? with
    | some elem => Outcome.value elem
    | none => Outcome.assertion_failed
  else
    match outside with
    | none => Outcome.assertion_failed
    | some mem => Outcome.value (mem index)

/-- The function `vector_insert`: the elements from `index` on move up by one and `elem`
takes the place `index`.  An index for which `assert(0 <= index && index <= vec->size)` is
false has no defined result, with or without assertions. -/
def vector_insert (vec : List α) (index : Int) (elem : α) : Outcome (List α) :=
  if 0 ≤ index ∧ index ≤ vector_size vec then
    Outcome.value (vec.take index.toNat ++ elem :: vec.drop index.toNat)
  else Outcome.assertion_failed

/-- The function `vector_append`. -/
def vector_append (vec : List α) (elem : α) : Outcome (List α) :=
  vector_insert vec (vector_size vec) elem

end Vector

/-- The struct `set_t`. -/
structure set_t (α : Type) where
  vec : List α
  compar : α → α → Int

section Set

variable {α : Type}

/-- The function `set_size`. -/
def set_size (set : set_t α) : Int := vector_size set.vec

/-- The function `set_init_with_size`: a set without elements. -/
def set_init_with_size (compar : α → α → Int) (_size : Int) : set_t α := ⟨[], compar⟩

/-- The loop `while (lo <= hi)` of `insert_pos`, started with `lo` and `hi`, running at most
`fuel` rounds. -/
def insert_pos_loop (outside : Option (Int → α)) (set : set_t α) (obj : α) :
    Nat → Int → Int → Option (Outcome Int)
  | 0, lo, hi => if lo ≤ hi then none else some (Outcome.value (vector_size set.vec))
  | fuel + 1, lo, hi =>
    if lo ≤ hi then
      let i := (lo + hi) / 2
      match vector_get outside set.vec i with
      | Outcome.assertion_failed => some Outcome.assertion_failed
      | Outcome.value probed =>
        let cmp := set.compar obj probed
        if cmp = 0 then some (Outcome.value (-1))
        else if cmp ≤ 0 then
          match vector_get outside set.vec (i - 1) with
          | Outcome.assertion_failed => some Outcome.assertion_failed
          | Outcome.value left =>
            let cmp_left := set.compar obj left
            if i = 0 ∨ ¬ (cmp_left ≤ 0) then some (Outcome.value i)
            else insert_pos_loop outside set obj fuel lo (i - 1)
        else insert_pos_loop outside set obj fuel (i + 1) hi
    else some (Outcome.value (vector_size set.vec))

/-- The function `insert_pos`: -1 if the element is present, else the index at which it
belongs.  Every round shrinks the range from `lo` to `hi`, so one round per element is
enough. -/
def insert_pos (outside : Option (Int → α)) (set : set_t α) (obj : α) :
    Option (Outcome Int) :=
  insert_pos_loop outside set obj set.vec.length 0 (vector_size set.vec - 1)

/-- The function `set_add`: the set after the call. -/
def set_add (outside : Option (Int → α)) (set : set_t α) (elem : α) :
    Option (Outcome (set_t α)) :=
  match insert_pos outside set elem with
  | none => none
  | some Outcome.assertion_failed => some Outcome.assertion_failed
  | some (Outcome.value i) =>
    if i ≠ -1 then
      match vector_insert set.vec i elem with
      | Outcome.assertion_failed => some Outcome.assertion_failed
      | Outcome.value vec => some (Outcome.value { set with vec := vec })
    else some (Outcome.value set)

/-- The inner loop `while (j < vector_size(&r->vec))` of `set_difference` for the element of
`l` at index `i`, started at `j`: the value of `j` when the loop is left, and whether it was
left by `goto skip`. -/
def set_difference_inner (outside : Option (Int → α)) (l r : set_t α) (i : Int) :
    Nat → Int → Option (Outcome (Int × Bool))
  | 0, j => if j < vector_size r.vec then none else some (Outcome.value (j, false))
  | fuel + 1, j =>
    if j < vector_size r.vec then
      match vector_get outside l.vec i, vector_get outside r.vec j with
      | Outcome.value a, Outcome.value b =>
        let cmp := l.compar a b
        if cmp < 0 then some (Outcome.value (j, false))
        else if cmp > 0 then set_difference_inner outside l r i fuel (j + 1)
        else some (Outcome.value (j, true))
      | _, _ => some Outcome.assertion_failed
    else some (Outcome.value (j, false))

/-- The outer loop `while (i < vector_size(&l->vec))` of `set_difference`, started at `i` and
`j` with the elements `vec` appended so far: the vector of the result. -/
def set_difference_outer (outside : Option (Int → α)) (l r : set_t α) :
    Nat → Int → Int → List α → Option (Outcome (List α))
  | 0, i, _, vec => if i < vector_size l.vec then none else some (Outcome.value vec)
  | fuel + 1, i, j, vec =>
    if i < vector_size l.vec then
      match set_difference_inner outside l r i r.vec.length j with
      | none => none
      | some Outcome.assertion_failed => some Outcome.assertion_failed
      | some (Outcome.value (j, skip)) =>
        if skip then set_difference_outer outside l r fuel (i + 1) j vec
        else
          match vector_get outside l.vec i with
          | Outcome.assertion_failed => some Outcome.assertion_failed
          | Outcome.value elem =>
            match vector_append vec elem with
            | Outcome.assertion_failed => some Outcome.assertion_failed
            | Outcome.value vec => set_difference_outer outside l r fuel (i + 1) j vec
    else some (Outcome.value vec)

/-- The function `set_difference`: the set it initialises and fills.  The assertion
`assert(l->compar == r->compar)` compares function pointers and is not executed; the
theorems name it as a hypothesis. -/
def set_difference (outside : Option (Int → α)) (l r : set_t α) :
    Option (Outcome (set_t α)) :=
  let set := set_init_with_size l.compar (set_size l)
  match set_difference_outer outside l r l.vec.length 0 0 set.vec with
  | none => none
  | some Outcome.assertion_failed => some Outcome.assertion_failed
  | some (Outcome.value vec) => some (Outcome.value { set with vec := vec })

/-- The function `compar` compares consistently: `a` is before `b` exactly if `b` is after
`a`, and "before" is transitive. -/
structure Comparison (compar : α → α → Int) : Prop where
  lt_iff : ∀ a b, compar a b < 0 ↔ 0 < compar b a
  trans : ∀ a b c, compar a b < 0 → compar b c < 0 → compar a c < 0

/-- The function `compar` is a strict total order: it compares consistently, and two
elements compare equal exactly if they are the same. -/
structure StrictTotalOrder (compar : α → α → Int) extends Comparison compar : Prop where
  eq_iff : ∀ a b, compar a b = 0 ↔ a = b

/-- The vector is strictly increasing under `compar`. -/
def StrictlyIncreasing (compar : α → α → Int) (vec : List α) : Prop :=
  vec.Pairwise (fun a b => compar a b < 0)

/-- The result of `insert_pos`: -1 and the element is present, or an index such that the
elements before it are before `obj` and the elements from it on are after `obj`. -/
def insert_pos_post (set : set_t α) (obj : α) (r : Int) : Prop :=
  (r = -1 ∧ obj ∈ set.vec) ∨
  (0 ≤ r ∧ r ≤ set.vec.length ∧ (∀ x ∈ set.vec.take r.toNat, set.compar x obj < 0) ∧
    (∀ y ∈ set.vec.drop r.toNat, set.compar obj y < 0))

/-- The test of `set_difference` on an element of `l`: no element of `r` compares equal. -/
def set_difference_keeps (l r : set_t α) (x : α) : Bool :=
  !r.vec.any (fun y => decide (l.compar x y = 0))

end Set

/-- The comparison of two integers by their difference. -/
def int_compar (a b : Int) : Int := a - b

/-! ### The copies of a vector -/

/-- The struct `vector_t`; `array` is the address of the first cell of the array. -/
structure vector_t where
  array : Int
  capacity : Int
  size : Int
  deriving DecidableEq

/-- The memory: the content of the cell at every address. -/
abbrev Memory (α : Type) := Int → α

def INIT_SIZE : Int := 4

/-- The macro `MAX`. -/
def MAX (x y : Int) : Int := if x > y then x else y

section Copies

variable {α : Type}

/-- The function `memcpy(dst, src, n)` for `n` bytes: the cells that the bytes make up are
copied from `src` to `dst`. -/
def memcpy (sizeof_ptr : Int) (mem : Memory α) (dst src n : Int) : Memory α :=
  fun address =>
    if dst ≤ address ∧ address < dst + n / sizeof_ptr then mem (src + (address - dst))
    else mem address

/-- The function `vector_init_with_size`; `malloc` maps the number of bytes asked for to the
address of the new block.  The `assert(size >= 0)` is not modelled: the definition describes
the calls with a size that is not negative. -/
def vector_init_with_size (sizeof_ptr : Int) (malloc : Int → Int) (size : Int) : vector_t :=
  let size := MAX size INIT_SIZE
  { array := malloc (size * sizeof_ptr), capacity := size, size := 0 }

/-- The function `vector_copy_range`: the new vector and the memory after the call, for
`from <= to` (with `from > to` the assertion of `vector_init_with_size` fails). -/
def vector_copy_range (sizeof_ptr : Int) (malloc : Int → Int) (mem : Memory α)
    (src : vector_t) (from_ to_ : Int) : vector_t × Memory α :=
  let n_new_elems := to_ - from_
  let dst := vector_init_with_size sizeof_ptr malloc n_new_elems
  let mem := memcpy sizeof_ptr mem dst.array (src.array + from_) (n_new_elems * sizeof_ptr)
  ({ dst with size := n_new_elems }, mem)

/-- The function `vector_lazy_copy_range`.  The sum `src->array + sizeof(void *) * from` is
pointer arithmetic on a pointer to cells: it advances by `sizeof(void *) * from` cells. -/
def vector_lazy_copy_range (sizeof_ptr : Int) (src : vector_t) (from_ to_ : Int) : vector_t :=
  let n_new_elems := to_ - from_
  { array := src.array + sizeof_ptr * from_, capacity := -1, size := n_new_elems }

/-- The function `vector_get` at the level of the array pointer: `vec->array[index]`. -/
def vector_t.get (mem : Memory α) (vec : vector_t) (index : Int) : Outcome α :=
  if 0 ≤ index ∧ index < vec.size then Outcome.value (mem (vec.array + index))
  else Outcome.assertion_failed

/-- The sequence that a vector denotes: the contents of the cells `array[0]`, ...,
`array[size - 1]`. -/
def vector_t.elems (mem : Memory α) (vec : vector_t) : List α :=
  (List.range vec.size.toNat).map (fun k => mem (vec.array + k))

end Copies

namespace Scenario

/-- A memory in which every cell holds its own address. -/
def mem : Memory Int := fun address => address

/-- A vector of 16 elements at the address 100. -/
def src : vector_t := { array := 100, capacity := 16, size := 16 }

/-- An allocator that hands out the block at the address 200. -/
def malloc : Int → Int := fun _ => 200

end Scenario

end clib

namespace limbo

/-! ## The names of `KnowledgeBase::Res` -/

section ResCases

variable {G Setup : Type}

/-- The recursive calls of `Res` that the loop `for (Term n : (*names)[x.sort()])` makes
through `ResName` for the names `ns`, one after the other: the call for the first name is
`rec` on `phi[x/n]` with the name set `names` on the sphere `g`; each call returns the next
formula of `rs`, leaves the name set as it was and hands its sphere to the next call; the
last call leaves the sphere `g'`.  Every call starts on a sphere for which `tracked` holds. -/
def KnowledgeBase.ResCalls
    (rec : Formula → SortedTermSet → G → Option (Formula × SortedTermSet × G))
    (tracked : G → Prop) (phi : Formula) (x : Term) (names : SortedTermSet) :
    List Term → List Formula → G → G → Prop
  | [], [], g, g' => g = g'
  | n :: ns, r :: rs, g, g' =>
    tracked g ∧ ∃ g1, rec (phi.SubstituteFree x n) names g = some (r, names, g1) ∧
      KnowledgeBase.ResCalls rec tracked phi x names ns rs g1 g'
  | _, _, _, _ => False

/-- The names that `Grounder::CreateName` hands out are fresh.  `Tracked names g` says that
the sphere `g` keeps track of the names in `names`: then `CreateName` hands out a name of
the requested sort that is not in `names` and keeps track of it, `ReturnName` stops tracking
the returned name only, and a query `if_no_free_vars` leaves the tracked names alone. -/
structure KnowledgeBase.FreshNames (GKO : GrounderKBOps G Setup)
    (if_no_free_vars : G → Formula → Option Bool × G)
    (Tracked : SortedTermSet → G → Prop) : Prop where
  isName : ∀ sort g, (GKO.CreateName sort g).1.isName = true
  sort_eq : ∀ sort g, (GKO.CreateName sort g).1.sort = sort
  fresh : ∀ names g sort, Tracked names g → (GKO.CreateName sort g).1 ∉ names sort
  created : ∀ names g sort, Tracked names g →
    Tracked (SortedTermSet.insert names (GKO.CreateName sort g).1) (GKO.CreateName sort g).2
  returned : ∀ names g n, n ∉ names n.sort → Tracked (SortedTermSet.insert names n) g →
    Tracked names (GKO.ReturnName n g)
  queried : ∀ names g psi, Tracked names g → Tracked names (if_no_free_vars g psi).2

end ResCases

namespace Scenario

/-- The fixed grounder that keeps track of the names it hands out: `CreateName` hands out the
name of the given sort whose id follows the ids of the names of this sort the grounder knows
and adds it to these names, `ReturnName` removes the name from them. -/
def naming_kbops : GrounderKBOps FixedGrounder RefSetup where
  toGrounderOps := FixedGrounder.ops
  create := FixedGrounder.kbops.create
  AddClause := FixedGrounder.kbops.AddClause
  CreateName := fun sort g =>
    let n := (FixedGrounder.kbops.CreateName sort g).1
    (n, { g with names := SortedTermSet.insert g.names n })
  ReturnName := fun n g => { g with names := SortedTermSet.erase g.names n }

/-- The grounder `g` knows the names in `names`. -/
def tracks (names : SortedTermSet) (g : FixedGrounder) : Prop :=
  ∀ sort, ∀ n ∈ names sort, n ∈ g.names sort

/-- A formula with the free variables `x` of sort 1 and `y` of sort 2: `t1 ≠ x ∨ t = y`. -/
def two_var_query : Formula :=
  Formula.Atomic [Literal.Neq t1 (Term.var 1 1), Literal.Eq t (Term.var 2 2)]

end Scenario

/-! ## Basic facts about formulas and the list algorithms -/

theorem Formula.size_pos (phi : Formula) : 0 < phi.size := by
  cases phi <;> simp [Formula.size]

theorem Formula.size_SubstituteFree (x n : Term) (phi : Formula) :
    (phi.SubstituteFree x n).size = phi.size := by
  induction phi with
  | Exists y a ih =>
    by_cases h : y = x <;> simp [Formula.SubstituteFree, Formula.size, h, ih]
  | _ => simp_all [Formula.SubstituteFree, Formula.size]

theorem Formula.objective_SubstituteFree (x n : Term) (phi : Formula) :
    (phi.SubstituteFree x n).objective = phi.objective := by
  induction phi with
  | Exists y a ih =>
    by_cases h : y = x <;> simp [Formula.SubstituteFree, Formula.objective, h, ih]
  | _ => simp_all [Formula.SubstituteFree, Formula.objective]

theorem all_of_total {α : Type} (pred : α → Option Bool) (l : List α)
    (h : ∀ a ∈ l, ∃ b, pred a = some b) : ∃ b, all_of pred l = some b := by
  induction l with
  | nil => exact ⟨true, rfl⟩
  | cons a as ih =>
    obtain ⟨b, hb⟩ := h a (List.mem_cons_self a as)
    cases b with
    | false => exact ⟨false, by simp [all_of, hb]⟩
    | true =>
      obtain ⟨b', hb'⟩ := ih (fun a' ha' => h a' (List.mem_cons_of_mem a ha'))
      exact ⟨b', by simp [all_of, hb, hb']⟩

theorem any_of_total {α : Type} (pred : α → Option Bool) (l : List α)
    (h : ∀ a ∈ l, ∃ b, pred a = some b) : ∃ b, any_of pred l = some b := by
  induction l with
  | nil => exact ⟨false, rfl⟩
  | cons a as ih =>
    obtain ⟨b, hb⟩ := h a (List.mem_cons_self a as)
    cases b with
    | true => exact ⟨true, by simp [any_of, hb]⟩
    | false =>
      obtain ⟨b', hb'⟩ := ih (fun a' ha' => h a' (List.mem_cons_of_mem a ha'))
      exact ⟨b', by simp [any_of, hb, hb']⟩

/-! ## `Reduce` has a result on objective formulas -/

section ReduceFacts

variable {Setup : Type}

theorem ReduceFuel_total (O : SetupOps Setup) (names : SortedTermSet) (s : Setup) :
    ∀ (fuel : Nat) (phi : Formula), phi.size ≤ fuel → phi.objective = true →
      ∃ b, ReduceFuel O names s fuel phi = some b := by
  intro fuel
  induction fuel with
  | zero =>
    intro phi hsz _
    have := Formula.size_pos phi
    omega
  | succ fuel ih =>
    intro phi hsz hobj
    cases phi with
    | Atomic c => exact ⟨O.Subsumes s c, by simp [ReduceFuel]⟩
    | Not psi =>
      cases psi with
      | Atomic c =>
        simp only [ReduceFuel]
        apply all_of_total
        intro a _
        apply ih
        · simp [Formula.size] at hsz ⊢
          omega
        · rfl
      | Not chi =>
        simp only [ReduceFuel]
        apply ih
        · simp [Formula.size] at hsz ⊢
          omega
        · simpa [Formula.objective] using hobj
      | Or left right =>
        simp only [Formula.objective, Bool.and_eq_true] at hobj
        simp only [Formula.size] at hsz
        obtain ⟨b, hb⟩ := ih (Formula.Not left) (by simp [Formula.size]; omega)
          (by simpa [Formula.objective] using hobj.1)
        obtain ⟨b', hb'⟩ := ih (Formula.Not right) (by simp [Formula.size]; omega)
          (by simpa [Formula.objective] using hobj.2)
        cases b with
        | false => exact ⟨false, by simp [ReduceFuel, hb]⟩
        | true => exact ⟨b', by simp [ReduceFuel, hb, hb']⟩
      | Exists x chi =>
        simp only [ReduceFuel]
        apply all_of_total
        intro n _
        apply ih
        · rw [Formula.size_SubstituteFree]
          simp [Formula.size] at hsz ⊢
          omega
        · rw [Formula.objective_SubstituteFree]
          simpa [Formula.objective] using hobj
      | Know _ _ => simp [Formula.objective] at hobj
      | Cons _ _ => simp [Formula.objective] at hobj
      | Bel _ _ _ _ _ => simp [Formula.objective] at hobj
      | Guarantee _ => simp [Formula.objective] at hobj
    | Or left right =>
      simp only [Formula.objective, Bool.and_eq_true] at hobj
      simp only [Formula.size] at hsz
      obtain ⟨b, hb⟩ := ih left (by omega) hobj.1
      obtain ⟨b', hb'⟩ := ih right (by omega) hobj.2
      cases b with
      | true => exact ⟨true, by simp [ReduceFuel, hb]⟩
      | false => exact ⟨b', by simp [ReduceFuel, hb, hb']⟩
    | Exists x chi =>
      simp only [ReduceFuel]
      apply any_of_total
      intro n _
      apply ih
      · rw [Formula.size_SubstituteFree]
        simp [Formula.size] at hsz
        omega
      · rw [Formula.objective_SubstituteFree]
        simpa [Formula.objective] using hobj
    | Know _ _ => simp [Formula.objective] at hobj
    | Cons _ _ => simp [Formula.objective] at hobj
    | Bel _ _ _ _ _ => simp [Formula.objective] at hobj
    | Guarantee _ => simp [Formula.objective] at hobj

theorem Reduce_total (O : SetupOps Setup) (names : SortedTermSet) (s : Setup)
    (phi : Formula) (hobj : phi.objective = true) : ∃ b, Reduce O s names phi = some b :=
  ReduceFuel_total O names s phi.size phi (Nat.le_refl _) hobj

end ReduceFacts

/-! ## `Split` and `Assign`: the depth budget `max k 0` is enough -/

section SplitFacts

variable {Setup T : Type}

theorem SplitNamesLoop_total (O : SetupOps Setup) (asBool : T → Bool) (merge : T → T → T)
    (inconsistent_result : T) (rec : Setup → Option T) (s : Setup) (t : Term)
    (hrec : ∀ s', ∃ r, rec s' = some r) :
    ∀ (ns : List Term) (merged_result : T) (recursed : Bool),
      ∃ e, SplitNamesLoop O asBool merge inconsistent_result rec s t ns merged_result recursed
        = some e := by
  intro ns
  induction ns with
  | nil => intro m r; exact ⟨_, rfl⟩
  | cons n ns ih =>
    intro m r
    obtain ⟨x, hx⟩ := hrec (O.AddUnit s (Literal.Eq t n)).2
    simp only [SplitNamesLoop, hx]
    split_ifs <;> first | exact ⟨_, rfl⟩ | exact ih _ _

theorem SplitTermsLoop_total (O : SetupOps Setup) (asBool : T → Bool)
    (split_order_matters : Bool) (names : SortedTermSet) (k : Int) (goal : Setup → Option T)
    (merge : T → T → T) (inconsistent_result unsuccessful_result : T)
    (rec : Setup → List Term → Nat → Option T) (s : Setup) (split_terms : List Term)
    (n_split_terms : Nat)
    (hgoal : ∀ s, ∃ r, goal s = some r) (hrec : ∀ s' ts n, ∃ r, rec s' ts n = some r) :
    ∀ (it : List Term) (n_split_terms_left : Nat) (recursed : Bool),
      ∃ r, SplitTermsLoop O asBool split_order_matters names k goal merge inconsistent_result
        unsuccessful_result rec s split_terms n_split_terms it n_split_terms_left recursed
          = some r := by
  intro it
  induction it with
  | nil =>
    intro l r
    simp only [SplitTermsLoop]
    split
    · exact ⟨_, rfl⟩
    · exact hgoal s
  | cons t it ih =>
    intro l r
    simp only [SplitTermsLoop]
    split
    · split
      · exact ⟨_, rfl⟩
      · exact hgoal s
    · split
      · exact ih _ _
      · obtain ⟨e, he⟩ := SplitNamesLoop_total O asBool merge inconsistent_result
          (fun split_setup =>
            rec split_setup (if split_order_matters then split_terms else it)
              (if split_order_matters then n_split_terms else l - 1))
          s t (fun s' => hrec _ _ _) (names t.sort) unsuccessful_result r
        rw [he]
        cases e with
        | ret m => exact ⟨m, rfl⟩
        | next_split r' => exact ih _ _

/-- With `k ≤ 0` the body of `Split` makes no recursive call. -/
theorem SplitBody_nonpos (O : SetupOps Setup) (asBool : T → Bool)
    (split_order_matters : Bool) (names : SortedTermSet) (goal : Setup → Option T)
    (merge : T → T → T) (inconsistent_result unsuccessful_result : T)
    (rec : Setup → List Term → Nat → Option T) (s : Setup) (split_terms : List Term)
    (n_split_terms : Nat) (k : Int) (hk : k ≤ 0) :
    SplitBody O asBool split_order_matters names goal merge inconsistent_result
      unsuccessful_result rec s split_terms n_split_terms k
      = if O.contains_empty_clause s then some unsuccessful_result else goal s := by
  have hk' : ¬ (k > 0) := by omega
  simp [SplitBody, hk']

theorem SplitD_total (O : SetupOps Setup) (asBool : T → Bool)
    (split_order_matters : Bool) (names : SortedTermSet) (goal : Setup → Option T)
    (merge : T → T → T) (inconsistent_result unsuccessful_result : T)
    (hgoal : ∀ s, ∃ r, goal s = some r) :
    ∀ (d : Nat) (s : Setup) (split_terms : List Term) (n_split_terms : Nat) (k : Int),
      k.toNat ≤ d →
      ∃ r, SplitD O asBool split_order_matters names goal merge inconsistent_result
        unsuccessful_result d s split_terms n_split_terms k = some r := by
  intro d
  induction d with
  | zero =>
    intro s ts n k hk
    have hk0 : k ≤ 0 := by omega
    simp only [SplitD]
    rw [SplitBody_nonpos _ _ _ _ _ _ _ _ _ _ _ _ _ hk0]
    split
    · exact ⟨_, rfl⟩
    · exact hgoal s
  | succ d ih =>
    intro s ts n k hk
    simp only [SplitD, SplitBody]
    split
    · exact ⟨_, rfl⟩
    · split
      · apply SplitTermsLoop_total _ _ _ _ _ _ _ _ _ _ _ _ _ hgoal
        intro s' ts' n'
        exact ih s' ts' n' (k - 1) (by omega)
      · exact hgoal s

/-- A depth budget beyond `max k 0` is never used. -/
theorem SplitD_budget (O : SetupOps Setup) (asBool : T → Bool)
    (split_order_matters : Bool) (names : SortedTermSet) (goal : Setup → Option T)
    (merge : T → T → T) (inconsistent_result unsuccessful_result : T) :
    ∀ (d d' : Nat) (s : Setup) (split_terms : List Term) (n_split_terms : Nat) (k : Int),
      k.toNat ≤ d → k.toNat ≤ d' →
      SplitD O asBool split_order_matters names goal merge inconsistent_result
        unsuccessful_result d s split_terms n_split_terms k
      = SplitD O asBool split_order_matters names goal merge inconsistent_result
        unsuccessful_result d' s split_terms n_split_terms k := by
  intro d
  induction d with
  | zero =>
    intro d' s ts n k hk _
    have hk0 : k ≤ 0 := by omega
    cases d' <;>
      simp only [SplitD, SplitBody_nonpos _ _ _ _ _ _ _ _ _ _ _ _ _ hk0]
  | succ d ih =>
    intro d' s ts n k hk hk'
    by_cases hk0 : k ≤ 0
    · cases d' <;>
        simp only [SplitD, SplitBody_nonpos _ _ _ _ _ _ _ _ _ _ _ _ _ hk0]
    · cases d' with
      | zero => omega
      | succ d' =>
        simp only [SplitD]
        have : (fun s' ts' n' =>
            SplitD O asBool split_order_matters names goal merge inconsistent_result
              unsuccessful_result d s' ts' n' (k - 1))
          = (fun s' ts' n' =>
            SplitD O asBool split_order_matters names goal merge inconsistent_result
              unsuccessful_result d' s' ts' n' (k - 1)) := by
          funext s' ts' n'
          exact ih d' s' ts' n' (k - 1) (by omega) (by omega)
        rw [this]

end SplitFacts

section AssignFacts

variable {Setup : Type}

theorem AssignBody_total (F : FormulaOps) (O : SetupOps Setup) (names : SortedTermSet)
    (rec : Setup → Option Bool) (s : Setup) (assign_lits : LiteralAssignmentSet) (k : Int)
    (phi : Formula) (assume_consistent : Bool) (relevant_terms : TermSet)
    (hobj : phi.objective = true) (hrec : 0 < k → ∀ s', ∃ b, rec s' = some b) :
    ∃ b, AssignBody F O names rec s assign_lits k phi assume_consistent relevant_terms
      = some b := by
  simp only [AssignBody]
  split_ifs with h1 h2 h3 h4 h5
  · exact ⟨_, rfl⟩
  · exact ⟨_, rfl⟩
  · exact any_of_total _ _ (fun lits _ => hrec h2.1 _)
  · exact ⟨_, rfl⟩
  · exact ⟨_, rfl⟩
  · exact Reduce_total O names s phi hobj

theorem AssignD_total (F : FormulaOps) (O : SetupOps Setup) (names : SortedTermSet)
    (assign_lits : LiteralAssignmentSet) (phi : Formula) (assume_consistent : Bool)
    (relevant_terms : TermSet) (hobj : phi.objective = true) :
    ∀ (d : Nat) (s : Setup) (k : Int), k.toNat ≤ d →
      ∃ b, AssignD F O names assign_lits phi assume_consistent relevant_terms d s k
        = some b := by
  intro d
  induction d with
  | zero =>
    intro s k hk
    simp only [AssignD]
    exact AssignBody_total F O names _ s assign_lits k phi assume_consistent relevant_terms
      hobj (fun h => by omega)
  | succ d ih =>
    intro s k hk
    simp only [AssignD]
    exact AssignBody_total F O names _ s assign_lits k phi assume_consistent relevant_terms
      hobj (fun _ s' => ih s' (k - 1) (by omega))

theorem Assign_total (F : FormulaOps) (O : SetupOps Setup) (s : Setup)
    (assign_lits : LiteralAssignmentSet) (names : SortedTermSet) (k : Int) (phi : Formula)
    (assume_consistent : Bool) (relevant_terms : TermSet) (hobj : phi.objective = true) :
    ∃ b, Assign F O s assign_lits names k phi assume_consistent relevant_terms = some b :=
  AssignD_total F O names assign_lits phi assume_consistent relevant_terms hobj _ s k
    (Nat.le_refl _)

theorem ReduceConjunctionsSplit_total (F : FormulaOps) (O : SetupOps Setup) (s : Setup)
    (split_terms : TermSet) (names : SortedTermSet) (k : Int) (phi : Formula)
    (hobj : phi.objective = true) :
    ∃ b, ReduceConjunctionsSplit F O s split_terms names k phi = some b := by
  simp only [ReduceConjunctionsSplit]
  split_ifs
  · exact ⟨_, rfl⟩
  · exact SplitD_total O id false names _ _ true false
      (fun s' => Reduce_total O names s' phi hobj) _ s split_terms _ k (Nat.le_refl _)

theorem ReduceConjunctionsFuel_total (F : FormulaOps) (O : SetupOps Setup) (s : Setup)
    (split_terms : TermSet) (names : SortedTermSet) (k : Int) :
    ∀ (fuel : Nat) (phi : Formula), phi.size ≤ fuel → phi.objective = true →
      ∃ b, ReduceConjunctionsFuel F O s split_terms names k fuel phi = some b := by
  intro fuel
  induction fuel with
  | zero =>
    intro phi hsz _
    have := Formula.size_pos phi
    omega
  | succ fuel ih =>
    intro phi hsz hobj
    cases phi with
    | Not psi =>
      cases psi with
      | Atomic c =>
        simp only [ReduceConjunctionsFuel]
        apply all_of_total
        intro a _
        apply ih
        · simp [Formula.size] at hsz ⊢
          omega
        · rfl
      | Not chi =>
        simp only [ReduceConjunctionsFuel]
        apply ih
        · simp [Formula.size] at hsz ⊢
          omega
        · simpa [Formula.objective] using hobj
      | Or left right =>
        simp only [Formula.objective, Bool.and_eq_true] at hobj
        simp only [Formula.size] at hsz
        obtain ⟨b, hb⟩ := ih (Formula.Not left) (by simp [Formula.size]; omega)
          (by simpa [Formula.objective] using hobj.1)
        obtain ⟨b', hb'⟩ := ih (Formula.Not right) (by simp [Formula.size]; omega)
          (by simpa [Formula.objective] using hobj.2)
        cases b with
        | false => exact ⟨false, by simp [ReduceConjunctionsFuel, hb]⟩
        | true => exact ⟨b', by simp [ReduceConjunctionsFuel, hb, hb']⟩
      | Exists x chi =>
        simp only [ReduceConjunctionsFuel]
        apply all_of_total
        intro n _
        apply ih
        · rw [Formula.size_SubstituteFree]
          simp [Formula.size] at hsz ⊢
          omega
        · rw [Formula.objective_SubstituteFree]
          simpa [Formula.objective] using hobj
      | Know _ _ => simp [Formula.objective] at hobj
      | Cons _ _ => simp [Formula.objective] at hobj
      | Bel _ _ _ _ _ => simp [Formula.objective] at hobj
      | Guarantee _ => simp [Formula.objective] at hobj
    | Atomic c =>
      simp only [ReduceConjunctionsFuel]
      exact ReduceConjunctionsSplit_total F O s split_terms names k _ hobj
    | Or left right =>
      simp only [ReduceConjunctionsFuel]
      exact ReduceConjunctionsSplit_total F O s split_terms names k _ hobj
    | Exists x chi =>
      simp only [ReduceConjunctionsFuel]
      exact ReduceConjunctionsSplit_total F O s split_terms names k _ hobj
    | Know _ _ => simp [Formula.objective] at hobj
    | Cons _ _ => simp [Formula.objective] at hobj
    | Bel _ _ _ _ _ => simp [Formula.objective] at hobj
    | Guarantee _ => simp [Formula.objective] at hobj

theorem ReduceDisjunctionsFuel_total (F : FormulaOps) (O : SetupOps Setup) (s : Setup)
    (assign_lits : LiteralAssignmentSet) (names : SortedTermSet) (k : Int)
    (assume_consistent : Bool) (relevant_terms : TermSet) :
    ∀ (fuel : Nat) (phi : Formula), phi.size ≤ fuel → phi.objective = true →
      ∃ b, ReduceDisjunctionsFuel F O s assign_lits names k assume_consistent relevant_terms
        fuel phi = some b := by
  intro fuel
  induction fuel with
  | zero =>
    intro phi hsz _
    have := Formula.size_pos phi
    omega
  | succ fuel ih =>
    intro phi hsz hobj
    cases phi with
    | Atomic c =>
      simp only [ReduceDisjunctionsFuel]
      exact Assign_total F O s assign_lits names k _ assume_consistent relevant_terms hobj
    | Or left right =>
      simp only [Formula.objective, Bool.and_eq_true] at hobj
      simp only [Formula.size] at hsz
      obtain ⟨b, hb⟩ := ih left (by omega) hobj.1
      obtain ⟨b', hb'⟩ := ih right (by omega) hobj.2
      cases b with
      | true => exact ⟨true, by simp [ReduceDisjunctionsFuel, hb]⟩
      | false => exact ⟨b', by simp [ReduceDisjunctionsFuel, hb, hb']⟩
    | Exists x chi =>
      simp only [ReduceDisjunctionsFuel]
      apply any_of_total
      intro n _
      apply ih
      · rw [Formula.size_SubstituteFree]
        simp [Formula.size] at hsz
        omega
      · rw [Formula.objective_SubstituteFree]
        simpa [Formula.objective] using hobj
    | Not psi =>
      have hA : ∃ b, (if F.trivially_invalid (Formula.Not psi) = true then some false
          else Assign F O s assign_lits names k (Formula.Not psi) assume_consistent
            relevant_terms) = some b := by
        split_ifs
        · exact ⟨_, rfl⟩
        · exact Assign_total F O s assign_lits names k _ assume_consistent relevant_terms hobj
      cases psi with
      | Not chi =>
        simp only [ReduceDisjunctionsFuel]
        apply ih
        · simp [Formula.size] at hsz ⊢
          omega
        · simpa [Formula.objective] using hobj
      | Atomic c => simpa only [ReduceDisjunctionsFuel] using hA
      | Or left right => simpa only [ReduceDisjunctionsFuel] using hA
      | Exists x chi => simpa only [ReduceDisjunctionsFuel] using hA
      | Know _ _ => simp [Formula.objective] at hobj
      | Cons _ _ => simp [Formula.objective] at hobj
      | Bel _ _ _ _ _ => simp [Formula.objective] at hobj
      | Guarantee _ => simp [Formula.objective] at hobj
    | Know _ _ => simp [Formula.objective] at hobj
    | Cons _ _ => simp [Formula.objective] at hobj
    | Bel _ _ _ _ _ => simp [Formula.objective] at hobj
    | Guarantee _ => simp [Formula.objective] at hobj

end AssignFacts

/-! ## The claims about `Solver` -/

section SolverClaims

variable {G Setup T : Type}

theorem Term.isNull_iff (v : Term) : v.isNull = true ↔ v = Term.null := by
  cases v <;> simp [Term.isNull]

theorem ReduceDisjunctions_total (F : FormulaOps) (O : SetupOps Setup) (s : Setup)
    (assign_lits : LiteralAssignmentSet) (names : SortedTermSet) (k : Int) (phi : Formula)
    (assume_consistent : Bool) (relevant_terms : TermSet) (hobj : phi.objective = true) :
    ∃ b, ReduceDisjunctions F O s assign_lits names k phi assume_consistent relevant_terms
      = some b :=
  ReduceDisjunctionsFuel_total F O s assign_lits names k assume_consistent relevant_terms
    phi.size phi (Nat.le_refl _) hobj

/-- C1: for every split level `k`, every objective formula `phi` and every consistency flag,
`EntailsComplete(k, phi, assume_consistent)` is the negation of
`Consistent(k, Not(phi), assume_consistent)`: the latter returns a boolean `b`, the former
returns `!b`, and both leave the grounder in the same state. -/
theorem Solver.EntailsComplete_eq_not_Consistent (F : FormulaOps) (O : SetupOps Setup)
    (GO : GrounderOps G Setup) (g : G) (k : Int) (phi : Formula) (assume_consistent : Bool)
    (hobj : phi.objective = true) :
    ∃ b, (Solver.Consistent F O GO g k (Formula.Not phi) assume_consistent).1 = some b ∧
      Solver.EntailsComplete F O GO g k phi assume_consistent
        = (some (!b), (Solver.Consistent F O GO g k (Formula.Not phi) assume_consistent).2) := by
  have hobj' : (Formula.Not phi).objective = true := by simpa [Formula.objective] using hobj
  obtain ⟨b, hb⟩ := ReduceDisjunctions_total F O
    (GO.Ground (GO.PrepareForQuery k (Formula.Not phi) g)).1
    (if k = 0 then [] else if assume_consistent then
      GO.RelevantLiteralAssignments (GO.Ground (GO.PrepareForQuery k (Formula.Not phi) g)).2
        (Formula.Not phi)
      else GO.LiteralAssignments (GO.Ground (GO.PrepareForQuery k (Formula.Not phi) g)).2)
    (GO.Names (GO.Ground (GO.PrepareForQuery k (Formula.Not phi) g)).2) k (Formula.Not phi)
    assume_consistent
    (if assume_consistent then
      GO.RelevantSplitTerms (GO.Ground (GO.PrepareForQuery k (Formula.Not phi) g)).2
        (Formula.Not phi)
      else []) hobj'
  refine ⟨b, hb, ?_⟩
  have hb' : (Solver.Consistent F O GO g k (Formula.Not phi) assume_consistent).1 = some b := hb
  simp only [Solver.EntailsComplete, hb', Option.map_some']

theorem Solver.EntailsComplete_eq_not_Consistent_witness :
    Scenario.query.objective = true ∧
    ∃ b, (Solver.Consistent RefFormulaOps RefSetup.ops FixedGrounder.ops
        (Scenario.grounder [Scenario.t1, Scenario.t2, Scenario.t3]) 2
        (Formula.Not Scenario.query) false).1 = some b ∧
      Solver.EntailsComplete RefFormulaOps RefSetup.ops FixedGrounder.ops
        (Scenario.grounder [Scenario.t1, Scenario.t2, Scenario.t3]) 2 Scenario.query false
        = (some (!b), (Solver.Consistent RefFormulaOps RefSetup.ops FixedGrounder.ops
        (Scenario.grounder [Scenario.t1, Scenario.t2, Scenario.t3]) 2
        (Formula.Not Scenario.query) false).2) :=
  ⟨by decide, Solver.EntailsComplete_eq_not_Consistent RefFormulaOps RefSetup.ops
    FixedGrounder.ops (Scenario.grounder [Scenario.t1, Scenario.t2, Scenario.t3]) 2
    Scenario.query false (by decide)⟩

theorem any_of_congr {α : Type} (p q : α → Option Bool) (l : List α)
    (h : ∀ a, p a = q a) : any_of p l = any_of q l := by
  have : p = q := funext h
  rw [this]

/-- Fuel beyond the size of the formula does not change `ReduceDisjunctions`. -/
theorem ReduceDisjunctionsFuel_fuel (F : FormulaOps) (O : SetupOps Setup) (s : Setup)
    (assign_lits : LiteralAssignmentSet) (names : SortedTermSet) (k : Int)
    (assume_consistent : Bool) (relevant_terms : TermSet) :
    ∀ (fuel fuel' : Nat) (phi : Formula), phi.size ≤ fuel → phi.size ≤ fuel' →
      ReduceDisjunctionsFuel F O s assign_lits names k assume_consistent relevant_terms
        fuel phi
      = ReduceDisjunctionsFuel F O s assign_lits names k assume_consistent relevant_terms
        fuel' phi := by
  intro fuel
  induction fuel with
  | zero =>
    intro fuel' phi hsz _
    have := Formula.size_pos phi
    omega
  | succ fuel ih =>
    intro fuel' phi hsz hsz'
    cases fuel' with
    | zero =>
      have := Formula.size_pos phi
      omega
    | succ fuel' =>
      cases phi with
      | Atomic c => simp only [ReduceDisjunctionsFuel]
      | Or left right =>
        simp only [Formula.size] at hsz hsz'
        simp only [ReduceDisjunctionsFuel]
        rw [ih fuel' left (by omega) (by omega), ih fuel' right (by omega) (by omega)]
      | Exists x chi =>
        simp only [Formula.size] at hsz hsz'
        simp only [ReduceDisjunctionsFuel]
        apply any_of_congr
        intro n
        apply ih
        · rw [Formula.size_SubstituteFree]; omega
        · rw [Formula.size_SubstituteFree]; omega
      | Not psi =>
        cases psi with
        | Not chi =>
          simp only [Formula.size] at hsz hsz'
          simp only [ReduceDisjunctionsFuel]
          exact ih fuel' chi (by omega) (by omega)
        | Atomic c => simp only [ReduceDisjunctionsFuel]
        | Or left right => simp only [ReduceDisjunctionsFuel]
        | Exists x chi => simp only [ReduceDisjunctionsFuel]
        | Know _ _ => simp only [ReduceDisjunctionsFuel]
        | Cons _ _ => simp only [ReduceDisjunctionsFuel]
        | Bel _ _ _ _ _ => simp only [ReduceDisjunctionsFuel]
        | Guarantee _ => simp only [ReduceDisjunctionsFuel]
      | Know _ _ => simp only [ReduceDisjunctionsFuel]
      | Cons _ _ => simp only [ReduceDisjunctionsFuel]
      | Bel _ _ _ _ _ => simp only [ReduceDisjunctionsFuel]
      | Guarantee _ => simp only [ReduceDisjunctionsFuel]

/-- The case `kNot` over `kNot` of `ReduceDisjunctions`. -/
theorem ReduceDisjunctions_Not_Not (F : FormulaOps) (O : SetupOps Setup) (s : Setup)
    (assign_lits : LiteralAssignmentSet) (names : SortedTermSet) (k : Int) (phi : Formula)
    (assume_consistent : Bool) (relevant_terms : TermSet) :
    ReduceDisjunctions F O s assign_lits names k (Formula.Not (Formula.Not phi))
      assume_consistent relevant_terms
    = ReduceDisjunctions F O s assign_lits names k phi assume_consistent relevant_terms := by
  simp only [ReduceDisjunctions, Formula.size, ReduceDisjunctionsFuel]
  exact ReduceDisjunctionsFuel_fuel F O s assign_lits names k assume_consistent relevant_terms
    (phi.size + 1) phi.size phi (by omega) (Nat.le_refl _)

/-- C2: on a solver whose grounder does not tell `Not(Not(phi))` from `phi`, for every `k`,
every objective formula `phi` and every consistency flag, `Consistent(k, phi)` returns a
boolean `b`, `EntailsComplete(k, Not(phi))` returns `!b`, and `Consistent(k, Not(Not(phi)))`
returns `b` as well. -/
theorem Solver.Consistent_eq_not_EntailsComplete (F : FormulaOps) (O : SetupOps Setup)
    (GO : GrounderOps G Setup) (hGO : GO.DoubleNegationBlind) (g : G) (k : Int)
    (phi : Formula) (assume_consistent : Bool) (hobj : phi.objective = true) :
    ∃ b, (Solver.Consistent F O GO g k phi assume_consistent).1 = some b ∧
      (Solver.EntailsComplete F O GO g k (Formula.Not phi) assume_consistent).1 = some (!b) ∧
      (Solver.Consistent F O GO g k (Formula.Not (Formula.Not phi)) assume_consistent).1
        = some b := by
  obtain ⟨h1, h2, h3⟩ := hGO phi
  have hNN : (Solver.Consistent F O GO g k (Formula.Not (Formula.Not phi)) assume_consistent).1
      = (Solver.Consistent F O GO g k phi assume_consistent).1 := by
    simp only [Solver.Consistent, h1, h2, h3, ReduceDisjunctions_Not_Not]
  obtain ⟨b, hb⟩ : ∃ b, (Solver.Consistent F O GO g k phi assume_consistent).1 = some b :=
    ReduceDisjunctions_total F O _ _ _ k phi assume_consistent _ hobj
  refine ⟨b, hb, ?_, hNN.trans hb⟩
  simp only [Solver.EntailsComplete, hNN, hb, Option.map_some']

theorem Solver.Consistent_eq_not_EntailsComplete_witness :
    FixedGrounder.ops.DoubleNegationBlind ∧ Scenario.query.objective = true ∧
    ∃ b, (Solver.Consistent RefFormulaOps RefSetup.ops FixedGrounder.ops
        (Scenario.grounder [Scenario.t1, Scenario.t2, Scenario.t3]) 2
        Scenario.query true).1 = some b ∧
      (Solver.EntailsComplete RefFormulaOps RefSetup.ops FixedGrounder.ops
        (Scenario.grounder [Scenario.t1, Scenario.t2, Scenario.t3]) 2
        (Formula.Not Scenario.query) true).1 = some (!b) ∧
      (Solver.Consistent RefFormulaOps RefSetup.ops FixedGrounder.ops
        (Scenario.grounder [Scenario.t1, Scenario.t2, Scenario.t3]) 2
        (Formula.Not (Formula.Not Scenario.query)) true).1 = some b :=
  ⟨fun _ => ⟨fun _ _ => rfl, fun _ => rfl, fun _ => rfl⟩, by decide,
    Solver.Consistent_eq_not_EntailsComplete RefFormulaOps RefSetup.ops FixedGrounder.ops
      (fun _ => ⟨fun _ _ => rfl, fun _ => rfl, fun _ => rfl⟩)
      (Scenario.grounder [Scenario.t1, Scenario.t2, Scenario.t3]) 2 Scenario.query true
      (by decide)⟩

/-- C3: in the scenario, `Determines(2, t)` returns `Just(n)` for the primitive term `t` and
the non-null name `n`, while `Entails(2, [t = n])` over the same clauses, names and split
terms returns false. -/
theorem Solver.Determines_not_Entails :
    Scenario.t.primitive = true ∧ Scenario.n.isNull = false ∧
    (Solver.Determines RefSetup.ops FixedGrounder.ops
      (Scenario.grounder [Scenario.t1, Scenario.t2, Scenario.t3, Scenario.t]) 2
      Scenario.t false).1 = some (some Scenario.n) ∧
    (Solver.Entails RefFormulaOps RefSetup.ops FixedGrounder.ops
      (Scenario.grounder [Scenario.t1, Scenario.t2, Scenario.t3, Scenario.t]) 2
      (Formula.Atomic [Literal.Eq Scenario.t Scenario.n]) false).1 = some false := by
  decide

/-- With the empty clause in the setup, `Split` returns `unsuccessful_result`. -/
theorem SplitD_of_contains_empty_clause (O : SetupOps Setup) (asBool : T → Bool)
    (split_order_matters : Bool) (names : SortedTermSet) (goal : Setup → Option T)
    (merge : T → T → T) (inconsistent_result unsuccessful_result : T) (d : Nat) (s : Setup)
    (split_terms : List Term) (n_split_terms : Nat) (k : Int)
    (h : O.contains_empty_clause s = true) :
    SplitD O asBool split_order_matters names goal merge inconsistent_result
      unsuccessful_result d s split_terms n_split_terms k = some unsuccessful_result := by
  cases d <;> simp [SplitD, SplitBody, h]

/-- C4: when the ground setup contains the empty clause, `Determines(k, t)` returns
`Nothing`, for every `k`, every term and every consistency flag. -/
theorem Solver.Determines_of_contains_empty_clause (O : SetupOps Setup)
    (GO : GrounderOps G Setup) (g : G) (k : Int) (lhs : Term) (assume_consistent : Bool)
    (h : O.contains_empty_clause (GO.Ground (GO.PrepareForQueryTerm k lhs g)).1 = true) :
    (Solver.Determines O GO g k lhs assume_consistent).1 = some none := by
  simp only [Solver.Determines, Split]
  exact SplitD_of_contains_empty_clause O _ _ _ _ _ _ _ _ _ _ _ _ h

theorem Solver.Determines_of_contains_empty_clause_witness :
    RefSetup.ops.contains_empty_clause
      (FixedGrounder.ops.Ground
        (FixedGrounder.ops.PrepareForQueryTerm 2 Scenario.t Scenario.inconsistent_grounder)).1
      = true ∧
    (Solver.Determines RefSetup.ops FixedGrounder.ops Scenario.inconsistent_grounder 2
      Scenario.t false).1 = some none :=
  ⟨by decide, Solver.Determines_of_contains_empty_clause RefSetup.ops FixedGrounder.ops
    Scenario.inconsistent_grounder 2 Scenario.t false (by decide)⟩

/-- C5: the base cases of `Split`, for every goal, merge and result type.  If the setup
contains the empty clause, `Split` returns `unsuccessful_result` whatever the goal is;
otherwise, if `k ≤ 0` or there are no split terms, `Split` returns `goal(setup)`. -/
theorem Split_base_cases (O : SetupOps Setup) (asBool : T → Bool)
    (split_order_matters : Bool) (s : Setup) (split_terms : TermSet) (names : SortedTermSet)
    (k : Int) (goal : Setup → Option T) (merge : T → T → T)
    (inconsistent_result unsuccessful_result : T) :
    (O.contains_empty_clause s = true →
      ∀ goal' : Setup → Option T,
        Split O asBool split_order_matters s split_terms names k goal' merge
          inconsistent_result unsuccessful_result = some unsuccessful_result) ∧
    (O.contains_empty_clause s = false → (k ≤ 0 ∨ split_terms = []) →
      Split O asBool split_order_matters s split_terms names k goal merge
        inconsistent_result unsuccessful_result = goal s) := by
  constructor
  · intro h goal'
    exact SplitD_of_contains_empty_clause O _ _ _ _ _ _ _ _ _ _ _ _ h
  · intro h hk
    simp only [Split]
    rcases hk with hk | hts
    · have h0 : k.toNat = 0 := by omega
      rw [h0]
      simp only [SplitD]
      rw [SplitBody_nonpos _ _ _ _ _ _ _ _ _ _ _ _ _ hk]
      simp [h]
    · subst hts
      cases k.toNat <;> simp [SplitD, SplitBody, h]

theorem Split_base_cases_witness :
    (RefSetup.ops.contains_empty_clause Scenario.inconsistent_setup = true ∧
      Split RefSetup.ops id false Scenario.inconsistent_setup
        [Scenario.t1, Scenario.t2, Scenario.t3] Scenario.names 2 Scenario.goal
        (fun r1 r2 => r1 && r2) true false = some false) ∧
    (RefSetup.ops.contains_empty_clause Scenario.setup = false ∧
      ((0 : Int) ≤ 0 ∨ [Scenario.t1, Scenario.t2, Scenario.t3] = []) ∧
      Split RefSetup.ops id false Scenario.setup
        [Scenario.t1, Scenario.t2, Scenario.t3] Scenario.names 0 Scenario.goal
        (fun r1 r2 => r1 && r2) true false = Scenario.goal Scenario.setup) :=
  ⟨⟨by decide, (Split_base_cases RefSetup.ops id false Scenario.inconsistent_setup
      [Scenario.t1, Scenario.t2, Scenario.t3] Scenario.names 2 Scenario.goal
      (fun r1 r2 => r1 && r2) true false).1 (by decide) Scenario.goal⟩,
   ⟨by decide, Or.inl (Int.le_refl 0),
    (Split_base_cases RefSetup.ops id false Scenario.setup
      [Scenario.t1, Scenario.t2, Scenario.t3] Scenario.names 0 Scenario.goal
      (fun r1 r2 => r1 && r2) true false).2 (by decide) (Or.inl (Int.le_refl 0))⟩⟩

/-- With the merge and the results of `Entails`, a names loop whose branches are all
inconsistent or successful keeps `merged_result` true. -/
theorem SplitNamesLoop_Entails_true (O : SetupOps Setup) (rec : Setup → Option Bool)
    (s : Setup) (t : Term) :
    ∀ (ns : List Term),
      (∀ n ∈ ns, (O.AddUnit s (Literal.Eq t n)).1 = Result.kInconsistent ∨
        rec (O.AddUnit s (Literal.Eq t n)).2 = some true) →
      ∀ (merged_result recursed : Bool), (ns ≠ [] ∨ merged_result = true) →
      SplitNamesLoop O id (fun r1 r2 => r1 && r2) true rec s t ns merged_result recursed
        = some (NamesExit.ret true) := by
  intro ns
  induction ns with
  | nil =>
    intro _ m r h
    rcases h with h | h
    · exact absurd rfl h
    · subst h; rfl
  | cons n ns ih =>
    intro hok m r _
    have hn := hok n (List.mem_cons_self n ns)
    have ih' := ih (fun n' hn' => hok n' (List.mem_cons_of_mem n hn'))
    simp only [SplitNamesLoop]
    by_cases hinc : (O.AddUnit s (Literal.Eq t n)).1 = Result.kInconsistent
    · simp only [hinc, if_true]
      cases m <;> simp [ih']
    · have hrec : rec (O.AddUnit s (Literal.Eq t n)).2 = some true := by
        rcases hn with h | h
        · exact absurd h hinc
        · exact h
      simp only [hinc, if_false, hrec]
      cases m <;> simp [ih']

/-- With the merge and the results of `Entails`, a names loop that runs to its end has seen
only inconsistent or successful branches, and returns true unless there was no name. -/
theorem SplitNamesLoop_Entails_ret (O : SetupOps Setup) (rec : Setup → Option Bool)
    (s : Setup) (t : Term) :
    ∀ (ns : List Term) (merged_result recursed r : Bool),
      SplitNamesLoop O id (fun r1 r2 => r1 && r2) true rec s t ns merged_result recursed
        = some (NamesExit.ret r) →
      (∀ n ∈ ns, (O.AddUnit s (Literal.Eq t n)).1 = Result.kInconsistent ∨
        rec (O.AddUnit s (Literal.Eq t n)).2 = some true) ∧
      (r = true ∨ (ns = [] ∧ r = merged_result)) := by
  intro ns
  induction ns with
  | nil =>
    intro m rc r h
    simp only [SplitNamesLoop, Option.some.injEq, NamesExit.ret.injEq] at h
    exact ⟨fun n hn => absurd hn (List.not_mem_nil n), Or.inr ⟨rfl, h.symm⟩⟩
  | cons n ns ih =>
    intro m rc r h
    simp only [SplitNamesLoop] at h
    by_cases hinc : (O.AddUnit s (Literal.Eq t n)).1 = Result.kInconsistent
    · simp only [hinc, if_true] at h
      have h' : SplitNamesLoop O id (fun r1 r2 => r1 && r2) true rec s t ns true true
          = some (NamesExit.ret r) := by
        cases m <;> simpa using h
      obtain ⟨hall, hr⟩ := ih true true r h'
      refine ⟨?_, Or.inl ?_⟩
      · intro n' hn'
        rcases List.mem_cons.1 hn' with e | e
        · subst e; exact Or.inl hinc
        · exact hall n' e
      · rcases hr with hr | ⟨_, hr⟩
        · exact hr
        · exact hr
    · simp only [hinc, if_false] at h
      cases hrec : rec (O.AddUnit s (Literal.Eq t n)).2 with
      | none => simp [hrec] at h
      | some b =>
        cases b with
        | false => simp [hrec] at h
        | true =>
          have h' : SplitNamesLoop O id (fun r1 r2 => r1 && r2) true rec s t ns true true
              = some (NamesExit.ret r) := by
            cases m <;> simpa [hrec] using h
          obtain ⟨hall, hr⟩ := ih true true r h'
          refine ⟨?_, Or.inl ?_⟩
          · intro n' hn'
            rcases List.mem_cons.1 hn' with e | e
            · subst e; exact Or.inr hrec
            · exact hall n' e
          · rcases hr with hr | ⟨_, hr⟩
            · exact hr
            · exact hr

/-- The loop over the split terms in `Entails`: a term that the budget break does not cut
off, that the setup does not determine and all of whose branches are inconsistent or
successful makes the loop return true. -/
theorem SplitTermsLoop_Entails_of_term (O : SetupOps Setup) (names : SortedTermSet) (k : Int)
    (goal : Setup → Option Bool) (rec : Setup → List Term → Nat → Option Bool) (s : Setup)
    (split_terms : List Term) (n_split_terms : Nat)
    (hrec : ∀ s' ts n, ∃ r, rec s' ts n = some r) :
    ∀ (pre : List Term) (t : Term) (post : List Term) (recursed : Bool),
      (∀ p ∈ pre ++ t :: post, names p.sort ≠ []) →
      ¬ ((n_split_terms : Int) ≥ k ∧ ((post.length + 1 : Nat) : Int) < k - 1) →
      O.Determines s t = none →
      (∀ n ∈ names t.sort, (O.AddUnit s (Literal.Eq t n)).1 = Result.kInconsistent ∨
        rec (O.AddUnit s (Literal.Eq t n)).2 post post.length = some true) →
      SplitTermsLoop O id false names k goal (fun r1 r2 => r1 && r2) true false rec s
        split_terms n_split_terms (pre ++ t :: post) (pre ++ t :: post).length recursed
        = some true := by
  intro pre
  induction pre with
  | nil =>
    intro t post recursed hnames hbreak hdet hok
    have hne : names t.sort ≠ [] := hnames t (by simp)
    simp only [List.nil_append, List.length_cons, SplitTermsLoop]
    rw [if_neg hbreak]
    simp only [hdet, Option.isSome_none, Bool.false_eq_true, if_false, Nat.add_sub_cancel]
    rw [SplitNamesLoop_Entails_true O _ s t (names t.sort) hok false recursed (Or.inl hne)]
  | cons p pre ih =>
    intro t post recursed hnames hbreak hdet hok
    have hne : names p.sort ≠ [] := hnames p (by simp)
    have ih' := fun r => ih t post r
      (fun q hq => hnames q (by simp only [List.cons_append, List.mem_cons]; exact Or.inr hq))
      hbreak hdet hok
    have hbreak' : ¬ ((n_split_terms : Int) ≥ k ∧
        (((p :: pre) ++ t :: post).length : Int) < k - 1) := by
      simp only [List.cons_append, List.length_cons, List.length_append] at hbreak ⊢
      omega
    simp only [List.cons_append, List.length_cons] at hbreak' ⊢
    simp only [SplitTermsLoop]
    rw [if_neg hbreak']
    simp only [Nat.add_sub_cancel, Bool.false_eq_true, if_false]
    split_ifs with hd
    · exact ih' recursed
    · obtain ⟨e, he⟩ := SplitNamesLoop_total O id (fun r1 r2 => r1 && r2) true
        (fun split_setup => rec split_setup (pre ++ t :: post) (pre ++ t :: post).length)
        s p (fun s' => hrec _ _ _) (names p.sort) false recursed
      rw [he]
      cases e with
      | ret r =>
        obtain ⟨_, hr⟩ := SplitNamesLoop_Entails_ret O _ s p (names p.sort) false recursed r he
        rcases hr with hr | ⟨hr, _⟩
        · rw [hr]
        · exact absurd hr hne
      | next_split r' => exact ih' r'

/-- The loop over the split terms in `Entails`: when it returns true, either it found a term
that the budget break does not cut off, that the setup does not determine and all of whose
branches are inconsistent or successful, or the goal holds of the setup itself. -/
theorem SplitTermsLoop_Entails_true (O : SetupOps Setup) (names : SortedTermSet) (k : Int)
    (goal : Setup → Option Bool) (rec : Setup → List Term → Nat → Option Bool) (s : Setup)
    (split_terms : List Term) (n_split_terms : Nat) :
    ∀ (it : List Term) (recursed : Bool),
      SplitTermsLoop O id false names k goal (fun r1 r2 => r1 && r2) true false rec s
        split_terms n_split_terms it it.length recursed = some true →
      (∃ pre t post, it = pre ++ t :: post ∧
        ¬ ((n_split_terms : Int) ≥ k ∧ ((post.length + 1 : Nat) : Int) < k - 1) ∧
        O.Determines s t = none ∧
        ∀ n ∈ names t.sort, (O.AddUnit s (Literal.Eq t n)).1 = Result.kInconsistent ∨
          rec (O.AddUnit s (Literal.Eq t n)).2 post post.length = some true) ∨
      goal s = some true := by
  intro it
  induction it with
  | nil =>
    intro recursed h
    simp only [SplitTermsLoop] at h
    split_ifs at h with hr
    · simp at h
    · exact Or.inr h
  | cons p it ih =>
    intro recursed h
    have lift : ∀ r, SplitTermsLoop O id false names k goal (fun r1 r2 => r1 && r2) true false
        rec s split_terms n_split_terms it it.length r = some true →
        (∃ pre t post, p :: it = pre ++ t :: post ∧
          ¬ ((n_split_terms : Int) ≥ k ∧ ((post.length + 1 : Nat) : Int) < k - 1) ∧
          O.Determines s t = none ∧
          ∀ n ∈ names t.sort, (O.AddUnit s (Literal.Eq t n)).1 = Result.kInconsistent ∨
            rec (O.AddUnit s (Literal.Eq t n)).2 post post.length = some true) ∨
        goal s = some true := by
      intro r hr
      rcases ih r hr with ⟨pre, t, post, e, h1, h2, h3⟩ | hg
      · exact Or.inl ⟨p :: pre, t, post, by rw [e]; rfl, h1, h2, h3⟩
      · exact Or.inr hg
    simp only [SplitTermsLoop, List.length_cons, Nat.add_sub_cancel, Bool.false_eq_true,
      if_false] at h
    split_ifs at h with hbreak hr hd
    · simp at h
    · exact Or.inr h
    · exact lift recursed h
    · cases he : SplitNamesLoop O id (fun r1 r2 => r1 && r2) true
          (fun split_setup => rec split_setup it it.length) s p (names p.sort) false recursed with
      | none => simp [he] at h
      | some e =>
        cases e with
        | ret r =>
          simp only [he, Option.some.injEq] at h
          subst h
          obtain ⟨hall, _⟩ := SplitNamesLoop_Entails_ret O _ s p (names p.sort) false recursed
            true he
          refine Or.inl ⟨[], p, it, rfl, ?_, ?_, hall⟩
          · simpa using hbreak
          · simpa using hd
        | next_split r' =>
          simp only [he] at h
          exact lift r' h

/-- At a positive split level, `Split` runs its body with `Split` at level `k - 1` as the
recursive call. -/
theorem Split_pos (O : SetupOps Setup) (asBool : T → Bool) (split_order_matters : Bool)
    (s : Setup) (split_terms : TermSet) (names : SortedTermSet) (k : Int)
    (goal : Setup → Option T) (merge : T → T → T) (inconsistent_result unsuccessful_result : T)
    (hk : 0 < k) :
    Split O asBool split_order_matters s split_terms names k goal merge inconsistent_result
      unsuccessful_result
    = SplitBody O asBool split_order_matters names goal merge inconsistent_result
        unsuccessful_result
        (fun s' ts n =>
          SplitD O asBool split_order_matters names goal merge inconsistent_result
            unsuccessful_result (k - 1).toNat s' ts n (k - 1))
        s split_terms split_terms.length k := by
  have h : k.toNat = (k - 1).toNat + 1 := by omega
  simp only [Split]
  rw [h]
  simp only [SplitD]

/-- C6: the `Entails` instantiation of `Split` (order does not matter, merge = conjunction,
`inconsistent_result = true`, `unsuccessful_result = false`) on a setup without the empty
clause, with `k > 0`, a non-empty split-term set and a non-empty name set for every split
term, for a goal that returns on every setup.  If some considered split term `t` that the
setup does not determine is such that for every name `n` of its sort adding `[t = n]` is
inconsistent or the recursive `Split` with `k - 1` returns true, then `Split` returns true;
and if `Split` returns true, then such a term exists or `goal(setup)` is true. -/
theorem Split_Entails_term (O : SetupOps Setup) (s : Setup) (split_terms : TermSet)
    (names : SortedTermSet) (k : Int) (goal : Setup → Option Bool)
    (hgoal : ∀ s, ∃ b, goal s = some b)
    (hempty : O.contains_empty_clause s = false) (hk : 0 < k) (hts : split_terms ≠ [])
    (hnames : ∀ t ∈ split_terms, names t.sort ≠ []) :
    (SplitTermSucceeds O s split_terms names k goal →
      Split O id false s split_terms names k goal (fun r1 r2 => r1 && r2) true false
        = some true) ∧
    (Split O id false s split_terms names k goal (fun r1 r2 => r1 && r2) true false
        = some true →
      SplitTermSucceeds O s split_terms names k goal ∨ goal s = some true) := by
  have hlen : split_terms.length > 0 := List.length_pos.2 hts
  have hcond : k > 0 ∧ split_terms.length > 0 := ⟨hk, hlen⟩
  rw [Split_pos O id false s split_terms names k goal _ true false hk]
  simp only [SplitBody, hempty, Bool.false_eq_true, if_false, if_pos hcond]
  constructor
  · rintro ⟨pre, t, post, e, hbreak, hdet, hok⟩
    have := SplitTermsLoop_Entails_of_term O names k goal
      (fun s' ts n =>
        SplitD O id false names goal (fun r1 r2 => r1 && r2) true false (k - 1).toNat s' ts n
          (k - 1))
      s split_terms split_terms.length
      (fun s' ts n => SplitD_total O id false names goal _ true false hgoal _ s' ts n (k - 1)
        (Nat.le_refl _))
      pre t post false (by rw [← e]; exact hnames) hbreak hdet hok
    rw [← e] at this
    exact this
  · intro h
    rcases SplitTermsLoop_Entails_true O names k goal _ s split_terms split_terms.length
      split_terms false h with h' | h'
    · exact Or.inl h'
    · exact Or.inr h'

theorem Split_Entails_term_witness :
    (∀ s, ∃ b, Scenario.goal s = some b) ∧
    RefSetup.ops.contains_empty_clause Scenario.setup = false ∧ (0 : Int) < 2 ∧
    [Scenario.t2, Scenario.t1, Scenario.t3] ≠ [] ∧
    (∀ t ∈ [Scenario.t2, Scenario.t1, Scenario.t3], Scenario.names t.sort ≠ []) ∧
    SplitTermSucceeds RefSetup.ops Scenario.setup [Scenario.t2, Scenario.t1, Scenario.t3]
      Scenario.names 2 Scenario.goal ∧
    Split RefSetup.ops id false Scenario.setup [Scenario.t2, Scenario.t1, Scenario.t3]
      Scenario.names 2 Scenario.goal (fun r1 r2 => r1 && r2) true false = some true :=
  have hgoal : ∀ s, ∃ b, Scenario.goal s = some b :=
    fun s => Reduce_total RefSetup.ops Scenario.names s Scenario.query (by decide)
  have hterm : SplitTermSucceeds RefSetup.ops Scenario.setup
      [Scenario.t2, Scenario.t1, Scenario.t3] Scenario.names 2 Scenario.goal :=
    ⟨[], Scenario.t2, [Scenario.t1, Scenario.t3], rfl, by decide, by decide, by decide⟩
  ⟨hgoal, by decide, by decide, by decide, by decide, hterm,
    (Split_Entails_term RefSetup.ops Scenario.setup [Scenario.t2, Scenario.t1, Scenario.t3]
      Scenario.names 2 Scenario.goal hgoal (by decide) (by decide) (by decide)
      (by decide)).1 hterm⟩

/-- C7: the merge function of `Determines`.  `merge(r1, r2)` is `Just(v)` exactly when both
arguments are `Just` and they carry the same value `v`, or one carries the null term and the
other carries `v`; it is `Nothing` exactly when an argument is `Nothing` or the arguments
carry two different non-null values. -/
theorem Solver.DeterminesMerge_spec (r1 r2 : Option Term) :
    (∀ v : Term, Solver.DeterminesMerge r1 r2 = some v ↔
      (r1 = some v ∧ r2 = some v) ∨ (r1 = some Term.null ∧ r2 = some v) ∨
        (r1 = some v ∧ r2 = some Term.null)) ∧
    (Solver.DeterminesMerge r1 r2 = none ↔
      r1 = none ∨ r2 = none ∨
        ∃ v1 v2, r1 = some v1 ∧ r2 = some v2 ∧ v1 ≠ v2 ∧ v1 ≠ Term.null ∧ v2 ≠ Term.null) := by
  cases r1 with
  | none => simp [Solver.DeterminesMerge]
  | some v1 =>
    cases r2 with
    | none => simp [Solver.DeterminesMerge]
    | some v2 =>
      have hnull : ∀ v : Term, v.isNull = true ↔ v = Term.null := Term.isNull_iff
      simp only [Solver.DeterminesMerge]
      split_ifs with h12 h1 h2
      · subst h12
        simp
        aesop
      · rw [hnull] at h1
        subst h1
        simp
        aesop
      · rw [hnull] at h1 h2
        subst h2
        simp
        aesop
      · rw [hnull] at h1 h2
        simp
        aesop

/-- A depth budget beyond `max k 0` is never used by `Assign`. -/
theorem AssignD_budget (F : FormulaOps) (O : SetupOps Setup) (names : SortedTermSet)
    (assign_lits : LiteralAssignmentSet) (phi : Formula) (assume_consistent : Bool)
    (relevant_terms : TermSet) :
    ∀ (d d' : Nat) (s : Setup) (k : Int), k.toNat ≤ d → k.toNat ≤ d' →
      AssignD F O names assign_lits phi assume_consistent relevant_terms d s k
      = AssignD F O names assign_lits phi assume_consistent relevant_terms d' s k := by
  have hnonpos : ∀ (rec rec' : Setup → Option Bool) (s : Setup) (k : Int), k ≤ 0 →
      AssignBody F O names rec s assign_lits k phi assume_consistent relevant_terms
      = AssignBody F O names rec' s assign_lits k phi assume_consistent relevant_terms := by
    intro rec rec' s k hk
    have hk' : ¬ (k > 0) := by omega
    simp [AssignBody, hk']
  intro d
  induction d with
  | zero =>
    intro d' s k hk _
    have hk0 : k ≤ 0 := by omega
    cases d' with
    | zero => rfl
    | succ d' => simp only [AssignD]; exact hnonpos _ _ s k hk0
  | succ d ih =>
    intro d' s k hk hk'
    by_cases hk0 : k ≤ 0
    · cases d' <;> (simp only [AssignD]; exact hnonpos _ _ s k hk0)
    · cases d' with
      | zero => omega
      | succ d' =>
        simp only [AssignD]
        have : (fun s' =>
            AssignD F O names assign_lits phi assume_consistent relevant_terms d s' (k - 1))
          = (fun s' =>
            AssignD F O names assign_lits phi assume_consistent relevant_terms d' s' (k - 1)) := by
          funext s'
          exact ih d' s' (k - 1) (by omega) (by omega)
        rw [this]

/-- C8: `Split` and `Assign` return, and the nesting depth of their recursive calls never
exceeds `max(k, 0)`.  For a goal that returns on every setup, `Split` run with the depth
budget `max(k, 0)` has a result, whether the split-term range is advanced
(`split_order_matters = false`) or passed down unchanged (`true`), and every larger budget
gives the same result; likewise `Assign` on an objective formula. -/
theorem Split_Assign_depth_bound (F : FormulaOps) (O : SetupOps Setup) (asBool : T → Bool)
    (s : Setup) (split_terms : TermSet) (names : SortedTermSet) (k : Int)
    (goal : Setup → Option T) (merge : T → T → T) (inconsistent_result unsuccessful_result : T)
    (assign_lits : LiteralAssignmentSet) (phi : Formula) (assume_consistent : Bool)
    (relevant_terms : TermSet)
    (hgoal : ∀ s, ∃ r, goal s = some r) (hobj : phi.objective = true) :
    (∀ split_order_matters : Bool,
      ∃ r, Split O asBool split_order_matters s split_terms names k goal merge
          inconsistent_result unsuccessful_result = some r ∧
        ∀ d : Nat, (max k 0).toNat ≤ d →
          SplitD O asBool split_order_matters names goal merge inconsistent_result
            unsuccessful_result d s split_terms split_terms.length k = some r) ∧
    (∃ b, Assign F O s assign_lits names k phi assume_consistent relevant_terms = some b ∧
      ∀ d : Nat, (max k 0).toNat ≤ d →
        AssignD F O names assign_lits phi assume_consistent relevant_terms d s k = some b) := by
  constructor
  · intro split_order_matters
    obtain ⟨r, hr⟩ := SplitD_total O asBool split_order_matters names goal merge
      inconsistent_result unsuccessful_result hgoal k.toNat s split_terms split_terms.length k
      (Nat.le_refl _)
    refine ⟨r, hr, ?_⟩
    intro d hd
    rw [SplitD_budget O asBool split_order_matters names goal merge inconsistent_result
      unsuccessful_result d k.toNat s split_terms split_terms.length k (by omega)
      (Nat.le_refl _)]
    exact hr
  · obtain ⟨b, hb⟩ := Assign_total F O s assign_lits names k phi assume_consistent
      relevant_terms hobj
    refine ⟨b, hb, ?_⟩
    intro d hd
    rw [AssignD_budget F O names assign_lits phi assume_consistent relevant_terms d k.toNat s k
      (by omega) (Nat.le_refl _)]
    exact hb

theorem Split_Assign_depth_bound_witness :
    (∀ s, ∃ r, Scenario.goal s = some r) ∧ Scenario.query.objective = true ∧
    (∀ split_order_matters : Bool,
      ∃ r, Split RefSetup.ops id split_order_matters Scenario.setup
          [Scenario.t1, Scenario.t2, Scenario.t3] Scenario.names 2 Scenario.goal
          (fun r1 r2 => r1 && r2) true false = some r ∧
        ∀ d : Nat, (max (2 : Int) 0).toNat ≤ d →
          SplitD RefSetup.ops id split_order_matters Scenario.names Scenario.goal
            (fun r1 r2 => r1 && r2) true false d Scenario.setup
            [Scenario.t1, Scenario.t2, Scenario.t3]
            [Scenario.t1, Scenario.t2, Scenario.t3].length 2 = some r) ∧
    (∃ b, Assign RefFormulaOps RefSetup.ops Scenario.setup [[Literal.Eq Scenario.t1 Scenario.a]]
        Scenario.names 2 Scenario.query false [] = some b ∧
      ∀ d : Nat, (max (2 : Int) 0).toNat ≤ d →
        AssignD RefFormulaOps RefSetup.ops Scenario.names [[Literal.Eq Scenario.t1 Scenario.a]]
          Scenario.query false [] d Scenario.setup 2 = some b) :=
  ⟨fun s => Reduce_total RefSetup.ops Scenario.names s Scenario.query (by decide), by decide,
    Split_Assign_depth_bound RefFormulaOps RefSetup.ops id Scenario.setup
      [Scenario.t1, Scenario.t2, Scenario.t3] Scenario.names 2 Scenario.goal
      (fun r1 r2 => r1 && r2) true false [[Literal.Eq Scenario.t1 Scenario.a]] Scenario.query
      false [] (fun s => Reduce_total RefSetup.ops Scenario.names s Scenario.query (by decide))
      (by decide)⟩

/-- C9: for every objective formula, `ReduceConjunctions`, `ReduceDisjunctions` and `Reduce`
return a definite boolean: no run reaches an `assert(false)` branch or the trailing `throw`. -/
theorem Reduce_definite_on_objective (F : FormulaOps) (O : SetupOps Setup) (s : Setup)
    (split_terms : TermSet) (assign_lits : LiteralAssignmentSet) (names : SortedTermSet)
    (k : Int) (phi : Formula) (assume_consistent : Bool) (relevant_terms : TermSet)
    (hobj : phi.objective = true) :
    (∃ b, ReduceConjunctions F O s split_terms names k phi = some b) ∧
    (∃ b, ReduceDisjunctions F O s assign_lits names k phi assume_consistent relevant_terms
      = some b) ∧
    (∃ b, Reduce O s names phi = some b) :=
  ⟨ReduceConjunctionsFuel_total F O s split_terms names k phi.size phi (Nat.le_refl _) hobj,
    ReduceDisjunctions_total F O s assign_lits names k phi assume_consistent relevant_terms
      hobj,
    Reduce_total O names s phi hobj⟩

theorem Reduce_definite_on_objective_witness :
    (Formula.Not (Formula.Exists (Term.var 1 1)
      (Formula.Or (Formula.Atomic [Literal.Eq Scenario.t1 (Term.var 1 1)])
        (Formula.Not Scenario.query)))).objective = true ∧
    (∃ b, ReduceConjunctions RefFormulaOps RefSetup.ops Scenario.setup
      [Scenario.t1, Scenario.t2, Scenario.t3] Scenario.names 2
      (Formula.Not (Formula.Exists (Term.var 1 1)
        (Formula.Or (Formula.Atomic [Literal.Eq Scenario.t1 (Term.var 1 1)])
          (Formula.Not Scenario.query)))) = some b) ∧
    (∃ b, ReduceDisjunctions RefFormulaOps RefSetup.ops Scenario.setup
      [[Literal.Eq Scenario.t1 Scenario.a]] Scenario.names 2
      (Formula.Not (Formula.Exists (Term.var 1 1)
        (Formula.Or (Formula.Atomic [Literal.Eq Scenario.t1 (Term.var 1 1)])
          (Formula.Not Scenario.query)))) false [] = some b) ∧
    (∃ b, Reduce RefSetup.ops Scenario.setup Scenario.names
      (Formula.Not (Formula.Exists (Term.var 1 1)
        (Formula.Or (Formula.Atomic [Literal.Eq Scenario.t1 (Term.var 1 1)])
          (Formula.Not Scenario.query)))) = some b) :=
  ⟨by decide, Reduce_definite_on_objective RefFormulaOps RefSetup.ops Scenario.setup
    [Scenario.t1, Scenario.t2, Scenario.t3] [[Literal.Eq Scenario.t1 Scenario.a]]
    Scenario.names 2 _ false [] (by decide)⟩

/-- C10: in the scenario, `Split<false>` with the conjunctive merge of `Entails`, the goal of
the query `t = n` and `k = 2` returns false when the split terms are enumerated as
`t1, t2, t3` and true when the same terms are enumerated as `t2, t1, t3`. -/
theorem Split_depends_on_order :
    Split RefSetup.ops id false Scenario.setup [Scenario.t1, Scenario.t2, Scenario.t3]
      Scenario.names 2 Scenario.goal (fun r1 r2 => r1 && r2) true false = some false ∧
    Split RefSetup.ops id false Scenario.setup [Scenario.t2, Scenario.t1, Scenario.t3]
      Scenario.names 2 Scenario.goal (fun r1 r2 => r1 && r2) true false = some true ∧
    List.Perm [Scenario.t1, Scenario.t2, Scenario.t3] [Scenario.t2, Scenario.t1, Scenario.t3] :=
  ⟨by decide, by decide, List.Perm.swap _ _ _⟩

end SolverClaims

/-! ## The claims about `KnowledgeBase` -/

section KnowledgeBaseClaims

variable {G Setup : Type}


/-- C11: `KnowledgeBase::Add(Formula alpha)` returns true if and only if, with `beta` the
normal form of `alpha` stripped of an outer `Guarantee`, either `beta` is a `Bel` whose
not-antecedent-or-consequent part converts to a universal clause, or `beta` is not a `Bel`
and `beta` itself (the argument of `beta` when `beta` is a `Know`) converts to a universal
clause; in every other case it returns false. -/
theorem KnowledgeBase.Add_true_iff (N : NormalFormOps) (GKO : GrounderKBOps G Setup)
    (kb : KnowledgeBase G) (alpha : Formula) :
    (KnowledgeBase.Add N GKO kb alpha).1 = true ↔
      (∃ k l ante conse nac,
        (N.NF alpha).stripGuarantee = Formula.Bel k l ante conse nac ∧
        (N.AsUnivClause nac).isSome = true) ∨
      ((∀ k l ante conse nac,
          (N.NF alpha).stripGuarantee ≠ Formula.Bel k l ante conse nac) ∧
        (N.AsUnivClause (N.NF alpha).stripGuarantee.stripKnow).isSome = true) := by
  · simp only [KnowledgeBase.Add]
    generalize (match N.NF alpha with | .Guarantee _ => true | _ => false) = ac
    generalize (N.NF alpha).stripGuarantee = beta
    cases beta with
    | Bel k l ante conse nac =>
      dsimp only
      cases h : N.AsUnivClause nac with
      | none =>
        constructor
        · intro hf; exact absurd hf (by simp)
        · rintro (⟨k', l', a', c', n', e, hs⟩ | ⟨hne, _⟩)
          · cases e
            simp [h] at hs
          · exact absurd rfl (hne k l ante conse nac)
      | some c =>
        constructor
        · intro _
          exact Or.inl ⟨k, l, ante, conse, nac, rfl, by simp [h]⟩
        · intro _; rfl
    | Atomic c => cases h : N.AsUnivClause (Formula.Atomic c).stripKnow <;> simp [h]
    | Not a => cases h : N.AsUnivClause (Formula.Not a).stripKnow <;> simp [h]
    | Or l r => cases h : N.AsUnivClause (Formula.Or l r).stripKnow <;> simp [h]
    | Exists x a => cases h : N.AsUnivClause (Formula.Exists x a).stripKnow <;> simp [h]
    | Know k a => cases h : N.AsUnivClause (Formula.Know k a).stripKnow <;> simp [h]
    | Cons k a => cases h : N.AsUnivClause (Formula.Cons k a).stripKnow <;> simp [h]
    | Guarantee a => cases h : N.AsUnivClause (Formula.Guarantee a).stripKnow <;> simp [h]
theorem Solver.Entails_total (F : FormulaOps) (O : SetupOps Setup) (GO : GrounderOps G Setup)
    (g : G) (k : Int) (phi : Formula) (assume_consistent : Bool)
    (hobj : phi.objective = true) :
    ∃ b, (Solver.Entails F O GO g k phi assume_consistent).1 = some b := by
  simp only [Solver.Entails]
  split_ifs
  · exact ⟨_, rfl⟩
  · exact ReduceConjunctionsFuel_total F O _ _ _ k phi.size phi (Nat.le_refl _) hobj
  · exact ReduceConjunctionsFuel_total F O _ _ _ k phi.size phi (Nat.le_refl _) hobj
  · exact ReduceConjunctionsFuel_total F O _ _ _ k phi.size phi (Nat.le_refl _) hobj

theorem Solver.Consistent_total (F : FormulaOps) (O : SetupOps Setup)
    (GO : GrounderOps G Setup) (g : G) (k : Int) (phi : Formula) (assume_consistent : Bool)
    (hobj : phi.objective = true) :
    ∃ b, (Solver.Consistent F O GO g k phi assume_consistent).1 = some b :=
  ReduceDisjunctions_total F O _ _ _ k phi assume_consistent _ hobj

theorem Solver.Determines_total (O : SetupOps Setup) (GO : GrounderOps G Setup)
    (g : G) (k : Int) (lhs : Term) (assume_consistent : Bool) :
    ∃ r, (Solver.Determines O GO g k lhs assume_consistent).1 = some r :=
  SplitD_total O Option.isSome true _ _ _ _ _ (fun _ => ⟨_, rfl⟩) _ _ _ _ k (Nat.le_refl _)

/-- The third loop of a pass of `BuildSpheres` has a result when the antecedents are
objective. -/
theorem BuildSpheresPlace_total (F : FormulaOps) (O : SetupOps Setup)
    (GKO : GrounderKBOps G Setup) :
    ∀ (zs : List (Conditional × Bool)), (∀ z ∈ zs, z.1.ante.objective = true) →
      ∀ (sphere : G) (n_done : Nat) (next : Bool),
        ∃ res, BuildSpheresPlace F O GKO zs sphere n_done next = some res := by
  intro zs
  induction zs with
  | nil => intro _ sphere n nx; exact ⟨_, rfl⟩
  | cons z zs ih =>
    intro hobj sphere n nx
    obtain ⟨c, d⟩ := z
    have hc : c.ante.objective = true := hobj (c, d) (List.mem_cons_self _ _)
    have ih' := ih (fun z hz => hobj z (List.mem_cons_of_mem _ hz))
    simp only [BuildSpheresPlace]
    cases d with
    | true =>
      obtain ⟨⟨s', d', n', nx'⟩, h⟩ := ih' sphere n nx
      simp [h]
    | false =>
      obtain ⟨e, he⟩ := Solver.Entails_total F O GKO.toGrounderOps sphere c.k
        (Formula.Not c.ante) c.assume_consistent (by simpa [Formula.objective] using hc)
      simp only [Bool.not_false, if_true, he]
      cases e with
      | true =>
        obtain ⟨⟨s', d', n', nx'⟩, h⟩ := ih'
          (Solver.Entails F O GKO.toGrounderOps sphere c.k (Formula.Not c.ante)
            c.assume_consistent).2 n nx
        simp [h]
      | false =>
        obtain ⟨nc, hnc⟩ := Solver.Consistent_total F O GKO.toGrounderOps
          (Solver.Entails F O GKO.toGrounderOps sphere c.k (Formula.Not c.ante)
            c.assume_consistent).2 c.l c.ante c.assume_consistent hc
        simp only [Bool.not_false, if_true, hnc]
        cases nc with
        | true =>
          obtain ⟨⟨s', d', n', nx'⟩, h⟩ := ih'
            (Solver.Consistent F O GKO.toGrounderOps
              (Solver.Entails F O GKO.toGrounderOps sphere c.k (Formula.Not c.ante)
                c.assume_consistent).2 c.l c.ante c.assume_consistent).2 (n + 1) nx
          simp [h]
        | false =>
          obtain ⟨⟨s', d', n', nx'⟩, h⟩ := ih'
            (Solver.Consistent F O GKO.toGrounderOps
              (Solver.Entails F O GKO.toGrounderOps sphere c.k (Formula.Not c.ante)
                c.assume_consistent).2 c.l c.ante c.assume_consistent).2 (n + 1) false
          simp [h]

/-- The clauses of the conditionals whose `done` flag is not set. -/
theorem BuildSpheresClauses_eq (knowledge : List Clause) (zs : List (Conditional × Bool)) :
    knowledge ++ ((((zs.map Prod.fst).zip (zs.map Prod.snd)).filter (fun cd => !cd.2)).map
      (fun cd => cd.1.not_ante_or_conse))
    = BuildSpheresClauses knowledge (zs.map Prod.fst) (zs.map Prod.snd) := rfl

/-- What the third loop of a pass of `BuildSpheres` does to the `done` flags: there is one
flag per conditional, a flag that is set stays set, `n_done` grows by the number of flags
newly set, and the clauses of the conditionals not done after the loop are among those of
the conditionals not done before it. -/
theorem BuildSpheresPlace_done (F : FormulaOps) (O : SetupOps Setup)
    (GKO : GrounderKBOps G Setup) :
    ∀ (zs : List (Conditional × Bool)) (sphere : G) (n_done : Nat) (next : Bool)
      (sphere' : G) (done' : List Bool) (n_done' : Nat) (next' : Bool),
      BuildSpheresPlace F O GKO zs sphere n_done next = some (sphere', done', n_done', next') →
      done'.length = zs.length ∧
      n_done' + (zs.map Prod.snd).count true = n_done + done'.count true ∧
      (zs.map Prod.snd).count true ≤ done'.count true ∧
      List.Sublist
        ((((zs.map Prod.fst).zip done').filter (fun cd => !cd.2)).map
          (fun cd => cd.1.not_ante_or_conse))
        ((zs.filter (fun cd => !cd.2)).map (fun cd => cd.1.not_ante_or_conse)) := by
  intro zs
  induction zs with
  | nil =>
    intro sphere n nx s' d' n' nx' h
    simp only [BuildSpheresPlace, Option.some.injEq, Prod.mk.injEq] at h
    obtain ⟨_, hd, hn, _⟩ := h
    subst hd hn
    simp
  | cons z zs ih =>
    intro sphere n nx s' d' n' nx' h
    obtain ⟨c, d⟩ := z
    simp only [BuildSpheresPlace] at h
    cases d with
    | true =>
      simp only [Bool.not_true, Bool.false_eq_true, if_false] at h
      cases hr : BuildSpheresPlace F O GKO zs sphere n nx with
      | none => simp [hr] at h
      | some res =>
        obtain ⟨s1, d1, n1, nx1⟩ := res
        simp only [hr, Option.some.injEq, Prod.mk.injEq] at h
        obtain ⟨_, hd, hn, _⟩ := h
        subst hd hn
        obtain ⟨h1, h2, h3, h4⟩ := ih _ _ _ _ _ _ _ hr
        refine ⟨by simp [h1], ?_, ?_, ?_⟩
        · simp only [List.map_cons, List.count_cons_self]
          omega
        · simp only [List.map_cons, List.count_cons_self]
          omega
        · simpa using h4
    | false =>
      simp only [Bool.not_false, if_true] at h
      cases he : (Solver.Entails F O GKO.toGrounderOps sphere c.k (Formula.Not c.ante)
          c.assume_consistent).1 with
      | none => simp [he] at h
      | some e =>
        simp only [he] at h
        cases e with
        | true =>
          simp only [Bool.not_true, Bool.false_eq_true, if_false] at h
          cases hr : BuildSpheresPlace F O GKO zs
              (Solver.Entails F O GKO.toGrounderOps sphere c.k (Formula.Not c.ante)
                c.assume_consistent).2 n nx with
          | none => simp [hr] at h
          | some res =>
            obtain ⟨s1, d1, n1, nx1⟩ := res
            simp only [hr, Option.some.injEq, Prod.mk.injEq] at h
            obtain ⟨_, hd, hn, _⟩ := h
            subst hd hn
            obtain ⟨h1, h2, h3, h4⟩ := ih _ _ _ _ _ _ _ hr
            refine ⟨by simp [h1], ?_, ?_, ?_⟩
            · simpa using h2
            · simpa using h3
            · simpa using h4
        | false =>
          simp only [Bool.not_false, if_true] at h
          cases hc : (Solver.Consistent F O GKO.toGrounderOps
              (Solver.Entails F O GKO.toGrounderOps sphere c.k (Formula.Not c.ante)
                c.assume_consistent).2 c.l c.ante c.assume_consistent).1 with
          | none => simp [hc] at h
          | some nc =>
            simp only [hc] at h
            have hnx : (if (!nc) = true then false else nx) = (nc && nx) := by
              cases nc <;> simp
            rw [hnx] at h
            cases hr : BuildSpheresPlace F O GKO zs
                (Solver.Consistent F O GKO.toGrounderOps
                  (Solver.Entails F O GKO.toGrounderOps sphere c.k (Formula.Not c.ante)
                    c.assume_consistent).2 c.l c.ante c.assume_consistent).2 (n + 1)
                (nc && nx) with
            | none => simp [hr] at h
            | some res =>
              obtain ⟨s1, d1, n1, nx1⟩ := res
              simp only [hr, Option.some.injEq, Prod.mk.injEq] at h
              obtain ⟨_, hd, hn, _⟩ := h
              subst hd hn
              obtain ⟨h1, h2, h3, h4⟩ := ih _ _ _ _ _ _ _ hr
              refine ⟨by simp [h1], ?_, ?_, ?_⟩
              · simp only [List.map_cons, List.count_cons_self]
                simp at h2 ⊢
                omega
              · simp at h3 ⊢
                omega
              · simp
                exact List.Sublist.cons _ (by simpa using h4)

/-- The third loop of a pass of `BuildSpheres` on a nonempty list is its step on the first
conditional followed by the loop on the others. -/
theorem BuildSpheresPlace_cons (F : FormulaOps) (O : SetupOps Setup)
    (GKO : GrounderKBOps G Setup) (z : Conditional × Bool) (rest : List (Conditional × Bool))
    (sphere : G) (n_done : Nat) (next : Bool)
    (sphere' : G) (done' : List Bool) (n_done' : Nat) (next' : Bool)
    (h : BuildSpheresPlace F O GKO (z :: rest) sphere n_done next
      = some (sphere', done', n_done', next')) :
    ∃ s1 n1 nx1 b d1,
      BuildSpheresPlace F O GKO [z] sphere n_done next = some (s1, [b], n1, nx1) ∧
      BuildSpheresPlace F O GKO rest s1 n1 nx1 = some (sphere', d1, n_done', next') ∧
      done' = b :: d1 := by
  obtain ⟨c, d⟩ := z
  simp only [BuildSpheresPlace] at h ⊢
  cases d with
  | true =>
    simp only [Bool.not_true, Bool.false_eq_true, if_false] at h ⊢
    cases hr : BuildSpheresPlace F O GKO rest sphere n_done next with
    | none => simp [hr] at h
    | some res =>
      obtain ⟨s1, d1, n1, nx1⟩ := res
      simp only [hr, Option.some.injEq, Prod.mk.injEq] at h
      obtain ⟨hs, hd, hn, hx⟩ := h
      subst hs hd hn hx
      exact ⟨_, _, _, _, _, rfl, hr, rfl⟩
  | false =>
    simp only [Bool.not_false, if_true] at h ⊢
    cases he : (Solver.Entails F O GKO.toGrounderOps sphere c.k (Formula.Not c.ante)
        c.assume_consistent).1 with
    | none => simp [he] at h
    | some e =>
      simp only [he] at h ⊢
      cases e with
      | true =>
        simp only [Bool.not_true, Bool.false_eq_true, if_false] at h ⊢
        cases hr : BuildSpheresPlace F O GKO rest
            (Solver.Entails F O GKO.toGrounderOps sphere c.k (Formula.Not c.ante)
              c.assume_consistent).2 n_done next with
        | none => simp [hr] at h
        | some res =>
          obtain ⟨s1, d1, n1, nx1⟩ := res
          simp only [hr, Option.some.injEq, Prod.mk.injEq] at h
          obtain ⟨hs, hd, hn, hx⟩ := h
          subst hs hd hn hx
          exact ⟨_, _, _, _, _, rfl, hr, rfl⟩
      | false =>
        simp only [Bool.not_false, if_true] at h ⊢
        cases hc : (Solver.Consistent F O GKO.toGrounderOps
            (Solver.Entails F O GKO.toGrounderOps sphere c.k (Formula.Not c.ante)
              c.assume_consistent).2 c.l c.ante c.assume_consistent).1 with
        | none => simp [hc] at h
        | some nc =>
          simp only [hc] at h ⊢
          have hnx : (if (!nc) = true then false else next) = (nc && next) := by
            cases nc <;> simp
          rw [hnx] at h ⊢
          cases hr : BuildSpheresPlace F O GKO rest
              (Solver.Consistent F O GKO.toGrounderOps
                (Solver.Entails F O GKO.toGrounderOps sphere c.k (Formula.Not c.ante)
                  c.assume_consistent).2 c.l c.ante c.assume_consistent).2 (n_done + 1)
              (nc && next) with
          | none => simp [hr] at h
          | some res =>
            obtain ⟨s1, d1, n1, nx1⟩ := res
            simp only [hr, Option.some.injEq, Prod.mk.injEq] at h
            obtain ⟨hs, hd, hn, hx⟩ := h
            subst hs hd hn hx
            exact ⟨_, _, _, _, _, rfl, hr, rfl⟩

/-- The step of the third loop of a pass of `BuildSpheres` on one conditional: its flag is
set afterwards exactly when it was set before or the sphere does not entail the negation of
the antecedent at level `k`. -/
theorem BuildSpheresPlace_single (F : FormulaOps) (O : SetupOps Setup)
    (GKO : GrounderKBOps G Setup) (c : Conditional) (d : Bool)
    (sphere : G) (n_done : Nat) (next : Bool)
    (sphere' : G) (b : Bool) (n_done' : Nat) (next' : Bool)
    (h : BuildSpheresPlace F O GKO [(c, d)] sphere n_done next
      = some (sphere', [b], n_done', next')) :
    (b = true ↔ d = true ∨
      (Solver.Entails F O GKO.toGrounderOps sphere c.k (Formula.Not c.ante)
        c.assume_consistent).1 = some false) := by
  simp only [BuildSpheresPlace] at h
  cases d with
  | true =>
    simp only [Bool.not_true, Bool.false_eq_true, if_false, Option.some.injEq,
      Prod.mk.injEq, List.cons.injEq] at h
    simp [← h.2.1.1]
  | false =>
    simp only [Bool.not_false, if_true] at h
    cases he : (Solver.Entails F O GKO.toGrounderOps sphere c.k (Formula.Not c.ante)
        c.assume_consistent).1 with
    | none => simp [he] at h
    | some e =>
      simp only [he] at h
      cases e with
      | true =>
        simp only [Bool.not_true, Bool.false_eq_true, if_false, Option.some.injEq,
          Prod.mk.injEq, List.cons.injEq] at h
        simp [← h.2.1.1]
      | false =>
        simp only [Bool.not_false, if_true] at h
        cases hc : (Solver.Consistent F O GKO.toGrounderOps
            (Solver.Entails F O GKO.toGrounderOps sphere c.k (Formula.Not c.ante)
              c.assume_consistent).2 c.l c.ante c.assume_consistent).1 with
        | none => simp [hc] at h
        | some nc =>
          simp only [hc, Option.some.injEq, Prod.mk.injEq, List.cons.injEq] at h
          simp [← h.2.1.1]

/-- The third loop of a pass of `BuildSpheres` on a list `pre ++ post` is the loop on `pre`
followed by the loop on `post`. -/
theorem BuildSpheresPlace_append (F : FormulaOps) (O : SetupOps Setup)
    (GKO : GrounderKBOps G Setup) (post : List (Conditional × Bool)) :
    ∀ (pre : List (Conditional × Bool)) (sphere : G) (n_done : Nat) (next : Bool)
      (sphere' : G) (done' : List Bool) (n_done' : Nat) (next' : Bool),
      BuildSpheresPlace F O GKO (pre ++ post) sphere n_done next
        = some (sphere', done', n_done', next') →
      ∃ s1 d1 n1 nx1 d2,
        BuildSpheresPlace F O GKO pre sphere n_done next = some (s1, d1, n1, nx1) ∧
        BuildSpheresPlace F O GKO post s1 n1 nx1 = some (sphere', d2, n_done', next') ∧
        done' = d1 ++ d2 := by
  intro pre
  induction pre with
  | nil =>
    intro sphere n nx s' d' n' nx' h
    exact ⟨sphere, [], n, nx, d', rfl, h, rfl⟩
  | cons z pre ih =>
    intro sphere n nx s' d' n' nx' h
    obtain ⟨s1, n1, nx1, b, d1, hz, hrest, hd⟩ :=
      BuildSpheresPlace_cons F O GKO z (pre ++ post) sphere n nx s' d' n' nx' h
    obtain ⟨s2, d2, n2, nx2, d3, hpre, hpost, hd'⟩ := ih s1 n1 nx1 s' d1 n' nx' hrest
    refine ⟨s2, b :: d2, n2, nx2, d3, ?_, hpost, by simp [hd, hd']⟩
    obtain ⟨c, d⟩ := z
    simp only [BuildSpheresPlace] at hz ⊢
    cases d with
    | true =>
      simp only [Bool.not_true, Bool.false_eq_true, if_false, Option.some.injEq,
        Prod.mk.injEq, List.cons.injEq] at hz ⊢
      obtain ⟨hs, ⟨hb, _⟩, hn, hx⟩ := hz
      subst hs hb hn hx
      simp [hpre]
    | false =>
      simp only [Bool.not_false, if_true] at hz ⊢
      cases he : (Solver.Entails F O GKO.toGrounderOps sphere c.k (Formula.Not c.ante)
          c.assume_consistent).1 with
      | none => simp [he] at hz
      | some e =>
        simp only [he] at hz ⊢
        cases e with
        | true =>
          simp only [Bool.not_true, Bool.false_eq_true, if_false, Option.some.injEq,
            Prod.mk.injEq, List.cons.injEq] at hz ⊢
          obtain ⟨hs, ⟨hb, _⟩, hn, hx⟩ := hz
          subst hs hb hn hx
          simp [hpre]
        | false =>
          simp only [Bool.not_false, if_true] at hz ⊢
          cases hc : (Solver.Consistent F O GKO.toGrounderOps
              (Solver.Entails F O GKO.toGrounderOps sphere c.k (Formula.Not c.ante)
                c.assume_consistent).2 c.l c.ante c.assume_consistent).1 with
          | none => simp [hc] at hz
          | some nc =>
            simp only [hc, Option.some.injEq, Prod.mk.injEq, List.cons.injEq] at hz ⊢
            obtain ⟨hs, ⟨hb, _⟩, hn, hx⟩ := hz
            subst hs hb hn hx
            rw [hpre]

/-- The first two loops of a pass of `BuildSpheres` add the clauses of
`BuildSpheresClauses`, in order, to a new solver. -/
theorem BuildSpheresTrial_eq (GKO : GrounderKBOps G Setup) (knowledge : List Clause)
    (beliefs : List Conditional) (done : List Bool) :
    BuildSpheresTrial GKO knowledge beliefs done
      = (BuildSpheresClauses knowledge beliefs done).foldl (Solver.AddClause GKO)
          GKO.create := by
  have key : ∀ (zs : List (Conditional × Bool)) (init : G),
      zs.foldl (fun sphere cd =>
          if !cd.2 then Solver.AddClause GKO sphere cd.1.not_ante_or_conse else sphere) init
        = ((zs.filter (fun cd => !cd.2)).map (fun cd => cd.1.not_ante_or_conse)).foldl
            (Solver.AddClause GKO) init := by
    intro zs
    induction zs with
    | nil => intro init; rfl
    | cons z zs ih =>
      intro init
      obtain ⟨c, d⟩ := z
      cases d
      · simp only [List.foldl_cons, List.filter_cons, Bool.not_false, if_true, List.map_cons]
        exact ih _
      · simp only [List.foldl_cons, List.filter_cons, Bool.not_true, Bool.false_eq_true,
          if_false]
        exact ih _
  simp only [BuildSpheresTrial, BuildSpheresClauses, List.foldl_append, key]

/-- The passes of `BuildSpheres`, started with one `done` flag per conditional, `n_done` the
number of flags set, and enough fuel for one pass per flag not set and one more: the loop
has a result; its first pass starts with the given flags; each pass starts with the flags
the pass before it ended with; each pass builds its sphere from `BuildSpheresTrial` on its
flags; the clauses of a later pass are among those of an earlier one; each pass but the
last sets a new flag, and the last pass sets none and pushes its sphere. -/
theorem BuildSpheresLoop_spec (F : FormulaOps) (O : SetupOps Setup)
    (GKO : GrounderKBOps G Setup) (knowledge : List Clause) (beliefs : List Conditional)
    (hobj : ∀ c ∈ beliefs, c.ante.objective = true) :
    ∀ (fuel : Nat) (done : List Bool) (is_plausibility_consistent : Bool) (n_done : Nat),
      done.length = beliefs.length → n_done = done.count true →
      beliefs.length < fuel + done.count true →
      ∃ r rest,
        BuildSpheresLoop F O GKO knowledge beliefs fuel done is_plausibility_consistent n_done
          = some (r :: rest) ∧
        r.done = done ∧
        List.Chain' (fun r r' : BuildSpheresRound G => r'.done = r.done_after) (r :: rest) ∧
        (∀ r' ∈ r :: rest, r'.done.length = beliefs.length ∧
          ∃ n n' next, BuildSpheresPlace F O GKO (beliefs.zip r'.done)
            (BuildSpheresTrial GKO knowledge beliefs r'.done) n true
            = some (r'.sphere, r'.done_after, n', next)) ∧
        (∀ r' ∈ r :: rest, List.Sublist (BuildSpheresClauses knowledge beliefs r'.done)
          (BuildSpheresClauses knowledge beliefs done)) ∧
        List.Pairwise (fun r r' : BuildSpheresRound G =>
          List.Sublist (BuildSpheresClauses knowledge beliefs r'.done)
            (BuildSpheresClauses knowledge beliefs r.done)) (r :: rest) ∧
        (r :: rest).length + done.count true ≤ beliefs.length + 1 ∧
        (∀ r' ∈ (r :: rest).dropLast, r'.done.count true < r'.done_after.count true) ∧
        (∀ r', (r :: rest).getLast? = some r' →
          r'.done_after.count true = r'.done.count true ∧ r'.pushed = true) := by
  intro fuel
  induction fuel with
  | zero =>
    intro done ipc n hlen _ hfuel
    have := List.count_le_length true done
    omega
  | succ fuel ih =>
    intro done ipc n hlen hn hfuel
    have hzobj : ∀ z ∈ beliefs.zip done, z.1.ante.objective = true := by
      intro z hz
      obtain ⟨c, d⟩ := z
      exact hobj c (List.of_mem_zip hz).1
    obtain ⟨⟨s', d', n', nx'⟩, hp⟩ := BuildSpheresPlace_total F O GKO (beliefs.zip done) hzobj
      (BuildSpheresTrial GKO knowledge beliefs done) n true
    obtain ⟨h1, h2, h3, h4⟩ := BuildSpheresPlace_done F O GKO _ _ _ _ _ _ _ _ hp
    have hz1 : (beliefs.zip done).map Prod.fst = beliefs := List.map_fst_zip _ _ (by omega)
    have hz2 : (beliefs.zip done).map Prod.snd = done := List.map_snd_zip _ _ (by omega)
    rw [hz1] at h4
    rw [hz2] at h2 h3
    have hlen' : d'.length = beliefs.length := by
      rw [h1, List.length_zip, hlen]; simp
    have hsub : List.Sublist (BuildSpheresClauses knowledge beliefs d')
        (BuildSpheresClauses knowledge beliefs done) :=
      List.Sublist.append_left h4 knowledge
    have hcnt := List.count_le_length true d'
    simp only [BuildSpheresLoop, hp]
    by_cases hgt : n' > n
    · simp only [hgt, if_true]
      obtain ⟨r, rest, hl, hr, hchain, hall, hsubs, hpw, hlens, hdrop, hlast⟩ :=
        ih d' nx' n' hlen' (by omega) (by omega)
      rw [hl]
      refine ⟨_, _, rfl, rfl, ?_, ?_, ?_, ?_, ?_, ?_, ?_⟩
      · exact List.Chain'.cons hr hchain
      · intro r' hr'
        rcases List.mem_cons.1 hr' with e | hr'
        · subst e
          exact ⟨hlen, n, n', nx', hp⟩
        · exact hall r' hr'
      · intro r' hr'
        rcases List.mem_cons.1 hr' with e | hr'
        · subst e
          exact List.Sublist.refl _
        · exact (hsubs r' hr').trans hsub
      · refine List.Pairwise.cons ?_ hpw
        intro r' hr'
        exact (hsubs r' hr').trans hsub
      · simp only [List.length_cons] at hlens ⊢
        omega
      · intro r' hr'
        rw [List.dropLast_cons₂] at hr'
        rcases List.mem_cons.1 hr' with e | hr'
        · subst e
          show List.count true done < List.count true d'
          omega
        · exact hdrop r' hr'
      · intro r' hr'
        rw [List.getLast?_cons_cons] at hr'
        exact hlast r' hr'
    · simp only [hgt, if_false]
      refine ⟨_, _, rfl, rfl, ?_, ?_, ?_, ?_, ?_, ?_, ?_⟩
      · exact List.chain'_singleton _
      · intro r' hr'
        rw [List.mem_singleton] at hr'
        subst hr'
        exact ⟨hlen, n, n', nx', hp⟩
      · intro r' hr'
        rw [List.mem_singleton] at hr'
        subst hr'
        exact List.Sublist.refl _
      · exact List.pairwise_singleton _ _
      · simp only [List.length_singleton]
        have := List.count_le_length true done
        omega
      · intro r' hr'
        simp at hr'
      · intro r' hr'
        simp only [List.getLast?_singleton, Option.some.injEq] at hr'
        subst hr'
        refine ⟨?_, ?_⟩
        · show List.count true d' = List.count true done
          omega
        · show (ipc || n' == n) = true
          have : n' = n := by omega
          simp [this]

/-- The passes of `BuildSpheres` on objective antecedents: `BuildSpheresLoop_spec` for the
initial values. -/
theorem BuildSpheresRounds_spec (F : FormulaOps) (O : SetupOps Setup)
    (GKO : GrounderKBOps G Setup) (knowledge : List Clause) (beliefs : List Conditional)
    (hobj : ∀ c ∈ beliefs, c.ante.objective = true) :
    ∃ r rest,
      BuildSpheresRounds F O GKO knowledge beliefs = some (r :: rest) ∧
      r.done = List.replicate beliefs.length false ∧
      List.Chain' (fun r r' : BuildSpheresRound G => r'.done = r.done_after) (r :: rest) ∧
      (∀ r' ∈ r :: rest, r'.done.length = beliefs.length ∧
        ∃ n n' next, BuildSpheresPlace F O GKO (beliefs.zip r'.done)
          (BuildSpheresTrial GKO knowledge beliefs r'.done) n true
          = some (r'.sphere, r'.done_after, n', next)) ∧
      List.Pairwise (fun r r' : BuildSpheresRound G =>
        List.Sublist (BuildSpheresClauses knowledge beliefs r'.done)
          (BuildSpheresClauses knowledge beliefs r.done)) (r :: rest) ∧
      (r :: rest).length ≤ beliefs.length + 1 ∧
      (∀ r' ∈ (r :: rest).dropLast, r'.done.count true < r'.done_after.count true) ∧
      (∀ r', (r :: rest).getLast? = some r' →
        r'.done_after.count true = r'.done.count true ∧ r'.pushed = true) := by
  have hc : (List.replicate beliefs.length false).count true = 0 := by
    simp [List.count_replicate]
  obtain ⟨r, rest, hl, hr, hchain, hall, _, hpw, hlens, hdrop, hlast⟩ :=
    BuildSpheresLoop_spec F O GKO knowledge beliefs hobj (beliefs.length + 1)
      (List.replicate beliefs.length false) true 0 (by simp) (by rw [hc]) (by omega)
  exact ⟨r, rest, hl, hr, hchain, hall, hpw, by omega, hdrop, hlast⟩

/-- More fuel does not change the passes of `BuildSpheres`. -/
theorem BuildSpheresLoop_fuel (F : FormulaOps) (O : SetupOps Setup)
    (GKO : GrounderKBOps G Setup) (knowledge : List Clause) (beliefs : List Conditional) :
    ∀ (fuel : Nat) (done : List Bool) (is_plausibility_consistent : Bool) (n_done : Nat)
      (rounds : List (BuildSpheresRound G)),
      BuildSpheresLoop F O GKO knowledge beliefs fuel done is_plausibility_consistent n_done
        = some rounds →
      ∀ fuel', fuel ≤ fuel' →
        BuildSpheresLoop F O GKO knowledge beliefs fuel' done is_plausibility_consistent n_done
          = some rounds := by
  intro fuel
  induction fuel with
  | zero => intro done ipc n rounds h; simp [BuildSpheresLoop] at h
  | succ fuel ih =>
    intro done ipc n rounds h fuel' hle
    obtain ⟨fuel'', rfl⟩ : ∃ f, fuel' = f + 1 := ⟨fuel' - 1, by omega⟩
    simp only [BuildSpheresLoop] at h ⊢
    cases hp : BuildSpheresPlace F O GKO (beliefs.zip done)
        (BuildSpheresTrial GKO knowledge beliefs done) n true with
    | none => simp [hp] at h
    | some res =>
      obtain ⟨s', d', n', nx'⟩ := res
      simp only [hp] at h ⊢
      by_cases hgt : n' > n
      · simp only [hgt, if_true] at h ⊢
        cases hl : BuildSpheresLoop F O GKO knowledge beliefs fuel d' nx' n' with
        | none => simp [hl] at h
        | some rs =>
          rw [ih d' nx' n' rs hl fuel'' (by omega)]
          simpa [hl] using h
      · simpa only [hgt, if_false] using h

/-- What a pass of `BuildSpheres` does to the flag of one conditional: the conditional is at
the position behind `pre` in `beliefs`, its flag before the pass is `d`.  The third loop,
run over the conditionals before it, leaves the sphere in a state `sphere_c`; the flag of
the conditional after the pass is set exactly when `d` is set or the sphere in this state
does not entail the negation of the antecedent at level `k`. -/
theorem BuildSpheresPlace_at (F : FormulaOps) (O : SetupOps Setup)
    (GKO : GrounderKBOps G Setup) (pre post : List Conditional) (c : Conditional)
    (dpre dpost : List Bool) (d : Bool) (hlen : dpre.length = pre.length)
    (sphere : G) (n_done : Nat) (next : Bool)
    (sphere' : G) (done' : List Bool) (n_done' : Nat) (next' : Bool)
    (h : BuildSpheresPlace F O GKO ((pre ++ c :: post).zip (dpre ++ d :: dpost)) sphere
      n_done next = some (sphere', done', n_done', next')) :
    ∃ sphere_c dpre' b dpost' n1 next1,
      BuildSpheresPlace F O GKO (pre.zip dpre) sphere n_done next
        = some (sphere_c, dpre', n1, next1) ∧
      done' = dpre' ++ b :: dpost' ∧ dpre'.length = pre.length ∧
      (b = true ↔ d = true ∨
        (Solver.Entails F O GKO.toGrounderOps sphere_c c.k (Formula.Not c.ante)
          c.assume_consistent).1 = some false) := by
  rw [List.zip_append hlen.symm, List.zip_cons_cons] at h
  obtain ⟨s1, d1, n1, nx1, d2, hpre, hpost, hd⟩ :=
    BuildSpheresPlace_append F O GKO _ _ _ _ _ _ _ _ _ h
  obtain ⟨s2, n2, nx2, b, d3, hz, _, hd2⟩ := BuildSpheresPlace_cons F O GKO _ _ _ _ _ _ _ _ _ hpost
  have hl := (BuildSpheresPlace_done F O GKO _ _ _ _ _ _ _ _ hpre).1
  refine ⟨s1, d1, b, d3, n1, nx1, hpre, by rw [hd, hd2], ?_,
    BuildSpheresPlace_single F O GKO c d s1 n1 nx1 s2 b n2 nx2 hz⟩
  rw [hl, List.length_zip, hlen]
  simp

/-- C12: every sphere that `KnowledgeBase::BuildSpheres` emits (indeed the sphere of every
pass of its loop) is a new solver to which exactly the clauses of `BuildSpheresClauses` were
added: all clauses of `knowledge_`, then the clause `not_ante_or_conse` of every conditional
whose `done` flag is not set at the start of the pass, that is, which was not placed in an
earlier pass (no flag is set at the start of the first pass, and a pass starts with the
flags the pass before it ended with).  A conditional not placed before a pass is marked
placed in it exactly when the sphere of the pass, as it stands when the conditional is
examined, does not entail the negation of its antecedent at level `k`.  The antecedents
are objective, as `Solver::Entails` demands. -/
theorem KnowledgeBase.BuildSpheres_spheres (F : FormulaOps) (O : SetupOps Setup)
    (GKO : GrounderKBOps G Setup) (kb : KnowledgeBase G)
    (hobj : ∀ c ∈ kb.beliefs_, c.ante.objective = true) :
    ∃ rounds kb',
      BuildSpheresRounds F O GKO kb.knowledge_ kb.beliefs_ = some rounds ∧
      KnowledgeBase.BuildSpheres F O GKO kb = some kb' ∧
      kb'.spheres_ = (rounds.filter (fun r => r.pushed)).map (fun r => r.sphere) ∧
      (∀ r, rounds.head? = some r → r.done = List.replicate kb.beliefs_.length false) ∧
      List.Chain' (fun r r' : BuildSpheresRound G => r'.done = r.done_after) rounds ∧
      ∀ r ∈ rounds,
        (∃ n n' next, BuildSpheresPlace F O GKO (kb.beliefs_.zip r.done)
          ((BuildSpheresClauses kb.knowledge_ kb.beliefs_ r.done).foldl
            (Solver.AddClause GKO) GKO.create) n true
          = some (r.sphere, r.done_after, n', next)) ∧
        ∀ pre c post dpre d dpost, kb.beliefs_ = pre ++ c :: post →
          r.done = dpre ++ d :: dpost → dpre.length = pre.length →
          ∃ sphere_c dpre' b dpost' n n' next,
            BuildSpheresPlace F O GKO (pre.zip dpre)
              ((BuildSpheresClauses kb.knowledge_ kb.beliefs_ r.done).foldl
                (Solver.AddClause GKO) GKO.create) n true
              = some (sphere_c, dpre', n', next) ∧
            r.done_after = dpre' ++ b :: dpost' ∧ dpre'.length = pre.length ∧
            (b = true ↔ d = true ∨
              (Solver.Entails F O GKO.toGrounderOps sphere_c c.k (Formula.Not c.ante)
                c.assume_consistent).1 = some false) := by
  obtain ⟨r, rest, hl, hr, hchain, hall, _, _, _, _⟩ :=
    BuildSpheresRounds_spec F O GKO kb.knowledge_ kb.beliefs_ hobj
  refine ⟨r :: rest,
    { kb with
      spheres_ := ((r :: rest).filter (fun r => r.pushed)).map (fun r => r.sphere) },
    hl, by simp only [KnowledgeBase.BuildSpheres, hl], rfl, ?_, hchain, ?_⟩
  · intro r' hr'
    simp only [List.head?_cons, Option.some.injEq] at hr'
    subst hr'
    exact hr
  · intro r' hr'
    obtain ⟨_, n, n', nx, hp⟩ := hall r' hr'
    rw [BuildSpheresTrial_eq] at hp
    refine ⟨⟨n, n', nx, hp⟩, ?_⟩
    intro pre c post dpre d dpost hb hd hlen
    rw [hb, hd] at hp
    obtain ⟨sc, dpre', b, dpost', n1, nx1, h1, h2, h3, h4⟩ :=
      BuildSpheresPlace_at F O GKO pre post c dpre dpost d hlen _ _ _ _ _ _ _ hp
    rw [← hd, ← hb] at h1
    exact ⟨sc, dpre', b, dpost', n, n1, nx1, h1, h2, h3, h4⟩

theorem KnowledgeBase.BuildSpheres_spheres_witness :
    (∀ c ∈ Scenario.kb.beliefs_, c.ante.objective = true) ∧
    ∃ rounds kb',
      BuildSpheresRounds RefFormulaOps RefSetup.ops FixedGrounder.kbops
        Scenario.kb.knowledge_ Scenario.kb.beliefs_ = some rounds ∧
      KnowledgeBase.BuildSpheres RefFormulaOps RefSetup.ops FixedGrounder.kbops Scenario.kb
        = some kb' ∧
      kb'.spheres_ = (rounds.filter (fun r => r.pushed)).map (fun r => r.sphere) ∧
      (∀ r, rounds.head? = some r →
        r.done = List.replicate Scenario.kb.beliefs_.length false) ∧
      List.Chain' (fun r r' : BuildSpheresRound FixedGrounder => r'.done = r.done_after)
        rounds ∧
      ∀ r ∈ rounds,
        (∃ n n' next, BuildSpheresPlace RefFormulaOps RefSetup.ops FixedGrounder.kbops
          (Scenario.kb.beliefs_.zip r.done)
          ((BuildSpheresClauses Scenario.kb.knowledge_ Scenario.kb.beliefs_ r.done).foldl
            (Solver.AddClause FixedGrounder.kbops) FixedGrounder.kbops.create) n true
          = some (r.sphere, r.done_after, n', next)) ∧
        ∀ pre c post dpre d dpost, Scenario.kb.beliefs_ = pre ++ c :: post →
          r.done = dpre ++ d :: dpost → dpre.length = pre.length →
          ∃ sphere_c dpre' b dpost' n n' next,
            BuildSpheresPlace RefFormulaOps RefSetup.ops FixedGrounder.kbops (pre.zip dpre)
              ((BuildSpheresClauses Scenario.kb.knowledge_ Scenario.kb.beliefs_ r.done).foldl
                (Solver.AddClause FixedGrounder.kbops) FixedGrounder.kbops.create) n true
              = some (sphere_c, dpre', n', next) ∧
            r.done_after = dpre' ++ b :: dpost' ∧ dpre'.length = pre.length ∧
            (b = true ↔ d = true ∨
              (Solver.Entails RefFormulaOps RefSetup.ops FixedGrounder.kbops.toGrounderOps
                sphere_c c.k (Formula.Not c.ante) c.assume_consistent).1 = some false) :=
  ⟨by decide,
   KnowledgeBase.BuildSpheres_spheres RefFormulaOps RefSetup.ops FixedGrounder.kbops
     Scenario.kb (by decide)⟩

/-- C13: the spheres that `KnowledgeBase::BuildSpheres` emits form a monotone chain: each
is a new solver to which the clauses of `BuildSpheresClauses` for its pass were added, and
for two emitted spheres the clauses added to the later one are, in the same order, among
the clauses added to the earlier one, so every clause added to sphere `q` was also added to
sphere `p` for `p < q`. -/
theorem KnowledgeBase.BuildSpheres_monotone (F : FormulaOps) (O : SetupOps Setup)
    (GKO : GrounderKBOps G Setup) (kb : KnowledgeBase G)
    (hobj : ∀ c ∈ kb.beliefs_, c.ante.objective = true) :
    ∃ emitted kb',
      (BuildSpheresRounds F O GKO kb.knowledge_ kb.beliefs_).map
        (fun rounds => rounds.filter (fun r => r.pushed)) = some emitted ∧
      KnowledgeBase.BuildSpheres F O GKO kb = some kb' ∧
      kb'.spheres_ = emitted.map (fun r => r.sphere) ∧
      (∀ r ∈ emitted, ∃ n n' next, BuildSpheresPlace F O GKO (kb.beliefs_.zip r.done)
        ((BuildSpheresClauses kb.knowledge_ kb.beliefs_ r.done).foldl
          (Solver.AddClause GKO) GKO.create) n true
        = some (r.sphere, r.done_after, n', next)) ∧
      List.Pairwise (fun r r' : BuildSpheresRound G =>
        List.Sublist (BuildSpheresClauses kb.knowledge_ kb.beliefs_ r'.done)
          (BuildSpheresClauses kb.knowledge_ kb.beliefs_ r.done)) emitted ∧
      ∀ (p q : Nat) (hq : q < emitted.length) (hpq : p < q),
        ∀ c ∈ BuildSpheresClauses kb.knowledge_ kb.beliefs_ (emitted.get ⟨q, hq⟩).done,
          c ∈ BuildSpheresClauses kb.knowledge_ kb.beliefs_
            (emitted.get ⟨p, Nat.lt_trans hpq hq⟩).done := by
  obtain ⟨r, rest, hl, _, _, hall, hpw, _, _, _⟩ :=
    BuildSpheresRounds_spec F O GKO kb.knowledge_ kb.beliefs_ hobj
  have hpw' := List.Pairwise.filter (fun r : BuildSpheresRound G => r.pushed) hpw
  refine ⟨(r :: rest).filter (fun r => r.pushed),
    { kb with
      spheres_ := ((r :: rest).filter (fun r => r.pushed)).map (fun r => r.sphere) },
    by rw [hl]; rfl, by simp only [KnowledgeBase.BuildSpheres, hl], rfl, ?_, hpw', ?_⟩
  · intro r' hr'
    obtain ⟨_, n, n', nx, hp⟩ := hall r' (List.mem_of_mem_filter hr')
    rw [BuildSpheresTrial_eq] at hp
    exact ⟨n, n', nx, hp⟩
  · intro p q hq hpq c hc
    exact (List.pairwise_iff_get.1 hpw' ⟨p, Nat.lt_trans hpq hq⟩ ⟨q, hq⟩ hpq).subset hc

theorem KnowledgeBase.BuildSpheres_monotone_witness :
    (∀ c ∈ Scenario.kb.beliefs_, c.ante.objective = true) ∧
    ∃ emitted kb',
      (BuildSpheresRounds RefFormulaOps RefSetup.ops FixedGrounder.kbops
        Scenario.kb.knowledge_ Scenario.kb.beliefs_).map
        (fun rounds => rounds.filter (fun r => r.pushed)) = some emitted ∧
      KnowledgeBase.BuildSpheres RefFormulaOps RefSetup.ops FixedGrounder.kbops Scenario.kb
        = some kb' ∧
      kb'.spheres_ = emitted.map (fun r => r.sphere) ∧
      (∀ r ∈ emitted, ∃ n n' next,
        BuildSpheresPlace RefFormulaOps RefSetup.ops FixedGrounder.kbops
          (Scenario.kb.beliefs_.zip r.done)
          ((BuildSpheresClauses Scenario.kb.knowledge_ Scenario.kb.beliefs_ r.done).foldl
            (Solver.AddClause FixedGrounder.kbops) FixedGrounder.kbops.create) n true
        = some (r.sphere, r.done_after, n', next)) ∧
      List.Pairwise (fun r r' : BuildSpheresRound FixedGrounder =>
        List.Sublist (BuildSpheresClauses Scenario.kb.knowledge_ Scenario.kb.beliefs_ r'.done)
          (BuildSpheresClauses Scenario.kb.knowledge_ Scenario.kb.beliefs_ r.done)) emitted ∧
      ∀ (p q : Nat) (hq : q < emitted.length) (hpq : p < q),
        ∀ c ∈ BuildSpheresClauses Scenario.kb.knowledge_ Scenario.kb.beliefs_
            (emitted.get ⟨q, hq⟩).done,
          c ∈ BuildSpheresClauses Scenario.kb.knowledge_ Scenario.kb.beliefs_
            (emitted.get ⟨p, Nat.lt_trans hpq hq⟩).done :=
  ⟨by decide,
   KnowledgeBase.BuildSpheres_monotone RefFormulaOps RefSetup.ops FixedGrounder.kbops
     Scenario.kb (by decide)⟩

/-- C14: `KnowledgeBase::BuildSpheres` terminates for every list of conditional beliefs
(with objective antecedents, as `Solver::Entails` demands): its loop, given fuel for
`|beliefs| + 1` passes or more, ends with a result that does not depend on the fuel.  It
makes at least one and at most `|beliefs| + 1` passes, each pass but the last places at
least one new conditional, the last places none, and `spheres_` receives at least one and
at most `|beliefs| + 1` spheres. -/
theorem KnowledgeBase.BuildSpheres_terminates (F : FormulaOps) (O : SetupOps Setup)
    (GKO : GrounderKBOps G Setup) (kb : KnowledgeBase G)
    (hobj : ∀ c ∈ kb.beliefs_, c.ante.objective = true) :
    ∃ rounds kb',
      (∀ fuel, kb.beliefs_.length + 1 ≤ fuel →
        BuildSpheresLoop F O GKO kb.knowledge_ kb.beliefs_ fuel
          (List.replicate kb.beliefs_.length false) true 0 = some rounds) ∧
      KnowledgeBase.BuildSpheres F O GKO kb = some kb' ∧
      kb'.spheres_ = (rounds.filter (fun r => r.pushed)).map (fun r => r.sphere) ∧
      1 ≤ rounds.length ∧ rounds.length ≤ kb.beliefs_.length + 1 ∧
      (∀ r ∈ rounds.dropLast, r.done.count true < r.done_after.count true) ∧
      (∀ r, rounds.getLast? = some r → r.done_after.count true = r.done.count true) ∧
      1 ≤ kb'.spheres_.length ∧ kb'.spheres_.length ≤ kb.beliefs_.length + 1 := by
  obtain ⟨r, rest, hl, _, _, _, _, hlen, hdrop, hlast⟩ :=
    BuildSpheresRounds_spec F O GKO kb.knowledge_ kb.beliefs_ hobj
  refine ⟨r :: rest,
    { kb with
      spheres_ := ((r :: rest).filter (fun r => r.pushed)).map (fun r => r.sphere) },
    fun fuel hf => BuildSpheresLoop_fuel F O GKO _ _ _ _ _ _ _ hl fuel hf,
    by simp only [KnowledgeBase.BuildSpheres, hl], rfl, by simp, hlen, hdrop,
    fun r' hr' => (hlast r' hr').1, ?_, ?_⟩
  · show 1 ≤ (((r :: rest).filter (fun r => r.pushed)).map (fun r => r.sphere)).length
    have hne : r :: rest ≠ [] := by simp
    have hmem : (r :: rest).getLast hne ∈ (r :: rest).filter (fun r => r.pushed) :=
      List.mem_filter.2 ⟨List.getLast_mem hne,
        (hlast _ (List.getLast?_eq_getLast _ hne)).2⟩
    rw [List.length_map]
    exact List.length_pos_of_mem hmem
  · show (((r :: rest).filter (fun r => r.pushed)).map (fun r => r.sphere)).length ≤ _
    rw [List.length_map]
    exact Nat.le_trans (List.length_filter_le _ _) hlen

theorem KnowledgeBase.BuildSpheres_terminates_witness :
    (∀ c ∈ Scenario.kb.beliefs_, c.ante.objective = true) ∧
    ∃ rounds kb',
      (∀ fuel, Scenario.kb.beliefs_.length + 1 ≤ fuel →
        BuildSpheresLoop RefFormulaOps RefSetup.ops FixedGrounder.kbops
          Scenario.kb.knowledge_ Scenario.kb.beliefs_ fuel
          (List.replicate Scenario.kb.beliefs_.length false) true 0 = some rounds) ∧
      KnowledgeBase.BuildSpheres RefFormulaOps RefSetup.ops FixedGrounder.kbops Scenario.kb
        = some kb' ∧
      kb'.spheres_ = (rounds.filter (fun r => r.pushed)).map (fun r => r.sphere) ∧
      1 ≤ rounds.length ∧ rounds.length ≤ Scenario.kb.beliefs_.length + 1 ∧
      (∀ r ∈ rounds.dropLast, r.done.count true < r.done_after.count true) ∧
      (∀ r, rounds.getLast? = some r → r.done_after.count true = r.done.count true) ∧
      1 ≤ kb'.spheres_.length ∧ kb'.spheres_.length ≤ Scenario.kb.beliefs_.length + 1 :=
  ⟨by decide,
   KnowledgeBase.BuildSpheres_terminates RefFormulaOps RefSetup.ops FixedGrounder.kbops
     Scenario.kb (by decide)⟩

/-! ### Free variables and substitution -/

mutual
/-- A name does not occur as a variable: replacing the variable `x` by a term `n` without
variables removes the occurrences of `x` from the variables of a term. -/
theorem Term.vars_Substitute (i s : Nat) (n : Term) (hn : n.vars = []) :
    ∀ t : Term, (Term.Substitute (.var i s) n t).vars
      = t.vars.filter (fun y => y ≠ Term.var i s)
  | .null => by simp [Term.Substitute, Term.vars]
  | .name j s' => by simp [Term.Substitute, Term.vars]
  | .var j s' => by
    by_cases h : Term.var j s' = Term.var i s
    · simp [Term.Substitute, Term.vars, h, hn]
    · simp [Term.Substitute, Term.vars, h]
  | .fn j s' args => by
    have h : Term.fn j s' args ≠ Term.var i s := by intro h; cases h
    simp only [Term.Substitute, h, if_false, Term.vars]
    exact Term.varsList_SubstituteList i s n hn args
/-- The list version of `Term.vars_Substitute`. -/
theorem Term.varsList_SubstituteList (i s : Nat) (n : Term) (hn : n.vars = []) :
    ∀ ts : List Term, Term.varsList (Term.SubstituteList (.var i s) n ts)
      = (Term.varsList ts).filter (fun y => y ≠ Term.var i s)
  | [] => by simp [Term.SubstituteList, Term.varsList]
  | a :: as => by
    simp only [Term.SubstituteList, Term.varsList, List.filter_append]
    rw [Term.vars_Substitute i s n hn a, Term.varsList_SubstituteList i s n hn as]
end

mutual
/-- The elements of `Term.vars` are variables. -/
theorem Term.isVariable_of_mem_vars :
    ∀ (t y : Term), y ∈ t.vars → ∃ i s, y = Term.var i s
  | .null, y, h => by simp [Term.vars] at h
  | .name _ _, y, h => by simp [Term.vars] at h
  | .var j s', y, h => by
    simp only [Term.vars, List.mem_singleton] at h
    exact ⟨j, s', h⟩
  | .fn _ _ args, y, h => by
    simp only [Term.vars] at h
    exact Term.isVariable_of_mem_varsList args y h
/-- The list version of `Term.isVariable_of_mem_vars`. -/
theorem Term.isVariable_of_mem_varsList :
    ∀ (ts : List Term) (y : Term), y ∈ Term.varsList ts → ∃ i s, y = Term.var i s
  | [], y, h => by simp [Term.varsList] at h
  | a :: as, y, h => by
    simp only [Term.varsList, List.mem_append] at h
    rcases h with h | h
    · exact Term.isVariable_of_mem_vars a y h
    · exact Term.isVariable_of_mem_varsList as y h
end

theorem Term.vars_of_isName (n : Term) (h : n.isName = true) : n.vars = [] := by
  cases n <;> simp_all [Term.isName, Term.vars]

/-- The free occurrences of variables in a formula are variables. -/
theorem Formula.isVariable_of_mem_free_occurrences (phi : Formula) :
    ∀ y, y ∈ phi.free_occurrences → ∃ i s, y = Term.var i s := by
  induction phi with
  | Atomic c =>
    intro y h
    simp only [Formula.free_occurrences, List.mem_flatMap, Literal.vars, List.mem_append] at h
    obtain ⟨a, _, h | h⟩ := h
    · exact Term.isVariable_of_mem_vars _ y h
    · exact Term.isVariable_of_mem_vars _ y h
  | Not a ih => exact ih
  | Or l r ihl ihr =>
    intro y h
    simp only [Formula.free_occurrences, List.mem_append] at h
    rcases h with h | h
    · exact ihl y h
    · exact ihr y h
  | Exists x a ih =>
    intro y h
    simp only [Formula.free_occurrences, List.mem_filter] at h
    exact ih y h.1
  | Know k a ih => exact ih
  | Cons k a ih => exact ih
  | Bel k l a c nac iha ihc ihn =>
    intro y h
    simp only [Formula.free_occurrences, List.mem_append] at h
    rcases h with (h | h) | h
    · exact iha y h
    · exact ihc y h
    · exact ihn y h
  | Guarantee a ih => exact ih

/-- Replacing the free occurrences of the variable `x` by a term without variables removes
`x` from the free occurrences. -/
theorem Formula.free_occurrences_SubstituteFree (i s : Nat) (n : Term) (hn : n.vars = [])
    (phi : Formula) :
    (phi.SubstituteFree (.var i s) n).free_occurrences
      = phi.free_occurrences.filter (fun y => y ≠ Term.var i s) := by
  induction phi with
  | Atomic c =>
    simp only [Formula.SubstituteFree, Formula.free_occurrences, List.flatMap_map,
      List.filter_flatMap]
    congr 1
    funext a
    simp only [Literal.vars, Literal.Substitute, List.filter_append,
      Term.vars_Substitute i s n hn]
  | Not a ih => simpa [Formula.SubstituteFree, Formula.free_occurrences] using ih
  | Or l r ihl ihr =>
    simp only [Formula.SubstituteFree, Formula.free_occurrences, List.filter_append, ihl, ihr]
  | Exists y a ih =>
    by_cases h : y = Term.var i s
    · subst h
      simp only [Formula.SubstituteFree, if_true, Formula.free_occurrences, List.filter_filter,
        Bool.and_self]
    · simp only [Formula.SubstituteFree, h, if_false, Formula.free_occurrences, ih]
      exact List.filter_comm _ _ _
  | Know k a ih => simpa [Formula.SubstituteFree, Formula.free_occurrences] using ih
  | Cons k a ih => simpa [Formula.SubstituteFree, Formula.free_occurrences] using ih
  | Bel k l a c nac iha ihc ihn =>
    simp only [Formula.SubstituteFree, Formula.free_occurrences, List.filter_append, iha, ihc,
      ihn]
  | Guarantee a ih => simpa [Formula.SubstituteFree, Formula.free_occurrences] using ih

/-- The free variables of a formula are variables. -/
theorem Formula.isVariable_of_mem_free_vars (phi : Formula) (x : Term)
    (h : x ∈ phi.free_vars) : ∃ i s, x = Term.var i s :=
  Formula.isVariable_of_mem_free_occurrences phi x (List.mem_dedup.1 h)

/-- Each step of `Res` removes one free variable: substituting a name for a free variable
of the formula leaves one free variable less. -/
theorem Formula.free_vars_SubstituteFree (phi : Formula) (x n : Term)
    (hx : x ∈ phi.free_vars) (hn : n.isName = true) :
    (phi.SubstituteFree x n).free_vars.length + 1 = phi.free_vars.length := by
  obtain ⟨i, s, rfl⟩ := Formula.isVariable_of_mem_free_vars phi x hx
  have hperm : List.Perm (phi.SubstituteFree (.var i s) n).free_vars
      (phi.free_vars.erase (.var i s)) := by
    refine (List.perm_ext_iff_of_nodup (List.nodup_dedup _)
      ((List.nodup_dedup _).erase _)).2 ?_
    intro a
    simp only [Formula.free_vars,
      Formula.free_occurrences_SubstituteFree i s n (Term.vars_of_isName n hn),
      List.mem_dedup, List.mem_filter, (List.nodup_dedup _).mem_erase_iff]
    simp [and_comm]
  rw [hperm.length_eq, List.length_erase_of_mem hx]
  have := List.length_pos_of_mem hx
  omega

/-! ### `Res` -/

theorem SortedTermSet.AllNames_insert (names : SortedTermSet) (t : Term)
    (h : names.AllNames) (ht : t.isName = true) : (SortedTermSet.insert names t).AllNames := by
  intro sort n hn
  simp only [SortedTermSet.insert] at hn
  split_ifs at hn with h1 h2
  · exact h sort n hn
  · rcases List.mem_append.1 hn with hn | hn
    · exact h sort n hn
    · rw [List.mem_singleton] at hn
      rw [hn]
      exact ht
  · exact h sort n hn

theorem SortedTermSet.AllNames_erase (names : SortedTermSet) (t : Term)
    (h : names.AllNames) : (SortedTermSet.erase names t).AllNames := by
  intro sort n hn
  simp only [SortedTermSet.erase] at hn
  split_ifs at hn
  · exact h sort n (List.mem_filter.1 hn).1
  · exact h sort n hn

theorem SortedTermSet.AllNames_insertNames (ts : List Term) :
    ∀ (names : SortedTermSet), names.AllNames → (SortedTermSet.insertNames names ts).AllNames := by
  induction ts with
  | nil => intro names h; exact h
  | cons t ts ih =>
    intro names h
    simp only [SortedTermSet.insertNames, List.foldl_cons]
    apply ih
    split_ifs with ht
    · exact SortedTermSet.AllNames_insert names t h ht
    · exact h

theorem KnowledgeBase.bool_to_formula_objective (b : Bool) :
    (KnowledgeBase.bool_to_formula b).objective = true := by
  cases b <;> rfl

/-- The truth value of `bool_to_formula(b)` is `b`, when the empty clause is false. -/
theorem KnowledgeBase.bool_to_formula_holds (v : Formula → Bool)
    (hv : v (Formula.Atomic []) = false) (b : Bool) :
    (KnowledgeBase.bool_to_formula b).holds v = b := by
  cases b <;> simp [KnowledgeBase.bool_to_formula, Formula.holds, hv]

/-- The formula `Not(Or(Not(xi), Not(psi)))` is the conjunction of `xi` and `psi`. -/
theorem Formula.holds_conj (v : Formula → Bool) (xi psi : Formula) :
    (Formula.Not (Formula.Or (Formula.Not xi) (Formula.Not psi))).holds v
      = (xi.holds v && psi.holds v) := by
  simp only [Formula.holds]
  cases xi.holds v <;> cases psi.holds v <;> rfl

/-- The formula that the loop over the names of `Res` builds from `psi` is the conjunction
of `psi` and the formulas `x ≠ n ∨ r` for the names `n` and the results `r` of the
recursive calls. -/
theorem KnowledgeBase.holds_foldl_conj (v : Formula → Bool) (x : Term) :
    ∀ (nrs : List (Term × Formula)) (psi : Formula),
      (nrs.foldl (fun psi nr => Formula.Not (Formula.Or
          (Formula.Not (Formula.Or (Formula.Atomic [Literal.Neq x nr.1]) nr.2))
          (Formula.Not psi))) psi).holds v
        = (psi.holds v && nrs.all (fun nr =>
            (Formula.Or (Formula.Atomic [Literal.Neq x nr.1]) nr.2).holds v)) := by
  intro nrs
  induction nrs with
  | nil => intro psi; simp
  | cons nr nrs ih =>
    intro psi
    rw [List.foldl_cons, ih, Formula.holds_conj, List.all_cons]
    cases (Formula.Or (Formula.Atomic [Literal.Neq x nr.1]) nr.2).holds v <;>
      cases psi.holds v <;> simp

/-- The loop over the names of `Res`, with a recursive call `rec` that returns an objective
formula for every name substituted for `x`. -/
theorem KnowledgeBase.ResNamesLoop_spec
    (rec : Formula → SortedTermSet → G → Option (Formula × SortedTermSet × G))
    (phi : Formula) (x : Term)
    (hrec : ∀ n, n.isName = true → ∀ nm g, SortedTermSet.AllNames nm →
      ∃ r nm' g', rec (phi.SubstituteFree x n) nm g = some (r, nm', g') ∧
        r.objective = true ∧ SortedTermSet.AllNames nm') :
    ∀ (ns : List Term) (psi : Formula) (names : SortedTermSet) (g : G),
      (∀ n ∈ ns, n.isName = true) → SortedTermSet.AllNames names → psi.objective = true →
      ∃ rs psi' names' g', rs.length = ns.length ∧
        KnowledgeBase.ResNamesLoop rec phi x ns psi names g = some (psi', names', g') ∧
        psi' = (ns.zip rs).foldl (fun psi nr => Formula.Not (Formula.Or
          (Formula.Not (Formula.Or (Formula.Atomic [Literal.Neq x nr.1]) nr.2))
          (Formula.Not psi))) psi ∧
        (∀ nr ∈ ns.zip rs, ∃ nm g1 nm' g1',
          rec (phi.SubstituteFree x nr.1) nm g1 = some (nr.2, nm', g1')) ∧
        psi'.objective = true ∧ SortedTermSet.AllNames names' := by
  intro ns
  induction ns with
  | nil =>
    intro psi names g _ hnames hpsi
    exact ⟨[], psi, names, g, rfl, rfl, rfl, by simp, hpsi, hnames⟩
  | cons n ns ih =>
    intro psi names g hns hnames hpsi
    obtain ⟨r, nm', g', hr, hrobj, hnm'⟩ := hrec n (hns n (List.mem_cons_self _ _)) names g hnames
    obtain ⟨rs, psi', names', g'', hlen, hloop, hpsi', hall, hobj', hnames'⟩ :=
      ih (Formula.Not (Formula.Or
          (Formula.Not (Formula.Or (Formula.Atomic [Literal.Neq x n]) r))
          (Formula.Not psi))) nm' g' (fun n' hn' => hns n' (List.mem_cons_of_mem _ hn')) hnm'
        (by simp [Formula.objective, hrobj, hpsi])
    refine ⟨r :: rs, psi', names', g'', by simp [hlen], ?_, ?_, ?_, hobj', hnames'⟩
    · simp only [KnowledgeBase.ResNamesLoop, KnowledgeBase.ResName, hr]
      exact hloop
    · rw [hpsi']
      rfl
    · intro nr hnr
      rw [List.zip_cons_cons, List.mem_cons] at hnr
      rcases hnr with e | hnr
      · subst e
        exact ⟨names, g, nm', g', hr⟩
      · exact hall nr hnr

/-- The body of `Res` returns an objective formula when the recursive call does so on every
formula that arises from `phi` by substituting a name for a free variable. -/
theorem KnowledgeBase.ResBody_spec (GKO : GrounderKBOps G Setup)
    (hcreate : ∀ sort g, (GKO.CreateName sort g).1.isName = true)
    (if_no_free_vars : G → Formula → Option Bool × G)
    (hif : ∀ g psi, psi.objective = true → ∃ b, (if_no_free_vars g psi).1 = some b)
    (rec : Formula → SortedTermSet → G → Option (Formula × SortedTermSet × G))
    (phi : Formula) (hobj : phi.objective = true)
    (hrec : ∀ x ∈ phi.free_vars, ∀ n, n.isName = true → ∀ nm g, SortedTermSet.AllNames nm →
      ∃ r nm' g', rec (phi.SubstituteFree x n) nm g = some (r, nm', g') ∧
        r.objective = true ∧ SortedTermSet.AllNames nm')
    (names : SortedTermSet) (g : G) (hnames : SortedTermSet.AllNames names) :
    ∃ r nm' g', KnowledgeBase.ResBody GKO if_no_free_vars rec phi names g = some (r, nm', g') ∧
      r.objective = true ∧ SortedTermSet.AllNames nm' := by
  cases hfv : phi.free_vars with
  | nil =>
    obtain ⟨b, hb⟩ := hif g phi hobj
    exact ⟨_, names, (if_no_free_vars g phi).2, by simp only [KnowledgeBase.ResBody, hfv, hb],
      KnowledgeBase.bool_to_formula_objective b, hnames⟩
  | cons x rest =>
    have hx : x ∈ phi.free_vars := by rw [hfv]; exact List.mem_cons_self _ _
    obtain ⟨r0, nm0, g0, hr0, hr0obj, hnm0⟩ := hrec x hx _ (hcreate x.sort g)
      (SortedTermSet.insert names (GKO.CreateName x.sort g).1) (GKO.CreateName x.sort g).2
      (SortedTermSet.AllNames_insert _ _ hnames (hcreate x.sort g))
    have hnm1 := SortedTermSet.AllNames_erase nm0 (GKO.CreateName x.sort g).1 hnm0
    obtain ⟨rs, psi', names', g', _, hloop, _, _, hobj', hnames'⟩ :=
      KnowledgeBase.ResNamesLoop_spec rec phi x (hrec x hx)
        (SortedTermSet.erase nm0 (GKO.CreateName x.sort g).1 x.sort)
        (Formula.Or (Formula.Atomic
            ((SortedTermSet.erase nm0 (GKO.CreateName x.sort g).1 x.sort).map
              (fun n => Literal.Eq x n)))
          (r0.SubstituteFree (GKO.CreateName x.sort g).1 x))
        (SortedTermSet.erase nm0 (GKO.CreateName x.sort g).1)
        (GKO.ReturnName (GKO.CreateName x.sort g).1 g0)
        (hnm1 x.sort) hnm1
        (by simp [Formula.objective, Formula.objective_SubstituteFree, hr0obj])
    exact ⟨psi', names', g', by
      simp only [KnowledgeBase.ResBody, hfv, KnowledgeBase.ResOtherName, hr0]
      exact hloop, hobj', hnames'⟩

/-- The recursion of `Res` ends: with a depth budget of the number of free variables (or
more) it returns an objective formula. -/
theorem KnowledgeBase.ResD_spec (GKO : GrounderKBOps G Setup)
    (hcreate : ∀ sort g, (GKO.CreateName sort g).1.isName = true)
    (if_no_free_vars : G → Formula → Option Bool × G)
    (hif : ∀ g psi, psi.objective = true → ∃ b, (if_no_free_vars g psi).1 = some b) :
    ∀ (d : Nat) (phi : Formula), phi.free_vars.length ≤ d → phi.objective = true →
      ∀ (names : SortedTermSet) (g : G), SortedTermSet.AllNames names →
        ∃ r nm' g', KnowledgeBase.ResD GKO if_no_free_vars d phi names g = some (r, nm', g') ∧
          r.objective = true ∧ SortedTermSet.AllNames nm' := by
  intro d
  induction d with
  | zero =>
    intro phi hlen hobj names g hnames
    have hfv : phi.free_vars = [] := List.length_eq_zero.1 (Nat.le_zero.1 hlen)
    exact KnowledgeBase.ResBody_spec GKO hcreate if_no_free_vars hif _ phi hobj
      (by intro x hx; rw [hfv] at hx; cases hx) names g hnames
  | succ d ih =>
    intro phi hlen hobj names g hnames
    refine KnowledgeBase.ResBody_spec GKO hcreate if_no_free_vars hif _ phi hobj ?_
      names g hnames
    intro x hx n hn nm g1 hnm
    have := Formula.free_vars_SubstituteFree phi x n hx hn
    exact ih (phi.SubstituteFree x n) (by omega)
      (by rw [Formula.objective_SubstituteFree]; exact hobj) nm g1 hnm

/-- The recursive overload of `Res` returns an objective formula. -/
theorem KnowledgeBase.ResRec_spec (GKO : GrounderKBOps G Setup)
    (hcreate : ∀ sort g, (GKO.CreateName sort g).1.isName = true)
    (if_no_free_vars : G → Formula → Option Bool × G)
    (hif : ∀ g psi, psi.objective = true → ∃ b, (if_no_free_vars g psi).1 = some b)
    (phi : Formula) (hobj : phi.objective = true)
    (names : SortedTermSet) (g : G) (hnames : SortedTermSet.AllNames names) :
    ∃ r nm' g', KnowledgeBase.ResRec GKO if_no_free_vars phi names g = some (r, nm', g') ∧
      r.objective = true ∧ SortedTermSet.AllNames nm' :=
  KnowledgeBase.ResD_spec GKO hcreate if_no_free_vars hif _ phi (Nat.le_refl _) hobj names g
    hnames

/-- The overload `Res(p, phi, if_no_free_vars)` returns an objective formula. -/
theorem KnowledgeBase.Res_total (GKO : GrounderKBOps G Setup)
    (hcreate : ∀ sort g, (GKO.CreateName sort g).1.isName = true)
    (if_no_free_vars : G → Formula → Option Bool × G)
    (hif : ∀ g psi, psi.objective = true → ∃ b, (if_no_free_vars g psi).1 = some b)
    (names_ : SortedTermSet) (hnames : SortedTermSet.AllNames names_)
    (phi : Formula) (hobj : phi.objective = true) (g : G) :
    ∃ r g', KnowledgeBase.Res GKO names_ if_no_free_vars phi g = some (r, g') ∧
      r.objective = true := by
  obtain ⟨r, nm', g', h, hr, _⟩ := KnowledgeBase.ResRec_spec GKO hcreate if_no_free_vars hif
    phi hobj (SortedTermSet.insertNames names_ phi.Traverse) g
    (SortedTermSet.AllNames_insertNames _ _ hnames)
  exact ⟨r, g', by simp only [KnowledgeBase.Res, h], hr⟩

theorem Scenario.names_AllNames : SortedTermSet.AllNames Scenario.names := by
  intro sort n hn
  simp only [Scenario.names] at hn
  split_ifs at hn
  · simp only [List.mem_cons, List.mem_singleton, List.not_mem_nil, or_false] at hn
    rcases hn with rfl | rfl <;> rfl
  · simp only [List.mem_cons, List.mem_singleton, List.not_mem_nil, or_false] at hn
    rcases hn with rfl | rfl <;> rfl
  · cases hn

theorem FixedGrounder.kbops_CreateName_isName (sort : Nat) (g : FixedGrounder) :
    (FixedGrounder.kbops.CreateName sort g).1.isName = true := rfl

theorem SortedTermSet.mem_insert (names : SortedTermSet) (t n : Term) (sort : Nat) :
    n ∈ SortedTermSet.insert names t sort ↔ n ∈ names sort ∨ (n = t ∧ t.sort = sort) := by
  simp only [SortedTermSet.insert]
  split_ifs with h1 h2
  · constructor
    · exact Or.inl
    · rintro (h | ⟨rfl, _⟩)
      · exact h
      · exact h2
  · rw [List.mem_append, List.mem_singleton]
    constructor
    · rintro (h | h)
      · exact Or.inl h
      · exact Or.inr ⟨h, h1.symm⟩
    · rintro (h | ⟨h, _⟩)
      · exact Or.inl h
      · exact Or.inr h
  · constructor
    · exact Or.inl
    · rintro (h | ⟨_, h⟩)
      · exact h
      · exact absurd h.symm h1

/-- The name set after `Traverse` has inserted the names among the visited terms `ts`. -/
theorem SortedTermSet.mem_insertNames (ts : List Term) :
    ∀ (names : SortedTermSet) (n : Term) (sort : Nat),
      n ∈ SortedTermSet.insertNames names ts sort ↔
        n ∈ names sort ∨ (n ∈ ts ∧ n.isName = true ∧ n.sort = sort) := by
  induction ts with
  | nil => intro names n sort; simp [SortedTermSet.insertNames]
  | cons t ts ih =>
    intro names n sort
    have h := ih (if t.isName then SortedTermSet.insert names t else names) n sort
    simp only [SortedTermSet.insertNames, List.foldl_cons] at h ⊢
    rw [h]
    split_ifs with ht
    · rw [SortedTermSet.mem_insert, List.mem_cons]
      constructor
      · rintro ((h1 | ⟨rfl, h2⟩) | ⟨h1, h2, h3⟩)
        · exact Or.inl h1
        · exact Or.inr ⟨Or.inl rfl, ht, h2⟩
        · exact Or.inr ⟨Or.inr h1, h2, h3⟩
      · rintro (h1 | ⟨rfl | h1, h2, h3⟩)
        · exact Or.inl (Or.inl h1)
        · exact Or.inl (Or.inr ⟨rfl, h3⟩)
        · exact Or.inr ⟨h1, h2, h3⟩
    · rw [List.mem_cons]
      constructor
      · rintro (h1 | ⟨h1, h2, h3⟩)
        · exact Or.inl h1
        · exact Or.inr ⟨Or.inr h1, h2, h3⟩
      · rintro (h1 | ⟨rfl | h1, h2, h3⟩)
        · exact Or.inl h1
        · exact absurd h2 ht
        · exact Or.inr ⟨h1, h2, h3⟩

/-- Erasing a name that was inserted into a set that did not hold it gives the set back. -/
theorem SortedTermSet.erase_insert (names : SortedTermSet) (n : Term)
    (h : n ∉ names n.sort) :
    SortedTermSet.erase (SortedTermSet.insert names n) n = names := by
  funext sort
  have h2 : ∀ l : List Term, n ∉ l → l.filter (fun m => decide (m ≠ n)) = l := by
    intro l hl
    rw [List.filter_eq_self]
    intro m hm
    simp only [ne_eq, decide_not, Bool.not_eq_true', decide_eq_false_iff_not]
    intro e
    exact hl (e ▸ hm)
  simp only [SortedTermSet.erase, SortedTermSet.insert]
  by_cases h1 : sort = n.sort
  · subst h1
    simp only [if_true, if_neg h]
    rw [List.filter_append, h2 _ h]
    simp
  · simp only [if_neg h1]

/-- The recursive calls of the loop of `Res` may be made by any function that agrees with
`rec` on the formulas `phi[x/n]`. -/
theorem KnowledgeBase.ResCalls_congr
    (rec rec' : Formula → SortedTermSet → G → Option (Formula × SortedTermSet × G))
    (tracked : G → Prop) (phi : Formula) (x : Term) (names : SortedTermSet) :
    ∀ (ns : List Term) (rs : List Formula) (g g' : G),
      (∀ n ∈ ns, ∀ nm g1, rec (phi.SubstituteFree x n) nm g1
        = rec' (phi.SubstituteFree x n) nm g1) →
      KnowledgeBase.ResCalls rec tracked phi x names ns rs g g' →
      KnowledgeBase.ResCalls rec' tracked phi x names ns rs g g' := by
  intro ns
  induction ns with
  | nil =>
    intro rs g g' _ h
    cases rs with
    | nil => exact h
    | cons r rs => exact h
  | cons n ns ih =>
    intro rs g g' hag h
    cases rs with
    | nil => exact h
    | cons r rs =>
      obtain ⟨ht, g1, h1, h2⟩ := h
      refine ⟨ht, g1, ?_, ih rs g1 g' (fun n' hn' => hag n' (List.mem_cons_of_mem _ hn')) h2⟩
      rw [← hag n (List.mem_cons_self _ _)]
      exact h1

theorem KnowledgeBase.ResCalls_length
    (rec : Formula → SortedTermSet → G → Option (Formula × SortedTermSet × G))
    (tracked : G → Prop) (phi : Formula) (x : Term) (names : SortedTermSet) :
    ∀ (ns : List Term) (rs : List Formula) (g g' : G),
      KnowledgeBase.ResCalls rec tracked phi x names ns rs g g' → rs.length = ns.length := by
  intro ns
  induction ns with
  | nil =>
    intro rs g g' h
    cases rs with
    | nil => rfl
    | cons r rs => exact h.elim
  | cons n ns ih =>
    intro rs g g' h
    cases rs with
    | nil => exact h.elim
    | cons r rs =>
      obtain ⟨_, g1, _, h2⟩ := h
      simp [ih rs g1 g' h2]

/-- The loop over the names of `Res`, with a recursive call `rec` that returns an objective
formula and gives the name set back as it was. -/
theorem KnowledgeBase.ResNamesLoop_calls
    (rec : Formula → SortedTermSet → G → Option (Formula × SortedTermSet × G))
    (tracked : G → Prop) (phi : Formula) (x : Term) (names : SortedTermSet)
    (hrec : ∀ n, n.isName = true → ∀ g, tracked g →
      ∃ r g', rec (phi.SubstituteFree x n) names g = some (r, names, g') ∧
        r.objective = true ∧ tracked g') :
    ∀ (ns : List Term) (psi : Formula) (g : G),
      (∀ n ∈ ns, n.isName = true) → tracked g → psi.objective = true →
      ∃ rs psi' g',
        KnowledgeBase.ResCalls rec tracked phi x names ns rs g g' ∧
        KnowledgeBase.ResNamesLoop rec phi x ns psi names g = some (psi', names, g') ∧
        psi' = (ns.zip rs).foldl (fun psi nr => Formula.Not (Formula.Or
          (Formula.Not (Formula.Or (Formula.Atomic [Literal.Neq x nr.1]) nr.2))
          (Formula.Not psi))) psi ∧
        psi'.objective = true ∧ tracked g' := by
  intro ns
  induction ns with
  | nil =>
    intro psi g _ htr hpsi
    exact ⟨[], psi, g, rfl, rfl, rfl, hpsi, htr⟩
  | cons n ns ih =>
    intro psi g hns htr hpsi
    obtain ⟨r, g1, hr, hrobj, htr1⟩ := hrec n (hns n (List.mem_cons_self _ _)) g htr
    obtain ⟨rs, psi', g', hcalls, hloop, hpsi', hobj', htr'⟩ :=
      ih (Formula.Not (Formula.Or
          (Formula.Not (Formula.Or (Formula.Atomic [Literal.Neq x n]) r))
          (Formula.Not psi))) g1 (fun n' hn' => hns n' (List.mem_cons_of_mem _ hn')) htr1
        (by simp [Formula.objective, hrobj, hpsi])
    refine ⟨r :: rs, psi', g', ⟨htr, g1, hr, hcalls⟩, ?_, ?_, hobj', htr'⟩
    · simp only [KnowledgeBase.ResNamesLoop, KnowledgeBase.ResName, hr]
      exact hloop
    · rw [hpsi']
      rfl

/-- The body of `Res` on a formula with the leading free variable `x`, when `CreateName`
hands out fresh names and the recursive call `rec` gives the name set back as it was. -/
theorem KnowledgeBase.ResBody_open (GKO : GrounderKBOps G Setup)
    (if_no_free_vars : G → Formula → Option Bool × G)
    (Tracked : SortedTermSet → G → Prop)
    (hfresh : KnowledgeBase.FreshNames GKO if_no_free_vars Tracked)
    (rec : Formula → SortedTermSet → G → Option (Formula × SortedTermSet × G))
    (phi : Formula) (x : Term) (rest : List Term) (hfv : phi.free_vars = x :: rest)
    (hrec : ∀ n, n.isName = true → ∀ nm g, SortedTermSet.AllNames nm → Tracked nm g →
      ∃ r g', rec (phi.SubstituteFree x n) nm g = some (r, nm, g') ∧
        r.objective = true ∧ Tracked nm g')
    (names : SortedTermSet) (g : G) (hnames : SortedTermSet.AllNames names)
    (htr : Tracked names g) :
    ∃ r0 g0 rs psi g',
      (GKO.CreateName x.sort g).1 ∉ names x.sort ∧
      rec (phi.SubstituteFree x (GKO.CreateName x.sort g).1)
        (SortedTermSet.insert names (GKO.CreateName x.sort g).1) (GKO.CreateName x.sort g).2
        = some (r0, SortedTermSet.insert names (GKO.CreateName x.sort g).1, g0) ∧
      KnowledgeBase.ResCalls rec (Tracked names) phi x names (names x.sort) rs
        (GKO.ReturnName (GKO.CreateName x.sort g).1 g0) g' ∧
      KnowledgeBase.ResBody GKO if_no_free_vars rec phi names g = some (psi, names, g') ∧
      psi = ((names x.sort).zip rs).foldl
        (fun psi nr => Formula.Not (Formula.Or
          (Formula.Not (Formula.Or (Formula.Atomic [Literal.Neq x nr.1]) nr.2))
          (Formula.Not psi)))
        (Formula.Or (Formula.Atomic ((names x.sort).map (fun n => Literal.Eq x n)))
          (r0.SubstituteFree (GKO.CreateName x.sort g).1 x)) ∧
      psi.objective = true ∧ Tracked names g' := by
  have hn0 := hfresh.isName x.sort g
  have hs0 := hfresh.sort_eq x.sort g
  have hf0 := hfresh.fresh names g x.sort htr
  have hf1 : (GKO.CreateName x.sort g).1 ∉ names (GKO.CreateName x.sort g).1.sort := by
    rw [hs0]
    exact hf0
  obtain ⟨r0, g0, hr0, hr0obj, htr0⟩ := hrec _ hn0
    (SortedTermSet.insert names (GKO.CreateName x.sort g).1) (GKO.CreateName x.sort g).2
    (SortedTermSet.AllNames_insert _ _ hnames hn0) (hfresh.created names g x.sort htr)
  have herase := SortedTermSet.erase_insert names (GKO.CreateName x.sort g).1 hf1
  have htr1 := hfresh.returned names g0 (GKO.CreateName x.sort g).1 hf1 htr0
  obtain ⟨rs, psi', g', hcalls, hloop, hpsi', hobj', htr'⟩ :=
    KnowledgeBase.ResNamesLoop_calls rec (Tracked names) phi x names
      (fun n hn g1 hg1 => hrec n hn names g1 hnames hg1)
      (names x.sort)
      (Formula.Or (Formula.Atomic ((names x.sort).map (fun n => Literal.Eq x n)))
        (r0.SubstituteFree (GKO.CreateName x.sort g).1 x))
      (GKO.ReturnName (GKO.CreateName x.sort g).1 g0)
      (hnames x.sort) htr1
      (by simp [Formula.objective, Formula.objective_SubstituteFree, hr0obj])
  refine ⟨r0, g0, rs, psi', g', hf0, hr0, hcalls, ?_, hpsi', hobj', htr'⟩
  simp only [KnowledgeBase.ResBody, hfv, KnowledgeBase.ResOtherName, hr0, herase]
  exact hloop

/-- When `CreateName` hands out fresh names, the recursion of `Res` ends with an objective
formula and gives the name set back as it was. -/
theorem KnowledgeBase.ResD_restores (GKO : GrounderKBOps G Setup)
    (if_no_free_vars : G → Formula → Option Bool × G)
    (Tracked : SortedTermSet → G → Prop)
    (hfresh : KnowledgeBase.FreshNames GKO if_no_free_vars Tracked)
    (hif : ∀ g psi, psi.objective = true → ∃ b, (if_no_free_vars g psi).1 = some b) :
    ∀ (d : Nat) (phi : Formula), phi.free_vars.length ≤ d → phi.objective = true →
      ∀ (names : SortedTermSet) (g : G), SortedTermSet.AllNames names → Tracked names g →
        ∃ r g', KnowledgeBase.ResD GKO if_no_free_vars d phi names g = some (r, names, g') ∧
          r.objective = true ∧ Tracked names g' := by
  have hclosed : ∀ (rec : Formula → SortedTermSet → G → Option (Formula × SortedTermSet × G))
      (phi : Formula), phi.free_vars = [] → phi.objective = true →
      ∀ (names : SortedTermSet) (g : G), Tracked names g →
        ∃ r g', KnowledgeBase.ResBody GKO if_no_free_vars rec phi names g
            = some (r, names, g') ∧ r.objective = true ∧ Tracked names g' := by
    intro rec phi hfv hobj names g htr
    obtain ⟨b, hb⟩ := hif g phi hobj
    exact ⟨_, (if_no_free_vars g phi).2, by simp only [KnowledgeBase.ResBody, hfv, hb],
      KnowledgeBase.bool_to_formula_objective b, hfresh.queried names g phi htr⟩
  intro d
  induction d with
  | zero =>
    intro phi hlen hobj names g _ htr
    exact hclosed _ phi (List.length_eq_zero.1 (Nat.le_zero.1 hlen)) hobj names g htr
  | succ d ih =>
    intro phi hlen hobj names g hnames htr
    cases hfv : phi.free_vars with
    | nil => exact hclosed _ phi hfv hobj names g htr
    | cons x rest =>
      have hx : x ∈ phi.free_vars := by rw [hfv]; exact List.mem_cons_self _ _
      obtain ⟨_, _, _, psi, g', _, _, _, hbody, _, hpsi, htr'⟩ :=
        KnowledgeBase.ResBody_open GKO if_no_free_vars Tracked hfresh
          (KnowledgeBase.ResD GKO if_no_free_vars d) phi x rest hfv
          (fun n hn nm g1 hnm hg1 => by
            have := Formula.free_vars_SubstituteFree phi x n hx hn
            exact ih (phi.SubstituteFree x n) (by omega)
              (by rw [Formula.objective_SubstituteFree]; exact hobj) nm g1 hnm hg1)
          names g hnames htr
      exact ⟨psi, g', hbody, hpsi, htr'⟩

theorem SortedTermSet.mem_erase (names : SortedTermSet) (t n : Term) (sort : Nat) :
    n ∈ SortedTermSet.erase names t sort ↔ n ∈ names sort ∧ (sort = t.sort → n ≠ t) := by
  simp only [SortedTermSet.erase]
  split_ifs with h1
  · simp [List.mem_filter, h1]
  · simp [h1]

theorem List.le_foldl_max_nat (l : List Nat) :
    ∀ init : Nat, init ≤ l.foldl max init ∧ ∀ a ∈ l, a ≤ l.foldl max init := by
  induction l with
  | nil => intro init; simp
  | cons b l ih =>
    intro init
    obtain ⟨h1, h2⟩ := ih (max init b)
    rw [List.foldl_cons]
    refine ⟨le_trans (le_max_left _ _) h1, ?_⟩
    intro a ha
    rcases List.mem_cons.1 ha with rfl | ha
    · exact le_trans (le_max_right _ _) h1
    · exact h2 a ha

/-- The grounder `Scenario.naming_kbops` hands out fresh names: a sphere that knows the names
in `names` hands out a name that is not among them. -/
theorem Scenario.naming_kbops_FreshNames (k : Int) (assume_consistent : Bool) :
    KnowledgeBase.FreshNames Scenario.naming_kbops
      (fun g psi => Solver.Entails RefFormulaOps RefSetup.ops FixedGrounder.ops g k psi
        assume_consistent)
      Scenario.tracks where
  isName := fun _ _ => rfl
  sort_eq := fun _ _ => rfl
  fresh := by
    intro names g sort htr hmem
    have h1 := htr sort _ hmem
    have h2 := (List.le_foldl_max_nat
      ((g.names sort).map (fun n => match n with | .name id _ => id | _ => 0)) 0).2
      _ (List.mem_map_of_mem _ h1)
    exact Nat.not_succ_le_self _ h2
  created := by
    intro names g sort htr s n hn
    rw [SortedTermSet.mem_insert] at hn
    show n ∈ SortedTermSet.insert g.names _ s
    rw [SortedTermSet.mem_insert]
    rcases hn with hn | hn
    · exact Or.inl (htr s n hn)
    · exact Or.inr hn
  returned := by
    intro names g n hn htr s m hm
    show m ∈ SortedTermSet.erase g.names n s
    rw [SortedTermSet.mem_erase]
    refine ⟨htr s m ((SortedTermSet.mem_insert names n m s).2 (Or.inl hm)), ?_⟩
    intro hs e
    subst hs
    subst e
    exact hn hm
  queried := fun _ _ _ htr => htr

/-- C19: `KnowledgeBase::Res`.  The overload `Res(p, phi, if_no_free_vars)` calls the
recursive overload with the set `names` of the names of the knowledge base plus those in
`phi`.  For an objective `phi`, a name set `names` the sphere keeps track of, a `CreateName`
that hands out fresh names and an `if_no_free_vars` that returns on objective formulas, the
recursive overload `Res(p, phi, names, if_no_free_vars)` returns and leaves `names` as it
was, and

* on a closed `phi` it returns the truth constant of `if_no_free_vars(sphere, phi)`;
* on a `phi` whose leading free variable is `x`, with `n1..nK` the names of the sort of `x` in
  `names`, `n0` the fresh name from `CreateName` and `r0` the result of the recursive call on
  `phi[x/n0]` with the names `names` plus `n0`, it returns the formula built from
  `(x = n1 ∨ ... ∨ x = nK) ∨ r0[n0/x]` by conjoining, for `i = 1..K`, `x ≠ ni ∨ ri`, where
  `ri` is the result of the recursive call on `phi[x/ni]` with the names `names`, made on the
  sphere as the previous call (for `i = 1`: `ReturnName(n0)`) left it; the truth value of the
  result is that of the conjunction of all these formulas;
* substituting a name for the leading free variable leaves one free variable less. -/
theorem KnowledgeBase.Res_cases (GKO : GrounderKBOps G Setup)
    (if_no_free_vars : G → Formula → Option Bool × G)
    (Tracked : SortedTermSet → G → Prop)
    (hfresh : KnowledgeBase.FreshNames GKO if_no_free_vars Tracked)
    (hif : ∀ g psi, psi.objective = true → ∃ b, (if_no_free_vars g psi).1 = some b)
    (phi : Formula) (hobj : phi.objective = true) :
    (∀ names_ g, KnowledgeBase.Res GKO names_ if_no_free_vars phi g
      = (KnowledgeBase.ResRec GKO if_no_free_vars phi
          (SortedTermSet.insertNames names_ phi.Traverse) g).map (fun r => (r.1, r.2.2))) ∧
    (∀ names_ sort n, n ∈ SortedTermSet.insertNames names_ phi.Traverse sort ↔
      n ∈ names_ sort ∨ (n ∈ phi.Traverse ∧ n.isName = true ∧ n.sort = sort)) ∧
    (∀ names g, SortedTermSet.AllNames names → Tracked names g →
      (phi.free_vars = [] →
        ∃ b, (if_no_free_vars g phi).1 = some b ∧
          KnowledgeBase.ResRec GKO if_no_free_vars phi names g
            = some (KnowledgeBase.bool_to_formula b, names, (if_no_free_vars g phi).2)) ∧
      (∀ x rest, phi.free_vars = x :: rest →
        ∃ r0 g0 rs psi g',
          (GKO.CreateName x.sort g).1.isName = true ∧
          (GKO.CreateName x.sort g).1 ∉ names x.sort ∧
          KnowledgeBase.ResRec GKO if_no_free_vars
            (phi.SubstituteFree x (GKO.CreateName x.sort g).1)
            (SortedTermSet.insert names (GKO.CreateName x.sort g).1)
            (GKO.CreateName x.sort g).2
            = some (r0, SortedTermSet.insert names (GKO.CreateName x.sort g).1, g0) ∧
          rs.length = (names x.sort).length ∧
          KnowledgeBase.ResCalls (KnowledgeBase.ResRec GKO if_no_free_vars) (Tracked names)
            phi x names (names x.sort) rs (GKO.ReturnName (GKO.CreateName x.sort g).1 g0) g' ∧
          KnowledgeBase.ResRec GKO if_no_free_vars phi names g = some (psi, names, g') ∧
          psi = ((names x.sort).zip rs).foldl
            (fun psi nr => Formula.Not (Formula.Or
              (Formula.Not (Formula.Or (Formula.Atomic [Literal.Neq x nr.1]) nr.2))
              (Formula.Not psi)))
            (Formula.Or (Formula.Atomic ((names x.sort).map (fun n => Literal.Eq x n)))
              (r0.SubstituteFree (GKO.CreateName x.sort g).1 x)) ∧
          (∀ v : Formula → Bool, psi.holds v =
            ((Formula.Or (Formula.Atomic ((names x.sort).map (fun n => Literal.Eq x n)))
              (r0.SubstituteFree (GKO.CreateName x.sort g).1 x)).holds v &&
              ((names x.sort).zip rs).all (fun nr =>
                (Formula.Or (Formula.Atomic [Literal.Neq x nr.1]) nr.2).holds v))) ∧
          (∀ n, n.isName = true →
            (phi.SubstituteFree x n).free_vars.length + 1 = phi.free_vars.length)) ∧
      ∃ r g', KnowledgeBase.ResRec GKO if_no_free_vars phi names g = some (r, names, g') ∧
        r.objective = true ∧ Tracked names g') := by
  refine ⟨?_, fun names_ sort n => SortedTermSet.mem_insertNames phi.Traverse names_ n sort,
    ?_⟩
  · intro names_ g
    simp only [KnowledgeBase.Res]
    cases KnowledgeBase.ResRec GKO if_no_free_vars phi
      (SortedTermSet.insertNames names_ phi.Traverse) g <;> rfl
  · intro names g hnames htr
    refine ⟨?_, ?_, ?_⟩
    · intro hfv
      obtain ⟨b, hb⟩ := hif g phi hobj
      refine ⟨b, hb, ?_⟩
      simp only [KnowledgeBase.ResRec, hfv, List.length_nil, KnowledgeBase.ResD,
        KnowledgeBase.ResBody, hb]
    · intro x rest hfv
      have hx : x ∈ phi.free_vars := by rw [hfv]; exact List.mem_cons_self _ _
      have hlen : ∀ n, n.isName = true →
          (phi.SubstituteFree x n).free_vars.length = rest.length := by
        intro n hn
        have := Formula.free_vars_SubstituteFree phi x n hx hn
        rw [hfv, List.length_cons] at this
        omega
      have hsub : ∀ n, (phi.SubstituteFree x n).objective = true := by
        intro n
        rw [Formula.objective_SubstituteFree]
        exact hobj
      have hn0 := hfresh.isName x.sort g
      have hagree : ∀ n, n.isName = true → ∀ nm g1,
          KnowledgeBase.ResD GKO if_no_free_vars rest.length (phi.SubstituteFree x n) nm g1
            = KnowledgeBase.ResRec GKO if_no_free_vars (phi.SubstituteFree x n) nm g1 := by
        intro n hn nm g1
        simp only [KnowledgeBase.ResRec]
        rw [hlen n hn]
      obtain ⟨r0, g0, rs, psi, g', hf0, hr0, hcalls, hbody, hpsi, _, _⟩ :=
        KnowledgeBase.ResBody_open GKO if_no_free_vars Tracked hfresh
          (KnowledgeBase.ResD GKO if_no_free_vars rest.length) phi x rest hfv
          (fun n hn nm g1 hnm hg1 =>
            KnowledgeBase.ResD_restores GKO if_no_free_vars Tracked hfresh hif rest.length
              (phi.SubstituteFree x n) (Nat.le_of_eq (hlen n hn)) (hsub n) nm g1 hnm hg1)
          names g hnames htr
      refine ⟨r0, g0, rs, psi, g', hn0, hf0, ?_,
        KnowledgeBase.ResCalls_length _ _ phi x names _ rs _ g' hcalls,
        KnowledgeBase.ResCalls_congr _ _ _ phi x names _ rs _ g'
          (fun n hn nm g1 => hagree n (hnames x.sort n hn) nm g1) hcalls,
        ?_, hpsi, ?_, fun n hn => Formula.free_vars_SubstituteFree phi x n hx hn⟩
      · rw [← hagree _ hn0]
        exact hr0
      · simp only [KnowledgeBase.ResRec, hfv, List.length_cons, KnowledgeBase.ResD]
        exact hbody
      · intro v
        rw [hpsi, KnowledgeBase.holds_foldl_conj]
    · exact KnowledgeBase.ResD_restores GKO if_no_free_vars Tracked hfresh hif _ phi
        (Nat.le_refl _) hobj names g hnames htr

theorem KnowledgeBase.Res_cases_witness :
    KnowledgeBase.FreshNames Scenario.naming_kbops
      (fun g psi => Solver.Entails RefFormulaOps RefSetup.ops FixedGrounder.ops g 1 psi false)
      Scenario.tracks ∧
    (∀ g psi, psi.objective = true →
      ∃ b, (Solver.Entails RefFormulaOps RefSetup.ops FixedGrounder.ops g 1 psi false).1
        = some b) ∧
    Scenario.two_var_query.objective = true ∧
    SortedTermSet.AllNames Scenario.names ∧
    Scenario.tracks Scenario.names Scenario.sphere ∧
    Scenario.two_var_query.free_vars = [Term.var 1 1, Term.var 2 2] ∧
    SortedTermSet.insertNames Scenario.names Scenario.two_var_query.Traverse 1
      = [Scenario.a, Scenario.b] ∧
    (Scenario.naming_kbops.CreateName 1 Scenario.sphere).1 = Term.name 3 1 ∧
    ∃ r0 g0 rs psi g',
      (Term.name 3 1).isName = true ∧
      Term.name 3 1 ∉ [Scenario.a, Scenario.b] ∧
      KnowledgeBase.ResRec Scenario.naming_kbops
        (fun g psi => Solver.Entails RefFormulaOps RefSetup.ops FixedGrounder.ops g 1 psi
          false)
        (Scenario.two_var_query.SubstituteFree (Term.var 1 1) (Term.name 3 1))
        (SortedTermSet.insert Scenario.names (Term.name 3 1))
        (Scenario.naming_kbops.CreateName 1 Scenario.sphere).2
        = some (r0, SortedTermSet.insert Scenario.names (Term.name 3 1), g0) ∧
      rs.length = 2 ∧
      KnowledgeBase.ResCalls
        (KnowledgeBase.ResRec Scenario.naming_kbops
          (fun g psi => Solver.Entails RefFormulaOps RefSetup.ops FixedGrounder.ops g 1 psi
            false))
        (Scenario.tracks Scenario.names) Scenario.two_var_query (Term.var 1 1) Scenario.names
        [Scenario.a, Scenario.b] rs (Scenario.naming_kbops.ReturnName (Term.name 3 1) g0) g' ∧
      KnowledgeBase.ResRec Scenario.naming_kbops
        (fun g psi => Solver.Entails RefFormulaOps RefSetup.ops FixedGrounder.ops g 1 psi
          false)
        Scenario.two_var_query Scenario.names Scenario.sphere
        = some (psi, Scenario.names, g') ∧
      psi = ([Scenario.a, Scenario.b].zip rs).foldl
        (fun psi nr => Formula.Not (Formula.Or
          (Formula.Not (Formula.Or (Formula.Atomic [Literal.Neq (Term.var 1 1) nr.1]) nr.2))
          (Formula.Not psi)))
        (Formula.Or
          (Formula.Atomic [Literal.Eq (Term.var 1 1) Scenario.a,
            Literal.Eq (Term.var 1 1) Scenario.b])
          (r0.SubstituteFree (Term.name 3 1) (Term.var 1 1))) ∧
      (∀ v : Formula → Bool, psi.holds v =
        ((Formula.Or
            (Formula.Atomic [Literal.Eq (Term.var 1 1) Scenario.a,
              Literal.Eq (Term.var 1 1) Scenario.b])
            (r0.SubstituteFree (Term.name 3 1) (Term.var 1 1))).holds v &&
          ([Scenario.a, Scenario.b].zip rs).all (fun nr =>
            (Formula.Or (Formula.Atomic [Literal.Neq (Term.var 1 1) nr.1]) nr.2).holds v))) ∧
      (∀ n, n.isName = true →
        (Scenario.two_var_query.SubstituteFree (Term.var 1 1) n).free_vars.length + 1
          = Scenario.two_var_query.free_vars.length) :=
  ⟨Scenario.naming_kbops_FreshNames 1 false,
   fun g psi h => Solver.Entails_total RefFormulaOps RefSetup.ops FixedGrounder.ops g 1 psi
     false h,
   by decide, Scenario.names_AllNames, fun _ _ h => h, by decide, by decide, rfl,
   ((KnowledgeBase.Res_cases Scenario.naming_kbops
      (fun g psi => Solver.Entails RefFormulaOps RefSetup.ops FixedGrounder.ops g 1 psi false)
      Scenario.tracks (Scenario.naming_kbops_FreshNames 1 false)
      (fun g psi h => Solver.Entails_total RefFormulaOps RefSetup.ops FixedGrounder.ops g 1
        psi false h)
      Scenario.two_var_query (by decide)).2.2 Scenario.names Scenario.sphere
      Scenario.names_AllNames (fun _ _ h => h)).2.1 (Term.var 1 1) [Term.var 2 2]
      (by decide)⟩

/-- C18: the `Determines` shortcut of `KnowledgeBase::ResEntails` is not just a speed-up.
On the sphere of the scenario (split terms enumerated as `t1, t2, t3, t`) and the unit
literal `t = n` at level 2, `ResEntails` returns the truth constant true whereas
`Solver::Entails(2, [t = n], false)` on the same sphere returns false, and `Res` (what
`ResEntails` does without the shortcut) returns the truth constant false.  On a sphere whose
setup contains the empty clause, `ResEntails` returns the truth constant false whereas
`Solver::Entails` returns true. -/
theorem KnowledgeBase.ResEntails_shortcut_not_Entails :
    (Scenario.t.primitive = true ∧ Scenario.n.isName = true) ∧
    ((KnowledgeBase.ResEntails RefFormulaOps RefSetup.ops FixedGrounder.kbops Scenario.names
        Scenario.sphere 2 (Formula.Atomic [Literal.Eq Scenario.t Scenario.n]) false).map
        Prod.fst = some (KnowledgeBase.bool_to_formula true) ∧
      (Solver.Entails RefFormulaOps RefSetup.ops FixedGrounder.ops Scenario.sphere 2
        (Formula.Atomic [Literal.Eq Scenario.t Scenario.n]) false).1 = some false ∧
      (KnowledgeBase.Res FixedGrounder.kbops Scenario.names
        (fun g psi => Solver.Entails RefFormulaOps RefSetup.ops FixedGrounder.ops g 2 psi
          false)
        (Formula.Atomic [Literal.Eq Scenario.t Scenario.n]) Scenario.sphere).map Prod.fst
        = some (KnowledgeBase.bool_to_formula false)) ∧
    ((KnowledgeBase.ResEntails RefFormulaOps RefSetup.ops FixedGrounder.kbops Scenario.names
        Scenario.inconsistent_grounder 1 (Formula.Atomic [Literal.Eq Scenario.t Scenario.n])
        false).map Prod.fst = some (KnowledgeBase.bool_to_formula false) ∧
      (Solver.Entails RefFormulaOps RefSetup.ops FixedGrounder.ops
        Scenario.inconsistent_grounder 1 (Formula.Atomic [Literal.Eq Scenario.t Scenario.n])
        false).1 = some true) := by
  refine ⟨⟨by decide, by decide⟩, ⟨?_, ?_, ?_⟩, ⟨?_, ?_⟩⟩ <;> decide

/-! ### `ResEntails`, `ResConsistent` -/

/-- On a closed formula `Res` returns the truth constant of `if_no_free_vars`. -/
theorem KnowledgeBase.Res_closed (GKO : GrounderKBOps G Setup) (names_ : SortedTermSet)
    (if_no_free_vars : G → Formula → Option Bool × G) (phi : Formula)
    (hfv : phi.free_vars = []) (g : G) :
    KnowledgeBase.Res GKO names_ if_no_free_vars phi g
      = (if_no_free_vars g phi).1.map
          (fun b => (KnowledgeBase.bool_to_formula b, (if_no_free_vars g phi).2)) := by
  simp only [KnowledgeBase.Res, KnowledgeBase.ResRec, hfv, List.length_nil, KnowledgeBase.ResD,
    KnowledgeBase.ResBody]
  cases (if_no_free_vars g phi).1 <;> rfl

/-- The function `ResConsistent` returns an objective formula. -/
theorem KnowledgeBase.ResConsistent_spec (F : FormulaOps) (O : SetupOps Setup)
    (GKO : GrounderKBOps G Setup)
    (hcreate : ∀ sort g, (GKO.CreateName sort g).1.isName = true)
    (names_ : SortedTermSet) (hnames : SortedTermSet.AllNames names_)
    (g : G) (k : Nat) (phi : Formula) (assume_consistent : Bool)
    (hobj : phi.objective = true) :
    ∃ r g', KnowledgeBase.ResConsistent F O GKO names_ g k phi assume_consistent
        = some (r, g') ∧ r.objective = true :=
  KnowledgeBase.Res_total GKO hcreate _
    (fun g psi h => Solver.Consistent_total F O GKO.toGrounderOps g k psi assume_consistent h)
    names_ hnames phi hobj g

/-- The function `ResEntails` returns an objective formula. -/
theorem KnowledgeBase.ResEntails_spec (F : FormulaOps) (O : SetupOps Setup)
    (GKO : GrounderKBOps G Setup)
    (hcreate : ∀ sort g, (GKO.CreateName sort g).1.isName = true)
    (names_ : SortedTermSet) (hnames : SortedTermSet.AllNames names_)
    (g : G) (k : Nat) (phi : Formula) (assume_consistent : Bool)
    (hobj : phi.objective = true) :
    ∃ r g', KnowledgeBase.ResEntails F O GKO names_ g k phi assume_consistent
        = some (r, g') ∧ r.objective = true := by
  have hres : ∀ g, ∃ r g', KnowledgeBase.Res GKO names_
      (fun sphere psi => Solver.Entails F O GKO.toGrounderOps sphere k psi assume_consistent)
      phi g = some (r, g') ∧ r.objective = true :=
    KnowledgeBase.Res_total GKO hcreate _
      (fun g psi h => Solver.Entails_total F O GKO.toGrounderOps g k psi assume_consistent h)
      names_ hnames phi hobj
  unfold KnowledgeBase.ResEntails
  split
  · rename_i a
    dsimp only
    obtain ⟨r1, hr1⟩ := Solver.Determines_total O GKO.toGrounderOps g k a.lhs
      assume_consistent
    split_ifs with h1 h2 h3
    · simp only [hr1]
      exact ⟨_, _, rfl, KnowledgeBase.bool_to_formula_objective _⟩
    · simp only [hr1]
      cases r1 with
      | none => exact ⟨_, _, rfl, KnowledgeBase.bool_to_formula_objective _⟩
      | some val =>
        dsimp only
        split_ifs
        · exact ⟨_, _, rfl, KnowledgeBase.bool_to_formula_objective _⟩
        · exact ⟨_, _, rfl, rfl⟩
    · simp only [hr1]
      exact hres _
    · exact hres _
  · exact hres _

/-- On a closed formula `ResConsistent` returns the truth constant of `Solver::Consistent`. -/
theorem KnowledgeBase.ResConsistent_closed (F : FormulaOps) (O : SetupOps Setup)
    (GKO : GrounderKBOps G Setup) (names_ : SortedTermSet)
    (g : G) (k : Nat) (phi : Formula) (assume_consistent : Bool)
    (hobj : phi.objective = true) (hfv : phi.free_vars = []) :
    ∃ b, (Solver.Consistent F O GKO.toGrounderOps g k phi assume_consistent).1 = some b ∧
      KnowledgeBase.ResConsistent F O GKO names_ g k phi assume_consistent
        = some (KnowledgeBase.bool_to_formula b,
            (Solver.Consistent F O GKO.toGrounderOps g k phi assume_consistent).2) := by
  obtain ⟨b, hb⟩ := Solver.Consistent_total F O GKO.toGrounderOps g k phi assume_consistent hobj
  refine ⟨b, hb, ?_⟩
  simp only [KnowledgeBase.ResConsistent]
  rw [KnowledgeBase.Res_closed GKO names_ _ phi hfv g]
  simp only [hb, Option.map_some']

/-- On a closed formula `ResEntails` returns a truth constant; unless the formula is a
positive unit literal with primitive left-hand side, it is the truth constant of
`Solver::Entails`. -/
theorem KnowledgeBase.ResEntails_closed (F : FormulaOps) (O : SetupOps Setup)
    (GKO : GrounderKBOps G Setup) (names_ : SortedTermSet)
    (g : G) (k : Nat) (phi : Formula) (assume_consistent : Bool)
    (hobj : phi.objective = true) (hfv : phi.free_vars = []) :
    ∃ b g', KnowledgeBase.ResEntails F O GKO names_ g k phi assume_consistent
        = some (KnowledgeBase.bool_to_formula b, g') ∧
      ((∀ a, phi = Formula.Atomic [a] → (a.lhs.primitive && a.pos) = false) →
        (Solver.Entails F O GKO.toGrounderOps g k phi assume_consistent).1 = some b ∧
        g' = (Solver.Entails F O GKO.toGrounderOps g k phi assume_consistent).2) := by
  have hres : ∀ g, ∃ b, (Solver.Entails F O GKO.toGrounderOps g k phi assume_consistent).1
        = some b ∧
      KnowledgeBase.Res GKO names_
        (fun sphere psi => Solver.Entails F O GKO.toGrounderOps sphere k psi assume_consistent)
        phi g = some (KnowledgeBase.bool_to_formula b,
          (Solver.Entails F O GKO.toGrounderOps g k phi assume_consistent).2) := by
    intro g
    obtain ⟨b, hb⟩ := Solver.Entails_total F O GKO.toGrounderOps g k phi assume_consistent hobj
    refine ⟨b, hb, ?_⟩
    rw [KnowledgeBase.Res_closed GKO names_ _ phi hfv g]
    simp only [hb, Option.map_some']
  unfold KnowledgeBase.ResEntails
  split
  · rename_i a
    dsimp only
    obtain ⟨r1, hr1⟩ := Solver.Determines_total O GKO.toGrounderOps g k a.lhs
      assume_consistent
    split_ifs with h1 h2 h3
    · simp only [hr1]
      exact ⟨_, _, rfl, fun h => absurd h1 (by simp [h a rfl])⟩
    · exfalso
      have hmem : a.rhs ∈ (Formula.Atomic [a]).free_vars := by
        cases hr : a.rhs with
        | var i s =>
          simp [Formula.free_vars, Formula.free_occurrences, Literal.vars, hr, Term.vars]
        | null => simp [hr, Term.isVariable] at h3
        | name i s => simp [hr, Term.isVariable] at h3
        | fn i s args => simp [hr, Term.isVariable] at h3
      rw [hfv] at hmem
      cases hmem
    · simp only [hr1]
      obtain ⟨b, _, hb⟩ := hres
        (Solver.Determines O GKO.toGrounderOps g k a.lhs assume_consistent).2
      exact ⟨b, _, hb, fun h => absurd h1 (by simp [h a rfl])⟩
    · obtain ⟨b, hb1, hb⟩ := hres g
      exact ⟨b, _, hb, fun _ => ⟨hb1, rfl⟩⟩
  · obtain ⟨b, hb1, hb⟩ := hres g
    exact ⟨b, _, hb, fun _ => ⟨hb1, rfl⟩⟩

/-! ### The case `kBel` of `ReduceModalities` -/

theorem KnowledgeBase.foldl_Or_holds (v : Formula → Bool) :
    ∀ (l : List Formula) (e : Formula),
      (l.foldl (fun conj c => Formula.Or c conj) e).holds v
        = (e.holds v || l.any (fun c => c.holds v)) := by
  intro l
  induction l with
  | nil => intro e; simp
  | cons c l ih =>
    intro e
    have h : (Formula.Or c e).holds v = (c.holds v || e.holds v) := rfl
    rw [List.foldl_cons, ih, List.any_cons, h]
    cases c.holds v <;> cases e.holds v <;> simp

theorem KnowledgeBase.foldl_Or_objective :
    ∀ (l : List Formula) (e : Formula), (∀ c ∈ l, c.objective = true) → e.objective = true →
      (l.foldl (fun conj c => Formula.Or c conj) e).objective = true := by
  intro l
  induction l with
  | nil => intro e _ he; exact he
  | cons c l ih =>
    intro e hl he
    rw [List.foldl_cons]
    apply ih _ (fun c' hc' => hl c' (List.mem_cons_of_mem _ hc'))
    simp [Formula.objective, hl c (List.mem_cons_self _ _), he]

/-- The disjunction that the inner loop of the case `kBel` builds for index `p` holds exactly
when `entails[p]` holds or `consistent[q]` holds for some `q < p`. -/
theorem KnowledgeBase.BelConj_holds (v : Formula → Bool) (consistent : List Formula)
    (e : Formula) (p : Nat) :
    (KnowledgeBase.BelConj consistent e p).holds v = true ↔
      e.holds v = true ∨
        ∃ (q : Nat) (c : Formula), q < p ∧ consistent[q]? = some c ∧ c.holds v = true := by
  rw [KnowledgeBase.BelConj, KnowledgeBase.foldl_Or_holds, Bool.or_eq_true, List.any_eq_true]
  apply or_congr Iff.rfl
  constructor
  · rintro ⟨c, hc, hv⟩
    obtain ⟨q, hq⟩ := List.mem_iff_getElem?.1 hc
    rw [List.getElem?_take] at hq
    split_ifs at hq with hlt
    exact ⟨q, c, hlt, hq, hv⟩
  · rintro ⟨q, c, hlt, hq, hv⟩
    refine ⟨c, List.mem_iff_getElem?.2 ⟨q, ?_⟩, hv⟩
    rw [List.getElem?_take, if_pos hlt]
    exact hq

theorem KnowledgeBase.BelConj_objective (consistent : List Formula) (e : Formula) (p : Nat)
    (hcs : ∀ c ∈ consistent, c.objective = true) (he : e.objective = true) :
    (KnowledgeBase.BelConj consistent e p).objective = true :=
  KnowledgeBase.foldl_Or_objective _ e (fun c hc => hcs c (List.mem_of_mem_take hc)) he

/-- The second loop of the case `kBel`, continued from a non-null `phi`. -/
theorem KnowledgeBase.BelFormulaLoop_spec (consistent : List Formula)
    (hcs : ∀ c ∈ consistent, c.objective = true) :
    ∀ (entails : List Formula) (p : Nat) (phi0 : Formula),
      (∀ e ∈ entails, e.objective = true) → phi0.objective = true →
      ∃ r, KnowledgeBase.BelFormulaLoop consistent entails p (some phi0) = some r ∧
        r.objective = true ∧
        ∀ v : Formula → Bool, (r.holds v = true ↔ phi0.holds v = true ∧
          ∀ (i : Nat) (e : Formula), entails[i]? = some e →
            (KnowledgeBase.BelConj consistent e (p + i)).holds v = true) := by
  intro entails
  induction entails with
  | nil =>
    intro p phi0 _ h0
    exact ⟨phi0, rfl, h0, fun v => ⟨fun h => ⟨h, by simp⟩, fun h => h.1⟩⟩
  | cons e es ih =>
    intro p phi0 hes h0
    have he := hes e (List.mem_cons_self _ _)
    obtain ⟨r, hr, hobj, hv⟩ := ih (p + 1)
      (Formula.Not (Formula.Or (Formula.Not phi0)
        (Formula.Not (KnowledgeBase.BelConj consistent e p))))
      (fun e' he' => hes e' (List.mem_cons_of_mem _ he'))
      (by simp [Formula.objective, h0, KnowledgeBase.BelConj_objective consistent e p hcs he])
    refine ⟨r, by simp only [KnowledgeBase.BelFormulaLoop]; exact hr, hobj, ?_⟩
    intro v
    rw [hv v, Formula.holds_conj, Bool.and_eq_true]
    constructor
    · rintro ⟨⟨h1, h2⟩, h3⟩
      refine ⟨h1, ?_⟩
      intro i e' hi
      cases i with
      | zero =>
        simp only [List.getElem?_cons_zero, Option.some.injEq] at hi
        subst hi
        exact h2
      | succ i =>
        rw [List.getElem?_cons_succ] at hi
        have := h3 i e' hi
        rw [show p + (i + 1) = p + 1 + i by omega]
        exact this
    · rintro ⟨h1, h2⟩
      refine ⟨⟨h1, h2 0 e (by simp)⟩, ?_⟩
      intro i e' hi
      have := h2 (i + 1) e' (by rw [List.getElem?_cons_succ]; exact hi)
      rw [show p + 1 + i = p + (i + 1) by omega]
      exact this

/-- The formula that the case `kBel` returns for non-empty vectors holds exactly when for
every index `p`, `entails[p]` holds or `consistent[q]` holds for some `q < p`. -/
theorem KnowledgeBase.BelFormula_spec (consistent entails : List Formula)
    (hcs : ∀ c ∈ consistent, c.objective = true) (hes : ∀ e ∈ entails, e.objective = true)
    (hne : entails ≠ []) :
    ∃ r, KnowledgeBase.BelFormula consistent entails = some r ∧ r.objective = true ∧
      ∀ v : Formula → Bool, (r.holds v = true ↔
        ∀ (p : Nat) (e : Formula), entails[p]? = some e →
          e.holds v = true ∨
        ∃ (q : Nat) (c : Formula), q < p ∧ consistent[q]? = some c ∧ c.holds v = true) := by
  cases entails with
  | nil => exact absurd rfl hne
  | cons e es =>
    have he := hes e (List.mem_cons_self _ _)
    obtain ⟨r, hr, hobj, hv⟩ := KnowledgeBase.BelFormulaLoop_spec consistent hcs es 1
      (KnowledgeBase.BelConj consistent e 0)
      (fun e' he' => hes e' (List.mem_cons_of_mem _ he'))
      (KnowledgeBase.BelConj_objective consistent e 0 hcs he)
    refine ⟨r, by simp only [KnowledgeBase.BelFormula, KnowledgeBase.BelFormulaLoop]; exact hr,
      hobj, ?_⟩
    intro v
    rw [hv v]
    constructor
    · rintro ⟨h1, h2⟩ p e' hp
      cases p with
      | zero =>
        simp only [List.getElem?_cons_zero, Option.some.injEq] at hp
        subst hp
        exact (KnowledgeBase.BelConj_holds v consistent e 0).1 h1
      | succ p =>
        rw [List.getElem?_cons_succ] at hp
        have := h2 p e' hp
        rw [show 1 + p = p + 1 by omega] at this
        exact (KnowledgeBase.BelConj_holds v consistent e' (p + 1)).1 this
    · intro h
      refine ⟨(KnowledgeBase.BelConj_holds v consistent e 0).2 (h 0 e (by simp)), ?_⟩
      intro i e' hi
      rw [show 1 + i = i + 1 by omega]
      exact (KnowledgeBase.BelConj_holds v consistent e' (i + 1)).2
        (h (i + 1) e' (by rw [List.getElem?_cons_succ]; exact hi))

/-- The first loop of the case `kBel`, for calls of `ResConsistent` and `ResEntails` that
return objective formulas: the loop appends formulas `cs` to `consistent` and `es` to
`entails`, one pair per examined sphere; the pair at index `p` comes from `ResConsistent` and
then `ResEntails` on the sphere at index `p`; no consistency formula but the last one is
trivially valid, and the last one is trivially valid when spheres were left out. -/
theorem KnowledgeBase.BelSpheresLoop_spec (F : FormulaOps) (O : SetupOps Setup)
    (GKO : GrounderKBOps G Setup) (names_ : SortedTermSet) (k l : Nat)
    (ante not_ante_or_conse : Formula) (assume_consistent : Bool)
    (htc : ∀ g, ∃ c g1, KnowledgeBase.ResConsistent F O GKO names_ g l ante assume_consistent
      = some (c, g1) ∧ c.objective = true)
    (hte : ∀ g, ∃ e g2, KnowledgeBase.ResEntails F O GKO names_ g k not_ante_or_conse
      assume_consistent = some (e, g2) ∧ e.objective = true) :
    ∀ (rest before : List G) (cs0 es0 : List Formula),
      ∃ cs es sp,
        KnowledgeBase.BelSpheresLoop F O GKO names_ k l ante not_ante_or_conse
          assume_consistent rest before cs0 es0 = some (cs0 ++ cs, es0 ++ es, sp) ∧
        cs.length = es.length ∧ cs.length ≤ rest.length ∧ (rest ≠ [] → cs ≠ []) ∧
        sp.length = before.length + rest.length ∧
        (∀ c ∈ cs, c.objective = true) ∧ (∀ e ∈ es, e.objective = true) ∧
        (∀ (p : Nat) (g : G) (c e : Formula),
          rest[p]? = some g → cs[p]? = some c → es[p]? = some e →
          ∃ g1 g2,
            KnowledgeBase.ResConsistent F O GKO names_ g l ante assume_consistent
              = some (c, g1) ∧
            KnowledgeBase.ResEntails F O GKO names_ g1 k not_ante_or_conse assume_consistent
              = some (e, g2)) ∧
        (∀ (q : Nat) (c : Formula), q + 1 < cs.length → cs[q]? = some c →
          F.trivially_valid c = false) ∧
        (cs.length < rest.length →
          ∃ c, cs.getLast? = some c ∧ F.trivially_valid c = true) := by
  intro rest
  induction rest with
  | nil =>
    intro before cs0 es0
    exact ⟨[], [], before, by simp [KnowledgeBase.BelSpheresLoop], rfl, Nat.le_refl _,
      fun h => absurd rfl h, by simp, by simp, by simp, by simp, by simp, by simp⟩
  | cons g rest ih =>
    intro before cs0 es0
    obtain ⟨c, g1, hc, hcobj⟩ := htc g
    obtain ⟨e, g2, he, heobj⟩ := hte g1
    by_cases htv : F.trivially_valid c = true
    · refine ⟨[c], [e], before ++ g2 :: rest,
        by simp only [KnowledgeBase.BelSpheresLoop, hc, he, htv, if_true], rfl,
        by simp, by simp, by simp, by simpa using hcobj, by simpa using heobj, ?_, ?_, ?_⟩
      · intro p g' c' e' hg' hc' he'
        cases p with
        | zero =>
          simp only [List.getElem?_cons_zero, Option.some.injEq] at hg' hc' he'
          subst hg' hc' he'
          exact ⟨g1, g2, hc, he⟩
        | succ p => simp at hc'
      · intro q c' hq
        simp at hq
      · intro _
        exact ⟨c, rfl, htv⟩
    · obtain ⟨cs, es, sp, hloop, hlen, hle, _, hsp, hcso, heso, hidx, hntv, hlast⟩ :=
        ih (before ++ [g2]) (cs0 ++ [c]) (es0 ++ [e])
      refine ⟨c :: cs, e :: es, sp, ?_, by simp [hlen], by simp [hle], by simp, ?_, ?_, ?_,
        ?_, ?_, ?_⟩
      · simp only [KnowledgeBase.BelSpheresLoop, hc, he, htv, if_false]
        rw [hloop]
        simp
      · rw [hsp]
        simp
        omega
      · intro c' hc'
        rcases List.mem_cons.1 hc' with rfl | hc'
        · exact hcobj
        · exact hcso c' hc'
      · intro e' he'
        rcases List.mem_cons.1 he' with rfl | he'
        · exact heobj
        · exact heso e' he'
      · intro p g' c' e' hg' hc' he'
        cases p with
        | zero =>
          simp only [List.getElem?_cons_zero, Option.some.injEq] at hg' hc' he'
          subst hg' hc' he'
          exact ⟨g1, g2, hc, he⟩
        | succ p =>
          rw [List.getElem?_cons_succ] at hg' hc' he'
          exact hidx p g' c' e' hg' hc' he'
      · intro q c' hq hc'
        cases q with
        | zero =>
          simp only [List.getElem?_cons_zero, Option.some.injEq] at hc'
          subst hc'
          simpa using htv
        | succ q =>
          rw [List.getElem?_cons_succ] at hc'
          exact hntv q c' (by simpa using hq) hc'
      · intro hlt
        obtain ⟨c', hc', htv'⟩ := hlast (by simpa using hlt)
        refine ⟨c', ?_, htv'⟩
        cases cs with
        | nil => simp at hc'
        | cons c2 cs => rw [List.getLast?_cons_cons]; exact hc'

/-- The loop over all spheres: it appends one pair of formulas per sphere; the pair at index
`p` comes from `ResConsistent` and then `ResEntails` on the sphere at index `p`. -/
theorem KnowledgeBase.BelSpheresLoopAll_spec (F : FormulaOps) (O : SetupOps Setup)
    (GKO : GrounderKBOps G Setup) (names_ : SortedTermSet) (k l : Nat)
    (ante not_ante_or_conse : Formula) (assume_consistent : Bool)
    (htc : ∀ g, ∃ c g1, KnowledgeBase.ResConsistent F O GKO names_ g l ante assume_consistent
      = some (c, g1) ∧ c.objective = true)
    (hte : ∀ g, ∃ e g2, KnowledgeBase.ResEntails F O GKO names_ g k not_ante_or_conse
      assume_consistent = some (e, g2) ∧ e.objective = true) :
    ∀ (rest before : List G) (cs0 es0 : List Formula),
      ∃ cs es sp,
        KnowledgeBase.BelSpheresLoopAll F O GKO names_ k l ante not_ante_or_conse
          assume_consistent rest before cs0 es0 = some (cs0 ++ cs, es0 ++ es, sp) ∧
        cs.length = rest.length ∧ es.length = rest.length ∧
        (∀ c ∈ cs, c.objective = true) ∧ (∀ e ∈ es, e.objective = true) ∧
        (∀ (p : Nat) (g : G) (c e : Formula),
          rest[p]? = some g → cs[p]? = some c → es[p]? = some e →
          ∃ g1 g2,
            KnowledgeBase.ResConsistent F O GKO names_ g l ante assume_consistent
              = some (c, g1) ∧
            KnowledgeBase.ResEntails F O GKO names_ g1 k not_ante_or_conse assume_consistent
              = some (e, g2)) := by
  intro rest
  induction rest with
  | nil =>
    intro before cs0 es0
    exact ⟨[], [], before, by simp [KnowledgeBase.BelSpheresLoopAll], rfl, rfl, by simp,
      by simp, by simp⟩
  | cons g rest ih =>
    intro before cs0 es0
    obtain ⟨c, g1, hc, hcobj⟩ := htc g
    obtain ⟨e, g2, he, heobj⟩ := hte g1
    obtain ⟨cs, es, sp, hloop, hlc, hle, hcso, heso, hidx⟩ :=
      ih (before ++ [g2]) (cs0 ++ [c]) (es0 ++ [e])
    refine ⟨c :: cs, e :: es, sp, ?_, by simp [hlc], by simp [hle], ?_, ?_, ?_⟩
    · simp only [KnowledgeBase.BelSpheresLoopAll, hc, he]
      rw [hloop]
      simp
    · intro c' hc'
      rcases List.mem_cons.1 hc' with rfl | hc'
      · exact hcobj
      · exact hcso c' hc'
    · intro e' he'
      rcases List.mem_cons.1 he' with rfl | he'
      · exact heobj
      · exact heso e' he'
    · intro p g' c' e' hg' hc' he'
      cases p with
      | zero =>
        simp only [List.getElem?_cons_zero, Option.some.injEq] at hg' hc' he'
        subst hg' hc' he'
        exact ⟨g1, g2, hc, he⟩
      | succ p =>
        rw [List.getElem?_cons_succ] at hg' hc' he'
        exact hidx p g' c' e' hg' hc' he'

/-! ### `ReduceModalities` -/

theorem KnowledgeBase.atSphere_last (spheres : List G) (hs : spheres ≠ [])
    (call : G → Option (Formula × G))
    (hcall : ∀ g, ∃ r g', call g = some (r, g') ∧ r.objective = true) :
    ∃ r sp', KnowledgeBase.atSphere spheres (spheres.length - 1) call = some (r, sp') ∧
      r.objective = true ∧ sp'.length = spheres.length := by
  have hpos : 0 < spheres.length := List.length_pos.2 hs
  cases h : spheres[spheres.length - 1]? with
  | none =>
    rw [List.getElem?_eq_none_iff] at h
    omega
  | some g =>
    obtain ⟨r, g', hc, hr⟩ := hcall g
    exact ⟨r, spheres.set (spheres.length - 1) g', by simp only [KnowledgeBase.atSphere, h, hc],
      hr, List.length_set _ _ _⟩

/-- On an objective formula `ReduceModalities` is the identity. -/
theorem KnowledgeBase.ReduceModalities_objective (F : FormulaOps) (O : SetupOps Setup)
    (GKO : GrounderKBOps G Setup) (names_ : SortedTermSet) (alpha : Formula)
    (assume_consistent : Bool) (spheres : List G) (hobj : alpha.objective = true) :
    KnowledgeBase.ReduceModalities F O GKO names_ alpha assume_consistent spheres
      = some (alpha, spheres) := by
  cases alpha <;> simp [KnowledgeBase.ReduceModalities, hobj]

/-- The function `ReduceModalities` returns an objective formula and keeps the number of
spheres. -/
theorem KnowledgeBase.ReduceModalities_spec (F : FormulaOps) (O : SetupOps Setup)
    (GKO : GrounderKBOps G Setup)
    (hcreate : ∀ sort g, (GKO.CreateName sort g).1.isName = true)
    (names_ : SortedTermSet) (hnames : SortedTermSet.AllNames names_) :
    ∀ (alpha : Formula) (assume_consistent : Bool) (spheres : List G), spheres ≠ [] →
      ∃ phi spheres',
        KnowledgeBase.ReduceModalities F O GKO names_ alpha assume_consistent spheres
          = some (phi, spheres') ∧
        phi.objective = true ∧ spheres'.length = spheres.length := by
  intro alpha
  induction alpha with
  | Atomic c =>
    intro ac spheres _
    exact ⟨_, _, KnowledgeBase.ReduceModalities_objective F O GKO names_ _ ac spheres rfl,
      rfl, rfl⟩
  | Not a ih =>
    intro ac spheres hs
    by_cases hobj : (Formula.Not a).objective = true
    · exact ⟨_, _, KnowledgeBase.ReduceModalities_objective F O GKO names_ _ ac spheres hobj,
        hobj, rfl⟩
    · obtain ⟨phi, sp, h, hphi, hlen⟩ := ih ac spheres hs
      exact ⟨Formula.Not phi, sp, by simp only [KnowledgeBase.ReduceModalities, hobj, h]; rfl,
        hphi, hlen⟩
  | Or a b iha ihb =>
    intro ac spheres hs
    by_cases hobj : (Formula.Or a b).objective = true
    · exact ⟨_, _, KnowledgeBase.ReduceModalities_objective F O GKO names_ _ ac spheres hobj,
        hobj, rfl⟩
    · obtain ⟨phi, sp, h, hphi, hlen⟩ := iha ac spheres hs
      have hsp : sp ≠ [] := by
        intro e; rw [e] at hlen; exact hs (List.length_eq_zero.1 hlen.symm)
      obtain ⟨psi, sp', h', hpsi, hlen'⟩ := ihb ac sp hsp
      exact ⟨Formula.Or phi psi, sp',
        by simp only [KnowledgeBase.ReduceModalities, hobj, h, h']; rfl,
        by simp [Formula.objective, hphi, hpsi], by rw [hlen', hlen]⟩
  | Exists x a ih =>
    intro ac spheres hs
    by_cases hobj : (Formula.Exists x a).objective = true
    · exact ⟨_, _, KnowledgeBase.ReduceModalities_objective F O GKO names_ _ ac spheres hobj,
        hobj, rfl⟩
    · obtain ⟨phi, sp, h, hphi, hlen⟩ := ih ac spheres hs
      exact ⟨Formula.Exists x phi, sp,
        by simp only [KnowledgeBase.ReduceModalities, hobj, h]; rfl, hphi, hlen⟩
  | Know k a ih =>
    intro ac spheres hs
    obtain ⟨phi, sp, h, hphi, hlen⟩ := ih ac spheres hs
    have hsp : sp ≠ [] := by
      intro e; rw [e] at hlen; exact hs (List.length_eq_zero.1 hlen.symm)
    obtain ⟨r, sp', hr, hrobj, hlen'⟩ := KnowledgeBase.atSphere_last sp hsp
      (fun g => KnowledgeBase.ResEntails F O GKO names_ g k phi ac)
      (fun g => KnowledgeBase.ResEntails_spec F O GKO hcreate names_ hnames g k phi ac hphi)
    exact ⟨r, sp', by
      simp only [KnowledgeBase.ReduceModalities, Formula.objective, Bool.false_eq_true,
        if_false, h]
      exact hr, hrobj, by rw [hlen', hlen]⟩
  | Cons k a ih =>
    intro ac spheres hs
    obtain ⟨phi, sp, h, hphi, hlen⟩ := ih ac spheres hs
    have hsp : sp ≠ [] := by
      intro e; rw [e] at hlen; exact hs (List.length_eq_zero.1 hlen.symm)
    obtain ⟨r, sp', hr, hrobj, hlen'⟩ := KnowledgeBase.atSphere_last sp hsp
      (fun g => KnowledgeBase.ResConsistent F O GKO names_ g k phi ac)
      (fun g => KnowledgeBase.ResConsistent_spec F O GKO hcreate names_ hnames g k phi ac hphi)
    exact ⟨r, sp', by
      simp only [KnowledgeBase.ReduceModalities, Formula.objective, Bool.false_eq_true,
        if_false, h]
      exact hr, hrobj, by rw [hlen', hlen]⟩
  | Bel k l a c nac iha _ ihn =>
    intro ac spheres hs
    obtain ⟨ante, sp1, h1, hante, hlen1⟩ := iha ac spheres hs
    have hsp1 : sp1 ≠ [] := by
      intro e; rw [e] at hlen1; exact hs (List.length_eq_zero.1 hlen1.symm)
    obtain ⟨nac', sp2, h2, hnac, hlen2⟩ := ihn ac sp1 hsp1
    have hsp2 : sp2 ≠ [] := by
      intro e; rw [e] at hlen2; exact hsp1 (List.length_eq_zero.1 hlen2.symm)
    obtain ⟨cs, es, sp, hloop, hlen, _, hne, hsp, hcso, heso, _, _, _⟩ :=
      KnowledgeBase.BelSpheresLoop_spec F O GKO names_ k l ante nac' ac
        (fun g => KnowledgeBase.ResConsistent_spec F O GKO hcreate names_ hnames g l ante ac
          hante)
        (fun g => KnowledgeBase.ResEntails_spec F O GKO hcreate names_ hnames g k nac' ac hnac)
        sp2 [] [] []
    have hes : es ≠ [] := by
      intro e
      rw [e] at hlen
      exact hne hsp2 (List.length_eq_zero.1 hlen)
    obtain ⟨r, hr, hrobj, _⟩ := KnowledgeBase.BelFormula_spec cs es hcso heso hes
    refine ⟨r, sp, ?_, hrobj, ?_⟩
    · simp only [KnowledgeBase.ReduceModalities, Formula.objective, Bool.false_eq_true,
        if_false, h1, h2, hloop, List.nil_append, hr]
    · rw [hsp, hlen2, hlen1]
      simp
  | Guarantee a ih =>
    intro ac spheres hs
    obtain ⟨phi, sp, h, hphi, hlen⟩ := ih true spheres hs
    exact ⟨phi, sp, by
      simp only [KnowledgeBase.ReduceModalities, Formula.objective, Bool.false_eq_true,
        if_false]
      exact h, hphi, hlen⟩

/-- The function `BuildSpheres` returns, leaves at least one sphere, and changes nothing
but the spheres. -/
theorem KnowledgeBase.BuildSpheres_spec (F : FormulaOps) (O : SetupOps Setup)
    (GKO : GrounderKBOps G Setup) (kb : KnowledgeBase G)
    (hobj : ∀ c ∈ kb.beliefs_, c.ante.objective = true) :
    ∃ kb', KnowledgeBase.BuildSpheres F O GKO kb = some kb' ∧ kb'.spheres_ ≠ [] ∧
      kb'.names_ = kb.names_ ∧ kb'.objective_ = kb.objective_ := by
  obtain ⟨r, rest, hl, _, _, _, _, _, _, hlast⟩ :=
    BuildSpheresRounds_spec F O GKO kb.knowledge_ kb.beliefs_ hobj
  refine ⟨{ kb with
      spheres_ := ((r :: rest).filter (fun r => r.pushed)).map (fun r => r.sphere) },
    by simp only [KnowledgeBase.BuildSpheres, hl], ?_, rfl, rfl⟩
  have hne : r :: rest ≠ [] := by simp
  have hmem : (r :: rest).getLast hne ∈ (r :: rest).filter (fun r => r.pushed) :=
    List.mem_filter.2 ⟨List.getLast_mem hne,
      (hlast _ (List.getLast?_eq_getLast _ hne)).2⟩
  show ((r :: rest).filter (fun r => r.pushed)).map (fun r => r.sphere) ≠ []
  intro h
  rw [List.map_eq_nil_iff] at h
  rw [h] at hmem
  cases hmem

theorem Scenario.kb_names_AllNames : SortedTermSet.AllNames Scenario.kb.names_ :=
  SortedTermSet.AllNames_insertNames _ _ (SortedTermSet.AllNames_insertNames _ _
    (SortedTermSet.AllNames_insertNames _ _ (SortedTermSet.AllNames_insertNames _ _
      (SortedTermSet.AllNames_insertNames _ _ (fun _ _ h => by cases h)))))

/-- C15: `KnowledgeBase::ReduceModalities` returns a non-null formula that is objective, on
every formula (subjective or not), and leaves the number of spheres as it is; on an
objective formula it is the identity.  Hence `KnowledgeBase::Entails` passes an objective
formula to `Solver::Entails` and returns an answer.  The knowledge base has at least one
sphere whenever `spheres_changed_` is not set, its name set holds names only, the
antecedents of its conditionals are objective, and `CreateName` hands out names. -/
theorem KnowledgeBase.ReduceModalities_returns_objective (F : FormulaOps)
    (O : SetupOps Setup) (N : NormalFormOps) (GKO : GrounderKBOps G Setup)
    (hcreate : ∀ sort g, (GKO.CreateName sort g).1.isName = true)
    (kb : KnowledgeBase G) (hnames : SortedTermSet.AllNames kb.names_)
    (hbel : ∀ c ∈ kb.beliefs_, c.ante.objective = true)
    (hsph : kb.spheres_changed_ = false → kb.spheres_ ≠ []) :
    (∀ (alpha : Formula) (assume_consistent : Bool) (spheres : List G), spheres ≠ [] →
      ∃ phi spheres',
        KnowledgeBase.ReduceModalities F O GKO kb.names_ alpha assume_consistent spheres
          = some (phi, spheres') ∧
        phi.objective = true ∧ spheres'.length = spheres.length) ∧
    (∀ (alpha : Formula) (assume_consistent : Bool) (spheres : List G),
      alpha.objective = true →
      KnowledgeBase.ReduceModalities F O GKO kb.names_ alpha assume_consistent spheres
        = some (alpha, spheres)) ∧
    (∀ sigma : Formula, ∃ b kb', KnowledgeBase.Entails F O N GKO kb sigma = some (b, kb')) := by
  refine ⟨KnowledgeBase.ReduceModalities_spec F O GKO hcreate kb.names_ hnames,
    fun alpha ac spheres h =>
      KnowledgeBase.ReduceModalities_objective F O GKO kb.names_ alpha ac spheres h, ?_⟩
  intro sigma
  have key : ∀ kb1 : KnowledgeBase G, kb1.spheres_ ≠ [] → kb1.names_ = kb.names_ →
      ∃ b kb', (match KnowledgeBase.ReduceModalities F O GKO kb1.names_ (N.NF sigma) false
          kb1.spheres_ with
        | none => none
        | some (phi, spheres) =>
          match (Solver.Entails F O GKO.toGrounderOps kb1.objective_ 0 phi false).1 with
          | none => none
          | some b => some (b, { kb1 with
              spheres_ := spheres,
              objective_ :=
                (Solver.Entails F O GKO.toGrounderOps kb1.objective_ 0 phi false).2 }))
        = some (b, kb') := by
    intro kb1 hs hn
    obtain ⟨phi, sp, h, hphi, _⟩ := KnowledgeBase.ReduceModalities_spec F O GKO hcreate
      kb1.names_ (by rw [hn]; exact hnames) (N.NF sigma) false kb1.spheres_ hs
    obtain ⟨b, hb⟩ := Solver.Entails_total F O GKO.toGrounderOps kb1.objective_ 0 phi false
      hphi
    exact ⟨b, { kb1 with
        spheres_ := sp,
        objective_ := (Solver.Entails F O GKO.toGrounderOps kb1.objective_ 0 phi false).2 },
      by simp only [h, hb]⟩
  unfold KnowledgeBase.Entails
  cases hc : kb.spheres_changed_ with
  | false =>
    simp only [Bool.false_eq_true, if_false]
    exact key kb (hsph hc) rfl
  | true =>
    obtain ⟨kb1, h1, hs1, hn1, _⟩ := KnowledgeBase.BuildSpheres_spec F O GKO kb hbel
    simp only [if_true, h1, Option.map_some']
    exact key { kb1 with spheres_changed_ := false } hs1 hn1

theorem KnowledgeBase.ReduceModalities_returns_objective_witness :
    (∀ sort g, (FixedGrounder.kbops.CreateName sort g).1.isName = true) ∧
    SortedTermSet.AllNames Scenario.kb.names_ ∧
    (∀ c ∈ Scenario.kb.beliefs_, c.ante.objective = true) ∧
    (Scenario.kb.spheres_changed_ = false → Scenario.kb.spheres_ ≠ []) ∧
    (∃ phi spheres',
      KnowledgeBase.ReduceModalities RefFormulaOps RefSetup.ops FixedGrounder.kbops
        Scenario.kb.names_
        (Formula.Bel 1 1 Scenario.exception_rule.ante Scenario.query
          (Formula.Atomic Scenario.exception_rule.not_ante_or_conse))
        false [Scenario.sphere] = some (phi, spheres') ∧
      phi.objective = true ∧ spheres'.length = [Scenario.sphere].length) ∧
    ∃ b kb', KnowledgeBase.Entails RefFormulaOps RefSetup.ops RefNormalFormOps
      FixedGrounder.kbops Scenario.kb
      (Formula.Bel 1 1 Scenario.exception_rule.ante Scenario.query
        (Formula.Atomic Scenario.exception_rule.not_ante_or_conse)) = some (b, kb') :=
  have h := KnowledgeBase.ReduceModalities_returns_objective RefFormulaOps RefSetup.ops
    RefNormalFormOps FixedGrounder.kbops FixedGrounder.kbops_CreateName_isName Scenario.kb
    Scenario.kb_names_AllNames (by decide) (fun h => absurd h (by decide))
  ⟨FixedGrounder.kbops_CreateName_isName, Scenario.kb_names_AllNames, by decide,
    fun h => absurd h (by decide), h.1 _ false [Scenario.sphere] (by simp), h.2.2 _⟩

theorem KnowledgeBase.bool_to_formula_holds_iff (v : Formula → Bool)
    (hv : v (Formula.Atomic []) = false) (b : Bool) :
    (KnowledgeBase.bool_to_formula b).holds v = true ↔
      KnowledgeBase.bool_to_formula b = KnowledgeBase.bool_to_formula true := by
  rw [KnowledgeBase.bool_to_formula_holds v hv]
  cases b <;> simp [KnowledgeBase.bool_to_formula]

/-- The case `kBel` of `ReduceModalities`, for a `Bel(k, l, antecedent, consequent)` whose
antecedent and not-antecedent-or-consequent are objective and closed.  The vectors
`consistent` and `entails` hold one truth constant per examined sphere: `consistent[p]` is
that of `Solver::Consistent(l, antecedent)` on sphere `p`, `entails[p]` is that of
`ResEntails(p, k, not_antecedent_or_consequent)`, which is the truth constant of
`Solver::Entails(k, not_antecedent_or_consequent)` on sphere `p` provided that the formula
is not a positive unit literal with primitive left-hand side.  The formula returned is true
(under an interpretation in which the empty clause is false) if and only if for every
examined sphere index `p`, `consistent[q]` is the constant true for some `q < p` or
`entails[p]` is the constant true. -/
theorem KnowledgeBase.ReduceModalities_Bel (F : FormulaOps) (O : SetupOps Setup)
    (GKO : GrounderKBOps G Setup) (names_ : SortedTermSet) (k l : Nat)
    (ante conse nac : Formula) (assume_consistent : Bool) (spheres : List G)
    (hs : spheres ≠ [])
    (hao : ante.objective = true) (hno : nac.objective = true)
    (hac : ante.free_vars = []) (hnc : nac.free_vars = []) :
    ∃ consistent entails phi spheres',
      KnowledgeBase.ReduceModalities F O GKO names_ (Formula.Bel k l ante conse nac)
        assume_consistent spheres = some (phi, spheres') ∧
      KnowledgeBase.BelFormula consistent entails = some phi ∧
      consistent.length = entails.length ∧ 1 ≤ entails.length ∧
      entails.length ≤ spheres.length ∧
      (∀ (p : Nat) (g : G) (c e : Formula),
        spheres[p]? = some g → consistent[p]? = some c → entails[p]? = some e →
        ∃ bc be g',
          (Solver.Consistent F O GKO.toGrounderOps g l ante assume_consistent).1 = some bc ∧
          c = KnowledgeBase.bool_to_formula bc ∧
          KnowledgeBase.ResEntails F O GKO names_
            (Solver.Consistent F O GKO.toGrounderOps g l ante assume_consistent).2 k nac
            assume_consistent = some (KnowledgeBase.bool_to_formula be, g') ∧
          e = KnowledgeBase.bool_to_formula be ∧
          ((∀ a, nac = Formula.Atomic [a] → (a.lhs.primitive && a.pos) = false) →
            (Solver.Entails F O GKO.toGrounderOps
              (Solver.Consistent F O GKO.toGrounderOps g l ante assume_consistent).2 k nac
              assume_consistent).1 = some be)) ∧
      (∀ v : Formula → Bool, v (Formula.Atomic []) = false →
        (phi.holds v = true ↔
          ∀ (p : Nat) (e : Formula), entails[p]? = some e →
            (∃ (q : Nat) (c : Formula), q < p ∧ consistent[q]? = some c ∧
              c = KnowledgeBase.bool_to_formula true) ∨
            e = KnowledgeBase.bool_to_formula true)) := by
  have htc : ∀ g, ∃ c g1, KnowledgeBase.ResConsistent F O GKO names_ g l ante
      assume_consistent = some (c, g1) ∧ c.objective = true := by
    intro g
    obtain ⟨b, _, hb⟩ := KnowledgeBase.ResConsistent_closed F O GKO names_ g l ante
      assume_consistent hao hac
    exact ⟨_, _, hb, KnowledgeBase.bool_to_formula_objective b⟩
  have hte : ∀ g, ∃ e g2, KnowledgeBase.ResEntails F O GKO names_ g k nac
      assume_consistent = some (e, g2) ∧ e.objective = true := by
    intro g
    obtain ⟨b, g', hb, _⟩ := KnowledgeBase.ResEntails_closed F O GKO names_ g k nac
      assume_consistent hno hnc
    exact ⟨_, _, hb, KnowledgeBase.bool_to_formula_objective b⟩
  obtain ⟨cs, es, sp, hloop, hlen, hle, hne, _, hcso, heso, hidx, _, _⟩ :=
    KnowledgeBase.BelSpheresLoop_spec F O GKO names_ k l ante nac assume_consistent htc hte
      spheres [] [] []
  have hes : es ≠ [] := by
    intro e
    rw [e] at hlen
    exact hne hs (List.length_eq_zero.1 hlen)
  obtain ⟨r, hr, _, hv⟩ := KnowledgeBase.BelFormula_spec cs es hcso heso hes
  have hverdict : ∀ (p : Nat) (g : G) (c e : Formula),
      spheres[p]? = some g → cs[p]? = some c → es[p]? = some e →
      ∃ bc be g',
        (Solver.Consistent F O GKO.toGrounderOps g l ante assume_consistent).1 = some bc ∧
        c = KnowledgeBase.bool_to_formula bc ∧
        KnowledgeBase.ResEntails F O GKO names_
          (Solver.Consistent F O GKO.toGrounderOps g l ante assume_consistent).2 k nac
          assume_consistent = some (KnowledgeBase.bool_to_formula be, g') ∧
        e = KnowledgeBase.bool_to_formula be ∧
        ((∀ a, nac = Formula.Atomic [a] → (a.lhs.primitive && a.pos) = false) →
          (Solver.Entails F O GKO.toGrounderOps
            (Solver.Consistent F O GKO.toGrounderOps g l ante assume_consistent).2 k nac
            assume_consistent).1 = some be) := by
    intro p g c e hg hc he
    obtain ⟨g1, g2, h1, h2⟩ := hidx p g c e hg hc he
    obtain ⟨bc, hbc, hbc'⟩ := KnowledgeBase.ResConsistent_closed F O GKO names_ g l ante
      assume_consistent hao hac
    rw [hbc'] at h1
    simp only [Option.some.injEq, Prod.mk.injEq] at h1
    obtain ⟨hc1, hg1⟩ := h1
    obtain ⟨be, g', hbe, hbe'⟩ := KnowledgeBase.ResEntails_closed F O GKO names_
      (Solver.Consistent F O GKO.toGrounderOps g l ante assume_consistent).2 k nac
      assume_consistent hno hnc
    rw [← hg1, hbe] at h2
    simp only [Option.some.injEq, Prod.mk.injEq] at h2
    exact ⟨bc, be, g', hbc, hc1.symm, hbe, h2.1.symm, fun hshape => (hbe' hshape).1⟩
  have hpos : 0 < es.length := List.length_pos.2 hes
  have hconst : ∀ (p : Nat) (c e : Formula), cs[p]? = some c → es[p]? = some e →
      (∃ bc, c = KnowledgeBase.bool_to_formula bc) ∧
      (∃ be, e = KnowledgeBase.bool_to_formula be) := by
    intro p c e hc he
    have hp : p < spheres.length := by
      have := (List.getElem?_eq_some_iff.1 hc).1
      omega
    obtain ⟨bc, be, _, _, h1, _, h2, _⟩ :=
      hverdict p _ c e (List.getElem?_eq_getElem hp) hc he
    exact ⟨⟨bc, h1⟩, ⟨be, h2⟩⟩
  have hcs_get : ∀ p, p < es.length → ∃ c, cs[p]? = some c := by
    intro p hp
    exact ⟨_, List.getElem?_eq_getElem (by omega)⟩
  refine ⟨cs, es, r, sp, ?_, hr, hlen, hpos, by omega, hverdict, ?_⟩
  · simp only [KnowledgeBase.ReduceModalities, Formula.objective, Bool.false_eq_true,
      if_false, KnowledgeBase.ReduceModalities_objective F O GKO names_ ante
        assume_consistent spheres hao,
      KnowledgeBase.ReduceModalities_objective F O GKO names_ nac assume_consistent spheres
        hno, hloop, List.nil_append, hr]
  · intro v hv0
    rw [hv v]
    constructor
    · intro h p e he
      have hp : p < es.length := (List.getElem?_eq_some_iff.1 he).1
      obtain ⟨c, hc⟩ := hcs_get p hp
      obtain ⟨_, ⟨be, hbe⟩⟩ := hconst p c e hc he
      rcases h p e he with h1 | ⟨q, c', hq, hc', h2⟩
      · right
        rw [hbe] at h1 ⊢
        exact (KnowledgeBase.bool_to_formula_holds_iff v hv0 be).1 h1
      · left
        obtain ⟨e', he'⟩ : ∃ e', es[q]? = some e' :=
          ⟨_, List.getElem?_eq_getElem (by omega)⟩
        obtain ⟨⟨bc, hbc⟩, _⟩ := hconst q c' e' hc' he'
        refine ⟨q, c', hq, hc', ?_⟩
        rw [hbc] at h2 ⊢
        exact (KnowledgeBase.bool_to_formula_holds_iff v hv0 bc).1 h2
    · intro h p e he
      have hp : p < es.length := (List.getElem?_eq_some_iff.1 he).1
      obtain ⟨c, hc⟩ := hcs_get p hp
      obtain ⟨_, ⟨be, hbe⟩⟩ := hconst p c e hc he
      rcases h p e he with ⟨q, c', hq, hc', h2⟩ | h1
      · right
        obtain ⟨e', he'⟩ : ∃ e', es[q]? = some e' :=
          ⟨_, List.getElem?_eq_getElem (by omega)⟩
        obtain ⟨⟨bc, hbc⟩, _⟩ := hconst q c' e' hc' he'
        refine ⟨q, c', hq, hc', ?_⟩
        rw [hbc] at h2 ⊢
        exact (KnowledgeBase.bool_to_formula_holds_iff v hv0 bc).2 h2
      · left
        rw [hbe] at h1 ⊢
        exact (KnowledgeBase.bool_to_formula_holds_iff v hv0 be).2 h1

theorem KnowledgeBase.ReduceModalities_Bel_witness :
    [Scenario.sphere, Scenario.grounder [Scenario.t]] ≠ [] ∧
    Scenario.conditional.ante.objective = true ∧
    (Formula.Atomic Scenario.conditional.not_ante_or_conse).objective = true ∧
    Scenario.conditional.ante.free_vars = [] ∧
    (Formula.Atomic Scenario.conditional.not_ante_or_conse).free_vars = [] ∧
    ∃ consistent entails phi spheres',
      KnowledgeBase.ReduceModalities RefFormulaOps RefSetup.ops FixedGrounder.kbops
        Scenario.names
        (Formula.Bel 2 1 Scenario.conditional.ante Scenario.query
          (Formula.Atomic Scenario.conditional.not_ante_or_conse))
        false [Scenario.sphere, Scenario.grounder [Scenario.t]] = some (phi, spheres') ∧
      KnowledgeBase.BelFormula consistent entails = some phi ∧
      consistent.length = entails.length ∧ 1 ≤ entails.length ∧
      entails.length ≤ [Scenario.sphere, Scenario.grounder [Scenario.t]].length :=
  have h := KnowledgeBase.ReduceModalities_Bel RefFormulaOps RefSetup.ops FixedGrounder.kbops
    Scenario.names 2 1 Scenario.conditional.ante Scenario.query
    (Formula.Atomic Scenario.conditional.not_ante_or_conse) false
    [Scenario.sphere, Scenario.grounder [Scenario.t]] (by simp) (by decide) (by decide)
    (by decide) (by decide)
  ⟨by simp, by decide, by decide, by decide, by decide,
    h.elim fun cs h => h.elim fun es h => h.elim fun phi h => h.elim fun sp h =>
      ⟨cs, es, phi, sp, h.1, h.2.1, h.2.2.1, h.2.2.2.1, h.2.2.2.2.1⟩⟩

/-- C16: the formula that `ReduceModalities` returns for a `Bel` is not in step with
`Solver::Entails` when not-antecedent-or-consequent is a positive unit literal with primitive
left-hand side, where `ResEntails` asks `Solver::Determines` instead.  The antecedent is the
truth constant true, consequent and not-antecedent-or-consequent are the closed literal
`t = n`, and the knowledge base has one sphere, so that sphere index 0 is the only one
examined and no earlier sphere exists.  On the sphere of the scenario, at `k = 2`, the
formula returned is the truth constant true although `Solver::Entails(2, [t = n])` on the
sphere (as the consistency query left it) returns false.  On a sphere whose setup contains
the empty clause, at `k = 1`, the formula returned is the truth constant false although
`Solver::Entails(1, [t = n])` returns true. -/
theorem KnowledgeBase.ReduceModalities_Bel_not_Entails :
    ((Formula.Not (Formula.Atomic [])).objective = true ∧
      (Formula.Not (Formula.Atomic [])).free_vars = [] ∧
      Scenario.query.objective = true ∧ Scenario.query.free_vars = [] ∧
      Scenario.query = Formula.Atomic [Literal.Eq Scenario.t Scenario.n] ∧
      Scenario.t.primitive = true ∧ Scenario.n.isName = true) ∧
    ((KnowledgeBase.ReduceModalities RefFormulaOps RefSetup.ops FixedGrounder.kbops
        Scenario.names
        (Formula.Bel 2 1 (Formula.Not (Formula.Atomic [])) Scenario.query Scenario.query)
        false [Scenario.sphere]).map Prod.fst = some (KnowledgeBase.bool_to_formula true) ∧
      (KnowledgeBase.BelSpheresLoop RefFormulaOps RefSetup.ops FixedGrounder.kbops
        Scenario.names 2 1 (Formula.Not (Formula.Atomic [])) Scenario.query false
        [Scenario.sphere] [] [] []).map (fun r => (r.1, r.2.1))
        = some ([KnowledgeBase.bool_to_formula true], [KnowledgeBase.bool_to_formula true]) ∧
      (Solver.Entails RefFormulaOps RefSetup.ops FixedGrounder.ops
        (Solver.Consistent RefFormulaOps RefSetup.ops FixedGrounder.ops Scenario.sphere 1
          (Formula.Not (Formula.Atomic [])) false).2 2 Scenario.query false).1
        = some false) ∧
    ((KnowledgeBase.ReduceModalities RefFormulaOps RefSetup.ops FixedGrounder.kbops
        Scenario.names
        (Formula.Bel 1 1 (Formula.Not (Formula.Atomic [])) Scenario.query Scenario.query)
        false [Scenario.inconsistent_grounder]).map Prod.fst
        = some (KnowledgeBase.bool_to_formula false) ∧
      (KnowledgeBase.BelSpheresLoop RefFormulaOps RefSetup.ops FixedGrounder.kbops
        Scenario.names 1 1 (Formula.Not (Formula.Atomic [])) Scenario.query false
        [Scenario.inconsistent_grounder] [] [] []).map (fun r => (r.1, r.2.1))
        = some ([KnowledgeBase.bool_to_formula false], [KnowledgeBase.bool_to_formula false]) ∧
      (Solver.Entails RefFormulaOps RefSetup.ops FixedGrounder.ops
        (Solver.Consistent RefFormulaOps RefSetup.ops FixedGrounder.ops
          Scenario.inconsistent_grounder 1 (Formula.Not (Formula.Atomic [])) false).2 1
        Scenario.query false).1 = some true) := by
  refine ⟨by decide, ⟨?_, ?_, ?_⟩, ⟨?_, ?_, ?_⟩⟩ <;> decide

/-- C17: breaking out of the first loop of the case `kBel` at the first sphere whose
consistency formula is trivially valid does not change the answer.  For objective
`ante` and `not_ante_or_conse` (as `ReduceModalities` passes them) the loop with the `break`
and the loop over all spheres both return; the vectors of the first are prefixes of those
of the second, which have one entry per sphere; and the formulas that the second loop of the
case builds from the two pairs of vectors have the same truth value under every
interpretation that makes the trivially valid formulas true. -/
theorem KnowledgeBase.BelSpheresLoop_break (F : FormulaOps) (O : SetupOps Setup)
    (GKO : GrounderKBOps G Setup)
    (hcreate : ∀ sort g, (GKO.CreateName sort g).1.isName = true)
    (names_ : SortedTermSet) (hnames : SortedTermSet.AllNames names_) (k l : Nat)
    (ante not_ante_or_conse : Formula) (assume_consistent : Bool) (spheres : List G)
    (hs : spheres ≠ [])
    (hao : ante.objective = true) (hno : not_ante_or_conse.objective = true) :
    ∃ consistent entails spheres' consistent_all entails_all spheres_all phi phi_all,
      KnowledgeBase.BelSpheresLoop F O GKO names_ k l ante not_ante_or_conse
        assume_consistent spheres [] [] [] = some (consistent, entails, spheres') ∧
      KnowledgeBase.BelSpheresLoopAll F O GKO names_ k l ante not_ante_or_conse
        assume_consistent spheres [] [] [] = some (consistent_all, entails_all, spheres_all) ∧
      consistent_all.length = spheres.length ∧ entails_all.length = spheres.length ∧
      consistent.length = entails.length ∧ entails.length ≤ spheres.length ∧
      (∀ p, p < entails.length →
        consistent_all[p]? = consistent[p]? ∧ entails_all[p]? = entails[p]?) ∧
      KnowledgeBase.BelFormula consistent entails = some phi ∧
      KnowledgeBase.BelFormula consistent_all entails_all = some phi_all ∧
      ∀ v : Formula → Bool, (∀ f, F.trivially_valid f = true → f.holds v = true) →
        phi.holds v = phi_all.holds v := by
  have htc := fun g => KnowledgeBase.ResConsistent_spec F O GKO hcreate names_ hnames g l
    ante assume_consistent hao
  have hte := fun g => KnowledgeBase.ResEntails_spec F O GKO hcreate names_ hnames g k
    not_ante_or_conse assume_consistent hno
  obtain ⟨cs, es, sp, hloop, hlen, hle, hne, _, hcso, heso, hidx, _, hlast⟩ :=
    KnowledgeBase.BelSpheresLoop_spec F O GKO names_ k l ante not_ante_or_conse
      assume_consistent htc hte spheres [] [] []
  obtain ⟨cs', es', sp', hloop', hlc', hle', hcso', heso', hidx'⟩ :=
    KnowledgeBase.BelSpheresLoopAll_spec F O GKO names_ k l ante not_ante_or_conse
      assume_consistent htc hte spheres [] [] []
  have hes : es ≠ [] := by
    intro e
    rw [e] at hlen
    exact hne hs (List.length_eq_zero.1 hlen)
  have hes' : es' ≠ [] := by
    intro e
    rw [e] at hle'
    exact hs (List.length_eq_zero.1 hle'.symm)
  have hagree : ∀ p, p < es.length → cs'[p]? = cs[p]? ∧ es'[p]? = es[p]? := by
    intro p hp
    have hp1 : p < cs.length := by omega
    have hp2 : p < spheres.length := by omega
    have hp3 : p < cs'.length := by omega
    have hp4 : p < es'.length := by omega
    obtain ⟨g1, g2, h1, h2⟩ := hidx p _ _ _ (List.getElem?_eq_getElem hp2)
      (List.getElem?_eq_getElem hp1) (List.getElem?_eq_getElem hp)
    obtain ⟨g1', g2', h1', h2'⟩ := hidx' p _ _ _ (List.getElem?_eq_getElem hp2)
      (List.getElem?_eq_getElem hp3) (List.getElem?_eq_getElem hp4)
    rw [h1] at h1'
    simp only [Option.some.injEq, Prod.mk.injEq] at h1'
    obtain ⟨hc, hg⟩ := h1'
    rw [← hg, h2] at h2'
    simp only [Option.some.injEq, Prod.mk.injEq] at h2'
    rw [List.getElem?_eq_getElem hp1, List.getElem?_eq_getElem hp,
      List.getElem?_eq_getElem hp3, List.getElem?_eq_getElem hp4, hc, h2'.1]
    exact ⟨rfl, rfl⟩
  obtain ⟨r, hr, _, hv⟩ := KnowledgeBase.BelFormula_spec cs es hcso heso hes
  obtain ⟨r', hr', _, hv'⟩ := KnowledgeBase.BelFormula_spec cs' es' hcso' heso' hes'
  refine ⟨cs, es, sp, cs', es', sp', r, r', by simpa using hloop, by simpa using hloop',
    hlc', hle', hlen, by omega, hagree, hr, hr', ?_⟩
  intro v htv
  rw [Bool.eq_iff_iff, hv v, hv' v]
  constructor
  · intro h p e he
    by_cases hp : p < es.length
    · rw [(hagree p hp).2] at he
      rcases h p e he with h1 | ⟨q, c, hq, hc, h2⟩
      · exact Or.inl h1
      · exact Or.inr ⟨q, c, hq, by rw [(hagree q (by omega)).1]; exact hc, h2⟩
    · have hp' : p < es'.length := (List.getElem?_eq_some_iff.1 he).1
      obtain ⟨c, hc, hctv⟩ := hlast (by omega)
      rw [List.getLast?_eq_getElem?] at hc
      have hpos : 0 < es.length := List.length_pos.2 hes
      refine Or.inr ⟨cs.length - 1, c, by omega, ?_, htv c hctv⟩
      rw [(hagree (cs.length - 1) (by omega)).1]
      exact hc
  · intro h p e he
    have hp : p < es.length := (List.getElem?_eq_some_iff.1 he).1
    rw [← (hagree p hp).2] at he
    rcases h p e he with h1 | ⟨q, c, hq, hc, h2⟩
    · exact Or.inl h1
    · exact Or.inr ⟨q, c, hq, by rw [← (hagree q (by omega)).1]; exact hc, h2⟩

theorem KnowledgeBase.BelSpheresLoop_break_witness :
    (∀ sort g, (FixedGrounder.kbops.CreateName sort g).1.isName = true) ∧
    SortedTermSet.AllNames Scenario.names ∧
    [Scenario.sphere_with_assignment, Scenario.sphere] ≠ [] ∧
    Scenario.conditional.ante.objective = true ∧
    (Formula.Atomic Scenario.conditional.not_ante_or_conse).objective = true ∧
    ∃ consistent entails spheres' consistent_all entails_all spheres_all phi phi_all,
      KnowledgeBase.BelSpheresLoop RefFormulaOps RefSetup.ops FixedGrounder.kbops
        Scenario.names 2 1 Scenario.conditional.ante
        (Formula.Atomic Scenario.conditional.not_ante_or_conse) false
        [Scenario.sphere_with_assignment, Scenario.sphere] [] [] []
        = some (consistent, entails, spheres') ∧
      KnowledgeBase.BelSpheresLoopAll RefFormulaOps RefSetup.ops FixedGrounder.kbops
        Scenario.names 2 1 Scenario.conditional.ante
        (Formula.Atomic Scenario.conditional.not_ante_or_conse) false
        [Scenario.sphere_with_assignment, Scenario.sphere] [] [] []
        = some (consistent_all, entails_all, spheres_all) ∧
      consistent.length = 1 ∧ consistent_all.length = 2 ∧
      KnowledgeBase.BelFormula consistent entails = some phi ∧
      KnowledgeBase.BelFormula consistent_all entails_all = some phi_all ∧
      ∀ v : Formula → Bool,
        (∀ f, RefFormulaOps.trivially_valid f = true → f.holds v = true) →
        phi.holds v = phi_all.holds v :=
  have h := KnowledgeBase.BelSpheresLoop_break RefFormulaOps RefSetup.ops FixedGrounder.kbops
    FixedGrounder.kbops_CreateName_isName Scenario.names Scenario.names_AllNames 2 1
    Scenario.conditional.ante (Formula.Atomic Scenario.conditional.not_ante_or_conse) false
    [Scenario.sphere_with_assignment, Scenario.sphere] (by simp) (by decide) (by decide)
  ⟨FixedGrounder.kbops_CreateName_isName, Scenario.names_AllNames, by simp, by decide,
    by decide,
    h.elim fun cs h => h.elim fun es h => h.elim fun sp h => h.elim fun cs' h =>
      h.elim fun es' h => h.elim fun sp' h => h.elim fun phi h => h.elim fun phi' h =>
      ⟨cs, es, sp, cs', es', sp', phi, phi', h.1, h.2.1,
        by
          have h1 := h.1
          have e : KnowledgeBase.BelSpheresLoop RefFormulaOps RefSetup.ops FixedGrounder.kbops
              Scenario.names 2 1 Scenario.conditional.ante
              (Formula.Atomic Scenario.conditional.not_ante_or_conse) false
              [Scenario.sphere_with_assignment, Scenario.sphere] [] [] []
              = some ([KnowledgeBase.bool_to_formula true], [KnowledgeBase.bool_to_formula true],
                  [Scenario.sphere_with_assignment, Scenario.sphere]) := rfl
          rw [e] at h1
          simp only [Option.some.injEq, Prod.mk.injEq] at h1
          rw [← h1.1]
          rfl,
        h.2.2.1, h.2.2.2.2.2.2.2.1, h.2.2.2.2.2.2.2.2.1, h.2.2.2.2.2.2.2.2.2⟩⟩

end KnowledgeBaseClaims

/-! ### The budget break of `Split` -/

theorem RefSetup.Subsumes_propagateOnce (cs : List Clause) (c : Clause)
    (h : RefSetup.Subsumes ⟨cs⟩ c = true) :
    RefSetup.Subsumes ⟨RefSetup.propagateOnce cs⟩ c = true := by
  simp only [RefSetup.Subsumes, RefSetup.propagateOnce, List.any_eq_true, List.mem_map,
    List.all_eq_true] at h ⊢
  obtain ⟨d, hd, hall⟩ := h
  exact ⟨_, ⟨d, hd, rfl⟩, fun a ha => hall a (List.mem_filter.1 ha).1⟩

theorem RefSetup.Subsumes_propagate (c : Clause) :
    ∀ (fuel : Nat) (cs : List Clause), RefSetup.Subsumes ⟨cs⟩ c = true →
      RefSetup.Subsumes ⟨RefSetup.propagate fuel cs⟩ c = true := by
  intro fuel
  induction fuel with
  | zero => intro cs h; exact h
  | succ fuel ih =>
    intro cs h
    exact ih _ (RefSetup.Subsumes_propagateOnce cs c h)

/-- What the reference setup subsumes it still subsumes after `AddUnit`. -/
theorem RefSetup.Subsumes_AddUnit (s : RefSetup) (a : Literal) (c : Clause)
    (h : s.Subsumes c = true) : (s.AddUnit a).2.Subsumes c = true := by
  have key : (RefSetup.ofClauses (s.clauses ++ [[a]])).Subsumes c = true := by
    apply RefSetup.Subsumes_propagate
    simp only [RefSetup.Subsumes, List.any_eq_true, List.mem_append] at h ⊢
    obtain ⟨d, hd, hall⟩ := h
    exact ⟨d, Or.inl hd, hall⟩
  simp only [RefSetup.AddUnit]
  split_ifs
  · exact h
  · exact key
  · exact key

/-- C28: the budget break of `Split` changes the result.  On the setup with the clauses
`[t1 = a]`, `[t2 = a]`, `[t3 ≠ a ∨ t = n]`, `[t3 ≠ b ∨ t = n]`, the split terms
`t1, t2, t3`, the goal of the query `t = n` and `k = 3`, the `Entails` instantiation of
`Split` returns false, and the same procedure without the break returns true: `t1` and `t2`
are determined and skipped, and the loop is left before `t3` is split. -/
theorem Split_break_changes_result :
    Split RefSetup.ops id false Scenario.budget_setup
      [Scenario.t1, Scenario.t2, Scenario.t3] Scenario.names 3 Scenario.goal
      (fun r1 r2 => r1 && r2) true false = some false ∧
    SplitNoBreak RefSetup.ops id false Scenario.budget_setup
      [Scenario.t1, Scenario.t2, Scenario.t3] Scenario.names 3 Scenario.goal
      (fun r1 r2 => r1 && r2) true false = some true ∧
    (Solver.Entails RefFormulaOps RefSetup.ops FixedGrounder.ops Scenario.budget_grounder 3
      Scenario.query false).1 = some false := by
  refine ⟨?_, ?_, ?_⟩ <;> decide

/-- C29: more split effort loses an entailment.  On the setup with the clauses `[t1 = a]`,
`[t2 = a]`, `[t3 ≠ a ∨ t = n]`, `[t3 ≠ b ∨ t = n]` and the split terms `t1, t2, t3`, the
goal of the query `t = n` is monotone under `AddUnit`, the `Entails` instantiation of
`Split` returns true at level 2 and false at level 3, and so does `Solver::Entails`. -/
theorem Split_Entails_not_monotone_in_k :
    (∀ (s : RefSetup) (a : Literal), Scenario.goal s = some true →
      Scenario.goal (RefSetup.ops.AddUnit s a).2 = some true) ∧
    Split RefSetup.ops id false Scenario.budget_setup
      [Scenario.t1, Scenario.t2, Scenario.t3] Scenario.names 2 Scenario.goal
      (fun r1 r2 => r1 && r2) true false = some true ∧
    Split RefSetup.ops id false Scenario.budget_setup
      [Scenario.t1, Scenario.t2, Scenario.t3] Scenario.names (2 + 1) Scenario.goal
      (fun r1 r2 => r1 && r2) true false = some false ∧
    (Solver.Entails RefFormulaOps RefSetup.ops FixedGrounder.ops Scenario.budget_grounder 2
      Scenario.query false).1 = some true ∧
    (Solver.Entails RefFormulaOps RefSetup.ops FixedGrounder.ops Scenario.budget_grounder
      (2 + 1) Scenario.query false).1 = some false := by
  refine ⟨?_, ?_, ?_, ?_, ?_⟩
  · intro s a h
    have e : ∀ s', Scenario.goal s' = some (RefSetup.Subsumes s' [Literal.Eq Scenario.t
        Scenario.n]) := fun _ => rfl
    rw [e] at h ⊢
    simp only [Option.some.injEq] at h ⊢
    exact RefSetup.Subsumes_AddUnit s a _ h
  · decide
  · decide
  · decide
  · decide

/-! ## The spheres of a reachable knowledge base -/

section ReachableClaims

variable {G Setup : Type}

/-- The third loop of a pass of `BuildSpheres` never lowers `n_done`. -/
theorem BuildSpheresPlace_n_done (F : FormulaOps) (O : SetupOps Setup)
    (GKO : GrounderKBOps G Setup) (zs : List (Conditional × Bool)) (sphere : G)
    (n_done : Nat) (next : Bool) (sphere' : G) (done' : List Bool) (n_done' : Nat)
    (next' : Bool)
    (h : BuildSpheresPlace F O GKO zs sphere n_done next
      = some (sphere', done', n_done', next')) : n_done ≤ n_done' := by
  obtain ⟨_, h2, h3, _⟩ := BuildSpheresPlace_done F O GKO zs sphere n_done next sphere' done'
    n_done' next' h
  omega

/-- When the loop of `BuildSpheres` returns, one of its passes has pushed its sphere. -/
theorem BuildSpheresLoop_pushed (F : FormulaOps) (O : SetupOps Setup)
    (GKO : GrounderKBOps G Setup) (knowledge : List Clause) (beliefs : List Conditional) :
    ∀ (fuel : Nat) (done : List Bool) (is_plausibility_consistent : Bool) (n_done : Nat)
      (rounds : List (BuildSpheresRound G)),
      BuildSpheresLoop F O GKO knowledge beliefs fuel done is_plausibility_consistent n_done
        = some rounds →
      ∃ r ∈ rounds, r.pushed = true := by
  intro fuel
  induction fuel with
  | zero => intro done ipc n rounds h; simp [BuildSpheresLoop] at h
  | succ fuel ih =>
    intro done ipc n rounds h
    simp only [BuildSpheresLoop] at h
    cases hp : BuildSpheresPlace F O GKO (beliefs.zip done)
        (BuildSpheresTrial GKO knowledge beliefs done) n true with
    | none => simp [hp] at h
    | some res =>
      obtain ⟨s', d', n', nx'⟩ := res
      have hle := BuildSpheresPlace_n_done F O GKO _ _ _ _ _ _ _ _ hp
      simp only [hp] at h
      by_cases hgt : n' > n
      · simp only [hgt, if_true] at h
        cases hl : BuildSpheresLoop F O GKO knowledge beliefs fuel d' nx' n' with
        | none => simp [hl] at h
        | some rs =>
          simp only [hl, Option.some.injEq] at h
          obtain ⟨r, hr, hpushed⟩ := ih d' nx' n' rs hl
          exact ⟨r, by rw [← h]; exact List.mem_cons_of_mem _ hr, hpushed⟩
      · simp only [hgt, if_false, Option.some.injEq] at h
        refine ⟨_, by rw [← h]; exact List.mem_singleton.2 rfl, ?_⟩
        show (ipc || n' == n) = true
        have : n' = n := by omega
        simp [this]

/-- When `BuildSpheres` returns, it leaves at least one sphere. -/
theorem KnowledgeBase.BuildSpheres_nonempty (F : FormulaOps) (O : SetupOps Setup)
    (GKO : GrounderKBOps G Setup) (kb kb' : KnowledgeBase G)
    (h : KnowledgeBase.BuildSpheres F O GKO kb = some kb') :
    kb'.spheres_ ≠ [] ∧ kb'.names_ = kb.names_ := by
  simp only [KnowledgeBase.BuildSpheres] at h
  cases hr : BuildSpheresRounds F O GKO kb.knowledge_ kb.beliefs_ with
  | none => simp [hr] at h
  | some rounds =>
    simp only [hr, Option.some.injEq] at h
    obtain ⟨r, hmem, hpushed⟩ := BuildSpheresLoop_pushed F O GKO _ _ _ _ _ _ rounds hr
    subst h
    refine ⟨?_, rfl⟩
    show (rounds.filter (fun r => r.pushed)).map (fun r => r.sphere) ≠ []
    intro e
    rw [List.map_eq_nil_iff] at e
    have : r ∈ rounds.filter (fun r => r.pushed) := List.mem_filter.2 ⟨hmem, hpushed⟩
    rw [e] at this
    cases this

/-- A call on a sphere keeps the number of spheres. -/
theorem KnowledgeBase.atSphere_length (spheres : List G) (p : Nat)
    (call : G → Option (Formula × G)) (phi : Formula) (spheres' : List G)
    (h : KnowledgeBase.atSphere spheres p call = some (phi, spheres')) :
    spheres'.length = spheres.length := by
  simp only [KnowledgeBase.atSphere] at h
  cases hg : spheres[p]? with
  | none => simp [hg] at h
  | some g =>
    simp only [hg] at h
    cases hc : call g with
    | none => simp [hc] at h
    | some res =>
      obtain ⟨r, g'⟩ := res
      simp only [hc, Option.some.injEq, Prod.mk.injEq] at h
      rw [← h.2, List.length_set]

/-- The first loop of the case `kBel` keeps the number of spheres and adds an entry to
`entails` for every sphere it examines, at least one if there is a sphere. -/
theorem KnowledgeBase.BelSpheresLoop_length (F : FormulaOps) (O : SetupOps Setup)
    (GKO : GrounderKBOps G Setup) (names_ : SortedTermSet) (k l : Nat)
    (ante not_ante_or_conse : Formula) (assume_consistent : Bool) :
    ∀ (rest before : List G) (cs0 es0 cs es : List Formula) (sp : List G),
      KnowledgeBase.BelSpheresLoop F O GKO names_ k l ante not_ante_or_conse
        assume_consistent rest before cs0 es0 = some (cs, es, sp) →
      sp.length = before.length + rest.length ∧ es0.length ≤ es.length ∧
      (rest ≠ [] → es0.length < es.length) := by
  intro rest
  induction rest with
  | nil =>
    intro before cs0 es0 cs es sp h
    simp only [KnowledgeBase.BelSpheresLoop, Option.some.injEq, Prod.mk.injEq] at h
    obtain ⟨_, h2, h3⟩ := h
    subst h2 h3
    exact ⟨by simp, Nat.le_refl _, fun hne => absurd rfl hne⟩
  | cons g rest ih =>
    intro before cs0 es0 cs es sp h
    simp only [KnowledgeBase.BelSpheresLoop] at h
    cases hc : KnowledgeBase.ResConsistent F O GKO names_ g l ante assume_consistent with
    | none => simp [hc] at h
    | some res =>
      obtain ⟨c, g1⟩ := res
      simp only [hc] at h
      cases he : KnowledgeBase.ResEntails F O GKO names_ g1 k not_ante_or_conse
          assume_consistent with
      | none => simp [he] at h
      | some res =>
        obtain ⟨e, g2⟩ := res
        simp only [he] at h
        by_cases htv : F.trivially_valid c = true
        · simp only [htv, if_true, Option.some.injEq, Prod.mk.injEq] at h
          obtain ⟨_, h2, h3⟩ := h
          subst h2 h3
          refine ⟨by simp, by simp, fun _ => by simp⟩
        · simp only [htv, if_false] at h
          obtain ⟨h1, h2, _⟩ := ih _ _ _ _ _ _ h
          simp only [List.length_append, List.length_singleton, List.length_cons,
            List.length_nil] at h1 h2 ⊢
          exact ⟨by omega, by omega, fun _ => by omega⟩

/-- The function `ReduceModalities` keeps the number of spheres. -/
theorem KnowledgeBase.ReduceModalities_length (F : FormulaOps) (O : SetupOps Setup)
    (GKO : GrounderKBOps G Setup) (names_ : SortedTermSet) :
    ∀ (alpha : Formula) (assume_consistent : Bool) (spheres : List G) (phi : Formula)
      (spheres' : List G),
      KnowledgeBase.ReduceModalities F O GKO names_ alpha assume_consistent spheres
        = some (phi, spheres') →
      spheres'.length = spheres.length := by
  intro alpha
  induction alpha with
  | Atomic c =>
    intro ac spheres phi sp h
    simp only [KnowledgeBase.ReduceModalities, Formula.objective, if_true, Option.some.injEq,
      Prod.mk.injEq] at h
    rw [← h.2]
  | Not a ih =>
    intro ac spheres phi sp h
    by_cases hobj : (Formula.Not a).objective = true
    · rw [KnowledgeBase.ReduceModalities_objective F O GKO names_ _ ac spheres hobj] at h
      simp only [Option.some.injEq, Prod.mk.injEq] at h
      rw [← h.2]
    · simp only [KnowledgeBase.ReduceModalities, hobj, Bool.false_eq_true, if_false] at h
      cases h1 : KnowledgeBase.ReduceModalities F O GKO names_ a ac spheres with
      | none => simp [h1] at h
      | some res =>
        obtain ⟨r, sp1⟩ := res
        simp only [h1, Bool.false_eq_true, if_false, Option.some.injEq, Prod.mk.injEq] at h
        rw [← h.2]
        exact ih ac spheres r sp1 h1
  | Or a b iha ihb =>
    intro ac spheres phi sp h
    by_cases hobj : (Formula.Or a b).objective = true
    · rw [KnowledgeBase.ReduceModalities_objective F O GKO names_ _ ac spheres hobj] at h
      simp only [Option.some.injEq, Prod.mk.injEq] at h
      rw [← h.2]
    · simp only [KnowledgeBase.ReduceModalities, hobj, Bool.false_eq_true, if_false] at h
      cases h1 : KnowledgeBase.ReduceModalities F O GKO names_ a ac spheres with
      | none => simp [h1] at h
      | some res =>
        obtain ⟨r, sp1⟩ := res
        simp only [h1] at h
        cases h2 : KnowledgeBase.ReduceModalities F O GKO names_ b ac sp1 with
        | none => simp [h2] at h
        | some res =>
          obtain ⟨r2, sp2⟩ := res
          simp only [h2, Bool.false_eq_true, if_false, Option.some.injEq, Prod.mk.injEq] at h
          rw [← h.2, ihb ac sp1 r2 sp2 h2]
          exact iha ac spheres r sp1 h1
  | Exists x a ih =>
    intro ac spheres phi sp h
    by_cases hobj : (Formula.Exists x a).objective = true
    · rw [KnowledgeBase.ReduceModalities_objective F O GKO names_ _ ac spheres hobj] at h
      simp only [Option.some.injEq, Prod.mk.injEq] at h
      rw [← h.2]
    · simp only [KnowledgeBase.ReduceModalities, hobj, Bool.false_eq_true, if_false] at h
      cases h1 : KnowledgeBase.ReduceModalities F O GKO names_ a ac spheres with
      | none => simp [h1] at h
      | some res =>
        obtain ⟨r, sp1⟩ := res
        simp only [h1, Bool.false_eq_true, if_false, Option.some.injEq, Prod.mk.injEq] at h
        rw [← h.2]
        exact ih ac spheres r sp1 h1
  | Know k a ih =>
    intro ac spheres phi sp h
    simp only [KnowledgeBase.ReduceModalities, Formula.objective, Bool.false_eq_true,
      if_false] at h
    cases h1 : KnowledgeBase.ReduceModalities F O GKO names_ a ac spheres with
    | none => simp [h1] at h
    | some res =>
      obtain ⟨r, sp1⟩ := res
      simp only [h1] at h
      rw [KnowledgeBase.atSphere_length _ _ _ _ _ h]
      exact ih ac spheres r sp1 h1
  | Cons k a ih =>
    intro ac spheres phi sp h
    simp only [KnowledgeBase.ReduceModalities, Formula.objective, Bool.false_eq_true,
      if_false] at h
    cases h1 : KnowledgeBase.ReduceModalities F O GKO names_ a ac spheres with
    | none => simp [h1] at h
    | some res =>
      obtain ⟨r, sp1⟩ := res
      simp only [h1] at h
      rw [KnowledgeBase.atSphere_length _ _ _ _ _ h]
      exact ih ac spheres r sp1 h1
  | Bel k l a c nac iha _ ihn =>
    intro ac spheres phi sp h
    simp only [KnowledgeBase.ReduceModalities, Formula.objective, Bool.false_eq_true,
      if_false] at h
    cases h1 : KnowledgeBase.ReduceModalities F O GKO names_ a ac spheres with
    | none => simp [h1] at h
    | some res =>
      obtain ⟨ante, sp1⟩ := res
      simp only [h1] at h
      cases h2 : KnowledgeBase.ReduceModalities F O GKO names_ nac ac sp1 with
      | none => simp [h2] at h
      | some res =>
        obtain ⟨nac', sp2⟩ := res
        simp only [h2] at h
        cases h3 : KnowledgeBase.BelSpheresLoop F O GKO names_ k l ante nac' ac sp2 [] [] [] with
        | none => simp [h3] at h
        | some res =>
          obtain ⟨cs, es, sp3⟩ := res
          simp only [h3] at h
          cases h4 : KnowledgeBase.BelFormula cs es with
          | none => simp [h4] at h
          | some r =>
            simp only [h4, Option.some.injEq, Prod.mk.injEq] at h
            have hl := (KnowledgeBase.BelSpheresLoop_length F O GKO names_ k l ante nac' ac
              sp2 [] [] [] cs es sp3 h3).1
            rw [← h.2, hl, ihn ac sp1 nac' sp2 h2, iha ac spheres ante sp1 h1]
            simp
  | Guarantee a ih =>
    intro ac spheres phi sp h
    simp only [KnowledgeBase.ReduceModalities, Formula.objective, Bool.false_eq_true,
      if_false] at h
    exact ih true spheres phi sp h

/-- The function `KnowledgeBase::Entails` first rebuilds the spheres if need be. -/
theorem KnowledgeBase.Entails_eq (F : FormulaOps) (O : SetupOps Setup) (N : NormalFormOps)
    (GKO : GrounderKBOps G Setup) (kb : KnowledgeBase G) (sigma : Formula) :
    KnowledgeBase.Entails F O N GKO kb sigma
      = match KnowledgeBase.EntailsPrepare F O GKO kb with
        | none => none
        | some kb =>
          match KnowledgeBase.ReduceModalities F O GKO kb.names_ (N.NF sigma) false
              kb.spheres_ with
          | none => none
          | some (phi, spheres) =>
            match (Solver.Entails F O GKO.toGrounderOps kb.objective_ 0 phi false).1 with
            | none => none
            | some b => some (b, { kb with
                spheres_ := spheres,
                objective_ :=
                  (Solver.Entails F O GKO.toGrounderOps kb.objective_ 0 phi false).2 }) :=
  rfl

/-- The state in which `Entails` reduces the modalities has at least one sphere if the state
in which `Entails` is called has one whenever `spheres_changed_` is not set. -/
theorem KnowledgeBase.EntailsPrepare_nonempty (F : FormulaOps) (O : SetupOps Setup)
    (GKO : GrounderKBOps G Setup) (kb kb1 : KnowledgeBase G)
    (hkb : kb.spheres_ ≠ [])
    (h : KnowledgeBase.EntailsPrepare F O GKO kb = some kb1) : kb1.spheres_ ≠ [] := by
  simp only [KnowledgeBase.EntailsPrepare] at h
  split_ifs at h
  · cases hb : KnowledgeBase.BuildSpheres F O GKO kb with
    | none => simp [hb] at h
    | some kb2 =>
      simp only [hb, Option.map_some', Option.some.injEq] at h
      rw [← h]
      exact (KnowledgeBase.BuildSpheres_nonempty F O GKO kb kb2 hb).1
  · simp only [Option.some.injEq] at h
    rw [← h]
    exact hkb

/-- A successful call of `Entails` on a knowledge base with a sphere leaves a sphere. -/
theorem KnowledgeBase.Entails_nonempty (F : FormulaOps) (O : SetupOps Setup)
    (N : NormalFormOps) (GKO : GrounderKBOps G Setup) (kb kb' : KnowledgeBase G)
    (sigma : Formula) (b : Bool) (hkb : kb.spheres_ ≠ [])
    (h : KnowledgeBase.Entails F O N GKO kb sigma = some (b, kb')) : kb'.spheres_ ≠ [] := by
  rw [KnowledgeBase.Entails_eq] at h
  cases h0 : KnowledgeBase.EntailsPrepare F O GKO kb with
  | none => simp [h0] at h
  | some kb1 =>
    have hne := KnowledgeBase.EntailsPrepare_nonempty F O GKO kb kb1 hkb h0
    simp only [h0] at h
    cases h1 : KnowledgeBase.ReduceModalities F O GKO kb1.names_ (N.NF sigma) false
        kb1.spheres_ with
    | none => simp [h1] at h
    | some res =>
      obtain ⟨phi, sp⟩ := res
      have hlen := KnowledgeBase.ReduceModalities_length F O GKO kb1.names_ _ _ _ _ _ h1
      simp only [h1] at h
      cases h2 : (Solver.Entails F O GKO.toGrounderOps kb1.objective_ 0 phi false).1 with
      | none => simp [h2] at h
      | some b' =>
        simp only [h2, Option.some.injEq, Prod.mk.injEq] at h
        rw [← h.2]
        show sp ≠ []
        intro e
        rw [e] at hlen
        exact hne (List.length_eq_zero.1 hlen.symm)

/-- The function `Add(const Formula&)` keeps the number of spheres. -/
theorem KnowledgeBase.Add_length (N : NormalFormOps) (GKO : GrounderKBOps G Setup)
    (kb : KnowledgeBase G) (alpha : Formula) :
    (KnowledgeBase.Add N GKO kb alpha).2.spheres_.length = kb.spheres_.length := by
  simp only [KnowledgeBase.Add]
  generalize (match N.NF alpha with | .Guarantee _ => true | _ => false) = ac
  generalize (N.NF alpha).stripGuarantee = beta
  cases beta with
  | Bel k l ante conse nac =>
    dsimp only
    cases h : N.AsUnivClause nac <;> simp [KnowledgeBase.AddConditional]
  | Atomic c =>
    cases h : N.AsUnivClause (Formula.Atomic c).stripKnow <;>
      simp [h, KnowledgeBase.AddClause]
  | Not a =>
    cases h : N.AsUnivClause (Formula.Not a).stripKnow <;>
      simp [h, KnowledgeBase.AddClause]
  | Or a b =>
    cases h : N.AsUnivClause (Formula.Or a b).stripKnow <;>
      simp [h, KnowledgeBase.AddClause]
  | Exists x a =>
    cases h : N.AsUnivClause (Formula.Exists x a).stripKnow <;>
      simp [h, KnowledgeBase.AddClause]
  | Know k a =>
    cases h : N.AsUnivClause (Formula.Know k a).stripKnow <;>
      simp [h, KnowledgeBase.AddClause]
  | Cons k a =>
    cases h : N.AsUnivClause (Formula.Cons k a).stripKnow <;>
      simp [h, KnowledgeBase.AddClause]
  | Guarantee a =>
    cases h : N.AsUnivClause (Formula.Guarantee a).stripKnow <;>
      simp [h, KnowledgeBase.AddClause]

/-- Every reachable state of a knowledge base has a sphere. -/
theorem KnowledgeBase.Reachable_nonempty (F : FormulaOps) (O : SetupOps Setup)
    (N : NormalFormOps) (GKO : GrounderKBOps G Setup) (kb : KnowledgeBase G)
    (h : KnowledgeBase.Reachable F O N GKO kb) : kb.spheres_ ≠ [] := by
  induction h with
  | create => simp [KnowledgeBase.create]
  | AddClause kb c _ ih => simpa [KnowledgeBase.AddClause] using ih
  | Add kb alpha _ ih =>
    intro e
    have := KnowledgeBase.Add_length N GKO kb alpha
    rw [e] at this
    exact ih (List.length_eq_zero.1 this.symm)
  | Entails kb sigma b kb' _ hE ih =>
    exact KnowledgeBase.Entails_nonempty F O N GKO kb kb' sigma b ih hE

/-- C30: in every state of a `KnowledgeBase` reachable from its constructor through calls of
`Add(const Clause&)`, `Add(const Formula&)` and `Entails`, the sphere list is non-empty:
`n_spheres() >= 1` and `n_spheres() - 1` is an index of `spheres_`.  The same holds of the
state in which `Entails` reduces the modalities (after `BuildSpheres`, if it ran), and
`ReduceModalities` keeps the number of spheres, so the index `n_spheres() - 1` used for
`Know` and `Cons` is valid and the `Bel` reduction examines at least one sphere. -/
theorem KnowledgeBase.Reachable_n_spheres (F : FormulaOps) (O : SetupOps Setup)
    (N : NormalFormOps) (GKO : GrounderKBOps G Setup) (kb : KnowledgeBase G)
    (h : KnowledgeBase.Reachable F O N GKO kb) :
    1 ≤ kb.n_spheres ∧ (kb.spheres_[kb.n_spheres - 1]?).isSome = true ∧
    (∀ kb1, KnowledgeBase.EntailsPrepare F O GKO kb = some kb1 →
      1 ≤ kb1.n_spheres ∧ (kb1.spheres_[kb1.n_spheres - 1]?).isSome = true ∧
      ∀ (alpha : Formula) (assume_consistent : Bool) (spheres : List G) (phi : Formula)
        (spheres' : List G),
        spheres.length = kb1.n_spheres →
        KnowledgeBase.ReduceModalities F O GKO kb1.names_ alpha assume_consistent spheres
          = some (phi, spheres') →
        spheres'.length = kb1.n_spheres ∧
        (spheres'[spheres'.length - 1]?).isSome = true) ∧
    (∀ (names_ : SortedTermSet) (k l : Nat) (ante not_ante_or_conse : Formula)
      (assume_consistent : Bool) (spheres : List G) (consistent entails : List Formula)
      (spheres' : List G),
      spheres ≠ [] →
      KnowledgeBase.BelSpheresLoop F O GKO names_ k l ante not_ante_or_conse
        assume_consistent spheres [] [] [] = some (consistent, entails, spheres') →
      1 ≤ entails.length ∧ spheres'.length = spheres.length) := by
  have hidx : ∀ sp : List G, sp ≠ [] → 1 ≤ sp.length ∧ (sp[sp.length - 1]?).isSome = true := by
    intro sp hsp
    have hpos : 0 < sp.length := List.length_pos.2 hsp
    refine ⟨hpos, ?_⟩
    rw [List.getElem?_eq_getElem (by omega)]
    rfl
  have hne := KnowledgeBase.Reachable_nonempty F O N GKO kb h
  refine ⟨(hidx _ hne).1, (hidx _ hne).2, ?_, ?_⟩
  · intro kb1 h1
    have hne1 := KnowledgeBase.EntailsPrepare_nonempty F O GKO kb kb1 hne h1
    refine ⟨(hidx _ hne1).1, (hidx _ hne1).2, ?_⟩
    intro alpha ac spheres phi sp hlen hr
    have hl := KnowledgeBase.ReduceModalities_length F O GKO kb1.names_ alpha ac spheres phi
      sp hr
    have hsp : sp ≠ [] := by
      intro e
      rw [e] at hl
      have := (hidx _ hne1).1
      simp only [KnowledgeBase.n_spheres] at hlen this
      simp only [List.length_nil] at hl
      omega
    exact ⟨by rw [hl, hlen], (hidx _ hsp).2⟩
  · intro names_ k l ante nac ac spheres cs es sp hs hloop
    obtain ⟨h1, _, h3⟩ := KnowledgeBase.BelSpheresLoop_length F O GKO names_ k l ante nac ac
      spheres [] [] [] cs es sp hloop
    have := h3 hs
    simp only [List.length_nil] at this h1
    exact ⟨this, by omega⟩

theorem KnowledgeBase.Reachable_n_spheres_witness :
    KnowledgeBase.Reachable RefFormulaOps RefSetup.ops RefNormalFormOps FixedGrounder.kbops
      (KnowledgeBase.Add RefNormalFormOps FixedGrounder.kbops
        (KnowledgeBase.AddClause FixedGrounder.kbops
          (KnowledgeBase.create FixedGrounder.kbops) [Literal.Eq Scenario.t1 Scenario.a])
        (Formula.Bel 1 1 Scenario.default_rule.ante Scenario.query
          (Formula.Atomic Scenario.default_rule.not_ante_or_conse))).2 ∧
    1 ≤ (KnowledgeBase.Add RefNormalFormOps FixedGrounder.kbops
        (KnowledgeBase.AddClause FixedGrounder.kbops
          (KnowledgeBase.create FixedGrounder.kbops) [Literal.Eq Scenario.t1 Scenario.a])
        (Formula.Bel 1 1 Scenario.default_rule.ante Scenario.query
          (Formula.Atomic Scenario.default_rule.not_ante_or_conse))).2.n_spheres :=
  have h : KnowledgeBase.Reachable RefFormulaOps RefSetup.ops RefNormalFormOps
      FixedGrounder.kbops
      (KnowledgeBase.Add RefNormalFormOps FixedGrounder.kbops
        (KnowledgeBase.AddClause FixedGrounder.kbops
          (KnowledgeBase.create FixedGrounder.kbops) [Literal.Eq Scenario.t1 Scenario.a])
        (Formula.Bel 1 1 Scenario.default_rule.ante Scenario.query
          (Formula.Atomic Scenario.default_rule.not_ante_or_conse))).2 :=
    KnowledgeBase.Reachable.Add _ _
      (KnowledgeBase.Reachable.AddClause _ _ KnowledgeBase.Reachable.create)
  ⟨h, (KnowledgeBase.Reachable_n_spheres RefFormulaOps RefSetup.ops RefNormalFormOps
    FixedGrounder.kbops _ h).1⟩

end ReachableClaims

/-! ## The claims about `Grounder::Assignments` -/

theorem Grounder.Assignments_length (names : SortedTermSet) (vars : List Term) :
    (Grounder.Assignments names vars).length
      = (vars.map (fun x => (names x.sort).length)).prod := by
  induction vars with
  | nil => rfl
  | cons x vars ih =>
    have h : ∀ l : List Term,
        (l.flatMap (fun n => (Grounder.Assignments names vars).map
          (fun a => (x, n) :: a))).length = l.length * (Grounder.Assignments names vars).length := by
      intro l
      induction l with
      | nil => simp
      | cons n l ihl =>
        rw [List.flatMap_cons, List.length_append, ihl, List.length_map, List.length_cons]
        ring
    rw [Grounder.Assignments, h, ih, List.map_cons, List.prod_cons]

theorem Grounder.Assignments_mem (names : SortedTermSet) :
    ∀ (vars : List Term) (a : Grounder.Assignment), a ∈ Grounder.Assignments names vars →
      a.map Prod.fst = vars ∧ ∀ xn ∈ a, xn.2 ∈ names xn.1.sort := by
  intro vars
  induction vars with
  | nil =>
    intro a ha
    simp only [Grounder.Assignments, List.mem_singleton] at ha
    subst ha
    exact ⟨rfl, fun xn h => by cases h⟩
  | cons x vars ih =>
    intro a ha
    simp only [Grounder.Assignments, List.mem_flatMap, List.mem_map] at ha
    obtain ⟨n, hn, a', ha', rfl⟩ := ha
    obtain ⟨h1, h2⟩ := ih a' ha'
    refine ⟨by rw [List.map_cons, h1], ?_⟩
    intro xn hxn
    rcases List.mem_cons.1 hxn with rfl | h
    · exact hn
    · exact h2 xn h

/-- C27: the assignments enumerated for the variables `vars` over the name set `names`, in
which every set `names s` holds names of sort `s`.  Their number is the product, over the
variables, of the sizes of the name sets of their sorts; without variables there is exactly
the empty assignment; every assignment assigns to exactly the variables `vars`, in order,
and maps each of them to a name from the name set whose sort is the sort of the variable. -/
theorem Grounder.Assignments_spec (names : SortedTermSet) (vars : List Term)
    (hn : ∀ s, ∀ n ∈ names s, n.isName = true ∧ n.sort = s) :
    (Grounder.Assignments names vars).length
      = (vars.map (fun x => (names x.sort).length)).prod ∧
    Grounder.Assignments names [] = [[]] ∧
    ∀ a ∈ Grounder.Assignments names vars,
      a.map Prod.fst = vars ∧
      ∀ xn ∈ a, xn.2 ∈ names xn.1.sort ∧ xn.2.isName = true ∧ xn.2.sort = xn.1.sort := by
  refine ⟨Grounder.Assignments_length names vars, rfl, ?_⟩
  intro a ha
  obtain ⟨h1, h2⟩ := Grounder.Assignments_mem names vars a ha
  exact ⟨h1, fun xn hxn => ⟨h2 xn hxn, hn _ _ (h2 xn hxn)⟩⟩

theorem Grounder.Assignments_spec_witness :
    (∀ s, ∀ n ∈ Scenario.test_names s, n.isName = true ∧ n.sort = s) ∧
    (Grounder.Assignments Scenario.test_names Scenario.test_vars).length = 4 :=
  have hn : ∀ s, ∀ n ∈ Scenario.test_names s, n.isName = true ∧ n.sort = s := by
    intro s n h
    simp only [Scenario.test_names, SortedTermSet.insert, Term.sort] at h
    by_cases h2 : s = 2
    · subst h2
      simp at h
      subst h
      exact ⟨rfl, rfl⟩
    · by_cases h1 : s = 1
      · subst h1
        simp at h
        rcases h with rfl | rfl <;> exact ⟨rfl, rfl⟩
      · simp [h1, h2] at h
  ⟨hn, (Grounder.Assignments_spec Scenario.test_names Scenario.test_vars hn).1.trans
    (by decide)⟩

/-- The counts that `GrounderTest.Assignments` expects: 1 without variables, 1 and 2 for one
variable over one and two names of its sort, 4 for `x1`, `x2`, `x3` over `n1`, `n2`, `n3`. -/
theorem Grounder.Assignments_test_counts :
    (Grounder.Assignments (SortedTermSet.insert (fun _ => []) (Term.name 1 1)) []).length = 1 ∧
    (Grounder.Assignments (SortedTermSet.insert (fun _ => []) (Term.name 1 1))
      [Term.var 1 1]).length = 1 ∧
    (Grounder.Assignments (SortedTermSet.insert (SortedTermSet.insert (fun _ => [])
      (Term.name 1 1)) (Term.name 2 1)) [Term.var 1 1]).length = 2 ∧
    (Grounder.Assignments Scenario.test_names Scenario.test_vars).length = 4 := by
  refine ⟨?_, ?_, ?_, ?_⟩ <;> decide

/-! ## Rejected formulas, and queries on an inconsistent setup -/

section RejectionClaims

variable {G Setup : Type}

/-- C32: `KnowledgeBase::Add(const Formula&)` is atomic on rejection.  Whenever it returns
false, the knowledge base after the call is the knowledge base before the call: the stored
clauses, the conditional beliefs, the name set, the spheres, the objective solver and the
flag `spheres_changed_` are unchanged. -/
theorem KnowledgeBase.Add_false_unchanged (N : NormalFormOps) (GKO : GrounderKBOps G Setup)
    (kb : KnowledgeBase G) (alpha : Formula)
    (h : (KnowledgeBase.Add N GKO kb alpha).1 = false) :
    (KnowledgeBase.Add N GKO kb alpha).2 = kb ∧
    (KnowledgeBase.Add N GKO kb alpha).2.knowledge_ = kb.knowledge_ ∧
    (KnowledgeBase.Add N GKO kb alpha).2.beliefs_ = kb.beliefs_ ∧
    (KnowledgeBase.Add N GKO kb alpha).2.names_ = kb.names_ ∧
    (KnowledgeBase.Add N GKO kb alpha).2.spheres_ = kb.spheres_ ∧
    (KnowledgeBase.Add N GKO kb alpha).2.spheres_changed_ = kb.spheres_changed_ := by
  have key : (KnowledgeBase.Add N GKO kb alpha).2 = kb := by
    unfold KnowledgeBase.Add at h ⊢
    simp only at h ⊢
    split at h
    · split at h
      · cases h
      · next hnone => simp only [hnone]
    · split at h
      · cases h
      · next hnone => simp only [hnone]
  rw [key]
  exact ⟨rfl, rfl, rfl, rfl, rfl, rfl⟩

theorem KnowledgeBase.Add_false_unchanged_witness :
    (KnowledgeBase.Add RefNormalFormOps FixedGrounder.kbops Scenario.kb
      (Formula.Not Scenario.query)).1 = false ∧
    (KnowledgeBase.Add RefNormalFormOps FixedGrounder.kbops Scenario.kb
      (Formula.Not Scenario.query)).2 = Scenario.kb :=
  ⟨by decide, (KnowledgeBase.Add_false_unchanged RefNormalFormOps FixedGrounder.kbops
    Scenario.kb (Formula.Not Scenario.query) (by decide)).1⟩

theorem any_of_false {α : Type} (pred : α → Option Bool) (l : List α)
    (h : ∀ a ∈ l, pred a = some false) : any_of pred l = some false := by
  induction l with
  | nil => rfl
  | cons a as ih =>
    rw [any_of, h a (List.mem_cons_self a as)]
    exact ih (fun b hb => h b (List.mem_cons_of_mem a hb))

/-- On a setup that subsumes the empty clause `Assign` without the consistency guarantee
returns false. -/
theorem Assign_of_Subsumes_empty (F : FormulaOps) (O : SetupOps Setup) (s : Setup)
    (assign_lits : LiteralAssignmentSet) (names : SortedTermSet) (k : Int) (phi : Formula)
    (relevant_terms : TermSet) (hs : O.Subsumes s [] = true) :
    Assign F O s assign_lits names k phi false relevant_terms = some false := by
  unfold Assign
  cases k.toNat <;> simp [AssignD, AssignBody, hs]

/-- On a setup that subsumes the empty clause `ReduceDisjunctions` without the consistency
guarantee returns false on every objective formula. -/
theorem ReduceDisjunctionsFuel_of_Subsumes_empty (F : FormulaOps) (O : SetupOps Setup)
    (s : Setup) (assign_lits : LiteralAssignmentSet) (names : SortedTermSet) (k : Int)
    (relevant_terms : TermSet) (hs : O.Subsumes s [] = true) :
    ∀ (fuel : Nat) (phi : Formula), phi.size ≤ fuel → phi.objective = true →
      ReduceDisjunctionsFuel F O s assign_lits names k false relevant_terms fuel phi
        = some false := by
  intro fuel
  induction fuel with
  | zero =>
    intro phi hsz _
    have := Formula.size_pos phi
    omega
  | succ fuel ih =>
    intro phi hsz hobj
    have hA := fun psi =>
      Assign_of_Subsumes_empty F O s assign_lits names k psi relevant_terms hs
    cases phi with
    | Atomic c => simp only [ReduceDisjunctionsFuel, hA]
    | Or left right =>
      simp only [Formula.objective, Bool.and_eq_true] at hobj
      simp only [Formula.size] at hsz
      simp only [ReduceDisjunctionsFuel, ih left (by omega) hobj.1,
        ih right (by omega) hobj.2]
    | Exists x chi =>
      simp only [ReduceDisjunctionsFuel]
      apply any_of_false
      intro n _
      apply ih
      · rw [Formula.size_SubstituteFree]
        simp [Formula.size] at hsz
        omega
      · rw [Formula.objective_SubstituteFree]
        simpa [Formula.objective] using hobj
    | Not psi =>
      cases psi with
      | Not chi =>
        simp only [ReduceDisjunctionsFuel]
        apply ih
        · simp [Formula.size] at hsz ⊢
          omega
        · simpa [Formula.objective] using hobj
      | Atomic c => simp only [ReduceDisjunctionsFuel, hA, ite_self]
      | Or left right => simp only [ReduceDisjunctionsFuel, hA, ite_self]
      | Exists x chi => simp only [ReduceDisjunctionsFuel, hA, ite_self]
      | Know _ _ => simp [Formula.objective] at hobj
      | Cons _ _ => simp [Formula.objective] at hobj
      | Bel _ _ _ _ _ => simp [Formula.objective] at hobj
      | Guarantee _ => simp [Formula.objective] at hobj
    | Know _ _ => simp [Formula.objective] at hobj
    | Cons _ _ => simp [Formula.objective] at hobj
    | Bel _ _ _ _ _ => simp [Formula.objective] at hobj
    | Guarantee _ => simp [Formula.objective] at hobj

/-- C33: queries on an inconsistent setup.  When the setup that the grounder hands out for
the query subsumes the empty clause, `Solver::Entails` returns true for every formula, every
`k` and either value of `assume_consistent`, and `Solver::Consistent` without the
consistency guarantee returns false for every objective formula and every `k`. -/
theorem Solver.Entails_Consistent_of_Subsumes_empty (F : FormulaOps) (O : SetupOps Setup)
    (GO : GrounderOps G Setup) (g : G) (k : Int) (phi : Formula)
    (hobj : phi.objective = true)
    (hs : O.Subsumes (GO.Ground (GO.PrepareForQuery k phi g)).1 [] = true) :
    (∀ assume_consistent, (Solver.Entails F O GO g k phi assume_consistent).1 = some true) ∧
    (Solver.Consistent F O GO g k phi false).1 = some false := by
  refine ⟨?_, ?_⟩
  · intro assume_consistent
    simp only [Solver.Entails, hs, if_true]
  · simp only [Solver.Consistent, ReduceDisjunctions]
    exact ReduceDisjunctionsFuel_of_Subsumes_empty F O _ _ _ k _ hs _ phi (le_refl _) hobj

theorem Solver.Entails_Consistent_of_Subsumes_empty_witness :
    Scenario.query.objective = true ∧
    RefSetup.ops.Subsumes (FixedGrounder.ops.Ground
      (FixedGrounder.ops.PrepareForQuery 1 Scenario.query Scenario.inconsistent_grounder)).1 []
      = true ∧
    (Solver.Entails RefFormulaOps RefSetup.ops FixedGrounder.ops Scenario.inconsistent_grounder
      1 Scenario.query false).1 = some true ∧
    (Solver.Consistent RefFormulaOps RefSetup.ops FixedGrounder.ops
      Scenario.inconsistent_grounder 1 Scenario.query false).1 = some false :=
  have h := Solver.Entails_Consistent_of_Subsumes_empty RefFormulaOps RefSetup.ops
    FixedGrounder.ops Scenario.inconsistent_grounder 1 Scenario.query (by decide) (by decide)
  ⟨by decide, by decide, h.1 false, h.2⟩

end RejectionClaims

/-! ## The spheres after `Add(Clause)` -/

/-- C31: `Add(Clause)` leaves stale spheres behind.  Two beliefs are added to a new
knowledge base, a query builds the spheres, and the clause `[t1 = a]` is added.  The state
`kb` reached is a reachable state with `spheres_changed_` false; it stores the same clauses
and conditionals as the knowledge base `kb_fresh`, to which the clause was added first.  It
has two spheres, with 3 and 1 clauses, while `BuildSpheres` constructs from its clauses and
conditionals three spheres, with 3, 2 and 1 clauses.  The query for the belief
`exception_belief`, which both knowledge bases were told, is answered with false by `kb` and
with true by `kb_fresh`. -/
theorem KnowledgeBase.AddClause_leaves_stale_spheres :
    ∃ kb, Scenario.kb_stale = some kb ∧
      KnowledgeBase.Reachable RefFormulaOps RefSetup.ops RefNormalFormOps
        Scenario.assigning_kbops kb ∧
      KnowledgeBase.Reachable RefFormulaOps RefSetup.ops RefNormalFormOps
        Scenario.assigning_kbops Scenario.kb_fresh ∧
      kb.spheres_changed_ = false ∧
      kb.knowledge_ = Scenario.kb_fresh.knowledge_ ∧
      kb.beliefs_ = Scenario.kb_fresh.beliefs_ ∧
      kb.spheres_.map (fun g => g.setup.clauses)
        = [[[Literal.Neq Scenario.t2 Scenario.a],
            [Literal.Neq Scenario.t2 Scenario.a, Literal.Eq Scenario.t Scenario.m],
            [Literal.Eq Scenario.t1 Scenario.a]],
           [[Literal.Eq Scenario.t1 Scenario.a]]] ∧
      (KnowledgeBase.BuildSpheres RefFormulaOps RefSetup.ops Scenario.assigning_kbops kb).map
          (fun kb1 => kb1.spheres_.map (fun g => g.setup.clauses))
        = some [[[Literal.Eq Scenario.t1 Scenario.a],
            [Literal.Neq Scenario.t2 Scenario.a],
            [Literal.Neq Scenario.t2 Scenario.a, Literal.Eq Scenario.t Scenario.m]],
           [[Literal.Eq Scenario.t1 Scenario.a],
            [Literal.Neq Scenario.t2 Scenario.a, Literal.Eq Scenario.t Scenario.m]],
           [[Literal.Eq Scenario.t1 Scenario.a]]] ∧
      (KnowledgeBase.Entails RefFormulaOps RefSetup.ops RefNormalFormOps
          Scenario.assigning_kbops kb Scenario.exception_belief).map Prod.fst = some false ∧
      (KnowledgeBase.Entails RefFormulaOps RefSetup.ops RefNormalFormOps
          Scenario.assigning_kbops Scenario.kb_fresh Scenario.exception_belief).map Prod.fst
        = some true := by
  have hsome : Scenario.kb_queried.isSome = true := by decide
  have h1 : Scenario.kb_stale.map (fun kb => kb.spheres_changed_) = some false := by decide
  have h2 : Scenario.kb_stale.map (fun kb => kb.knowledge_)
      = some Scenario.kb_fresh.knowledge_ := by decide
  have h3 : Scenario.kb_stale.map (fun kb => kb.beliefs_)
      = some Scenario.kb_fresh.beliefs_ := by decide
  have h4 : Scenario.kb_stale.map (fun kb => kb.spheres_.map (fun g => g.setup.clauses))
      = some [[[Literal.Neq Scenario.t2 Scenario.a],
            [Literal.Neq Scenario.t2 Scenario.a, Literal.Eq Scenario.t Scenario.m],
            [Literal.Eq Scenario.t1 Scenario.a]],
           [[Literal.Eq Scenario.t1 Scenario.a]]] := by decide
  have h5 : Scenario.kb_stale.bind (fun kb =>
      (KnowledgeBase.BuildSpheres RefFormulaOps RefSetup.ops Scenario.assigning_kbops kb).map
          (fun kb1 => kb1.spheres_.map (fun g => g.setup.clauses)))
        = some [[[Literal.Eq Scenario.t1 Scenario.a],
            [Literal.Neq Scenario.t2 Scenario.a],
            [Literal.Neq Scenario.t2 Scenario.a, Literal.Eq Scenario.t Scenario.m]],
           [[Literal.Eq Scenario.t1 Scenario.a],
            [Literal.Neq Scenario.t2 Scenario.a, Literal.Eq Scenario.t Scenario.m]],
           [[Literal.Eq Scenario.t1 Scenario.a]]] := by decide
  have h6 : Scenario.kb_stale.bind (fun kb =>
      (KnowledgeBase.Entails RefFormulaOps RefSetup.ops RefNormalFormOps
          Scenario.assigning_kbops kb Scenario.exception_belief).map Prod.fst)
        = some false := by decide
  have h7 : (KnowledgeBase.Entails RefFormulaOps RefSetup.ops RefNormalFormOps
          Scenario.assigning_kbops Scenario.kb_fresh Scenario.exception_belief).map Prod.fst
        = some true := by decide
  cases hq : Scenario.kb_queried with
  | none => rw [hq] at hsome; cases hsome
  | some r =>
    have hk : Scenario.kb_stale
        = some (KnowledgeBase.AddClause Scenario.assigning_kbops r.2
            [Literal.Eq Scenario.t1 Scenario.a]) := by
      simp only [Scenario.kb_stale, hq, Option.map_some']
    rw [hk] at h1 h2 h3 h4 h5 h6
    refine ⟨_, hk, ?_, ?_, by simpa using h1, by simpa using h2, by simpa using h3,
      by simpa using h4, by simpa using h5, by simpa using h6, h7⟩
    · exact KnowledgeBase.Reachable.AddClause _ _
        (KnowledgeBase.Reachable.Entails _
          (Formula.Know 1 (Formula.Atomic [Literal.Eq Scenario.t1 Scenario.a])) r.1 r.2
          (KnowledgeBase.Reachable.Add _ Scenario.exception_belief
            (KnowledgeBase.Reachable.Add _ Scenario.default_belief
              KnowledgeBase.Reachable.create)) hq)
    · exact KnowledgeBase.Reachable.Add _ _
        (KnowledgeBase.Reachable.Add _ _
          (KnowledgeBase.Reachable.AddClause _ _ KnowledgeBase.Reachable.create))

end limbo

/-! ## The Bloom filter -/

namespace lela.internal.BloomFilter

theorem hash_mod_lt (I x : Nat) : hash I x % BITS < 64 := Nat.mod_lt _ (by decide)

/-- The bits of the mask after `Add`. -/
theorem testBit_Add (b : BloomFilter) (x i : Nat) (hi : i < 64) :
    (Add b x).mask_.testBit i =
      (b.mask_.testBit i || decide (hash 0 x % BITS = i) || decide (hash 1 x % BITS = i) ||
        decide (hash 2 x % BITS = i) || decide (hash 3 x % BITS = i)) := by
  have h0 := hash_mod_lt 0 x
  have h1 := hash_mod_lt 1 x
  have h2 := hash_mod_lt 2 x
  have h3 := hash_mod_lt 3 x
  simp only [Add, ONE, Nat.testBit_mod_two_pow, Nat.testBit_or, Nat.one_shiftLeft,
    Nat.testBit_two_pow, hi, decide_True, Bool.true_and, Bool.or_assoc]

/-- The test `Contains` reads four bits of the mask. -/
theorem Contains_iff (b : BloomFilter) (x : Nat) :
    Contains b x = true ↔
      b.mask_.testBit (hash 0 x % BITS) = true ∧ b.mask_.testBit (hash 1 x % BITS) = true ∧
      b.mask_.testBit (hash 2 x % BITS) = true ∧ b.mask_.testBit (hash 3 x % BITS) = true := by
  have key : ∀ m h : Nat, (m >>> h) &&& 1 = if m.testBit h then 1 else 0 := by
    intro m h
    rw [Nat.and_one_is_mod, Nat.testBit, Nat.one_and_eq_mod_two]
    rcases Nat.mod_two_eq_zero_or_one (m >>> h) with e | e <;> simp [e]
  simp only [Contains, ONE, key]
  cases b.mask_.testBit (hash 0 x % BITS) <;> cases b.mask_.testBit (hash 1 x % BITS) <;>
    cases b.mask_.testBit (hash 2 x % BITS) <;> cases b.mask_.testBit (hash 3 x % BITS) <;>
    decide


theorem testBit_foldl_Add (ys : List Nat) (b : BloomFilter) (i : Nat) (hi : i < 64)
    (h : b.mask_.testBit i = true) : (ys.foldl Add b).mask_.testBit i = true := by
  induction ys generalizing b with
  | nil => exact h
  | cons y ys ih =>
    apply ih
    rw [testBit_Add b y i hi, h]
    simp

/-- C20: the Bloom filter has no false negatives.  After any sequence of `Add` calls that
includes `Add(x)` (the calls `xs` before it and `ys` after it, on any filter `b`),
`Contains(x)` returns true. -/
theorem Contains_after_Add (b : BloomFilter) (xs ys : List Nat) (x : Nat) :
    Contains (ys.foldl Add (Add (xs.foldl Add b) x)) x = true := by
  rw [Contains_iff]
  refine ⟨?_, ?_, ?_, ?_⟩ <;>
    (apply testBit_foldl_Add _ _ _ (hash_mod_lt _ x)
     rw [testBit_Add _ _ _ (hash_mod_lt _ x)]
     simp)

/-- The bits of the mask after a sequence of `Add` calls: a bit is set exactly when it was
set before or one of the four hashes of an added element points at it. -/
theorem testBit_foldl_Add_iff (xs : List Nat) (b : BloomFilter) (i : Nat) (hi : i < 64) :
    (xs.foldl Add b).mask_.testBit i = true ↔
      b.mask_.testBit i = true ∨
      ∃ x ∈ xs, hash 0 x % BITS = i ∨ hash 1 x % BITS = i ∨ hash 2 x % BITS = i ∨
        hash 3 x % BITS = i := by
  induction xs generalizing b with
  | nil => simp
  | cons y ys ih =>
    rw [List.foldl_cons, ih, testBit_Add b y i hi]
    simp only [Bool.or_eq_true, decide_eq_true_eq, List.mem_cons, exists_eq_or_imp, or_assoc]

/-- The test `Subset` holds exactly when every bit of the first mask (among the 64) is set
in the second. -/
theorem Subset_iff (a b : BloomFilter) :
    Subset a b = true ↔
      ∀ i, i < 64 → a.mask_.testBit i = true → b.mask_.testBit i = true := by
  rw [Subset, beq_iff_eq]
  constructor
  · intro h i hi hai
    have hbit := congrArg (fun m => Nat.testBit m i) h
    simp only [Nat.testBit_xor, Nat.testBit_two_pow_sub_one, Nat.testBit_mod_two_pow,
      Nat.testBit_or, hi, decide_True, hai, Bool.true_and, Nat.zero_testBit] at hbit
    cases hb : b.mask_.testBit i
    · rw [hb] at hbit
      simp at hbit
    · rfl
  · intro h
    apply Nat.eq_of_testBit_eq
    intro i
    simp only [Nat.testBit_xor, Nat.testBit_two_pow_sub_one, Nat.testBit_mod_two_pow,
      Nat.testBit_or, Nat.zero_testBit]
    by_cases hi : i < 64
    · have := h i hi
      simp only [hi, decide_True, Bool.true_and]
      cases ha : a.mask_.testBit i <;> cases hb : b.mask_.testBit i <;> simp_all
    · simp [hi]

/-- The test `Disjoint` fails when the two masks share a bit. -/
theorem Disjoint_of_common_bit (a b : BloomFilter) (i : Nat)
    (ha : a.mask_.testBit i = true) (hb : b.mask_.testBit i = true) :
    Disjoint a b = false := by
  rw [Disjoint, beq_eq_false_iff_ne]
  intro h
  have hbit := congrArg (fun m => Nat.testBit m i) h
  simp [Nat.testBit_and, ha, hb] at hbit

/-- C21: the subset pre-check never rejects a true subset.  For two filters that were
cleared and then received the elements `xs` and `ys`: if every element added to the first
was also added to the second, `SubsetOf` returns true. -/
theorem SubsetOf_of_subset (a0 b0 : BloomFilter) (xs ys : List Nat)
    (h : ∀ x ∈ xs, x ∈ ys) :
    SubsetOf (xs.foldl Add (Clear a0)) (ys.foldl Add (Clear b0)) = true := by
  rw [SubsetOf, Subset_iff]
  intro i hi hai
  rw [testBit_foldl_Add_iff _ _ _ hi] at hai ⊢
  rcases hai with hai | ⟨x, hx, hh⟩
  · simp [Clear] at hai
  · exact Or.inr ⟨x, h x hx, hh⟩

theorem SubsetOf_of_subset_witness :
    (∀ x ∈ [7, 65536], x ∈ [65536, 3, 7]) ∧
    SubsetOf ([7, 65536].foldl Add (Clear ⟨5⟩)) ([65536, 3, 7].foldl Add (Clear ⟨9⟩)) = true :=
  ⟨by decide, SubsetOf_of_subset ⟨5⟩ ⟨9⟩ [7, 65536] [65536, 3, 7] (by decide)⟩

/-- C22: the disjointness pre-check never declares overlapping sets disjoint.  For two
filters (in any state) that then received the elements `xs` and `ys`: if some element was
added to both, `DisjointWith` returns false; so when `DisjointWith` returns true, no
element was added to both. -/
theorem DisjointWith_of_common (a0 b0 : BloomFilter) (xs ys : List Nat) (x : Nat)
    (hx : x ∈ xs) (hy : x ∈ ys) :
    DisjointWith (xs.foldl Add a0) (ys.foldl Add b0) = false ∧
    (DisjointWith (xs.foldl Add a0) (ys.foldl Add b0) = true → ∀ z ∈ xs, z ∉ ys) := by
  have key : ∀ z, z ∈ xs → z ∈ ys →
      DisjointWith (xs.foldl Add a0) (ys.foldl Add b0) = false := by
    intro z hzx hzy
    apply Disjoint_of_common_bit _ _ (hash 0 z % BITS)
    · exact (testBit_foldl_Add_iff xs a0 _ (hash_mod_lt 0 z)).2 (Or.inr ⟨z, hzx, Or.inl rfl⟩)
    · exact (testBit_foldl_Add_iff ys b0 _ (hash_mod_lt 0 z)).2 (Or.inr ⟨z, hzy, Or.inl rfl⟩)
  refine ⟨key x hx hy, ?_⟩
  intro hd z hzx hzy
  rw [key z hzx hzy] at hd
  cases hd

theorem DisjointWith_of_common_witness :
    7 ∈ [7, 65536] ∧ 7 ∈ [3, 7] ∧
    DisjointWith ([7, 65536].foldl Add ⟨0⟩) ([3, 7].foldl Add ⟨0⟩) = false :=
  ⟨by decide, by decide,
    (DisjointWith_of_common ⟨0⟩ ⟨0⟩ [7, 65536] [3, 7] 7 (by decide) (by decide)).1⟩

end lela.internal.BloomFilter

/-! ## The parser of the problem description language -/

namespace lela.format.pdl

/-- C24: the rule `equivalence_formula` on the text `f == n <-> g == n`, with `alpha` the
literal `f == n` and `beta` the literal `g == n`: the whole text is parsed, and the action
yields the conjunction of `alpha -> beta` with itself,
`Not (Or (Not (Or (Not alpha) beta)) (Not (Or (Not alpha) beta)))`.  Under the
interpretation with `alpha` false and `beta` true this formula is true, and the conjunction
of `alpha -> beta` and `beta -> alpha` is false. -/
theorem equivalence_formula_not_biconditional :
    (equivalence_formula (primary_formula RefContext.ops 2) Scenario.equivalence_tokens).map
      (fun r => (r.1.val?.map (fun act => (act Scenario.ctx).1.val?), r.2))
      = some (some (some (limbo.Formula.Not (limbo.Formula.Or
          (limbo.Formula.Not (limbo.Formula.Or (limbo.Formula.Not Scenario.alpha) Scenario.beta))
          (limbo.Formula.Not (limbo.Formula.Or (limbo.Formula.Not Scenario.alpha)
            Scenario.beta))))), []) ∧
    (limbo.Formula.Not (limbo.Formula.Or
      (limbo.Formula.Not (limbo.Formula.Or (limbo.Formula.Not Scenario.alpha) Scenario.beta))
      (limbo.Formula.Not (limbo.Formula.Or (limbo.Formula.Not Scenario.alpha)
        Scenario.beta)))).holds Scenario.v = true ∧
    (limbo.Formula.Not (limbo.Formula.Or
      (limbo.Formula.Not (limbo.Formula.Or (limbo.Formula.Not Scenario.alpha) Scenario.beta))
      (limbo.Formula.Not (limbo.Formula.Or (limbo.Formula.Not Scenario.beta)
        Scenario.alpha)))).holds Scenario.v = false := by
  refine ⟨?_, ?_, ?_⟩ <;> decide

/-- C25: the action that `query` produces.  Let the statement start with the token `t`,
one of `Query`, `Assert` and `Refute`, followed by a colon, and let `subjective_formula`
succeed on the rest with the action `alpha_a`.  Then `query` succeeds with an action `act`
such that for every context: if `alpha_a` yields a formula `phi`, then `act` asks
`ctx->Query(phi)` and leaves the context of that call, it succeeds for `Query` whatever the
answer is, for `Assert` exactly if the answer is true, for `Refute` exactly if the answer is
false, and where it does not succeed it returns an error; and if `alpha_a` yields no
formula, `act` returns an error. -/
theorem query_action_spec {C : Type} (O : ContextOps C) (d : Nat) (t : Token)
    (ts rest : List Token) (alpha_a : Action C limbo.Formula)
    (ht : t.id = Token.Id.kQuery ∨ t.id = Token.Id.kAssert ∨ t.id = Token.Id.kRefute)
    (hc : Is (Tok ts 0) Token.Id.kColon = true)
    (hs : subjective_formula O d (Advance ts 1) = some (Result.kSuccess alpha_a, rest)) :
    ∃ act, query O d (t :: ts) = some (Result.kSuccess act, rest) ∧
      ∀ ctx,
        (∀ phi ctx1, alpha_a ctx = (Result.kSuccess phi, ctx1) →
          (act ctx).2 = (O.Query ctx1 phi).2 ∧
          (t.id = Token.Id.kQuery → (act ctx).1 = Result.kSuccess ()) ∧
          (t.id = Token.Id.kAssert →
            ((act ctx).1 = Result.kSuccess () ↔ (O.Query ctx1 phi).1 = true)) ∧
          (t.id = Token.Id.kRefute →
            ((act ctx).1 = Result.kSuccess () ↔ (O.Query ctx1 phi).1 = false)) ∧
          ((act ctx).1 ≠ Result.kSuccess () → ∃ msg, (act ctx).1 = Result.kError msg)) ∧
        ((alpha_a ctx).1.successful = false → ∃ msg, (act ctx).1 = Result.kError msg) := by
  have h0 : ∀ id, Is (Tok (t :: ts) 0) id = decide (t.id = id) := fun id => by
    simp [Is, Tok]
  have hA : Advance (t :: ts) 1 = ts := rfl
  refine ⟨query_action O alpha_a (decide (t.id = Token.Id.kQuery))
    (decide (t.id = Token.Id.kAssert)), ?_, ?_⟩
  · unfold query
    simp only [h0, hA, hc, hs, Success]
    rcases ht with h | h | h <;> simp [h]
  · intro ctx
    refine ⟨?_, ?_⟩
    · intro phi ctx1 hrun
      simp only [query_action, hrun, Success, Error]
      rcases ht with h | h | h
      · simp [h]
      · cases hq : (O.Query ctx1 phi).1 <;> simp [h, hq]
      · cases hq : (O.Query ctx1 phi).1 <;> simp [h, hq]
    · intro hf
      simp only [query_action]
      rcases hrun : alpha_a ctx with ⟨r, ctx1⟩
      rw [hrun] at hf
      cases r with
      | kSuccess phi => simp [Result.successful] at hf
      | kUnapplicable msg => exact ⟨_, rfl⟩
      | kError msg => exact ⟨_, rfl⟩

theorem query_action_spec_witness :
    (Token.mk Token.Id.kAssert "Assert").id = Token.Id.kAssert ∧
    Is (Tok Scenario.assert_tokens.tail 0) Token.Id.kColon = true ∧
    ∃ act, query RefContext.ops 2 Scenario.assert_tokens = some (Result.kSuccess act, []) ∧
      (act Scenario.ctx).1 = Result.kSuccess () :=
  have h := query_action_spec RefContext.ops 2 ⟨Token.Id.kAssert, "Assert"⟩
    Scenario.assert_tokens.tail []
    (subjective_action RefContext.ops (atomic_action (literal_action
      (term_action RefContext.ops "g" []) true (term_action RefContext.ops "n" []))))
    (Or.inr (Or.inl rfl)) (by decide) rfl
  ⟨rfl, by decide,
    h.elim (fun act hact => ⟨act, hact.1,
      (((hact.2 Scenario.ctx).1 Scenario.beta
        { Scenario.ctx with n_queries := 0 } (by rfl)).2.2.1 rfl).2 (by decide)⟩)⟩

end lela.format.pdl

/-! ## The ECLiPSe-CLP interface -/

namespace esbl

/-- C23: `FormulaBuilder::Build` on the query `(p <-> q)`, where `p` and `q` are registered
predicates: the two sides translate to the literals `A1` and `A2`, and the query translates
to `(¬A1 ∨ A2) ∧ (A1 ∨ ¬A1)`, in which the second conjunct holds a copy of `A1` where `A2`
belongs.  Under the interpretation with `A1` false and `A2` true the formula built is true
and the biconditional `(¬A1 ∨ A2) ∧ (A1 ∨ ¬A2)` is false. -/
theorem FormulaBuilder.Build_EQUIVALENCE_not_biconditional :
    (FormulaBuilder.Build CounterBat (.atom "p") Scenario.builder).1 = some Scenario.A1 ∧
    (FormulaBuilder.Build CounterBat (.atom "q") Scenario.builder).1 = some Scenario.A2 ∧
    (FormulaBuilder.Build CounterBat (.compound EQUIVALENCE [.atom "p", .atom "q"])
      Scenario.builder).1
      = some (Formula.And (Formula.Or (Formula.Neg Scenario.A1) Scenario.A2)
          (Formula.Or Scenario.A1 (Formula.Neg Scenario.A1))) ∧
    (Formula.And (Formula.Or (Formula.Neg Scenario.A1) Scenario.A2)
      (Formula.Or Scenario.A1 (Formula.Neg Scenario.A1))).holds Scenario.v = true ∧
    (Formula.And (Formula.Or (Formula.Neg Scenario.A1) Scenario.A2)
      (Formula.Or Scenario.A1 (Formula.Neg Scenario.A2))).holds Scenario.v = false := by
  refine ⟨?_, ?_, ?_, ?_, ?_⟩ <;> decide

theorem Map.find_set_self {K V : Type} [DecidableEq K] (m : List (K × V)) (k : K) (v : V)
    (h : Map.find m k = none) : Map.find (Map.set m k v) k = some v := by
  simp only [Map.find, Option.map_eq_none', List.find?_eq_none, decide_eq_true_eq] at h
  have h' : List.find? (fun kv => decide (kv.1 = k)) m = none := by
    simpa [List.find?_eq_none] using h
  simp only [Map.set, Map.find, h', Option.map_none', Option.isSome_none, Bool.false_eq_true,
    if_false, List.find?_append, Option.none_or, List.find?_cons, decide_True,
    Option.map_some']

theorem Map.find_set_of_ne {K V : Type} [DecidableEq K] (m : List (K × V)) (k k' : K) (v : V)
    (h : Map.find m k = none) (hne : k' ≠ k) :
    Map.find (Map.set m k v) k' = Map.find m k' := by
  have h' : List.find? (fun kv => decide (kv.1 = k)) m = none := by
    simpa [Map.find] using h
  simp only [Map.set, Map.find, h', Option.map_none', Option.isSome_none, Bool.false_eq_true,
    if_false, List.find?_append, List.find?_cons, List.find?_nil]
  have : decide (k = k') = false := by simpa using fun e => hne e.symm
  simp only [this]
  cases List.find? (fun kv => decide (kv.1 = k')) m <;> rfl

/-- A registered predicate stays registered, with its value, through further calls of
`PredBuilder::Register`. -/
theorem PredBuilder.preds_find_foldl_Register (w : EC_word) (p : PredId) :
    ∀ (regs : List (EC_word × PredId)) (pb : PredBuilder), Map.find pb.preds_ w = some p →
      Map.find (regs.foldl (fun pb wp => (PredBuilder.Register pb wp.1 wp.2).2) pb).preds_ w
        = some p := by
  intro regs
  induction regs with
  | nil => intro pb h; exact h
  | cons wp regs ih =>
    intro pb h
    rw [List.foldl_cons]
    apply ih
    simp only [PredBuilder.Register]
    cases hf : Map.find pb.preds_ wp.1 with
    | some q => simpa [hf] using h
    | none =>
      have hne : w ≠ wp.1 := by
        intro e
        rw [e, hf] at h
        cases h
      simp only [Option.isSome_none, Bool.false_eq_true, if_false]
      rw [Map.find_set_of_ne _ _ _ _ hf hne]
      exact h

/-- A registered name stays registered, with its value, through further calls of
`TermBuilder::Register`. -/
theorem TermBuilder.names_find_foldl_Register (a : EC_atom) (n : StdName) :
    ∀ (regs : List (EC_word × StdName)) (tb : TermBuilder), Map.find tb.names_ a = some n →
      Map.find (regs.foldl (fun tb wn => (TermBuilder.Register tb wn.1 wn.2).2) tb).names_ a
        = some n := by
  intro regs
  induction regs with
  | nil => intro tb h; exact h
  | cons wn regs ih =>
    intro tb h
    rw [List.foldl_cons]
    apply ih
    simp only [TermBuilder.Register]
    cases hw : wn.1.is_atom with
    | none => exact h
    | some a' =>
      cases hf : Map.find tb.names_ a' with
      | some q => simpa [hf] using h
      | none =>
        have hne : a ≠ a' := by
          intro e
          rw [e, hf] at h
          cases h
        simp only [hf, Option.isSome_none, Bool.false_eq_true, if_false]
        rw [Map.find_set_of_ne _ _ _ _ hf hne]
        exact h

/-- C26: registration in the binding layer is one-time.  `PredBuilder::Register(w, p)` on a
key `w` that is not registered returns true and stores the mapping: `Get(w)` returns `p`,
also after any further calls of `Register`, each of which returns false for `w` and leaves
the builder as it is.  On a registered key `Register` returns false, leaves the builder
unchanged, and `Get` still returns the registered value.  The same holds of
`TermBuilder::Register` and `GetName` for a key that is an atom; for a word that is not an
atom `TermBuilder::Register` returns false and leaves the builder unchanged. -/
theorem Register_one_time {B : Type} (BO : BatOps B) (bat_ : B) :
    (∀ (pb : PredBuilder) (w : EC_word) (p : PredId),
      (Map.find pb.preds_ w = none →
        (PredBuilder.Register pb w p).1 = true ∧
        ∀ regs : List (EC_word × PredId),
          PredBuilder.Get BO bat_
            (regs.foldl (fun pb wp => (PredBuilder.Register pb wp.1 wp.2).2)
              (PredBuilder.Register pb w p).2) w = some p ∧
          ∀ p', PredBuilder.Register
              (regs.foldl (fun pb wp => (PredBuilder.Register pb wp.1 wp.2).2)
                (PredBuilder.Register pb w p).2) w p'
            = (false, regs.foldl (fun pb wp => (PredBuilder.Register pb wp.1 wp.2).2)
                (PredBuilder.Register pb w p).2)) ∧
      (∀ q, Map.find pb.preds_ w = some q →
        PredBuilder.Register pb w p = (false, pb) ∧
        PredBuilder.Get BO bat_ (PredBuilder.Register pb w p).2 w = some q)) ∧
    (∀ (tb : TermBuilder) (a : EC_atom) (n : StdName),
      (Map.find tb.names_ a = none →
        (TermBuilder.Register tb (.atom a) n).1 = true ∧
        ∀ regs : List (EC_word × StdName),
          TermBuilder.GetName BO bat_
            (regs.foldl (fun tb wn => (TermBuilder.Register tb wn.1 wn.2).2)
              (TermBuilder.Register tb (.atom a) n).2) a = some n ∧
          ∀ n', TermBuilder.Register
              (regs.foldl (fun tb wn => (TermBuilder.Register tb wn.1 wn.2).2)
                (TermBuilder.Register tb (.atom a) n).2) (.atom a) n'
            = (false, regs.foldl (fun tb wn => (TermBuilder.Register tb wn.1 wn.2).2)
                (TermBuilder.Register tb (.atom a) n).2)) ∧
      (∀ m, Map.find tb.names_ a = some m →
        TermBuilder.Register tb (.atom a) n = (false, tb) ∧
        TermBuilder.GetName BO bat_ (TermBuilder.Register tb (.atom a) n).2 a = some m)) ∧
    (∀ (tb : TermBuilder) (w : EC_word) (n : StdName), w.is_atom = none →
      TermBuilder.Register tb w n = (false, tb)) := by
  refine ⟨?_, ?_, ?_⟩
  · intro pb w p
    refine ⟨?_, ?_⟩
    · intro h
      have h1 : Map.find (PredBuilder.Register pb w p).2.preds_ w = some p := by
        simp only [PredBuilder.Register, h, Option.isSome_none, Bool.false_eq_true, if_false]
        exact Map.find_set_self _ _ _ h
      refine ⟨by simp [PredBuilder.Register, h], ?_⟩
      intro regs
      have h2 := PredBuilder.preds_find_foldl_Register w p regs _ h1
      generalize regs.foldl (fun pb wp => (PredBuilder.Register pb wp.1 wp.2).2)
        (PredBuilder.Register pb w p).2 = pb' at h2 ⊢
      refine ⟨by simp only [PredBuilder.Get, h2], ?_⟩
      intro p'
      simp only [PredBuilder.Register, h2, Option.isSome_some, if_true]
    · intro q h
      refine ⟨by simp only [PredBuilder.Register, h, Option.isSome_some, if_true], ?_⟩
      simp only [PredBuilder.Register, h, Option.isSome_some, if_true, PredBuilder.Get]
  · intro tb a n
    refine ⟨?_, ?_⟩
    · intro h
      have h1 : Map.find (TermBuilder.Register tb (.atom a) n).2.names_ a = some n := by
        simp only [TermBuilder.Register, EC_word.is_atom, h, Option.isSome_none,
          Bool.false_eq_true, if_false]
        exact Map.find_set_self _ _ _ h
      refine ⟨by simp [TermBuilder.Register, EC_word.is_atom, h], ?_⟩
      intro regs
      have h2 := TermBuilder.names_find_foldl_Register a n regs _ h1
      generalize regs.foldl (fun tb wn => (TermBuilder.Register tb wn.1 wn.2).2)
        (TermBuilder.Register tb (.atom a) n).2 = tb' at h2 ⊢
      refine ⟨by simp only [TermBuilder.GetName, h2], ?_⟩
      intro n'
      simp only [TermBuilder.Register, EC_word.is_atom, h2, Option.isSome_some, if_true]
    · intro m h
      refine ⟨by simp only [TermBuilder.Register, EC_word.is_atom, h, Option.isSome_some,
        if_true], ?_⟩
      simp only [TermBuilder.Register, EC_word.is_atom, h, Option.isSome_some, if_true,
        TermBuilder.GetName]
  · intro tb w n h
    simp only [TermBuilder.Register, h]

theorem Register_one_time_witness :
    Map.find (⟨[]⟩ : PredBuilder).preds_ (EC_word.atom "p") = none ∧
    (PredBuilder.Register ⟨[]⟩ (.atom "p") 1).1 = true ∧
    PredBuilder.Get CounterBat 0
      ([(EC_word.atom "q", 2), (EC_word.atom "p", 3)].foldl
        (fun pb wp => (PredBuilder.Register pb wp.1 wp.2).2)
        (PredBuilder.Register ⟨[]⟩ (.atom "p") 1).2) (.atom "p") = some 1 ∧
    Map.find (⟨[("a", ⟨7, 1⟩)], []⟩ : TermBuilder).names_ "a" = some ⟨7, 1⟩ ∧
    TermBuilder.Register ⟨[("a", ⟨7, 1⟩)], []⟩ (.atom "a") ⟨8, 1⟩
      = (false, ⟨[("a", ⟨7, 1⟩)], []⟩) :=
  have h := Register_one_time CounterBat 0
  have hp := (h.1 ⟨[]⟩ (.atom "p") 1).1 (by decide)
  ⟨by decide, hp.1, (hp.2 [(EC_word.atom "q", 2), (EC_word.atom "p", 3)]).1, by decide,
    ((h.2.1 ⟨[("a", ⟨7, 1⟩)], []⟩ "a" ⟨8, 1⟩).2 ⟨7, 1⟩ (by decide)).1⟩

end esbl

/-! ## The vector and the ordered set of the C library -/

namespace clib

section SetClaims

variable {α : Type}

theorem Comparison.not_lt_of_le {compar : α → α → Int}
    (hord : Comparison compar) {a b : α} (h1 : compar a b < 0) (h2 : compar b a ≤ 0) :
    False := by
  have := (hord.lt_iff a b).1 h1
  omega

/-- In a strictly increasing vector the elements before an index are before its element and
the elements after it are after its element. -/
theorem StrictlyIncreasing_split {compar : α → α → Int} {vec : List α}
    (hs : StrictlyIncreasing compar vec) {i : Nat} {e : α} (he : vec[i]? = some e) :
    (∀ x ∈ vec.take i, compar x e < 0) ∧ (∀ y ∈ vec.drop (i + 1), compar e y < 0) ∧
    vec.drop i = e :: vec.drop (i + 1) := by
  obtain ⟨h, rfl⟩ := List.getElem?_eq_some_iff.1 he
  have hd := List.drop_eq_getElem_cons h
  have hsplit : vec.take i ++ vec[i] :: vec.drop (i + 1) = vec := by
    rw [← hd]
    exact List.take_append_drop i vec
  have hs1 : List.Pairwise (fun a b => compar a b < 0)
      (vec.take i ++ vec[i] :: vec.drop (i + 1)) := by
    rw [hsplit]
    exact hs
  obtain ⟨_, h2, h3⟩ := List.pairwise_append.1 hs1
  refine ⟨fun x hx => h3 x hx _ (List.mem_cons_self _ _), ?_, hd⟩
  exact (List.pairwise_cons.1 h2).1

/-- The function `vector_get` inside the bounds. -/
theorem vector_get_of_getElem (outside : Option (Int → α)) (vec : List α) (index : Int)
    (e : α) (h0 : 0 ≤ index) (he : vec[index.toNat]? = some e) :
    vector_get outside vec index = Outcome.value e := by
  obtain ⟨h, _⟩ := List.getElem?_eq_some_iff.1 he
  have hlt : index < vector_size vec := by
    simp only [vector_size]
    omega
  simp only [vector_get, h0, hlt, and_self, if_true, he]

/-- With assertions compiled out `vector_get` has a value. -/
theorem vector_get_outside (mem : Int → α) (vec : List α) (index : Int) :
    ∃ e, vector_get (some mem) vec index = Outcome.value e := by
  by_cases h : 0 ≤ index ∧ index < vector_size vec
  · have hlt : index.toNat < vec.length := by
      simp only [vector_size] at h
      omega
    exact ⟨vec[index.toNat], vector_get_of_getElem _ vec index _ h.1
      (List.getElem?_eq_getElem hlt)⟩
  · exact ⟨mem index, by simp only [vector_get, h, if_false]⟩

/-- The loop of `insert_pos`, with reads outside the bounds yielding values: from a state
in which the elements before `lo` are before `obj` and, unless `hi` is the last index, `obj`
is not after the element at `hi`, the loop returns with the result of `insert_pos`. -/
theorem insert_pos_loop_spec (mem : Int → α) (set : set_t α) (obj : α)
    (hord : StrictTotalOrder set.compar) (hs : StrictlyIncreasing set.compar set.vec) :
    ∀ (fuel : Nat) (lo hi : Int), 0 ≤ lo → hi < set.vec.length → lo ≤ hi + 1 →
      hi - lo + 1 ≤ fuel →
      (∀ x ∈ set.vec.take lo.toNat, set.compar x obj < 0) →
      (hi < (set.vec.length : Int) - 1 →
        0 ≤ hi ∧ ∃ e, set.vec[hi.toNat]? = some e ∧ set.compar obj e ≤ 0) →
      ∃ r, insert_pos_loop (some mem) set obj fuel lo hi = some (Outcome.value r) ∧
        insert_pos_post set obj r := by
  have hexit : ∀ (lo hi : Int), 0 ≤ lo → hi < set.vec.length → lo ≤ hi + 1 → ¬ lo ≤ hi →
      (∀ x ∈ set.vec.take lo.toNat, set.compar x obj < 0) →
      (hi < (set.vec.length : Int) - 1 →
        0 ≤ hi ∧ ∃ e, set.vec[hi.toNat]? = some e ∧ set.compar obj e ≤ 0) →
      insert_pos_post set obj (vector_size set.vec) := by
    intro lo hi h0 hn hle hgt hlow hhigh
    have hlast : ¬ hi < (set.vec.length : Int) - 1 := by
      intro hlt
      obtain ⟨h0hi, e, he, hcmp⟩ := hhigh hlt
      have hmem : e ∈ set.vec.take lo.toNat := by
        apply List.getElem?_mem (n := hi.toNat)
        rw [List.getElem?_take, if_pos (by omega), he]
      exact hord.toComparison.not_lt_of_le (hlow e hmem) hcmp
    have hlo : lo.toNat = set.vec.length := by omega
    rw [hlo, List.take_of_length_le (le_refl _)] at hlow
    refine Or.inr ⟨by simp [vector_size], by simp [vector_size], ?_, ?_⟩
    · simpa [vector_size] using hlow
    · simp [vector_size]
  intro fuel
  induction fuel with
  | zero =>
    intro lo hi h0 hn hle hfuel hlow hhigh
    have hgt : ¬ lo ≤ hi := by omega
    exact ⟨_, by simp only [insert_pos_loop, hgt, if_false],
      hexit lo hi h0 hn hle hgt hlow hhigh⟩
  | succ fuel ih =>
    intro lo hi h0 hn hle hfuel hlow hhigh
    by_cases hlh : lo ≤ hi
    · have hi0 : 0 ≤ (lo + hi) / 2 := by omega
      have hilo : lo ≤ (lo + hi) / 2 := by omega
      have hihi : (lo + hi) / 2 ≤ hi := by omega
      have hlt : ((lo + hi) / 2).toNat < set.vec.length := by omega
      obtain ⟨hbefore, hafter, hdrop⟩ :=
        StrictlyIncreasing_split hs (List.getElem?_eq_getElem hlt)
      have hget := vector_get_of_getElem (some mem) set.vec ((lo + hi) / 2) _ hi0
        (List.getElem?_eq_getElem hlt)
      obtain ⟨left, hleft⟩ := vector_get_outside mem set.vec ((lo + hi) / 2 - 1)
      simp only [insert_pos_loop, hlh, if_true, hget, hleft]
      by_cases hc0 : set.compar obj (set.vec[((lo + hi) / 2).toNat]) = 0
      · refine ⟨-1, by simp only [hc0, if_true], Or.inl ⟨rfl, ?_⟩⟩
        rw [(hord.eq_iff _ _).1 hc0]
        exact List.getElem_mem _
      · simp only [hc0, if_false]
        by_cases hcle : set.compar obj (set.vec[((lo + hi) / 2).toNat]) ≤ 0
        · have hclt : set.compar obj (set.vec[((lo + hi) / 2).toNat]) < 0 := by omega
          simp only [hcle, if_true]
          by_cases hfound : (lo + hi) / 2 = 0 ∨ ¬ set.compar obj left ≤ 0
          · refine ⟨(lo + hi) / 2, by simp only [hfound, if_true], Or.inr ⟨hi0, by omega, ?_, ?_⟩⟩
            · rcases hfound with hz | hl
              · rw [hz]
                simp
              · intro x hx
                have hi1 : 0 ≤ (lo + hi) / 2 - 1 := by
                  by_contra hneg
                  have hz : (lo + hi) / 2 = 0 := by omega
                  rw [hz] at hx
                  simp at hx
                have hlt1 : ((lo + hi) / 2 - 1).toNat < set.vec.length := by omega
                have hleft1 := vector_get_of_getElem (some mem) set.vec
                  ((lo + hi) / 2 - 1) _ hi1 (List.getElem?_eq_getElem hlt1)
                rw [hleft] at hleft1
                cases hleft1
                obtain ⟨hb1, _, _⟩ :=
                  StrictlyIncreasing_split hs (List.getElem?_eq_getElem hlt1)
                have hsucc : ((lo + hi) / 2).toNat = ((lo + hi) / 2 - 1).toNat + 1 := by omega
                rw [hsucc, List.take_succ, List.getElem?_eq_getElem hlt1] at hx
                have hl1 : set.compar (set.vec[((lo + hi) / 2 - 1).toNat]) obj < 0 :=
                  (hord.lt_iff _ _).2 (by omega)
                rcases List.mem_append.1 hx with hx1 | hx1
                · exact hord.trans _ _ _ (hb1 x hx1) hl1
                · simp only [Option.toList, List.mem_singleton] at hx1
                  rw [hx1]
                  exact hl1
            · intro y hy
              rw [hdrop] at hy
              rcases List.mem_cons.1 hy with rfl | hy1
              · exact hclt
              · exact hord.trans _ _ _ hclt (hafter y hy1)
          · simp only [hfound, if_false]
            have hnz : (lo + hi) / 2 ≠ 0 := fun h => hfound (Or.inl h)
            have hl : set.compar obj left ≤ 0 := by
              by_contra h
              exact hfound (Or.inr h)
            have hi1 : 0 ≤ (lo + hi) / 2 - 1 := by omega
            have hlt1 : ((lo + hi) / 2 - 1).toNat < set.vec.length := by omega
            have hleft1 := vector_get_of_getElem (some mem) set.vec
              ((lo + hi) / 2 - 1) _ hi1 (List.getElem?_eq_getElem hlt1)
            rw [hleft] at hleft1
            cases hleft1
            exact ih lo ((lo + hi) / 2 - 1) h0 (by omega) (by omega) (by omega) hlow
              (fun _ => ⟨hi1, _, List.getElem?_eq_getElem hlt1, hl⟩)
        · simp only [hcle, if_false]
          have hgt : set.compar (set.vec[((lo + hi) / 2).toNat]) obj < 0 :=
            (hord.lt_iff _ _).2 (by omega)
          apply ih ((lo + hi) / 2 + 1) hi (by omega) hn (by omega) (by omega) _ hhigh
          intro x hx
          have hsucc : ((lo + hi) / 2 + 1).toNat = ((lo + hi) / 2).toNat + 1 := by omega
          rw [hsucc, List.take_succ, List.getElem?_eq_getElem hlt] at hx
          rcases List.mem_append.1 hx with hx1 | hx1
          · exact hord.trans _ _ _ (hbefore x hx1) hgt
          · simp only [Option.toList, List.mem_singleton] at hx1
            rw [hx1]
            exact hgt
    · exact ⟨_, by simp only [insert_pos_loop, hlh, if_false],
        hexit lo hi h0 hn hle hlh hlow hhigh⟩

/-- The function `insert_pos`, with reads outside the bounds yielding values, on a strictly
increasing vector. -/
theorem insert_pos_spec (mem : Int → α) (set : set_t α) (obj : α)
    (hord : StrictTotalOrder set.compar) (hs : StrictlyIncreasing set.compar set.vec) :
    ∃ r, insert_pos (some mem) set obj = some (Outcome.value r) ∧
      insert_pos_post set obj r := by
  apply insert_pos_loop_spec mem set obj hord hs set.vec.length 0 (vector_size set.vec - 1)
    (le_refl _)
  · simp [vector_size]
  · simp [vector_size]
  · simp [vector_size]
  · simp
  · intro h
    simp [vector_size] at h

theorem int_compar_StrictTotalOrder : StrictTotalOrder int_compar where
  eq_iff := fun a b => by
    simp only [int_compar]
    omega
  lt_iff := fun a b => by
    simp only [int_compar]
    omega
  trans := fun a b c => by
    simp only [int_compar]
    omega

/-- C35: `set_add` keeps the ordered-set invariant.  Let `compar` be a strict total order
and the vector of the set strictly increasing under it, and let reads outside the bounds
yield arbitrary values (`mem`).  Then `set_add(elem)` returns, the comparison function is
unchanged, the vector is still strictly increasing, its elements are `elem` and the previous
elements and nothing else, its size grew by one exactly if `elem` was not a member before,
and if `elem` was a member the vector is unchanged. -/
theorem set_add_spec (mem : Int → α) (set : set_t α) (elem : α)
    (hord : StrictTotalOrder set.compar) (hs : StrictlyIncreasing set.compar set.vec) :
    ∃ set1, set_add (some mem) set elem = some (Outcome.value set1) ∧
      set1.compar = set.compar ∧
      StrictlyIncreasing set.compar set1.vec ∧
      (∀ x, x ∈ set1.vec ↔ x = elem ∨ x ∈ set.vec) ∧
      (set1.vec.length = set.vec.length + 1 ↔ elem ∉ set.vec) ∧
      (elem ∈ set.vec → set1.vec = set.vec) := by
  obtain ⟨r, hr, hpost⟩ := insert_pos_spec mem set elem hord hs
  rcases hpost with ⟨rfl, hmem⟩ | ⟨h0, hn, hbefore, hafter⟩
  · refine ⟨set, by simp [set_add, hr], rfl, hs, ?_, ?_, fun _ => rfl⟩
    · intro x
      constructor
      · exact fun h => Or.inr h
      · rintro (rfl | h)
        · exact hmem
        · exact h
    · constructor
      · intro h
        omega
      · intro h
        exact absurd hmem h
  · have hne : r ≠ -1 := by omega
    have hnot : elem ∉ set.vec := by
      intro hmem
      rw [← List.take_append_drop r.toNat set.vec] at hmem
      rcases List.mem_append.1 hmem with h | h
      · have := hbefore elem h
        rw [(hord.eq_iff elem elem).2 rfl] at this
        omega
      · have := hafter elem h
        rw [(hord.eq_iff elem elem).2 rfl] at this
        omega
    have hins : vector_insert set.vec r elem
        = Outcome.value (set.vec.take r.toNat ++ elem :: set.vec.drop r.toNat) := by
      simp only [vector_insert, vector_size, h0, hn, and_self, if_true]
    refine ⟨{ set with vec := set.vec.take r.toNat ++ elem :: set.vec.drop r.toNat },
      by simp [set_add, hr, hne, hins], rfl, ?_, ?_, ?_, fun h => absurd h hnot⟩
    · have hsplit : List.Pairwise (fun a b => set.compar a b < 0)
          (set.vec.take r.toNat ++ set.vec.drop r.toNat) := by
        rw [List.take_append_drop]
        exact hs
      obtain ⟨h1, h2, h3⟩ := List.pairwise_append.1 hsplit
      simp only [StrictlyIncreasing]
      refine List.pairwise_append.2 ⟨h1, List.pairwise_cons.2 ⟨hafter, h2⟩, ?_⟩
      intro a ha b hb
      rcases List.mem_cons.1 hb with rfl | hb1
      · exact hbefore a ha
      · exact h3 a ha b hb1
    · intro x
      simp only [List.mem_append, List.mem_cons]
      have hx : x ∈ set.vec ↔ x ∈ set.vec.take r.toNat ∨ x ∈ set.vec.drop r.toNat := by
        rw [← List.mem_append, List.take_append_drop]
      rw [hx]
      tauto
    · simp only [List.length_append, List.length_cons, List.length_take, List.length_drop]
      constructor
      · exact fun _ => hnot
      · intro _
        omega

theorem set_add_spec_witness :
    StrictTotalOrder int_compar ∧ StrictlyIncreasing int_compar [1, 3, 5, 7] ∧
    ∃ set1, set_add (some (fun _ => 0)) ⟨[1, 3, 5, 7], int_compar⟩ 0
        = some (Outcome.value set1) ∧
      set1.compar = int_compar ∧
      StrictlyIncreasing int_compar set1.vec ∧
      (∀ x, x ∈ set1.vec ↔ x = 0 ∨ x ∈ [1, 3, 5, 7]) ∧
      (set1.vec.length = [1, 3, 5, 7].length + 1 ↔ (0 : Int) ∉ [1, 3, 5, 7]) ∧
      ((0 : Int) ∈ [1, 3, 5, 7] → set1.vec = [1, 3, 5, 7]) :=
  have hs : StrictlyIncreasing int_compar [1, 3, 5, 7] := by
    simp [StrictlyIncreasing, int_compar]
  ⟨int_compar_StrictTotalOrder, hs,
    set_add_spec (fun _ => 0) ⟨[1, 3, 5, 7], int_compar⟩ 0 int_compar_StrictTotalOrder hs⟩

/-- The loop of `insert_pos` with the assertions in force, for an element that is before
every element of the set: the search moves left until it probes the index 0, and the read
of the left neighbour at the index -1 fails the assertion of `vector_get`. -/
theorem insert_pos_loop_before_all (set : set_t α) (obj : α)
    (hbefore : ∀ y ∈ set.vec, set.compar obj y < 0) :
    ∀ (fuel : Nat) (hi : Int), 0 ≤ hi → hi < set.vec.length → hi + 1 ≤ fuel →
      insert_pos_loop none set obj fuel 0 hi = some Outcome.assertion_failed := by
  intro fuel
  induction fuel with
  | zero =>
    intro hi h0 _ hfuel
    omega
  | succ fuel ih =>
    intro hi h0 hn hfuel
    have hlh : (0 : Int) ≤ hi := h0
    have hi0 : 0 ≤ (0 + hi) / 2 := by omega
    have hlt : ((0 + hi) / 2).toNat < set.vec.length := by omega
    have hget := vector_get_of_getElem none set.vec ((0 + hi) / 2) _ hi0
      (List.getElem?_eq_getElem hlt)
    have hclt := hbefore _ (List.getElem_mem hlt)
    have hc0 : ¬ set.compar obj (set.vec[((0 + hi) / 2).toNat]) = 0 := by omega
    have hcle : set.compar obj (set.vec[((0 + hi) / 2).toNat]) ≤ 0 := by omega
    simp only [insert_pos_loop, hlh, if_true, hget, hc0, if_false, hcle]
    by_cases hz : (0 + hi) / 2 = 0
    · have hout : vector_get none set.vec ((0 + hi) / 2 - 1) = Outcome.assertion_failed := by
        have : ¬ (0 ≤ (0 + hi) / 2 - 1 ∧ (0 + hi) / 2 - 1 < vector_size set.vec) := by omega
        simp only [vector_get, this, if_false]
      simp only [hout]
    · have hi1 : 0 ≤ (0 + hi) / 2 - 1 := by omega
      have hlt1 : ((0 + hi) / 2 - 1).toNat < set.vec.length := by omega
      have hleft := vector_get_of_getElem none set.vec ((0 + hi) / 2 - 1) _ hi1
        (List.getElem?_eq_getElem hlt1)
      have hl := hbefore _ (List.getElem_mem hlt1)
      have hle : set.compar obj (set.vec[((0 + hi) / 2 - 1).toNat]) ≤ 0 := by omega
      simp only [hleft, hz, hle, not_true_eq_false, or_self, if_false]
      exact ih _ hi1 (by omega) (by omega)

/-- C34: `set_add` reads outside the bounds.  For every set that is not empty and every
element that `compar` puts before all elements of the set, `insert_pos` reads the vector at
the index -1, so that with the assertions in force `insert_pos` and `set_add` end in the
failure of the assertion `0 <= index && index < vec->size` of `vector_get`. -/
theorem set_add_before_all_fails (set : set_t α) (elem : α) (hne : set.vec ≠ [])
    (hbefore : ∀ y ∈ set.vec, set.compar elem y < 0) :
    vector_get none set.vec (-1) = Outcome.assertion_failed ∧
    insert_pos none set elem = some Outcome.assertion_failed ∧
    set_add none set elem = some Outcome.assertion_failed := by
  have hlen : 0 < set.vec.length := List.length_pos.2 hne
  have hpos : insert_pos none set elem = some Outcome.assertion_failed := by
    simp only [insert_pos, vector_size]
    exact insert_pos_loop_before_all set elem hbefore _ _ (by omega) (by omega) (by omega)
  refine ⟨?_, hpos, ?_⟩
  · have : ¬ ((0 : Int) ≤ -1 ∧ (-1 : Int) < vector_size set.vec) := by omega
    simp only [vector_get, this, if_false]
  · simp only [set_add, hpos]

theorem set_add_before_all_fails_witness :
    ([5] : List Int) ≠ [] ∧ (∀ y ∈ ([5] : List Int), int_compar 3 y < 0) ∧
    StrictlyIncreasing int_compar [5] ∧
    vector_get none ([5] : List Int) (-1) = Outcome.assertion_failed ∧
    insert_pos none ⟨[5], int_compar⟩ 3 = some Outcome.assertion_failed ∧
    set_add none ⟨[5], int_compar⟩ 3 = some Outcome.assertion_failed :=
  have hb : ∀ y ∈ ([5] : List Int), int_compar 3 y < 0 := by
    simp [int_compar]
  ⟨by simp, hb, by simp [StrictlyIncreasing],
    set_add_before_all_fails ⟨[5], int_compar⟩ 3 (by simp) hb⟩

/-- The inner loop of `set_difference` for the element `x` of `l` at the index `i`: if the
elements of `r` before `j` are before `x`, the loop returns with an index `j1` such that the
elements of `r` before `j1` are before `x`, and it is left by `goto skip` exactly if an
element of `r` compares equal to `x`. -/
theorem set_difference_inner_spec (outside : Option (Int → α)) (l r : set_t α)
    (hord : Comparison l.compar) (hr : StrictlyIncreasing l.compar r.vec)
    (i : Int) (x : α) (hi0 : 0 ≤ i) (hx : l.vec[i.toNat]? = some x) :
    ∀ (fuel : Nat) (j : Int), 0 ≤ j → j ≤ r.vec.length → (r.vec.length : Int) - j ≤ fuel →
      (∀ y ∈ r.vec.take j.toNat, l.compar y x < 0) →
      ∃ j1 skip, set_difference_inner outside l r i fuel j = some (Outcome.value (j1, skip)) ∧
        0 ≤ j1 ∧ j1 ≤ r.vec.length ∧ (∀ y ∈ r.vec.take j1.toNat, l.compar y x < 0) ∧
        (skip = true ↔ ∃ y ∈ r.vec, l.compar x y = 0) := by
  have hexit : ∀ j : Int, 0 ≤ j → j ≤ r.vec.length → ¬ j < vector_size r.vec →
      (∀ y ∈ r.vec.take j.toNat, l.compar y x < 0) → ¬ ∃ y ∈ r.vec, l.compar x y = 0 := by
    rintro j _ hjn hge hlow ⟨y, hmem, hy⟩
    have hj : r.vec.length ≤ j.toNat := by
      simp only [vector_size] at hge
      omega
    rw [List.take_of_length_le hj] at hlow
    have := (hord.lt_iff _ _).1 (hlow y hmem)
    omega
  have hgetl := vector_get_of_getElem outside l.vec i x hi0 hx
  intro fuel
  induction fuel with
  | zero =>
    intro j hj0 hjn hfuel hlow
    have hge : ¬ j < vector_size r.vec := by
      simp only [vector_size]
      omega
    refine ⟨j, false, by simp only [set_difference_inner, hge, if_false], hj0, hjn, hlow, ?_⟩
    simpa using hexit j hj0 hjn hge hlow
  | succ fuel ih =>
    intro j hj0 hjn hfuel hlow
    by_cases hlt : j < vector_size r.vec
    · have hltn : j.toNat < r.vec.length := by
        simp only [vector_size] at hlt
        omega
      have hgetr := vector_get_of_getElem outside r.vec j _ hj0
        (List.getElem?_eq_getElem hltn)
      obtain ⟨hbefore, hafter, hdrop⟩ :=
        StrictlyIncreasing_split hr (List.getElem?_eq_getElem hltn)
      simp only [set_difference_inner, hlt, if_true, hgetl, hgetr]
      by_cases hc : l.compar x (r.vec[j.toNat]) < 0
      · refine ⟨j, false, by simp only [hc, if_true], hj0, hjn, hlow, ?_⟩
        have hnot : ¬ ∃ y ∈ r.vec, l.compar x y = 0 := by
          rintro ⟨y, hmem, hy⟩
          rw [← List.take_append_drop j.toNat r.vec, hdrop] at hmem
          rcases List.mem_append.1 hmem with h | h
          · have := (hord.lt_iff _ _).1 (hlow y h)
            omega
          · rcases List.mem_cons.1 h with h1 | h1
            · rw [h1] at hy
              omega
            · have := hord.trans _ _ _ hc (hafter y h1)
              omega
        simpa using hnot
      · by_cases hg : l.compar x (r.vec[j.toNat]) > 0
        · simp only [hc, if_false, hg, if_true]
          apply ih (j + 1) (by omega) (by omega) (by omega)
          intro y hy
          have hsucc : (j + 1).toNat = j.toNat + 1 := by omega
          rw [hsucc, List.take_succ, List.getElem?_eq_getElem hltn] at hy
          rcases List.mem_append.1 hy with hy1 | hy1
          · exact hlow y hy1
          · simp only [Option.toList, List.mem_singleton] at hy1
            rw [hy1]
            exact (hord.lt_iff _ _).2 hg
        · have he : l.compar x (r.vec[j.toNat]) = 0 := by omega
          refine ⟨j, true, by simp only [hc, if_false, hg], hj0, hjn, hlow, ?_⟩
          simp only [true_iff]
          exact ⟨_, List.getElem_mem _, he⟩
    · refine ⟨j, false, by simp only [set_difference_inner, hlt, if_false], hj0, hjn, hlow, ?_⟩
      simpa using hexit j hj0 hjn hlt hlow

/-- The outer loop of `set_difference`: if the elements of `r` before `j` are before the
elements of `l` from `i` on, the loop returns the elements appended so far followed by the
elements of `l` from `i` on to which no element of `r` compares equal. -/
theorem set_difference_outer_spec (outside : Option (Int → α)) (l r : set_t α)
    (hord : Comparison l.compar) (hl : StrictlyIncreasing l.compar l.vec)
    (hr : StrictlyIncreasing l.compar r.vec) :
    ∀ (fuel : Nat) (i j : Int) (vec : List α), 0 ≤ i → i ≤ l.vec.length →
      (l.vec.length : Int) - i ≤ fuel → 0 ≤ j → j ≤ r.vec.length →
      (∀ y ∈ r.vec.take j.toNat, ∀ x ∈ l.vec.drop i.toNat, l.compar y x < 0) →
      set_difference_outer outside l r fuel i j vec
        = some (Outcome.value
            (vec ++ (l.vec.drop i.toNat).filter (set_difference_keeps l r))) := by
  intro fuel
  induction fuel with
  | zero =>
    intro i j vec hi0 hin hfuel _ _ _
    have hge : ¬ i < vector_size l.vec := by
      simp only [vector_size]
      omega
    have hdrop : l.vec.drop i.toNat = [] := List.drop_of_length_le (by omega)
    simp only [set_difference_outer, hge, if_false, hdrop, List.filter_nil, List.append_nil]
  | succ fuel ih =>
    intro i j vec hi0 hin hfuel hj0 hjn hinv
    by_cases hlt : i < vector_size l.vec
    · have hltn : i.toNat < l.vec.length := by
        simp only [vector_size] at hlt
        omega
      have hx := List.getElem?_eq_getElem hltn
      obtain ⟨_, hafter, hdrop⟩ := StrictlyIncreasing_split hl hx
      have hxmem : l.vec[i.toNat] ∈ l.vec.drop i.toNat := by
        rw [hdrop]
        exact List.mem_cons_self _ _
      have hsucc : (i + 1).toNat = i.toNat + 1 := by omega
      have hnext : 0 ≤ i + 1 ∧ i + 1 ≤ (l.vec.length : Int) ∧
          (l.vec.length : Int) - (i + 1) ≤ fuel := by omega
      obtain ⟨j1, skip, hinner, hj10, hj1n, hlow1, hskip⟩ :=
        set_difference_inner_spec outside l r hord hr i _ hi0 hx r.vec.length j hj0 hjn
          (by omega) (fun y hy => hinv y hy _ hxmem)
      have hinv1 : ∀ y ∈ r.vec.take j1.toNat, ∀ x ∈ l.vec.drop (i + 1).toNat,
          l.compar y x < 0 := by
        intro y hy x hxd
        rw [hsucc] at hxd
        exact hord.trans _ _ _ (hlow1 y hy) (hafter x hxd)
      have hrec := fun vec1 =>
        ih (i + 1) j1 vec1 hnext.1 hnext.2.1 hnext.2.2 hj10 hj1n hinv1
      simp only [set_difference_outer, hlt, if_true, hinner]
      cases skip with
      | true =>
        obtain ⟨y, hy, hxy⟩ := hskip.1 rfl
        have hk : set_difference_keeps l r (l.vec[i.toNat]) = false := by
          simp only [set_difference_keeps, Bool.not_eq_false', List.any_eq_true,
            decide_eq_true_eq]
          exact ⟨y, hy, hxy⟩
        simp only [if_true]
        rw [hrec vec, hdrop, List.filter_cons, hk, hsucc]
        simp
      | false =>
        have hnot_r : ¬ ∃ y ∈ r.vec, l.compar (l.vec[i.toNat]) y = 0 := by
          intro h
          have := hskip.2 h
          cases this
        have hk : set_difference_keeps l r (l.vec[i.toNat]) = true := by
          simp only [set_difference_keeps, Bool.not_eq_true', List.any_eq_false,
            decide_eq_true_eq]
          exact fun y hy hxy => hnot_r ⟨y, hy, hxy⟩
        have hget := vector_get_of_getElem outside l.vec i _ hi0 hx
        have happ : vector_append vec (l.vec[i.toNat])
            = Outcome.value (vec ++ [l.vec[i.toNat]]) := by
          simp [vector_append, vector_insert, vector_size]
        simp only [Bool.false_eq_true, if_false, hget, happ]
        rw [hrec (vec ++ [l.vec[i.toNat]]), hdrop, List.filter_cons, hk, hsucc]
        simp
    · have hdrop : l.vec.drop i.toNat = [] := by
        apply List.drop_of_length_le
        simp only [vector_size] at hlt
        omega
      simp only [set_difference_outer, hlt, if_false, hdrop, List.filter_nil, List.append_nil]

/-- C36: `set_difference` on two sets with the same `compar`, which compares consistently,
whose vectors are strictly increasing: the function returns, with assertions in force or
not, a set with the `compar` of `l` whose vector holds, in the order of `l`, exactly the
elements of `l` for which no element of `r` compares equal, and is strictly increasing. -/
theorem set_difference_spec (outside : Option (Int → α)) (l r : set_t α)
    (hcompar : l.compar = r.compar) (hord : Comparison l.compar)
    (hl : StrictlyIncreasing l.compar l.vec) (hr : StrictlyIncreasing r.compar r.vec) :
    ∃ set, set_difference outside l r = some (Outcome.value set) ∧
      set.compar = l.compar ∧
      set.vec = l.vec.filter (fun x => !r.vec.any (fun y => decide (l.compar x y = 0))) ∧
      StrictlyIncreasing l.compar set.vec ∧
      (∀ x, x ∈ set.vec ↔ x ∈ l.vec ∧ ∀ y ∈ r.vec, l.compar x y ≠ 0) := by
  rw [← hcompar] at hr
  have hout := set_difference_outer_spec outside l r hord hl hr l.vec.length 0 0 []
    (le_refl _) (by simp) (by simp) (le_refl _) (by simp) (by simp)
  simp only [Int.toNat_zero, List.drop_zero, List.nil_append] at hout
  refine ⟨⟨l.vec.filter (set_difference_keeps l r), l.compar⟩, ?_, rfl, rfl, ?_, ?_⟩
  · simp only [set_difference, set_init_with_size, hout]
  · exact List.Pairwise.sublist (List.filter_sublist _) hl
  · intro x
    simp [List.mem_filter, set_difference_keeps]

theorem set_difference_spec_witness :
    int_compar = int_compar ∧ Comparison int_compar ∧
    StrictlyIncreasing int_compar [1, 3, 5, 7, 9] ∧
    StrictlyIncreasing int_compar [0, 3, 4, 9, 10] ∧
    ∃ set, set_difference none ⟨[1, 3, 5, 7, 9], int_compar⟩ ⟨[0, 3, 4, 9, 10], int_compar⟩
        = some (Outcome.value set) ∧
      set.vec = [1, 5, 7] :=
  have hl : StrictlyIncreasing int_compar [1, 3, 5, 7, 9] := by
    simp [StrictlyIncreasing, int_compar]
  have hr : StrictlyIncreasing int_compar [0, 3, 4, 9, 10] := by
    simp [StrictlyIncreasing, int_compar]
  ⟨rfl, int_compar_StrictTotalOrder.toComparison, hl, hr,
    (set_difference_spec none ⟨[1, 3, 5, 7, 9], int_compar⟩ ⟨[0, 3, 4, 9, 10], int_compar⟩
      rfl int_compar_StrictTotalOrder.toComparison hl hr).elim
      (fun set h => ⟨set, h.1, h.2.2.1.trans (by decide)⟩)⟩

end SetClaims

section CopyClaims

variable {α : Type}

/-- The function `vector_copy_range` on a range inside the vector: the copy has the size
`to - from`, and its `k`-th element is the element of `src` at the index `from + k`. -/
theorem vector_copy_range_get (sizeof_ptr : Int) (hsz : 0 < sizeof_ptr) (malloc : Int → Int)
    (mem : Memory α) (src : vector_t) (from_ to_ : Int) (h0 : 0 ≤ from_)
    (hts : to_ ≤ src.size) (k : Int) (hk0 : 0 ≤ k) (hk : k < to_ - from_) :
    (vector_copy_range sizeof_ptr malloc mem src from_ to_).1.size = to_ - from_ ∧
    vector_t.get (vector_copy_range sizeof_ptr malloc mem src from_ to_).2
        (vector_copy_range sizeof_ptr malloc mem src from_ to_).1 k
      = vector_t.get mem src (from_ + k) := by
  have hdiv : (to_ - from_) * sizeof_ptr / sizeof_ptr = to_ - from_ :=
    Int.mul_ediv_cancel _ (by omega)
  have hin : 0 ≤ from_ + k ∧ from_ + k < src.size := by omega
  refine ⟨rfl, ?_⟩
  simp only [vector_t.get, vector_copy_range, vector_init_with_size, memcpy, hdiv, hk0, hk,
    and_self, if_true, hin]
  have hcell : malloc (MAX (to_ - from_) INIT_SIZE * sizeof_ptr) ≤
        malloc (MAX (to_ - from_) INIT_SIZE * sizeof_ptr) + k ∧
      malloc (MAX (to_ - from_) INIT_SIZE * sizeof_ptr) + k <
        malloc (MAX (to_ - from_) INIT_SIZE * sizeof_ptr) + (to_ - from_) := by omega
  rw [if_pos hcell]
  congr 2
  omega

/-- The function `vector_lazy_copy_range`: the copy has the size `to - from`, and its `k`-th
element is the cell `sizeof(void *) * from + k` cells after the start of the array of
`src`. -/
theorem vector_lazy_copy_range_get (sizeof_ptr : Int) (mem : Memory α) (src : vector_t)
    (from_ to_ : Int) (k : Int) (hk0 : 0 ≤ k) (hk : k < to_ - from_) :
    (vector_lazy_copy_range sizeof_ptr src from_ to_).size = to_ - from_ ∧
    vector_t.get mem (vector_lazy_copy_range sizeof_ptr src from_ to_) k
      = Outcome.value (mem (src.array + sizeof_ptr * from_ + k)) := by
  refine ⟨rfl, ?_⟩
  simp only [vector_t.get, vector_lazy_copy_range, hk0, hk, and_self, if_true]

/-- C37: `vector_lazy_copy_range` does not denote the range.  With pointers of 8 bytes, on
the vector of 16 elements at the address 100 in a memory whose cells hold their addresses,
the range from 1 to 3 is the sequence 101, 102, which is what `vector_copy_range` returns;
`vector_lazy_copy_range` returns a vector of the right size 2 whose array starts at the
address 108, so that it denotes 108, 109, and its element 0 is not the element 1 of the
vector.  With pointers of 4 bytes it denotes 104, 105.  On a vector of 2 elements the lazy
copy of the range from 1 to 2 reads the cell at the address 108, outside the array. -/
theorem vector_lazy_copy_range_not_copy :
    ((vector_t.elems Scenario.mem Scenario.src).drop 1).take 2 = [101, 102] ∧
    vector_t.elems (vector_copy_range 8 Scenario.malloc Scenario.mem Scenario.src 1 3).2
      (vector_copy_range 8 Scenario.malloc Scenario.mem Scenario.src 1 3).1 = [101, 102] ∧
    vector_lazy_copy_range 8 Scenario.src 1 3 = { array := 108, capacity := -1, size := 2 } ∧
    vector_t.elems Scenario.mem (vector_lazy_copy_range 8 Scenario.src 1 3) = [108, 109] ∧
    vector_t.get Scenario.mem (vector_lazy_copy_range 8 Scenario.src 1 3) 0
      = Outcome.value 108 ∧
    vector_t.get Scenario.mem Scenario.src 1 = Outcome.value 101 ∧
    vector_t.elems Scenario.mem (vector_lazy_copy_range 4 Scenario.src 1 3) = [104, 105] ∧
    vector_t.elems Scenario.mem
      (vector_lazy_copy_range 8 { array := 100, capacity := 4, size := 2 } 1 2) = [108] := by
  refine ⟨?_, ?_, ?_, ?_, ?_, ?_, ?_, ?_⟩ <;> decide

end CopyClaims

end clib
